import Mathlib

/-!
# B+ tree (`src/BPlusTree/b_plus_tree.cpp`): embedding and verification

The C++ objects live in an arena: a node pointer is an index into `BPlusTree.heap`,
`new` appends a node at the end of the arena, `nullptr` is `none`.
A `std::vector` is a `List`; `v[i]` is the checked read `rd v i`.
Loops and recursion of the source run on a fuel counter; running out of fuel is the
outcome `Fault.fuel`, distinct from every result the source can return.
-/

namespace BPT

/-- Ways in which a run of the model can stop without a result. -/
inductive Fault where
  | fuel
  | nullDeref
  | outOfBounds
deriving DecidableEq, Repr

instance instDecidableEqExcept {ε α : Type} [DecidableEq ε] [DecidableEq α] :
    DecidableEq (Except ε α) := fun a b =>
  match a, b with
  | .ok x, .ok y => if h : x = y then isTrue (by rw [h]) else isFalse (fun e => h (by cases e; rfl))
  | .error x, .error y =>
    if h : x = y then isTrue (by rw [h]) else isFalse (fun e => h (by cases e; rfl))
  | .ok _, .error _ => isFalse (fun e => by cases e)
  | .error _, .ok _ => isFalse (fun e => by cases e)

/-- The classes `Node`, `InternalNode` and `LeafNode` of `b_plus_tree.h`, flattened:
`pointers` is the member of `InternalNode`, `values` and `next` are those of `LeafNode`. -/
structure Node where
  is_leaf : Bool
  min_keys : Int
  max_keys : Int
  num_keys : Int
  keys : List Int
  parent : Option Nat
  pointers : List Nat
  values : List Int
  next : Option Nat
deriving DecidableEq, Repr, Inhabited

/-- The class `BPlusTree`: its two members and the arena its nodes are allocated in. -/
structure BPlusTree where
  order : Int
  root : Option Nat
  heap : List Node
deriving DecidableEq, Repr

/-- Conversion of an `int` to `size_t`, as the comparisons of a `size()` with an `int` do. -/
def toSizeT (x : Int) : Int := x % 18446744073709551616

/-- Checked element read `v[i]`. -/
def rd {α : Type} (v : List α) (i : Nat) : Except Fault α :=
  match v.get? i with
  | some a => .ok a
  | none => .error .outOfBounds

/-- Checked element write `v[i] = a`. -/
def wr {α : Type} (v : List α) (i : Nat) (a : α) : Except Fault (List α) :=
  if i < v.length then .ok (v.set i a) else .error .outOfBounds

/-- Call of `v.insert(v.begin() + i, a)`. -/
def insertAt {α : Type} (v : List α) (i : Nat) (a : α) : List α :=
  v.take i ++ a :: v.drop i

/-- Position returned by `std::upper_bound`: the first index whose element is greater than `key`. -/
def upper_bound : List Int → Int → Nat
  | [], _ => 0
  | x :: xs, key => if key < x then 0 else upper_bound xs key + 1

/-- Position returned by `std::lower_bound`: the first index whose element is not less than `key`. -/
def lower_bound : List Int → Int → Nat
  | [], _ => 0
  | x :: xs, key => if x < key then lower_bound xs key + 1 else 0

/-- Dereference of a node pointer. -/
def deref (heap : List Node) (p : Nat) : Node := heap.getD p default

/-- Assignment through a node pointer: the node at `p` becomes `f` of itself. -/
def upd (heap : List Node) (p : Nat) (f : Node → Node) : List Node :=
  heap.set p (f (deref heap p))

/-- Constructor `Node::Node(int order, bool is_leaf)`; the quotient `(order + 1) / 2` is the
integer division of C++, so `std::floor` and `std::ceil` leave it as it is. -/
def Node.new (order : Int) (is_leaf : Bool) : Node :=
  { is_leaf := is_leaf
    min_keys := if is_leaf then (order + 1).tdiv 2 else (order + 1).tdiv 2 - 1
    max_keys := order
    num_keys := 0
    keys := []
    parent := none
    pointers := []
    values := []
    next := none }

/-- Constructor `InternalNode::InternalNode(int order)`. -/
def InternalNode (order : Int) : Node := Node.new order false

/-- Constructor `LeafNode::LeafNode(int order)`. -/
def LeafNode (order : Int) : Node := Node.new order true

/-- Constructor `BPlusTree::BPlusTree(int order)`; it has no failing path. -/
def BPlusTree.new (order : Int) : Except Fault BPlusTree :=
  .ok { order := order, root := none, heap := [] }

/-- The `while (!node->is_leaf)` loop of `find_leaf_node`. -/
def find_leaf_loop (heap : List Node) (key : Int) : Nat → Nat → Except Fault Nat
  | 0, _ => .error .fuel
  | fuel + 1, node =>
    if (deref heap node).is_leaf then .ok node
    else
      match rd (deref heap node).pointers (upper_bound (deref heap node).keys key) with
      | .ok child => find_leaf_loop heap key fuel child
      | .error e => .error e

/-- Method `BPlusTree::find_leaf_node`. -/
def find_leaf_node (t : BPlusTree) (key : Int) : Except Fault (Option Nat) :=
  match t.root with
  | none => .ok none
  | some r =>
    match find_leaf_loop t.heap key t.heap.length r with
    | .ok l => .ok (some l)
    | .error e => .error e

/-- Method `BPlusTree::insert_into_leaf_node`. -/
def insert_into_leaf_node (t : BPlusTree) (leaf : Nat) (key value : Int) : BPlusTree :=
  { t with heap := upd t.heap leaf fun n =>
      { n with keys := insertAt n.keys (lower_bound n.keys key) key
               values := insertAt n.values (lower_bound n.keys key) value } }

/-- Method `BPlusTree::insert_into_internal_node`. -/
def insert_into_internal_node (t : BPlusTree) (parent : Nat) (key : Int) (child : Nat) :
    BPlusTree :=
  let index := lower_bound (deref t.heap parent).keys key
  let heap1 := upd t.heap parent fun n =>
    { n with keys := insertAt n.keys index key
             pointers := insertAt n.pointers (index + 1) child }
  { t with heap := upd heap1 child fun n => { n with parent := some parent } }

/-- The loop `for (Node* child : new_node->pointers) child->parent = new_node;`. -/
def reparent (heap : List Node) (children : List Nat) (p : Nat) : List Node :=
  children.foldl (fun h c => upd h c fun n => { n with parent := some p }) heap

/-- The loop `while (parent->keys.size() > parent->max_keys)` that ends `split_leaf_node` and
`split_internal_node`; `split` is the call `split_internal_node(parent)`. -/
def split_loop (split : BPlusTree → Nat → Except Fault BPlusTree) :
    Nat → BPlusTree → Nat → Except Fault BPlusTree
  | 0, _, _ => .error .fuel
  | fuel + 1, t, parent =>
    if ((deref t.heap parent).keys.length : Int) > toSizeT (deref t.heap parent).max_keys then
      match split t parent with
      | .ok t1 =>
        match (deref t1.heap parent).parent with
        | none => .ok t1
        | some pp => split_loop split fuel t1 pp
      | .error e => .error e
    else .ok t

/-- Method `BPlusTree::split_internal_node`. The source reads `node->keys[mid]` after
`node->keys.erase(node->keys.begin() + mid, node->keys.end())`, at an index that is then the
size of the vector; erasing a tail leaves the storage of the vector as it was, so the element
read is the one that stood at `mid` before the erase, and the model reads it there. -/
def split_internal_node : Nat → BPlusTree → Nat → Except Fault BPlusTree
  | 0, _, _ => .error .fuel
  | fuel + 1, t, node =>
    let mid := (t.order.tdiv 2).toNat
    let new_node := t.heap.length
    let old := deref t.heap node
    let nn : Node := { InternalNode t.order with
      keys := old.keys.drop (mid + 1), pointers := old.pointers.drop (mid + 1) }
    let heap1 := t.heap ++ [nn]
    let heap2 := upd heap1 node fun n =>
      { n with keys := n.keys.take mid, pointers := n.pointers.take (mid + 1) }
    let heap3 := reparent heap2 (deref heap2 new_node).pointers new_node
    match rd old.keys mid with
    | .error e => .error e
    | .ok new_key =>
      match (deref heap3 node).parent with
      | none =>
        let new_root := heap3.length
        let nr : Node := { InternalNode t.order with keys := [new_key], pointers := [node, new_node] }
        let heap4 := heap3 ++ [nr]
        let heap5 := upd heap4 node fun n => { n with parent := some new_root }
        let heap6 := upd heap5 new_node fun n => { n with parent := some new_root }
        .ok { t with root := some new_root, heap := heap6 }
      | some parent =>
        let t1 := insert_into_internal_node { t with heap := heap3 } parent new_key new_node
        split_loop (split_internal_node fuel) (fuel + 1) t1 parent

/-- Method `BPlusTree::split_leaf_node`. -/
def split_leaf_node (t : BPlusTree) (leaf : Nat) : Except Fault BPlusTree :=
  let mid := (t.order.tdiv 2).toNat
  let new_leaf := t.heap.length
  let old := deref t.heap leaf
  let nl : Node := { LeafNode t.order with
    keys := old.keys.drop mid, values := old.values.drop mid, next := old.next }
  let heap1 := t.heap ++ [nl]
  let heap2 := upd heap1 leaf fun n =>
    { n with keys := n.keys.take mid, values := n.values.take mid, next := some new_leaf }
  match rd (deref heap2 new_leaf).keys 0 with
  | .error e => .error e
  | .ok new_key =>
    match (deref heap2 leaf).parent with
    | none =>
      let new_root := heap2.length
      let nr : Node := { InternalNode t.order with keys := [new_key], pointers := [leaf, new_leaf] }
      let heap3 := heap2 ++ [nr]
      let heap4 := upd heap3 leaf fun n => { n with parent := some new_root }
      let heap5 := upd heap4 new_leaf fun n => { n with parent := some new_root }
      .ok { t with root := some new_root, heap := heap5 }
    | some parent =>
      let t1 := insert_into_internal_node { t with heap := heap2 } parent new_key new_leaf
      split_loop (split_internal_node t1.heap.length) (t1.heap.length + 1) t1 parent

/-- Method `BPlusTree::insert`. -/
def insert (t : BPlusTree) (key value : Int) : Except Fault BPlusTree :=
  match find_leaf_node t key with
  | .error e => .error e
  | .ok found =>
    let t1 : BPlusTree := match found with
      | some _ => t
      | none => { t with root := some t.heap.length, heap := t.heap ++ [LeafNode t.order] }
    let leaf := match found with
      | some l => l
      | none => t.heap.length
    let t2 := insert_into_leaf_node t1 leaf key value
    if ((deref t2.heap leaf).keys.length : Int) > toSizeT (deref t2.heap leaf).max_keys then
      split_leaf_node t2 leaf
    else .ok t2

/-- Method `BPlusTree::search`. -/
def search (t : BPlusTree) (key : Int) : Except Fault Int :=
  match find_leaf_node t key with
  | .error e => .error e
  | .ok none => .ok (-1)
  | .ok (some leaf) =>
    let n := deref t.heap leaf
    let index := lower_bound n.keys key
    match n.keys.get? index with
    | none => .ok (-1)
    | some k => if k ≠ key then .ok (-1) else rd n.values index

/-- The `for` loop over one leaf in `range_search`, from index `i` on; the flag of the result
says whether the loop left through `return result`. -/
def range_leaf (values : List Int) (start stop : Int) :
    List Int → Nat → List Int → Except Fault (List Int × Bool)
  | [], _, result => .ok (result, false)
  | k :: ks, i, result =>
    if start ≤ k ∧ k ≤ stop then
      match rd values i with
      | .ok v => range_leaf values start stop ks (i + 1) (result ++ [v])
      | .error e => .error e
    else if k > stop then .ok (result, true)
    else range_leaf values start stop ks (i + 1) result

/-- The `while (leaf_node)` loop of `range_search`. -/
def range_loop (heap : List Node) (start stop : Int) :
    Nat → Option Nat → List Int → Except Fault (List Int)
  | _, none, result => .ok result
  | 0, some _, _ => .error .fuel
  | fuel + 1, some leaf, result =>
    match range_leaf (deref heap leaf).values start stop (deref heap leaf).keys 0 result with
    | .error e => .error e
    | .ok (result1, true) => .ok result1
    | .ok (result1, false) => range_loop heap start stop fuel (deref heap leaf).next result1

/-- Method `BPlusTree::range_search`. -/
def range_search (t : BPlusTree) (start stop : Int) : Except Fault (List Int) :=
  match find_leaf_node t start with
  | .error e => .error e
  | .ok none => .ok []
  | .ok (some leaf) => range_loop t.heap start stop t.heap.length (some leaf) []

/-- The loop `while (index < leaf->num_keys && leaf->keys[index] < key) ++index;` of
`remove_from_leaf_node`; `remaining` is `num_keys - index`. -/
def remove_scan (keys : List Int) (key : Int) : Nat → Nat → Except Fault Nat
  | 0, index => .ok index
  | remaining + 1, index =>
    match rd keys index with
    | .error e => .error e
    | .ok k => if k < key then remove_scan keys key remaining (index + 1) else .ok index

/-- The loop `for (int i = index; i < leaf->num_keys - 1; ++i)` of `remove_from_leaf_node`, which
shifts keys and values one place to the left; `remaining` is `num_keys - 1 - i`. -/
def remove_shift : Nat → Nat → List Int → List Int → Except Fault (List Int × List Int)
  | 0, _, keys, values => .ok (keys, values)
  | remaining + 1, i, keys, values =>
    match rd keys (i + 1), rd values (i + 1) with
    | .ok k, .ok v =>
      match wr keys i k, wr values i v with
      | .ok keys1, .ok values1 => remove_shift remaining (i + 1) keys1 values1
      | _, _ => .error .outOfBounds
    | _, _ => .error .outOfBounds

/-- Method `BPlusTree::remove_from_leaf_node`. It is driven by the member `num_keys`, which the
constructor sets to `keys.size()` of the still empty vector and which no insertion updates. -/
def remove_from_leaf_node (t : BPlusTree) (leaf : Nat) (key : Int) : Except Fault BPlusTree :=
  let n := deref t.heap leaf
  match remove_scan n.keys key n.num_keys.toNat 0 with
  | .error e => .error e
  | .ok index =>
    if (index : Int) < n.num_keys then
      match rd n.keys index with
      | .error e => .error e
      | .ok k =>
        if k = key then
          match remove_shift (n.num_keys - 1 - index).toNat index n.keys n.values with
          | .error e => .error e
          | .ok (keys1, values1) =>
            .ok { t with heap := upd t.heap leaf fun m =>
                    { m with keys := keys1, values := values1, num_keys := m.num_keys - 1 } }
        else .ok t
    else .ok t

/-- Method `BPlusTree::remove_from_internal_node`; erasing at `end()` or past it is a fault. -/
def remove_from_internal_node (t : BPlusTree) (node : Nat) (key : Int) : Except Fault BPlusTree :=
  let n := deref t.heap node
  let index := lower_bound n.keys key
  if index < n.keys.length ∧ index + 1 < n.pointers.length then
    .ok { t with heap := upd t.heap node fun m =>
            { m with keys := m.keys.eraseIdx index, pointers := m.pointers.eraseIdx (index + 1) } }
  else .error .outOfBounds

/-- Method `BPlusTree::borrow_key`. -/
def borrow_key (t : BPlusTree) (left right parent index : Nat) : Except Fault BPlusTree :=
  if (deref t.heap left).is_leaf then
    match rd (deref t.heap right).keys 0, rd (deref t.heap right).values 0 with
    | .ok k, .ok v =>
      let heap1 := upd t.heap left fun n => { n with keys := n.keys ++ [k], values := n.values ++ [v] }
      let heap2 := upd heap1 right fun n => { n with keys := n.keys.drop 1, values := n.values.drop 1 }
      match rd (deref heap2 right).keys 0 with
      | .error e => .error e
      | .ok k1 =>
        match wr (deref heap2 parent).keys index k1 with
        | .error e => .error e
        | .ok pkeys => .ok { t with heap := upd heap2 parent fun n => { n with keys := pkeys } }
    | _, _ => .error .outOfBounds
  else
    match rd (deref t.heap parent).keys index, rd (deref t.heap right).pointers 0 with
    | .ok pk, .ok c =>
      let heap1 := upd t.heap left fun n => { n with keys := n.keys ++ [pk], pointers := n.pointers ++ [c] }
      match rd (deref heap1 right).pointers 0 with
      | .error e => .error e
      | .ok c1 =>
        let heap2 := upd heap1 c1 fun n => { n with parent := some left }
        match rd (deref heap2 right).keys 0 with
        | .error e => .error e
        | .ok rk =>
          match wr (deref heap2 parent).keys index rk with
          | .error e => .error e
          | .ok pkeys =>
            let heap3 := upd heap2 parent fun n => { n with keys := pkeys }
            .ok { t with heap := upd heap3 right fun n =>
                    { n with keys := n.keys.drop 1, pointers := n.pointers.drop 1 } }
    | _, _ => .error .outOfBounds

/-- Method `BPlusTree::merge_nodes`; `del` is the recursive call `delete_entry(parent, ...)`, and
`right` is `none` when the caller passes a null sibling. The closing `delete right` frees a node
that no pointer of the tree designates any more; the arena keeps its slot. -/
def merge_nodes (del : BPlusTree → Nat → Int → Except Fault BPlusTree)
    (t : BPlusTree) (left : Nat) (right : Option Nat) (parent index : Nat) :
    Except Fault BPlusTree :=
  match right with
  | none => .error .nullDeref
  | some right =>
    if (deref t.heap left).is_leaf then
      let r := deref t.heap right
      let heap1 := upd t.heap left fun n =>
        { n with keys := n.keys ++ r.keys, values := n.values ++ r.values }
      let heap2 := upd heap1 left fun n => { n with next := (deref heap1 right).next }
      match rd (deref heap2 parent).keys index with
      | .error e => .error e
      | .ok pk => del { t with heap := heap2 } parent pk
    else
      match rd (deref t.heap parent).keys index with
      | .error e => .error e
      | .ok pk =>
        let heap1 := upd t.heap left fun n => { n with keys := n.keys ++ [pk] }
        let heap2 := upd heap1 left fun n => { n with keys := n.keys ++ (deref heap1 right).keys }
        let heap3 := upd heap2 left fun n =>
          { n with pointers := n.pointers ++ (deref heap2 right).pointers }
        let heap4 := reparent heap3 (deref heap3 right).pointers left
        match rd (deref heap4 parent).keys index with
        | .error e => .error e
        | .ok pk1 => del { t with heap := heap4 } parent pk1

/-- The loop `while (node->parent && node->keys.size() < node->min_keys)` of `delete_entry`;
`del` is `delete_entry` itself, reached through `merge_nodes`. -/
def rebalance_loop (del : BPlusTree → Nat → Int → Except Fault BPlusTree) :
    Nat → BPlusTree → Nat → Except Fault BPlusTree
  | 0, _, _ => .error .fuel
  | fuel + 1, t, node =>
    match (deref t.heap node).parent with
    | none => .ok t
    | some parent =>
      if ((deref t.heap node).keys.length : Int) < toSizeT (deref t.heap node).min_keys then
        match rd (deref t.heap node).keys 0 with
        | .error e => .error e
        | .ok k0 =>
          let p := deref t.heap parent
          let index := lower_bound p.keys k0
          let left : Except Fault (Option Nat) :=
            if index > 0 then (rd p.pointers (index - 1)).map some else .ok none
          let right : Except Fault (Option Nat) :=
            if index < p.keys.length then (rd p.pointers (index + 1)).map some else .ok none
          match left, right with
          | .ok left_sibling, .ok right_sibling =>
            let left_rich := match left_sibling with
              | some l => decide (((deref t.heap l).keys.length : Int) > toSizeT (deref t.heap l).min_keys)
              | none => false
            let right_rich := match right_sibling with
              | some r => decide (((deref t.heap r).keys.length : Int) > toSizeT (deref t.heap r).min_keys)
              | none => false
            match left_rich, left_sibling, right_rich, right_sibling with
            | true, some l, _, _ =>
              match borrow_key t l node parent (index - 1) with
              | .error e => .error e
              | .ok t1 => rebalance_loop del fuel t1 node
            | _, _, true, some r =>
              match borrow_key t node r parent index with
              | .error e => .error e
              | .ok t1 => rebalance_loop del fuel t1 node
            | _, some l, _, _ =>
              match merge_nodes del t l (some node) parent (index - 1) with
              | .error e => .error e
              | .ok t1 => rebalance_loop del fuel t1 l
            | _, none, _, r =>
              match merge_nodes del t node r parent index with
              | .error e => .error e
              | .ok t1 => rebalance_loop del fuel t1 node
          | .error e, _ => .error e
          | _, .error e => .error e
      else .ok t

/-- The closing `if (root->keys.empty() && !root->is_leaf)` of `delete_entry`; `delete old_root`
frees a node that nothing designates any more. -/
def collapse_root (t : BPlusTree) : Except Fault BPlusTree :=
  match t.root with
  | none => .error .nullDeref
  | some r =>
    if (deref t.heap r).keys = [] ∧ (deref t.heap r).is_leaf = false then
      match rd (deref t.heap r).pointers 0 with
      | .error e => .error e
      | .ok c => .ok { t with root := some c, heap := upd t.heap c fun n => { n with parent := none } }
    else .ok t

/-- Method `BPlusTree::delete_entry`. -/
def delete_entry : Nat → BPlusTree → Nat → Int → Except Fault BPlusTree
  | 0, _, _, _ => .error .fuel
  | fuel + 1, t, node, key =>
    let removed :=
      if (deref t.heap node).is_leaf then remove_from_leaf_node t node key
      else remove_from_internal_node t node key
    match removed with
    | .error e => .error e
    | .ok t1 =>
      match rebalance_loop (delete_entry fuel) (fuel + 1) t1 node with
      | .error e => .error e
      | .ok t2 => collapse_root t2

/-- Method `BPlusTree::remove`. -/
def remove (t : BPlusTree) (key : Int) : Except Fault BPlusTree :=
  match find_leaf_node t key with
  | .error e => .error e
  | .ok none => .ok t
  | .ok (some node) => delete_entry ((t.heap.length + 1) * (t.order.toNat + 2)) t node key

/-- The loop `for (const int& key : records) tree.insert(key, key);` of `build_dense_tree` and
of `main` in `main.cpp`, for arbitrary values. -/
def insert_all (t : Except Fault BPlusTree) : List (Int × Int) → Except Fault BPlusTree
  | [] => t
  | (k, v) :: rest =>
    match t with
    | .error e => .error e
    | .ok t0 => insert_all (insert t0 k v) rest

/-- Function `build_dense_tree` of `main.cpp`: a tree of the given order filled with the
records, each key being its own value. -/
def build_dense_tree (records : List Int) (order : Int) : Except Fault BPlusTree :=
  insert_all (BPlusTree.new order) (records.map fun k => (k, k))

/-- The key count of a node lies between its `min_keys` and its `max_keys`. -/
def in_bounds (n : Node) : Bool :=
  decide (n.min_keys ≤ (n.keys.length : Int)) && decide ((n.keys.length : Int) ≤ n.max_keys)

/-- Every leaf below `node` is exactly `d` levels under it. -/
def leaves_at_depth (heap : List Node) : Nat → Nat → Bool
  | 0, node => (deref heap node).is_leaf
  | d + 1, node =>
    !(deref heap node).is_leaf && (deref heap node).pointers.all (leaves_at_depth heap d)

/-- Every node that is at most `d` levels under `node`, `node` itself left out, is `in_bounds`. -/
def descendants_in_bounds (heap : List Node) : Nat → Nat → Bool
  | 0, _ => true
  | d + 1, node =>
    (deref heap node).pointers.all fun c =>
      in_bounds (deref heap c) && descendants_in_bounds heap d c

/-- Shape of the subtree of height `d` under `node` in a tree of the given order: every node
carries the bounds its constructor computed from the order, a leaf has as many values as keys
and a `num_keys` between zero and that count, an internal node has one child more than keys,
and every child names `node` as its parent. -/
def shape (heap : List Node) (order : Int) : Nat → Nat → Bool
  | 0, node =>
    (deref heap node).is_leaf
      && decide ((deref heap node).min_keys = (LeafNode order).min_keys)
      && decide ((deref heap node).max_keys = order)
      && decide ((deref heap node).values.length = (deref heap node).keys.length)
      && decide (0 ≤ (deref heap node).num_keys)
      && decide ((deref heap node).num_keys ≤ ((deref heap node).keys.length : Int))
  | d + 1, node =>
    !(deref heap node).is_leaf
      && decide ((deref heap node).min_keys = (InternalNode order).min_keys)
      && decide ((deref heap node).max_keys = order)
      && decide ((deref heap node).pointers.length = (deref heap node).keys.length + 1)
      && (deref heap node).pointers.all fun c =>
          decide ((deref heap c).parent = some node) && shape heap order d c

/-- A tree of height `d` is well formed: it has a root without parent, the subtree under the
root has the `shape` of a tree of height `d`, and the arena holds more than `d` nodes. -/
def well_formed (t : BPlusTree) (d : Nat) : Bool :=
  match t.root with
  | none => false
  | some r => decide (d < t.heap.length) && decide ((deref t.heap r).parent = none)
      && shape t.heap t.order d r

/-- Every node but the root is `in_bounds`, in a tree of height `d`. -/
def non_root_in_bounds (t : BPlusTree) (d : Nat) : Bool :=
  match t.root with
  | none => true
  | some r => descendants_in_bounds t.heap d r

/-- All leaves of the tree are `d` levels under the root. -/
def leaves_equal_depth (t : BPlusTree) (d : Nat) : Bool :=
  match t.root with
  | none => true
  | some r => leaves_at_depth t.heap d r

/-- Two arenas hold nodes that agree in kind, key count, children, bounds and parent. -/
def same_skeleton (heap heap1 : List Node) : Prop :=
  ∀ x, (deref heap1 x).is_leaf = (deref heap x).is_leaf
    ∧ (deref heap1 x).keys.length = (deref heap x).keys.length
    ∧ (deref heap1 x).pointers = (deref heap x).pointers
    ∧ (deref heap1 x).min_keys = (deref heap x).min_keys
    ∧ (deref heap1 x).max_keys = (deref heap x).max_keys

/-- The tree that `build_dense_tree [1, 2, 3, 4, 5] 4` returns: two leaves under a root. -/
def five_keys_order_four : BPlusTree :=
  { order := 4
    root := some 2
    heap :=
      [ { is_leaf := true, min_keys := 2, max_keys := 4, num_keys := 0, keys := [1, 2],
          parent := some 2, pointers := [], values := [1, 2], next := some 1 },
        { is_leaf := true, min_keys := 2, max_keys := 4, num_keys := 0, keys := [3, 4, 5],
          parent := some 2, pointers := [], values := [3, 4, 5], next := none },
        { is_leaf := false, min_keys := 1, max_keys := 4, num_keys := 0, keys := [3],
          parent := none, pointers := [0, 1], values := [], next := none } ] }

/-- The tree that `build_dense_tree [1, 2, 3, 4] 3` returns: the left leaf holds one key. -/
def four_keys_order_three : BPlusTree :=
  { order := 3
    root := some 2
    heap :=
      [ { is_leaf := true, min_keys := 2, max_keys := 3, num_keys := 0, keys := [1],
          parent := some 2, pointers := [], values := [1], next := some 1 },
        { is_leaf := true, min_keys := 2, max_keys := 3, num_keys := 0, keys := [2, 3, 4],
          parent := some 2, pointers := [], values := [2, 3, 4], next := none },
        { is_leaf := false, min_keys := 1, max_keys := 3, num_keys := 0, keys := [2],
          parent := none, pointers := [0, 1], values := [], next := none } ] }

/-- The tree that `remove 0` makes of `four_keys_order_three`: key 2 has moved to the left leaf
and the separator of the root is 3. -/
def four_keys_after_remove : BPlusTree :=
  { order := 3
    root := some 2
    heap :=
      [ { is_leaf := true, min_keys := 2, max_keys := 3, num_keys := 0, keys := [1, 2],
          parent := some 2, pointers := [], values := [1, 2], next := some 1 },
        { is_leaf := true, min_keys := 2, max_keys := 3, num_keys := 0, keys := [3, 4],
          parent := some 2, pointers := [], values := [3, 4], next := none },
        { is_leaf := false, min_keys := 1, max_keys := 3, num_keys := 0, keys := [3],
          parent := none, pointers := [0, 1], values := [], next := none } ] }

/-- The tree that `build_dense_tree [1] 3` returns: a root leaf holding the key 1. -/
def one_key_order_three : BPlusTree :=
  { order := 3
    root := some 0
    heap :=
      [ { is_leaf := true, min_keys := 2, max_keys := 3, num_keys := 0, keys := [1],
          parent := none, pointers := [], values := [1], next := none } ] }

/-- Descent from a node along the first child of each internal node, down to the leftmost leaf
under it: the start of a walk of the leaf chain. -/
def leftmost_loop (heap : List Node) : Nat → Nat → Except Fault Nat
  | 0, _ => .error .fuel
  | fuel + 1, node =>
    if (deref heap node).is_leaf then .ok node
    else
      match rd (deref heap node).pointers 0 with
      | .ok child => leftmost_loop heap fuel child
      | .error e => .error e

/-- Walk of the leaf chain from a leaf on: the `next` links are followed up to the null link
and the entries of the leaves, keys paired with their values, are collected in the order of the
visit. -/
def chain_loop (heap : List Node) : Nat → Option Nat → Except Fault (List (Int × Int))
  | _, none => .ok []
  | 0, some _ => .error .fuel
  | fuel + 1, some leaf =>
    match chain_loop heap fuel (deref heap leaf).next with
    | .ok rest => .ok ((deref heap leaf).keys.zip (deref heap leaf).values ++ rest)
    | .error e => .error e

/-- The entries that the walk of the leaf chain from the leftmost leaf visits. -/
def leaf_chain (t : BPlusTree) : Except Fault (List (Int × Int)) :=
  match t.root with
  | none => .ok []
  | some r =>
    match leftmost_loop t.heap t.heap.length r with
    | .ok leaf => chain_loop t.heap t.heap.length (some leaf)
    | .error e => .error e

/-- The key of an entry lies between `start` and `stop`, both included. -/
def in_range (start stop : Int) (p : Int × Int) : Bool :=
  decide (start ≤ p.1 ∧ p.1 ≤ stop)

/-- The 18 keys that `main` inserts into its tree of order 3, each with itself as value. -/
def main_records : List (Int × Int) :=
  [(3, 3), (5, 5), (7, 7), (9, 9), (11, 11), (13, 13), (15, 15), (18, 18), (20, 20), (25, 25),
    (28, 28), (29, 29), (31, 31), (32, 32), (33, 33), (34, 34), (45, 45), (60, 60)]

/-! ### The invariant of insertion

Each node of the arena is given three ghost values: its level above the leaves and the
half-open range `[lo, hi)` of the keys it is responsible for (`none` is an open end). The
invariant is a conjunction of conditions that are local to a node. -/

/-- Key `k` is not below the lower end `lo` of a range. -/
def loLe (lo : Option Int) (k : Int) : Prop := ∀ a, lo = some a → a ≤ k

/-- Key `k` is below the upper end `hi` of a range. -/
def ltHi (k : Int) (hi : Option Int) : Prop := ∀ b, hi = some b → k < b

/-- The children `cs` of an internal node with separators `ks` and range `[lo, hi)`: there is
one child more than separators, and `S c a b` holds of each child `c` with the part `[a, b)` of
the range that the separators around it cut out. -/
def Kids (S : Nat → Option Int → Option Int → Prop) :
    List Nat → List Int → Option Int → Option Int → Prop
  | cs, [], lo, hi => ∃ c, cs = [c] ∧ S c lo hi
  | cs, k :: ks, lo, hi => ∃ c rest, cs = c :: rest ∧ S c lo (some k) ∧ Kids S rest ks (some k) hi

/-- Ghost values of the nodes: level and key range. -/
structure Ghost where
  lvl : Nat → Nat
  lo : Nat → Option Int
  hi : Nat → Option Int

/-- Node `c` is a child of node `i` in charge of the range `[a, b)`. -/
def ChildOK (heap : List Node) (g : Ghost) (i c : Nat) (a b : Option Int) : Prop :=
  c < heap.length ∧ (deref heap c).parent = some i ∧ g.lvl c + 1 = g.lvl i
    ∧ g.lo c = a ∧ g.hi c = b

/-- The `next` link of a leaf with upper end `hi`: null at the open end, otherwise the leaf
whose range starts at `hi`. -/
def NextOK (heap : List Node) (g : Ghost) (next : Option Nat) (hi : Option Int) : Prop :=
  match hi with
  | none => next = none
  | some b => ∃ j, next = some j ∧ j < heap.length ∧ (deref heap j).is_leaf = true
      ∧ g.lo j = some b

/-- Local invariant of node `i` in a tree of order `m` with root `root`; the node `ov`, if any,
holds `m + 1` keys and awaits its split. -/
structure NodeOK (m : Nat) (heap : List Node) (root : Nat) (ov : Option Nat) (g : Ghost)
    (i : Nat) : Prop where
  max_keys : (deref heap i).max_keys = m
  min_keys : (deref heap i).min_keys = (Node.new m (deref heap i).is_leaf).min_keys
  num_keys : (deref heap i).num_keys = 0
  size : (deref heap i).keys.length ≤ m ∨ (ov = some i ∧ (deref heap i).keys.length = m + 1)
  nonempty : 1 ≤ (deref heap i).keys.length
  sorted : (deref heap i).keys.Pairwise (· < ·)
  range : ∀ k ∈ (deref heap i).keys, loLe (g.lo i) k ∧ ltHi k (g.hi i)
  level : g.lvl i ≤ g.lvl root
  is_root : (deref heap i).parent = none → i = root
  parent : ∀ p, (deref heap i).parent = some p →
    p < heap.length ∧ i ∈ (deref heap p).pointers ∧ (deref heap p).is_leaf = false
  leaf : (deref heap i).is_leaf = true →
    g.lvl i = 0 ∧ (deref heap i).pointers = []
      ∧ (deref heap i).values.length = (deref heap i).keys.length
      ∧ (∀ a, g.lo i = some a → (deref heap i).keys.head? = some a)
      ∧ NextOK heap g (deref heap i).next (g.hi i)
  internal : (deref heap i).is_leaf = false →
    (deref heap i).pointers.Nodup
      ∧ Kids (ChildOK heap g i) (deref heap i).pointers (deref heap i).keys (g.lo i) (g.hi i)

/-- The pair `p` of a key and its value is stored in some leaf of the arena. -/
def Stored (heap : List Node) (p : Int × Int) : Prop :=
  ∃ i, i < heap.length ∧ (deref heap i).is_leaf = true
    ∧ p ∈ (deref heap i).keys.zip (deref heap i).values

/-- Invariant of a non-empty tree `t` of order `m` with root `r` that stores the pairs `kvs`. -/
structure InvG (m : Nat) (t : BPlusTree) (r : Nat) (ov : Option Nat) (kvs : List (Int × Int))
    (g : Ghost) : Prop where
  order : t.order = m
  root : t.root = some r
  root_lt : r < t.heap.length
  root_parent : (deref t.heap r).parent = none
  root_lo : g.lo r = none
  root_hi : g.hi r = none
  height : g.lvl r < t.heap.length
  nodes : ∀ i, i < t.heap.length → NodeOK m t.heap r ov g i
  content : ∀ p, p ∈ kvs ↔ Stored t.heap p

/-- The lower end of the range of the child that follows the separators `ks1`. -/
def lastOr : List Int → Option Int → Option Int
  | [], lo => lo
  | k :: ks, _ => lastOr ks (some k)

/-- The upper end of the range of the child that precedes the separators `ks2`. -/
def headOr : List Int → Option Int → Option Int
  | [], hi => hi
  | k :: _, _ => some k

/-- The second arena extends the first: old nodes keep their kind, level and lower end. -/
def Ext (heap : List Node) (g : Ghost) (heap1 : List Node) (g1 : Ghost) : Prop :=
  heap.length ≤ heap1.length ∧ ∀ j, j < heap.length →
    (deref heap1 j).is_leaf = (deref heap j).is_leaf ∧ g1.lo j = g.lo j ∧ g1.lvl j = g.lvl j

/-- The function `f` with the value at `i` replaced by `a`. -/
def setAt {α : Type} (f : Nat → α) (i : Nat) (a : α) : Nat → α :=
  fun q => if q = i then a else f q

/-- Ghost values after the split of leaf `l` into itself and the new leaf `n` at key `s`. -/
def leafSplitGhost (g : Ghost) (l n : Nat) (s : Int) : Ghost :=
  { lvl := setAt g.lvl n 0
    lo := setAt g.lo n (some s)
    hi := setAt (setAt g.hi l (some s)) n (g.hi l) }

/-- Ghost values after a new root `n` of level `lvl` has been put on top of the tree. -/
def newRootGhost (g : Ghost) (n lvl : Nat) : Ghost :=
  { lvl := setAt g.lvl n lvl
    lo := setAt g.lo n none
    hi := setAt g.hi n none }

/-- Ghost values after the split of internal node `x` into itself and the new node `n`, with
the key `s` promoted. -/
def splitGhost (g : Ghost) (x n : Nat) (s : Int) : Ghost :=
  { lvl := setAt g.lvl n (g.lvl x)
    lo := setAt g.lo n (some s)
    hi := setAt (setAt g.hi x (some s)) n (g.hi x) }

/-- Invariant of a tree of order `m` that stores the pairs `kvs`: the tree is empty and so is
`kvs`, or it has a root and satisfies `InvG` with no node awaiting a split. -/
def Inv (m : Nat) (t : BPlusTree) (kvs : List (Int × Int)) : Prop :=
  (t.root = none ∧ t.heap = [] ∧ t.order = m ∧ kvs = []) ∨ ∃ r g, InvG m t r none kvs g

/-- Ghost values of a tree that consists of a root leaf. -/
def leafGhost : Ghost :=
  { lvl := fun _ => 0, lo := fun _ => none, hi := fun _ => none }

/-- First key of a node. -/
def headKey (heap : List Node) (i : Nat) : Int := (deref heap i).keys.headD 0

/-! ### Insertion with every element access checked

The methods of the insertion path once more, with `v[i]` taken as an access that is only
defined for `i < v.size()` at the moment it is made. They differ from `split_internal_node`,
`split_leaf_node` and `insert` in one place: the read of `node->keys[mid]`. -/

/-- Method `BPlusTree::split_internal_node`, the promoted key `node->keys[mid]` being read from
`node->keys` as the call `node->keys.erase(node->keys.begin() + mid, node->keys.end())` before it
has left that vector. -/
def split_internal_node_checked : Nat → BPlusTree → Nat → Except Fault BPlusTree
  | 0, _, _ => .error .fuel
  | fuel + 1, t, node =>
    let mid := (t.order.tdiv 2).toNat
    let new_node := t.heap.length
    let old := deref t.heap node
    let nn : Node := { InternalNode t.order with
      keys := old.keys.drop (mid + 1), pointers := old.pointers.drop (mid + 1) }
    let heap1 := t.heap ++ [nn]
    let heap2 := upd heap1 node fun n =>
      { n with keys := n.keys.take mid, pointers := n.pointers.take (mid + 1) }
    let heap3 := reparent heap2 (deref heap2 new_node).pointers new_node
    match rd (deref heap3 node).keys mid with
    | .error e => .error e
    | .ok new_key =>
      match (deref heap3 node).parent with
      | none =>
        let new_root := heap3.length
        let nr : Node := { InternalNode t.order with keys := [new_key], pointers := [node, new_node] }
        let heap4 := heap3 ++ [nr]
        let heap5 := upd heap4 node fun n => { n with parent := some new_root }
        let heap6 := upd heap5 new_node fun n => { n with parent := some new_root }
        .ok { t with root := some new_root, heap := heap6 }
      | some parent =>
        let t1 := insert_into_internal_node { t with heap := heap3 } parent new_key new_node
        split_loop (split_internal_node_checked fuel) (fuel + 1) t1 parent

/-- Method `BPlusTree::split_leaf_node`, calling `split_internal_node_checked`. -/
def split_leaf_node_checked (t : BPlusTree) (leaf : Nat) : Except Fault BPlusTree :=
  let mid := (t.order.tdiv 2).toNat
  let new_leaf := t.heap.length
  let old := deref t.heap leaf
  let nl : Node := { LeafNode t.order with
    keys := old.keys.drop mid, values := old.values.drop mid, next := old.next }
  let heap1 := t.heap ++ [nl]
  let heap2 := upd heap1 leaf fun n =>
    { n with keys := n.keys.take mid, values := n.values.take mid, next := some new_leaf }
  match rd (deref heap2 new_leaf).keys 0 with
  | .error e => .error e
  | .ok new_key =>
    match (deref heap2 leaf).parent with
    | none =>
      let new_root := heap2.length
      let nr : Node := { InternalNode t.order with keys := [new_key], pointers := [leaf, new_leaf] }
      let heap3 := heap2 ++ [nr]
      let heap4 := upd heap3 leaf fun n => { n with parent := some new_root }
      let heap5 := upd heap4 new_leaf fun n => { n with parent := some new_root }
      .ok { t with root := some new_root, heap := heap5 }
    | some parent =>
      let t1 := insert_into_internal_node { t with heap := heap2 } parent new_key new_leaf
      split_loop (split_internal_node_checked t1.heap.length) (t1.heap.length + 1) t1 parent

/-- Method `BPlusTree::insert`, calling `split_leaf_node_checked`. -/
def insert_checked (t : BPlusTree) (key value : Int) : Except Fault BPlusTree :=
  match find_leaf_node t key with
  | .error e => .error e
  | .ok found =>
    let t1 : BPlusTree := match found with
      | some _ => t
      | none => { t with root := some t.heap.length, heap := t.heap ++ [LeafNode t.order] }
    let leaf := match found with
      | some l => l
      | none => t.heap.length
    let t2 := insert_into_leaf_node t1 leaf key value
    if ((deref t2.heap leaf).keys.length : Int) > toSizeT (deref t2.heap leaf).max_keys then
      split_leaf_node_checked t2 leaf
    else .ok t2

/-- The loop `for (const int& key : records) tree.insert(key, key);` over `insert_checked`. -/
def insert_all_checked (t : Except Fault BPlusTree) : List (Int × Int) → Except Fault BPlusTree
  | [] => t
  | (k, v) :: rest =>
    match t with
    | .error e => .error e
    | .ok t0 => insert_all_checked (insert_checked t0 k v) rest

/-! ### The hash-based join (`src/Join_HashBased/hashing_based_join.cpp`)

A `std::unordered_map<int, std::vector<Tuple<int>>>` is the list of its entries. The source
leaves the order in which a map is traversed open; the model traverses it in the order in which
the keys were first inserted, and what is stated of a result does not depend on that order. -/

/-- Constant `BLOCK_SIZE`. -/
def BLOCK_SIZE : Int := 8

/-- Constant `MEMORY_BLOCKS`. -/
def MEMORY_BLOCKS : Int := 15

/-- Struct `Tuple<int>`. -/
structure Tuple where
  A : Int
  B : Int
  C : Int
deriving DecidableEq, Repr

/-- Conversion `static_cast<int>` of a size. -/
def toInt32 (x : Int) : Int := (x + 2147483648) % 4294967296 - 2147483648

/-- Function `writeBlock`: the tuples of `memory` are appended to `disk` and `memory` is
cleared; the result is the pair of the new `memory` and the new `disk`. -/
def writeBlock (memory disk : List Tuple) : List Tuple × List Tuple :=
  ([], disk ++ memory)

/-- Function `hashFunction`; `%` is the remainder of the division that truncates. -/
def hashFunction (value : Int) : Int := value.tmod MEMORY_BLOCKS

/-- Statement `map[key].push_back(tuple)` on an `unordered_map`. -/
def map_push : List (Int × List Tuple) → Int → Tuple → List (Int × List Tuple)
  | [], key, tuple => [(key, [tuple])]
  | (k, v) :: rest, key, tuple =>
    if k = key then (k, v ++ [tuple]) :: rest else (k, v) :: map_push rest key tuple

/-- Call `map.find(key)` on an `unordered_map`; `none` is `map.end()`. -/
def map_find : List (Int × List Tuple) → Int → Option (List Tuple)
  | [], _ => none
  | (k, v) :: rest, key => if k = key then some v else map_find rest key

/-- The loop `for (const auto& pair : R_map)` of `twoPassJoin` with the two loops inside it,
which appends to `output` one tuple for each pair of a tuple of `R_map` and a tuple of `S_map`
under the same key. -/
def join_maps (R_map S_map : List (Int × List Tuple)) (output : List Tuple) : List Tuple :=
  R_map.foldl (fun out pair =>
    match map_find S_map pair.1 with
    | none => out
    | some s_tuples =>
      pair.2.foldl (fun out1 r_tuple =>
        s_tuples.foldl (fun out2 s_tuple =>
          out2 ++ [{ A := r_tuple.A, B := r_tuple.B, C := s_tuple.C }]) out1) out) output

/-- The loops `for (const auto& tuple : R) R_map[tuple.B].push_back(tuple);` of the one-pass
path. -/
def group_by_B (relation : List Tuple) : List (Int × List Tuple) :=
  relation.foldl (fun m tuple => map_push m tuple.B tuple) []

/-- Body of the two partitioning loops of `twoPassJoin`, on the state made of
`memoryHashTable`, `diskHashTable` and `diskIOs`; a bucket number outside the table is a
fault. -/
def partition_step (memoryHashTable diskHashTable : List (List Tuple)) (diskIOs : Int)
    (tuple : Tuple) : Except Fault (List (List Tuple) × List (List Tuple) × Int) :=
  let bucket := hashFunction tuple.B
  if 0 ≤ bucket ∧ bucket < memoryHashTable.length ∧ bucket < diskHashTable.length then
    let b := bucket.toNat
    if ((memoryHashTable.getD b []).length : Int) < BLOCK_SIZE then
      .ok (memoryHashTable.set b (memoryHashTable.getD b [] ++ [tuple]), diskHashTable, diskIOs)
    else
      let w := writeBlock (memoryHashTable.getD b []) (diskHashTable.getD b [])
      .ok (memoryHashTable.set b (w.1 ++ [tuple]), diskHashTable.set b w.2, diskIOs + 1)
  else .error .outOfBounds

/-- A partitioning loop of `twoPassJoin` over the tuples of one relation. -/
def partition_loop (memoryHashTable diskHashTable : List (List Tuple)) (diskIOs : Int) :
    List Tuple → Except Fault (List (List Tuple) × List (List Tuple) × Int)
  | [] => .ok (memoryHashTable, diskHashTable, diskIOs)
  | tuple :: rest =>
    match partition_step memoryHashTable diskHashTable diskIOs tuple with
    | .error e => .error e
    | .ok (m, d, n) => partition_loop m d n rest

/-- Body of the loops of the join phase that fill `R_map` and `S_map` from a bucket: a tuple
whose `C` is 0 goes to `R_map`, any other to `S_map`. -/
def classify (maps : List (Int × List Tuple) × List (Int × List Tuple)) (tuple : Tuple) :
    List (Int × List Tuple) × List (Int × List Tuple) :=
  if tuple.C = 0 then (map_push maps.1 tuple.B tuple, maps.2)
  else (maps.1, map_push maps.2 tuple.B tuple)

/-- Body of the loop `for (int i = 0; i < MEMORY_BLOCKS; ++i)` of the join phase. -/
def join_bucket (memory disk : List Tuple) (output : List Tuple) : List Tuple :=
  let maps := disk.foldl classify (memory.foldl classify ([], []))
  join_maps maps.1 maps.2 output

/-- Function `twoPassJoin<int>`; the result is the returned vector with the final value of
`diskIOs`. -/
def twoPassJoin (R S : List Tuple) (diskIOs : Int) : Except Fault (List Tuple × Int) :=
  let totalTuples := toInt32 ((R.length : Int) + (S.length : Int))
  if totalTuples ≤ MEMORY_BLOCKS * BLOCK_SIZE then
    .ok (join_maps (group_by_B R) (group_by_B S) [], diskIOs)
  else
    let memoryHashTable : List (List Tuple) := List.replicate MEMORY_BLOCKS.toNat []
    let diskHashTable : List (List Tuple) := List.replicate MEMORY_BLOCKS.toNat []
    match partition_loop memoryHashTable diskHashTable diskIOs R with
    | .error e => .error e
    | .ok (m1, d1, n1) =>
      match partition_loop m1 d1 n1 S with
      | .error e => .error e
      | .ok (m2, d2, n2) =>
        .ok ((List.range MEMORY_BLOCKS.toNat).foldl
          (fun out i => join_bucket (m2.getD i []) (d2.getD i []) out) [], n2)

/-- The natural join of `R` and `S` on the attribute `B`: one tuple `(r.A, r.B, s.C)` for every
pair of a tuple `r` of `R` and a tuple `s` of `S` with `r.B = s.B`. -/
def natural_join (R S : List Tuple) : List Tuple :=
  R.flatMap fun r => (S.filter fun s => decide (r.B = s.B)).map fun s =>
    { A := r.A, B := r.B, C := s.C }

/-- A relation `R` of one tuple, its `C` being 0 as `generateRelationR` sets it. -/
def join_example_R : List Tuple := [{ A := 1, B := 10005, C := 0 }]

/-- A relation `S` of 121 tuples as `generateRelationS<int>` can return them (`A` is 0, `B` lies
between 10000 and 50000, `C` between 0 and 99999); the first one has the value 0 as its `C`. -/
def join_example_S : List Tuple :=
  { A := 0, B := 10005, C := 0 } :: { A := 0, B := 10005, C := 7 }
    :: List.replicate 119 { A := 0, B := 10006, C := 1 }

/-- The value that the rebalancing loop of `delete_entry` gives its variable `index` for the node
`node`: the position that `std::lower_bound` returns for the first key of the node among the keys
of its parent. -/
def delete_entry_index (heap : List Node) (node : Nat) : Except Fault Nat :=
  match (deref heap node).parent with
  | none => .error .nullDeref
  | some parent =>
    match rd (deref heap node).keys 0 with
    | .error e => .error e
    | .ok k0 => .ok (lower_bound (deref heap parent).keys k0)

/-- The tree that `build_dense_tree [1, 2, 3, 4, 5, 6, 7, 8, 9, 10, 0, -1] 5` returns: four
leaves under a root; the third leaf, node 3, holds two keys, under the `min_keys` of 3. -/
def twelve_keys_order_five : BPlusTree :=
  { order := 5
    root := some 2
    heap :=
      [ { is_leaf := true, min_keys := 3, max_keys := 5, num_keys := 0, keys := [-1, 0, 1, 2],
          parent := some 2, pointers := [], values := [-1, 0, 1, 2], next := some 1 },
        { is_leaf := true, min_keys := 3, max_keys := 5, num_keys := 0, keys := [3, 4],
          parent := some 2, pointers := [], values := [3, 4], next := some 3 },
        { is_leaf := false, min_keys := 2, max_keys := 5, num_keys := 0, keys := [3, 5, 7],
          parent := none, pointers := [0, 1, 3, 4], values := [], next := none },
        { is_leaf := true, min_keys := 3, max_keys := 5, num_keys := 0, keys := [5, 6],
          parent := some 2, pointers := [], values := [5, 6], next := some 4 },
        { is_leaf := true, min_keys := 3, max_keys := 5, num_keys := 0, keys := [7, 8, 9, 10],
          parent := some 2, pointers := [], values := [7, 8, 9, 10], next := none } ] }

/-- The tree `twelve_keys_order_five` after the first turn of the rebalancing loop on node 3:
the key 5 has gone from node 3 to the end of node 0, and the first key of the root is 6. -/
def twelve_keys_after_borrow : BPlusTree :=
  { order := 5
    root := some 2
    heap :=
      [ { is_leaf := true, min_keys := 3, max_keys := 5, num_keys := 0, keys := [-1, 0, 1, 2, 5],
          parent := some 2, pointers := [], values := [-1, 0, 1, 2, 5], next := some 1 },
        { is_leaf := true, min_keys := 3, max_keys := 5, num_keys := 0, keys := [3, 4],
          parent := some 2, pointers := [], values := [3, 4], next := some 3 },
        { is_leaf := false, min_keys := 2, max_keys := 5, num_keys := 0, keys := [6, 5, 7],
          parent := none, pointers := [0, 1, 3, 4], values := [], next := none },
        { is_leaf := true, min_keys := 3, max_keys := 5, num_keys := 0, keys := [6],
          parent := some 2, pointers := [], values := [6], next := some 4 },
        { is_leaf := true, min_keys := 3, max_keys := 5, num_keys := 0, keys := [7, 8, 9, 10],
          parent := some 2, pointers := [], values := [7, 8, 9, 10], next := none } ] }

/-- The tree that `build_dense_tree [1, 2, 3] 3` returns: a root leaf holding three keys. -/
def three_keys_order_three : BPlusTree :=
  { order := 3
    root := some 0
    heap :=
      [ { is_leaf := true, min_keys := 2, max_keys := 3, num_keys := 0, keys := [1, 2, 3],
          parent := none, pointers := [], values := [1, 2, 3], next := none } ] }

/-- The tree of order 3 built from the keys 1, 2, 3, 4 in the middle of `insert(5, 5)`: the
right leaf, node 1, has received the key and holds four entries, one more than `max_keys`, and
`split_leaf_node` is about to be called for it. -/
def leaf_overflow_order_three : BPlusTree :=
  { order := 3
    root := some 2
    heap :=
      [ { is_leaf := true, min_keys := 2, max_keys := 3, num_keys := 0, keys := [1],
          parent := some 2, pointers := [], values := [1], next := some 1 },
        { is_leaf := true, min_keys := 2, max_keys := 3, num_keys := 0, keys := [2, 3, 4, 5],
          parent := some 2, pointers := [], values := [2, 3, 4, 5], next := none },
        { is_leaf := false, min_keys := 1, max_keys := 3, num_keys := 0, keys := [2],
          parent := none, pointers := [0, 1], values := [], next := none } ] }

/-- The tree of order 3 built from the keys 1, ..., 6 in the middle of `insert(7, 7)`: the last
leaf has been split, the root, node 2, has received the separator 5 and holds four keys, one
more than `max_keys`, and `split_internal_node` is about to be called for it. -/
def root_overflow_order_three : BPlusTree :=
  { order := 3
    root := some 2
    heap :=
      [ { is_leaf := true, min_keys := 2, max_keys := 3, num_keys := 0, keys := [1],
          parent := some 2, pointers := [], values := [1], next := some 1 },
        { is_leaf := true, min_keys := 2, max_keys := 3, num_keys := 0, keys := [2],
          parent := some 2, pointers := [], values := [2], next := some 3 },
        { is_leaf := false, min_keys := 1, max_keys := 3, num_keys := 0, keys := [2, 3, 4, 5],
          parent := none, pointers := [0, 1, 3, 4, 5], values := [], next := none },
        { is_leaf := true, min_keys := 2, max_keys := 3, num_keys := 0, keys := [3],
          parent := some 2, pointers := [], values := [3], next := some 4 },
        { is_leaf := true, min_keys := 2, max_keys := 3, num_keys := 0, keys := [4],
          parent := some 2, pointers := [], values := [4], next := some 5 },
        { is_leaf := true, min_keys := 2, max_keys := 3, num_keys := 0, keys := [5, 6, 7],
          parent := some 2, pointers := [], values := [5, 6, 7], next := none } ] }

/-- The keys stored in the leaves `d` levels under `node`, from left to right; where
`leaves_at_depth heap d node` holds, these are all the keys stored in the subtree rooted at
`node`. -/
def subtree_keys (heap : List Node) : Nat → Nat → List Int
  | 0, node => (deref heap node).keys
  | d + 1, node => (deref heap node).pointers.flatMap (subtree_keys heap d)

/-- The tree that `build_dense_tree [1, 2, 3, 4, 5, 6, 0, -1] 3` returns: four leaves under a
root; the third leaf, node 3, holds one key, under the `min_keys` of 2, and the first leaf,
node 0, holds three. -/
def eight_keys_order_three : BPlusTree :=
  { order := 3
    root := some 2
    heap :=
      [ { is_leaf := true, min_keys := 2, max_keys := 3, num_keys := 0, keys := [-1, 0, 1],
          parent := some 2, pointers := [], values := [-1, 0, 1], next := some 1 },
        { is_leaf := true, min_keys := 2, max_keys := 3, num_keys := 0, keys := [2],
          parent := some 2, pointers := [], values := [2], next := some 3 },
        { is_leaf := false, min_keys := 1, max_keys := 3, num_keys := 0, keys := [2, 3, 4],
          parent := none, pointers := [0, 1, 3, 4], values := [], next := none },
        { is_leaf := true, min_keys := 2, max_keys := 3, num_keys := 0, keys := [3],
          parent := some 2, pointers := [], values := [3], next := some 4 },
        { is_leaf := true, min_keys := 2, max_keys := 3, num_keys := 0, keys := [4, 5, 6],
          parent := some 2, pointers := [], values := [4, 5, 6], next := none } ] }

/-- A tree of order 3 in the middle of a merge of its two leaves: the left leaf, node 0, has
received the entries of the right leaf, node 1, and `delete_entry` is about to be called for
the root, node 2, and its only separator. -/
def merged_leaves_order_three : BPlusTree :=
  { order := 3
    root := some 2
    heap :=
      [ { is_leaf := true, min_keys := 2, max_keys := 3, num_keys := 0, keys := [1, 2],
          parent := some 2, pointers := [], values := [1, 2], next := none },
        { is_leaf := true, min_keys := 2, max_keys := 3, num_keys := 0, keys := [2],
          parent := some 2, pointers := [], values := [2], next := none },
        { is_leaf := false, min_keys := 1, max_keys := 3, num_keys := 0, keys := [2],
          parent := none, pointers := [0, 1], values := [], next := none } ] }

/-- The tree that `build_dense_tree [1, 2, 3, 4, 5, 6, 7] 3` returns: two internal nodes, node 2
and node 6, under the root, node 7. -/
def seven_keys_order_three : BPlusTree :=
  { order := 3
    root := some 7
    heap :=
      [ { is_leaf := true, min_keys := 2, max_keys := 3, num_keys := 0, keys := [1],
          parent := some 2, pointers := [], values := [1], next := some 1 },
        { is_leaf := true, min_keys := 2, max_keys := 3, num_keys := 0, keys := [2],
          parent := some 2, pointers := [], values := [2], next := some 3 },
        { is_leaf := false, min_keys := 1, max_keys := 3, num_keys := 0, keys := [2],
          parent := some 7, pointers := [0, 1], values := [], next := none },
        { is_leaf := true, min_keys := 2, max_keys := 3, num_keys := 0, keys := [3],
          parent := some 6, pointers := [], values := [3], next := some 4 },
        { is_leaf := true, min_keys := 2, max_keys := 3, num_keys := 0, keys := [4],
          parent := some 6, pointers := [], values := [4], next := some 5 },
        { is_leaf := true, min_keys := 2, max_keys := 3, num_keys := 0, keys := [5, 6, 7],
          parent := some 6, pointers := [], values := [5, 6, 7], next := none },
        { is_leaf := false, min_keys := 1, max_keys := 3, num_keys := 0, keys := [4, 5],
          parent := some 7, pointers := [3, 4, 5], values := [], next := none },
        { is_leaf := false, min_keys := 1, max_keys := 3, num_keys := 0, keys := [3],
          parent := none, pointers := [2, 6], values := [], next := none } ] }

/-- The tree `seven_keys_order_three` after `borrow_key` for its internal nodes 2 and 6: the
separator 3 of the root has gone to node 2 with the leaf 3, and the key 4 of node 6 is the
separator of the root. -/
def seven_keys_after_borrow : BPlusTree :=
  { order := 3
    root := some 7
    heap :=
      [ { is_leaf := true, min_keys := 2, max_keys := 3, num_keys := 0, keys := [1],
          parent := some 2, pointers := [], values := [1], next := some 1 },
        { is_leaf := true, min_keys := 2, max_keys := 3, num_keys := 0, keys := [2],
          parent := some 2, pointers := [], values := [2], next := some 3 },
        { is_leaf := false, min_keys := 1, max_keys := 3, num_keys := 0, keys := [2, 3],
          parent := some 7, pointers := [0, 1, 3], values := [], next := none },
        { is_leaf := true, min_keys := 2, max_keys := 3, num_keys := 0, keys := [3],
          parent := some 2, pointers := [], values := [3], next := some 4 },
        { is_leaf := true, min_keys := 2, max_keys := 3, num_keys := 0, keys := [4],
          parent := some 6, pointers := [], values := [4], next := some 5 },
        { is_leaf := true, min_keys := 2, max_keys := 3, num_keys := 0, keys := [5, 6, 7],
          parent := some 6, pointers := [], values := [5, 6, 7], next := none },
        { is_leaf := false, min_keys := 1, max_keys := 3, num_keys := 0, keys := [5],
          parent := some 7, pointers := [4, 5], values := [], next := none },
        { is_leaf := false, min_keys := 1, max_keys := 3, num_keys := 0, keys := [4],
          parent := none, pointers := [2, 6], values := [], next := none } ] }

/-! ### Insertion with a log of the splits

The methods of the insertion path once more, each returning with the tree the list of the nodes
on which a split was performed during the call, in the order of the splits. -/

/-- The loop `while (parent->keys.size() > parent->max_keys)` that ends `split_leaf_node` and
`split_internal_node`, with the log of the splits; `split` is the call
`split_internal_node(parent)`. -/
def split_loop_traced (split : BPlusTree → Nat → Except Fault (BPlusTree × List Nat)) :
    Nat → BPlusTree → Nat → Except Fault (BPlusTree × List Nat)
  | 0, _, _ => .error .fuel
  | fuel + 1, t, parent =>
    if ((deref t.heap parent).keys.length : Int) > toSizeT (deref t.heap parent).max_keys then
      match split t parent with
      | .ok (t1, log1) =>
        match (deref t1.heap parent).parent with
        | none => .ok (t1, log1)
        | some pp =>
          match split_loop_traced split fuel t1 pp with
          | .ok (t2, log2) => .ok (t2, log1 ++ log2)
          | .error e => .error e
      | .error e => .error e
    else .ok (t, [])

/-- Method `BPlusTree::split_internal_node` with the log of the splits: the node itself, then
the nodes split by the closing loop. The promoted key is read as in `split_internal_node`. -/
def split_internal_node_traced : Nat → BPlusTree → Nat → Except Fault (BPlusTree × List Nat)
  | 0, _, _ => .error .fuel
  | fuel + 1, t, node =>
    let mid := (t.order.tdiv 2).toNat
    let new_node := t.heap.length
    let old := deref t.heap node
    let nn : Node := { InternalNode t.order with
      keys := old.keys.drop (mid + 1), pointers := old.pointers.drop (mid + 1) }
    let heap1 := t.heap ++ [nn]
    let heap2 := upd heap1 node fun n =>
      { n with keys := n.keys.take mid, pointers := n.pointers.take (mid + 1) }
    let heap3 := reparent heap2 (deref heap2 new_node).pointers new_node
    match rd old.keys mid with
    | .error e => .error e
    | .ok new_key =>
      match (deref heap3 node).parent with
      | none =>
        let new_root := heap3.length
        let nr : Node := { InternalNode t.order with keys := [new_key], pointers := [node, new_node] }
        let heap4 := heap3 ++ [nr]
        let heap5 := upd heap4 node fun n => { n with parent := some new_root }
        let heap6 := upd heap5 new_node fun n => { n with parent := some new_root }
        .ok ({ t with root := some new_root, heap := heap6 }, [node])
      | some parent =>
        let t1 := insert_into_internal_node { t with heap := heap3 } parent new_key new_node
        match split_loop_traced (split_internal_node_traced fuel) (fuel + 1) t1 parent with
        | .ok (t2, log) => .ok (t2, node :: log)
        | .error e => .error e

/-- Method `BPlusTree::split_leaf_node` with the log of the splits: the leaf itself, then the
nodes split by the closing loop. -/
def split_leaf_node_traced (t : BPlusTree) (leaf : Nat) : Except Fault (BPlusTree × List Nat) :=
  let mid := (t.order.tdiv 2).toNat
  let new_leaf := t.heap.length
  let old := deref t.heap leaf
  let nl : Node := { LeafNode t.order with
    keys := old.keys.drop mid, values := old.values.drop mid, next := old.next }
  let heap1 := t.heap ++ [nl]
  let heap2 := upd heap1 leaf fun n =>
    { n with keys := n.keys.take mid, values := n.values.take mid, next := some new_leaf }
  match rd (deref heap2 new_leaf).keys 0 with
  | .error e => .error e
  | .ok new_key =>
    match (deref heap2 leaf).parent with
    | none =>
      let new_root := heap2.length
      let nr : Node := { InternalNode t.order with keys := [new_key], pointers := [leaf, new_leaf] }
      let heap3 := heap2 ++ [nr]
      let heap4 := upd heap3 leaf fun n => { n with parent := some new_root }
      let heap5 := upd heap4 new_leaf fun n => { n with parent := some new_root }
      .ok ({ t with root := some new_root, heap := heap5 }, [leaf])
    | some parent =>
      let t1 := insert_into_internal_node { t with heap := heap2 } parent new_key new_leaf
      match split_loop_traced (split_internal_node_traced t1.heap.length) (t1.heap.length + 1)
          t1 parent with
      | .ok (t2, log) => .ok (t2, leaf :: log)
      | .error e => .error e

/-- Method `BPlusTree::insert` with the log of the splits; the log is empty when the leaf has
room for the key. -/
def insert_traced (t : BPlusTree) (key value : Int) : Except Fault (BPlusTree × List Nat) :=
  match find_leaf_node t key with
  | .error e => .error e
  | .ok found =>
    let t1 : BPlusTree := match found with
      | some _ => t
      | none => { t with root := some t.heap.length, heap := t.heap ++ [LeafNode t.order] }
    let leaf := match found with
      | some l => l
      | none => t.heap.length
    let t2 := insert_into_leaf_node t1 leaf key value
    if ((deref t2.heap leaf).keys.length : Int) > toSizeT (deref t2.heap leaf).max_keys then
      split_leaf_node_traced t2 leaf
    else .ok (t2, [])

/-! ### The shape of a tree

What insertion keeps of a tree whatever the keys are: levels, the links between parents and
children, and the key counts. The level of each node is a ghost value. -/

/-- Shape of node `i` in a tree of order `m` with root `root`; the node `ov`, if any, holds
`m + 1` keys and awaits its split. -/
structure ShapeOK (m : Nat) (heap : List Node) (root : Nat) (ov : Option Nat) (lvl : Nat → Nat)
    (i : Nat) : Prop where
  max_keys : (deref heap i).max_keys = m
  min_keys : (deref heap i).min_keys = (Node.new m (deref heap i).is_leaf).min_keys
  num_keys : (deref heap i).num_keys = 0
  size : (deref heap i).keys.length ≤ m ∨ (ov = some i ∧ (deref heap i).keys.length = m + 1)
  nonempty : 1 ≤ (deref heap i).keys.length
  level : lvl i ≤ lvl root
  is_root : (deref heap i).parent = none → i = root
  parent : ∀ p, (deref heap i).parent = some p →
    p < heap.length ∧ i ∈ (deref heap p).pointers ∧ (deref heap p).is_leaf = false
      ∧ lvl i + 1 = lvl p
  leaf : (deref heap i).is_leaf = true →
    lvl i = 0 ∧ (deref heap i).pointers = []
      ∧ ((deref heap i).parent ≠ none → m / 2 ≤ (deref heap i).keys.length)
  internal : (deref heap i).is_leaf = false →
    (deref heap i).pointers.Nodup
      ∧ (deref heap i).pointers.length = (deref heap i).keys.length + 1
      ∧ ∀ c ∈ (deref heap i).pointers, c < heap.length ∧ (deref heap c).parent = some i

/-- Shape of a non-empty tree `t` of order `m` with root `r`. -/
structure ShapeG (m : Nat) (t : BPlusTree) (r : Nat) (ov : Option Nat) (lvl : Nat → Nat) :
    Prop where
  order : t.order = m
  root : t.root = some r
  root_lt : r < t.heap.length
  root_parent : (deref t.heap r).parent = none
  height : lvl r < t.heap.length
  nodes : ∀ i, i < t.heap.length → ShapeOK m t.heap r ov lvl i

/-- Shape of a tree of order `m`: the tree is empty, or it has a root and satisfies `ShapeG`
with no node awaiting a split. -/
def Shape (m : Nat) (t : BPlusTree) : Prop :=
  (t.root = none ∧ t.heap = [] ∧ t.order = m) ∨ ∃ r lvl, ShapeG m t r none lvl

/-- The list `log` starts with the node `x` and goes from each node to its parent in `heap`;
its nodes are nodes of the arena at the level of `x` or above. -/
def UpChain (heap : List Node) (lvl : Nat → Nat) (x : Nat) (log : List Nat) : Prop :=
  log.head? = some x ∧ log.Chain' (fun a b => (deref heap a).parent = some b)
    ∧ ∀ a ∈ log, a < heap.length ∧ lvl x ≤ lvl a

/-! ## Theorems -/

theorem deref_upd (heap : List Node) (p q : Nat) (f : Node → Node) :
    deref (upd heap p f) q = if q = p ∧ p < heap.length then f (deref heap p) else deref heap q := by
  unfold upd deref
  simp only [List.getD_eq_getElem?_getD, List.getElem?_set]
  by_cases h : p = q
  · subst h
    by_cases h2 : p < heap.length
    · simp [h2]
    · simp [h2, List.getElem?_eq_none (not_lt.mp h2)]
  · have : ¬ q = p := fun e => h e.symm
    simp [h, this]

theorem length_upd (heap : List Node) (p : Nat) (f : Node → Node) :
    (upd heap p f).length = heap.length := by
  simp [upd]

theorem toSizeT_le (x : Int) (h : 0 ≤ x) : toSizeT x ≤ x := by
  unfold toSizeT
  omega

theorem rd_ok {α : Type} (v : List α) (i : Nat) (h : i < v.length) :
    rd v i = .ok (v.get ⟨i, h⟩) := by
  unfold rd
  rw [List.get?_eq_get h]

theorem rd_ok_mem {α : Type} (v : List α) (i : Nat) (h : i < v.length) :
    ∃ a, rd v i = .ok a ∧ a ∈ v :=
  ⟨_, rd_ok v i h, List.get_mem v i h⟩

theorem remove_scan_ok (keys : List Int) (key : Int) :
    ∀ (r idx : Nat), idx + r ≤ keys.length →
      ∃ i, remove_scan keys key r idx = .ok i ∧ idx ≤ i ∧ i ≤ idx + r := by
  intro r
  induction r with
  | zero => intro idx _; exact ⟨idx, rfl, le_refl _, by omega⟩
  | succ r ih =>
    intro idx h
    have hlt : idx < keys.length := by omega
    simp only [remove_scan, rd_ok keys idx hlt]
    by_cases hk : keys.get ⟨idx, hlt⟩ < key
    · simp only [hk, if_true]
      obtain ⟨i, h1, h2, h3⟩ := ih (idx + 1) (by omega)
      exact ⟨i, h1, by omega, by omega⟩
    · simp only [hk, if_false]
      exact ⟨idx, rfl, le_refl _, by omega⟩

theorem remove_shift_ok :
    ∀ (r i : Nat) (keys values : List Int), i + r + 1 ≤ keys.length → i + r + 1 ≤ values.length →
      ∃ k v, remove_shift r i keys values = .ok (k, v) ∧ k.length = keys.length
        ∧ v.length = values.length := by
  intro r
  induction r with
  | zero => intro i keys values _ _; exact ⟨keys, values, rfl, rfl, rfl⟩
  | succ r ih =>
    intro i keys values h1 h2
    have a1 : i + 1 < keys.length := by omega
    have a2 : i + 1 < values.length := by omega
    have b1 : i < keys.length := by omega
    have b2 : i < values.length := by omega
    simp only [remove_shift, rd_ok keys (i + 1) a1, rd_ok values (i + 1) a2, wr, b1, b2, if_true]
    obtain ⟨k, v, e, l1, l2⟩ := ih (i + 1) (keys.set i (keys.get ⟨i + 1, a1⟩))
      (values.set i (values.get ⟨i + 1, a2⟩)) (by simp; omega) (by simp; omega)
    exact ⟨k, v, e, by simpa using l1, by simpa using l2⟩


theorem shape_leaf (heap : List Node) (order : Int) (node : Nat) (h : shape heap order 0 node = true) :
    (deref heap node).is_leaf = true ∧ (deref heap node).min_keys = (LeafNode order).min_keys
      ∧ (deref heap node).values.length = (deref heap node).keys.length
      ∧ 0 ≤ (deref heap node).num_keys
      ∧ (deref heap node).num_keys ≤ ((deref heap node).keys.length : Int) := by
  simp only [shape, Bool.and_eq_true, decide_eq_true_eq] at h
  obtain ⟨⟨⟨⟨⟨h1, h2⟩, _⟩, h4⟩, h5⟩, h6⟩ := h
  exact ⟨h1, h2, h4, h5, h6⟩

theorem remove_from_leaf_node_ok (t : BPlusTree) (leaf : Nat) (key : Int)
    (h : shape t.heap t.order 0 leaf = true) :
    ∃ t1, remove_from_leaf_node t leaf key = .ok t1 ∧ t1.root = t.root ∧ t1.order = t.order
      ∧ t1.heap.length = t.heap.length ∧ same_skeleton t.heap t1.heap
      ∧ ∀ x, (deref t1.heap x).parent = (deref t.heap x).parent := by
  obtain ⟨_, _, hv, h0, hn⟩ := shape_leaf _ _ _ h
  have same_refl : same_skeleton t.heap t.heap := fun x => ⟨rfl, rfl, rfl, rfl, rfl⟩
  obtain ⟨index, e1, _, e3⟩ := remove_scan_ok (deref t.heap leaf).keys key
    (deref t.heap leaf).num_keys.toNat 0 (by omega)
  unfold remove_from_leaf_node
  simp only [e1]
  by_cases hi : (index : Int) < (deref t.heap leaf).num_keys
  · simp only [hi, if_true]
    have hlt : index < (deref t.heap leaf).keys.length := by omega
    simp only [rd_ok _ index hlt]
    by_cases hk : (deref t.heap leaf).keys.get ⟨index, hlt⟩ = key
    · simp only [hk, if_true]
      obtain ⟨k, v, e, l1, _⟩ := remove_shift_ok ((deref t.heap leaf).num_keys - 1 - index).toNat
        index (deref t.heap leaf).keys (deref t.heap leaf).values (by omega) (by omega)
      simp only [e]
      refine ⟨_, rfl, rfl, rfl, by simp only [length_upd], ?_, ?_⟩
      · intro x
        show _ ∧ _
        rw [deref_upd]
        split
        · next hx =>
          obtain ⟨rfl, _⟩ := hx
          exact ⟨rfl, l1, rfl, rfl, rfl⟩
        · exact ⟨rfl, rfl, rfl, rfl, rfl⟩
      · intro x
        dsimp only
        rw [deref_upd]
        split
        · next hx =>
          obtain ⟨rfl, _⟩ := hx
          rfl
        · rfl
    · simp only [hk, if_false]
      exact ⟨t, rfl, rfl, rfl, rfl, same_refl, fun _ => rfl⟩
  · simp only [hi, if_false]
    exact ⟨t, rfl, rfl, rfl, rfl, same_refl, fun _ => rfl⟩

theorem leaves_at_depth_same (heap heap1 : List Node) (h : same_skeleton heap heap1) :
    ∀ d x, leaves_at_depth heap1 d x = leaves_at_depth heap d x := by
  intro d
  induction d with
  | zero => intro x; simp only [leaves_at_depth, (h x).1]
  | succ d ih =>
    intro x
    simp only [leaves_at_depth, (h x).1, (h x).2.2.1]
    congr 2
    funext c
    exact ih c

theorem in_bounds_same (heap heap1 : List Node) (h : same_skeleton heap heap1) (x : Nat) :
    in_bounds (deref heap1 x) = in_bounds (deref heap x) := by
  simp only [in_bounds, (h x).2.1, (h x).2.2.2.1, (h x).2.2.2.2]

theorem descendants_in_bounds_same (heap heap1 : List Node) (h : same_skeleton heap heap1) :
    ∀ d x, descendants_in_bounds heap1 d x = descendants_in_bounds heap d x := by
  intro d
  induction d with
  | zero => intro x; rfl
  | succ d ih =>
    intro x
    simp only [descendants_in_bounds, (h x).2.2.1]
    congr 1
    funext c
    rw [in_bounds_same heap heap1 h c, ih c]

theorem upper_bound_le (keys : List Int) (key : Int) : upper_bound keys key ≤ keys.length := by
  induction keys with
  | nil => simp [upper_bound]
  | cons x xs ih =>
    simp only [upper_bound]
    split
    · simp
    · simp; omega

theorem find_leaf_loop_spec (heap : List Node) (order : Int) (key : Int) :
    ∀ (d fuel node : Nat), d < fuel → shape heap order d node = true →
      descendants_in_bounds heap d node = true →
      ∃ leaf, find_leaf_loop heap key fuel node = .ok leaf ∧ shape heap order 0 leaf = true
        ∧ ((leaf = node ∧ d = 0) ∨ in_bounds (deref heap leaf) = true) := by
  intro d
  induction d with
  | zero =>
    intro fuel node hf hs _
    obtain ⟨fuel, rfl⟩ : ∃ f, fuel = f + 1 := ⟨fuel - 1, by omega⟩
    have hl := (shape_leaf _ _ _ hs).1
    exact ⟨node, by simp [find_leaf_loop, hl], hs, Or.inl ⟨rfl, rfl⟩⟩
  | succ d ih =>
    intro fuel node hf hs hb
    obtain ⟨fuel, rfl⟩ : ∃ f, fuel = f + 1 := ⟨fuel - 1, by omega⟩
    simp only [shape, Bool.and_eq_true, decide_eq_true_eq, Bool.not_eq_true', List.all_eq_true]
      at hs
    obtain ⟨⟨⟨⟨hl, _⟩, _⟩, hp⟩, hc⟩ := hs
    simp only [descendants_in_bounds, List.all_eq_true, Bool.and_eq_true] at hb
    have hub := upper_bound_le (deref heap node).keys key
    obtain ⟨c, hrd, hmem⟩ := rd_ok_mem (deref heap node).pointers
      (upper_bound (deref heap node).keys key) (by omega)
    obtain ⟨leaf, e, hsl, hor⟩ := ih fuel c (by omega) (hc c hmem).2 (hb c hmem).2
    refine ⟨leaf, ?_, hsl, Or.inr ?_⟩
    · simp [find_leaf_loop, hl, hrd, e]
    · rcases hor with ⟨rfl, _⟩ | h
      · exact (hb _ hmem).1
      · exact h


theorem same_skeleton_trans (a b c : List Node) (h1 : same_skeleton a b) (h2 : same_skeleton b c) :
    same_skeleton a c := by
  intro x
  obtain ⟨p1, p2, p3, p4, p5⟩ := h1 x
  obtain ⟨q1, q2, q3, q4, q5⟩ := h2 x
  exact ⟨q1.trans p1, q2.trans p2, q3.trans p3, q4.trans p4, q5.trans p5⟩

theorem same_skeleton_upd_parent (heap : List Node) (c : Nat) (par : Option Nat) :
    same_skeleton heap (upd heap c fun n => { n with parent := par }) := by
  intro x
  rw [deref_upd]
  split
  · next hx =>
    obtain ⟨rfl, _⟩ := hx
    exact ⟨rfl, rfl, rfl, rfl, rfl⟩
  · exact ⟨rfl, rfl, rfl, rfl, rfl⟩

theorem leaf_min_keys_nonneg (order : Int) (h : 3 ≤ order) : 0 ≤ (LeafNode order).min_keys := by
  simp only [LeafNode, Node.new, if_true]
  exact Int.tdiv_nonneg (by omega) (by omega)

theorem rebalance_loop_idle (del : BPlusTree → Nat → Int → Except Fault BPlusTree) (fuel : Nat)
    (t : BPlusTree) (node : Nat)
    (h : (deref t.heap node).parent = none ∨
      (0 ≤ (deref t.heap node).min_keys ∧ in_bounds (deref t.heap node) = true)) :
    rebalance_loop del (fuel + 1) t node = .ok t := by
  unfold rebalance_loop
  rcases hp : (deref t.heap node).parent with _ | p
  · rfl
  · rcases h with h | ⟨h0, hb⟩
    · rw [hp] at h; cases h
    · simp only [in_bounds, Bool.and_eq_true, decide_eq_true_eq] at hb
      have := toSizeT_le _ h0
      have hn : ¬ ((deref t.heap node).keys.length : Int) < toSizeT (deref t.heap node).min_keys := by
        omega
      simp only [hn, if_false]


theorem collapse_root_spec (t : BPlusTree) (r d : Nat) (hr : t.root = some r)
    (hp : (deref t.heap r).is_leaf = false →
      (deref t.heap r).pointers.length = (deref t.heap r).keys.length + 1)
    (hb : descendants_in_bounds t.heap d r = true) (hd : leaves_at_depth t.heap d r = true) :
    ∃ t1 d1, collapse_root t = .ok t1 ∧ t1.root.isSome = true
      ∧ non_root_in_bounds t1 d1 = true ∧ leaves_equal_depth t1 d1 = true := by
  unfold collapse_root
  simp only [hr]
  by_cases hc : (deref t.heap r).keys = [] ∧ (deref t.heap r).is_leaf = false
  · simp only [hc, and_self, if_true]
    have hlen := hp hc.2
    rw [hc.1] at hlen
    obtain ⟨c, hrd, hmem⟩ := rd_ok_mem (deref t.heap r).pointers 0 (by rw [hlen]; simp)
    simp only [hrd]
    cases d with
    | zero =>
      simp only [leaves_at_depth] at hd
      rw [hc.2] at hd
      cases hd
    | succ d =>
      refine ⟨_, d, rfl, rfl, ?_, ?_⟩
      · simp only [non_root_in_bounds]
        rw [descendants_in_bounds_same _ _ (same_skeleton_upd_parent t.heap c none)]
        simp only [descendants_in_bounds, List.all_eq_true, Bool.and_eq_true] at hb
        exact (hb c hmem).2
      · simp only [leaves_equal_depth]
        rw [leaves_at_depth_same _ _ (same_skeleton_upd_parent t.heap c none)]
        simp only [leaves_at_depth, Bool.and_eq_true, List.all_eq_true] at hd
        exact hd.2 c hmem
  · simp only [hc, if_false]
    exact ⟨t, d, rfl, by simp [hr], by simp only [non_root_in_bounds, hr, hb],
      by simp only [leaves_equal_depth, hr, hd]⟩

/-- Claim C9: in a tree of order at least 3 that is well formed, whose nodes other than the root
all hold between `min_keys` and `max_keys` keys and whose leaves are all at depth `d`, `remove`
returns a tree in which again every node other than the root is within its bounds and all
leaves are at one depth. -/
theorem remove_preserves_bounds_and_depth (t : BPlusTree) (d : Nat) (key : Int)
    (hm : 3 ≤ t.order) (hwf : well_formed t d = true) (hb : non_root_in_bounds t d = true)
    (hd : leaves_equal_depth t d = true) :
    ∃ t1 d1, remove t key = .ok t1 ∧ t1.root.isSome = true
      ∧ non_root_in_bounds t1 d1 = true ∧ leaves_equal_depth t1 d1 = true := by
  unfold well_formed at hwf
  rcases hr : t.root with _ | r
  · rw [hr] at hwf; cases hwf
  rw [hr] at hwf
  simp only [Bool.and_eq_true, decide_eq_true_eq] at hwf
  obtain ⟨⟨hlen, hpar⟩, hs⟩ := hwf
  simp only [non_root_in_bounds, hr] at hb
  simp only [leaves_equal_depth, hr] at hd
  obtain ⟨leaf, hfind, hsl, hor⟩ := find_leaf_loop_spec t.heap t.order key d t.heap.length r hlen hs hb
  obtain ⟨t1, hrem, hroot, _, _, hsame, hparent⟩ := remove_from_leaf_node_ok t leaf key hsl
  obtain ⟨hleaf, hmin, _⟩ := shape_leaf _ _ _ hsl
  have hfuel : ∃ f, (t.heap.length + 1) * (t.order.toNat + 2) = f + 1 :=
    ⟨(t.heap.length + 1) * (t.order.toNat + 2) - 1, by
      have : 0 < (t.heap.length + 1) * (t.order.toNat + 2) := Nat.mul_pos (by omega) (by omega)
      omega⟩
  obtain ⟨f, hf⟩ := hfuel
  have hidle : rebalance_loop (delete_entry f) (f + 1) t1 leaf = .ok t1 := by
    apply rebalance_loop_idle
    rcases hor with ⟨rfl, _⟩ | hin
    · left; rw [hparent]; exact hpar
    · right
      rw [(hsame leaf).2.2.2.1, in_bounds_same _ _ hsame, hmin]
      exact ⟨leaf_min_keys_nonneg _ hm, hin⟩
  have hp1 : (deref t1.heap r).is_leaf = false →
      (deref t1.heap r).pointers.length = (deref t1.heap r).keys.length + 1 := by
    intro hl
    rw [(hsame r).1] at hl
    rw [(hsame r).2.2.1, (hsame r).2.1]
    cases d with
    | zero => rw [(shape_leaf _ _ _ hs).1] at hl; cases hl
    | succ d =>
      simp only [shape, Bool.and_eq_true, decide_eq_true_eq] at hs
      exact hs.1.2
  obtain ⟨t2, d2, hcol, h1, h2, h3⟩ := collapse_root_spec t1 r d (hroot.trans hr) hp1
    (by rw [descendants_in_bounds_same _ _ hsame]; exact hb)
    (by rw [leaves_at_depth_same _ _ hsame]; exact hd)
  refine ⟨t2, d2, ?_, h1, h2, h3⟩
  simp only [remove, find_leaf_node, hr, hfind]
  rw [hf]
  simp only [delete_entry, hleaf, if_true, hrem, hidle, hcol]


theorem remove_preserves_bounds_and_depth_witness :
    3 ≤ five_keys_order_four.order ∧ well_formed five_keys_order_four 1 = true
      ∧ non_root_in_bounds five_keys_order_four 1 = true
      ∧ leaves_equal_depth five_keys_order_four 1 = true
      ∧ ∃ t1 d1, remove five_keys_order_four 3 = .ok t1 ∧ t1.root.isSome = true
          ∧ non_root_in_bounds t1 d1 = true ∧ leaves_equal_depth t1 d1 = true :=
  ⟨by decide, by decide, by decide, by decide,
    remove_preserves_bounds_and_depth five_keys_order_four 1 3 (by decide) (by decide)
      (by decide) (by decide)⟩

theorem build_five_keys_order_four :
    build_dense_tree [1, 2, 3, 4, 5] 4 = .ok five_keys_order_four := by decide

theorem build_four_keys_order_three :
    build_dense_tree [1, 2, 3, 4] 3 = .ok four_keys_order_three := by decide

theorem build_one_key_order_three :
    build_dense_tree [1] 3 = .ok one_key_order_three := by decide

/-- Claim C4, evaluated: in the tree of order 3 built by `insert(1, 1)`, `remove(1)` returns the
tree as it was, and `search(1)` on the result still returns the value 1, not -1. -/
theorem search_after_remove_finds_key :
    remove one_key_order_three 1 = .ok one_key_order_three
      ∧ search one_key_order_three 1 = .ok 1 := by decide

/-- Claim C5, evaluated: key 0 is not stored in the tree of order 3 built from the keys
1, 2, 3, 4, and `remove(0)` returns a different tree: the left leaf has borrowed key 2 and the
separator of the root has become 3. -/
theorem remove_absent_key_changes_tree :
    search four_keys_order_three 0 = .ok (-1)
      ∧ remove four_keys_order_three 0 = .ok four_keys_after_remove
      ∧ four_keys_after_remove ≠ four_keys_order_three := by decide

/-- Claim C6, evaluated: after `insert(1, 1)` into the empty tree of order 3 and `remove(1)`, the
root is a leaf that still holds the key 1. -/
theorem insert_then_remove_not_empty :
    (insert_all (BPlusTree.new 3) [(1, 1)] >>= fun t => remove t 1)
      = .ok one_key_order_three
      ∧ one_key_order_three.root = some 0
      ∧ (deref one_key_order_three.heap 0).keys = [1] := by decide

/-- Claim C7, evaluated: after the inserts of 1, 2, 3, 4 into the empty tree of order 3, the left
leaf is not the root and holds one key, under its `min_keys` of 2; the tree of the 18 keys
3, 5, ..., 60 of `main` has nodes out of bounds as well. -/
theorem split_leaves_leaf_under_min_keys :
    build_dense_tree [1, 2, 3, 4] 3 = .ok four_keys_order_three
      ∧ four_keys_order_three.root = some 2
      ∧ (deref four_keys_order_three.heap 0).parent = some 2
      ∧ (deref four_keys_order_three.heap 0).keys = [1]
      ∧ (deref four_keys_order_three.heap 0).min_keys = 2
      ∧ non_root_in_bounds four_keys_order_three 1 = false
      ∧ (build_dense_tree [3, 5, 7, 9, 11, 13, 15, 18, 20, 25, 28, 29, 31, 32, 33, 34, 45, 60] 3).map
          (fun t => non_root_in_bounds t 3) = .ok false := by decide

/-- Claim C10, refuted as stated: the constructor accepts the order 2 and returns a tree. -/
theorem constructor_accepts_order_two :
    BPlusTree.new 2 = .ok { order := 2, root := none, heap := [] }
      ∧ ¬ ∃ e, BPlusTree.new 2 = .error e := by
  refine ⟨rfl, ?_⟩
  rintro ⟨e, h⟩
  cases h

/-- Claim C10, amended: for every order, below 3 or not, the constructor succeeds and returns
the empty tree of that order, without a root. -/
theorem constructor_always_succeeds (order : Int) :
    BPlusTree.new order = .ok { order := order, root := none, heap := [] } := rfl

/-! ### Children of an internal node -/

theorem Kids.length_eq {S : Nat → Option Int → Option Int → Prop} :
    ∀ (ks : List Int) (cs : List Nat) (lo hi : Option Int),
      Kids S cs ks lo hi → cs.length = ks.length + 1 := by
  intro ks
  induction ks with
  | nil =>
    rintro cs lo hi ⟨c, rfl, _⟩
    rfl
  | cons k ks ih =>
    rintro cs lo hi ⟨c, rest, rfl, _, h⟩
    simp [ih rest _ _ h]

theorem Kids.mono {S S1 : Nat → Option Int → Option Int → Prop} :
    ∀ (ks : List Int) (cs : List Nat) (lo hi : Option Int),
      Kids S cs ks lo hi → (∀ c ∈ cs, ∀ a b, S c a b → S1 c a b) → Kids S1 cs ks lo hi := by
  intro ks
  induction ks with
  | nil =>
    rintro cs lo hi ⟨c, rfl, h⟩ hm
    exact ⟨c, rfl, hm c (by simp) _ _ h⟩
  | cons k ks ih =>
    rintro cs lo hi ⟨c, rest, rfl, h1, h2⟩ hm
    exact ⟨c, rest, rfl, hm c (by simp) _ _ h1,
      ih rest _ _ h2 fun c1 hc1 => hm c1 (List.mem_cons_of_mem _ hc1)⟩

theorem Kids.exists_of_mem {S : Nat → Option Int → Option Int → Prop} :
    ∀ (ks : List Int) (cs : List Nat) (lo hi : Option Int),
      Kids S cs ks lo hi → ∀ c ∈ cs, ∃ a b, S c a b := by
  intro ks
  induction ks with
  | nil =>
    rintro cs lo hi ⟨c, rfl, h⟩ c1 hc1
    rw [List.mem_singleton] at hc1
    subst hc1
    exact ⟨_, _, h⟩
  | cons k ks ih =>
    rintro cs lo hi ⟨c, rest, rfl, h1, h2⟩ c1 hc1
    rcases List.mem_cons.mp hc1 with rfl | hc1
    · exact ⟨_, _, h1⟩
    · exact ih rest _ _ h2 c1 hc1

/-- Cutting the children at a separator: the left part keeps the separators before it, the
right part those after it, and the separator becomes the end of both ranges. -/
theorem Kids.split {S : Nat → Option Int → Option Int → Prop} (k : Int) (ks2 : List Int) :
    ∀ (ks1 : List Int) (cs : List Nat) (lo hi : Option Int),
      Kids S cs (ks1 ++ k :: ks2) lo hi →
        Kids S (cs.take (ks1.length + 1)) ks1 lo (some k)
          ∧ Kids S (cs.drop (ks1.length + 1)) ks2 (some k) hi := by
  intro ks1
  induction ks1 with
  | nil =>
    rintro cs lo hi ⟨c, rest, rfl, h1, h2⟩
    exact ⟨⟨c, by simp, h1⟩, by simpa using h2⟩
  | cons k1 ks1 ih =>
    rintro cs lo hi ⟨c, rest, rfl, h1, h2⟩
    obtain ⟨h3, h4⟩ := ih rest _ _ h2
    exact ⟨⟨c, rest.take (ks1.length + 1), by simp, h1, h3⟩, by simpa using h4⟩

/-- Focus on one child `x`: the separators split around it, and a new child can be put right
after it with a new separator between the two. -/
theorem Kids.focus {S : Nat → Option Int → Option Int → Prop} (x : Nat) (cs2 : List Nat) :
    ∀ (cs1 : List Nat) (ks : List Int) (lo hi : Option Int),
      Kids S (cs1 ++ x :: cs2) ks lo hi →
        ∃ ks1 ks2, ks = ks1 ++ ks2 ∧ ks1.length = cs1.length
          ∧ S x (lastOr ks1 lo) (headOr ks2 hi)
          ∧ ∀ (S1 : Nat → Option Int → Option Int → Prop) (s : Int) (n : Nat),
              (∀ c ∈ cs1 ++ cs2, ∀ a b, S c a b → S1 c a b) →
              S1 x (lastOr ks1 lo) (some s) → S1 n (some s) (headOr ks2 hi) →
              Kids S1 (cs1 ++ x :: n :: cs2) (ks1 ++ s :: ks2) lo hi := by
  intro cs1
  induction cs1 with
  | nil =>
    intro ks lo hi h
    cases ks with
    | nil =>
      obtain ⟨c, hc, h1⟩ := h
      simp only [List.nil_append, List.cons.injEq] at hc
      obtain ⟨rfl, rfl⟩ := hc
      refine ⟨[], [], rfl, rfl, h1, ?_⟩
      intro S1 s n _ hx hn
      exact ⟨x, [n], rfl, hx, n, rfl, hn⟩
    | cons k ks =>
      obtain ⟨c, rest, hc, h1, h2⟩ := h
      simp only [List.nil_append, List.cons.injEq] at hc
      obtain ⟨rfl, rfl⟩ := hc
      refine ⟨[], k :: ks, rfl, rfl, h1, ?_⟩
      intro S1 s n hm hx hn
      exact ⟨x, n :: cs2, rfl, hx, n, cs2, rfl, hn, Kids.mono _ _ _ _ h2 (by simpa using hm)⟩
  | cons c1 cs1 ih =>
    intro ks lo hi h
    cases ks with
    | nil =>
      obtain ⟨c, hc, _⟩ := h
      simp at hc
    | cons k ks =>
      obtain ⟨c, rest, hc, h1, h2⟩ := h
      simp only [List.cons_append, List.cons.injEq] at hc
      obtain ⟨rfl, rfl⟩ := hc
      obtain ⟨ks1, ks2, rfl, hl, hx, hre⟩ := ih ks (some k) hi h2
      refine ⟨k :: ks1, ks2, rfl, by simp [hl], hx, ?_⟩
      intro S1 s n hm hx1 hn
      refine ⟨c1, cs1 ++ x :: n :: cs2, rfl, hm c1 (by simp) _ _ h1, ?_⟩
      exact hre S1 s n (fun c hc => hm c (by
        rcases List.mem_append.mp hc with h | h
        · exact List.mem_append.mpr (Or.inl (List.mem_cons_of_mem _ h))
        · exact List.mem_append.mpr (Or.inr h))) hx1 hn

theorem rd_cons_succ {α : Type} (a : α) (v : List α) (i : Nat) : rd (a :: v) (i + 1) = rd v i := by
  simp [rd]

theorem rd_cons_zero {α : Type} (a : α) (v : List α) : rd (a :: v) 0 = .ok a := by
  simp [rd]

/-- The child that `find_leaf_node` descends into is in charge of the key it looks for. -/
theorem Kids.route {S : Nat → Option Int → Option Int → Prop} (key : Int) :
    ∀ (ks : List Int) (cs : List Nat) (lo hi : Option Int),
      Kids S cs ks lo hi → loLe lo key → ltHi key hi →
        ∃ c a b, rd cs (upper_bound ks key) = .ok c ∧ c ∈ cs ∧ S c a b ∧ loLe a key
          ∧ ltHi key b := by
  intro ks
  induction ks with
  | nil =>
    rintro cs lo hi ⟨c, rfl, h⟩ h1 h2
    exact ⟨c, lo, hi, rd_cons_zero _ _, by simp, h, h1, h2⟩
  | cons k ks ih =>
    rintro cs lo hi ⟨c, rest, rfl, h, hrest⟩ h1 h2
    by_cases hk : key < k
    · refine ⟨c, lo, some k, ?_, by simp, h, h1, ?_⟩
      · simp [upper_bound, hk, rd_cons_zero]
      · intro b hb
        cases hb
        exact hk
    · obtain ⟨c1, a, b, e, hm, hs, ha, hb⟩ := ih rest (some k) hi hrest
        (by intro a ha; cases ha; omega) h2
      refine ⟨c1, a, b, ?_, List.mem_cons_of_mem _ hm, hs, ha, hb⟩
      simp [upper_bound, hk, rd_cons_succ, e]

/-- The range of a child does not start below the range of its parent. -/
theorem Kids.lo_nested {S : Nat → Option Int → Option Int → Prop} :
    ∀ (ks : List Int) (cs : List Nat) (lo hi : Option Int),
      Kids S cs ks lo hi → ks.Pairwise (· < ·) → (∀ k ∈ ks, loLe lo k) →
        ∀ c ∈ cs, ∃ a b, S c a b ∧ ∀ k, loLe a k → loLe lo k := by
  intro ks
  induction ks with
  | nil =>
    rintro cs lo hi ⟨c, rfl, h⟩ _ _ c1 hc1
    rw [List.mem_singleton] at hc1
    subst hc1
    exact ⟨lo, hi, h, fun _ hk => hk⟩
  | cons k ks ih =>
    rintro cs lo hi ⟨c, rest, rfl, h, hrest⟩ hs hlo c1 hc1
    rcases List.mem_cons.mp hc1 with rfl | hc1
    · exact ⟨lo, some k, h, fun _ hk => hk⟩
    · rw [List.pairwise_cons] at hs
      obtain ⟨a, b, h1, h2⟩ := ih rest (some k) hi hrest hs.2
        (by intro k1 hk1 a ha; cases ha; exact le_of_lt (hs.1 k1 hk1)) c1 hc1
      refine ⟨a, b, h1, fun k1 hk1 a1 ha1 => ?_⟩
      have := h2 k1 hk1 k rfl
      have := hlo k (by simp) a1 ha1
      omega

/-- The range of a child does not end above the range of its parent. -/
theorem Kids.hi_nested {S : Nat → Option Int → Option Int → Prop} :
    ∀ (ks : List Int) (cs : List Nat) (lo hi : Option Int),
      Kids S cs ks lo hi → ks.Pairwise (· < ·) → (∀ k ∈ ks, ltHi k hi) →
        ∀ c ∈ cs, ∃ a b, S c a b ∧ ∀ k, ltHi k b → ltHi k hi := by
  intro ks
  induction ks with
  | nil =>
    rintro cs lo hi ⟨c, rfl, h⟩ _ _ c1 hc1
    rw [List.mem_singleton] at hc1
    subst hc1
    exact ⟨lo, hi, h, fun _ hk => hk⟩
  | cons k ks ih =>
    rintro cs lo hi ⟨c, rest, rfl, h, hrest⟩ hs hhi c1 hc1
    rw [List.pairwise_cons] at hs
    rcases List.mem_cons.mp hc1 with rfl | hc1
    · refine ⟨lo, some k, h, fun k1 hk1 b hb => ?_⟩
      have := hk1 k rfl
      have := hhi k (by simp) b hb
      omega
    · exact ih rest (some k) hi hrest hs.2 (fun k1 hk1 => hhi k1 (List.mem_cons_of_mem _ hk1))
        c1 hc1

/-- Among the children of a node only one is in charge of a given key, and it is the one that
`find_leaf_node` descends into. -/
theorem Kids.route_unique {S : Nat → Option Int → Option Int → Prop} (glo ghi : Nat → Option Int)
    (hfun : ∀ c a b, S c a b → glo c = a ∧ ghi c = b) (key : Int) (x : Nat) :
    ∀ (ks : List Int) (cs : List Nat) (lo hi : Option Int),
      Kids S cs ks lo hi → ks.Pairwise (· < ·) → x ∈ cs → loLe (glo x) key → ltHi key (ghi x) →
        rd cs (upper_bound ks key) = .ok x := by
  intro ks
  induction ks with
  | nil =>
    rintro cs lo hi ⟨c, rfl, _⟩ _ hx _ _
    rw [List.mem_singleton] at hx
    subst hx
    exact rd_cons_zero _ _
  | cons k ks ih =>
    rintro cs lo hi ⟨c, rest, rfl, h, hrest⟩ hs hx h1 h2
    rw [List.pairwise_cons] at hs
    by_cases hk : key < k
    · simp only [upper_bound, hk, if_true, rd_cons_zero]
      rcases List.mem_cons.mp hx with rfl | hx
      · rfl
      · exfalso
        obtain ⟨a, b, hS, hn⟩ := Kids.lo_nested ks rest (some k) hi hrest hs.2
          (by intro k1 hk1 a ha; cases ha; exact le_of_lt (hs.1 k1 hk1)) x hx
        have := hn key (by rw [← (hfun _ _ _ hS).1]; exact h1) k rfl
        omega
    · simp only [upper_bound, hk, if_false, rd_cons_succ]
      rcases List.mem_cons.mp hx with rfl | hx
      · exfalso
        have := h2 k (hfun _ _ _ h).2
        exact hk this
      · exact ih rest (some k) hi hrest hs.2 hx h1 h2

/-! ### Sorted vectors -/

theorem lower_bound_le (keys : List Int) (key : Int) : lower_bound keys key ≤ keys.length := by
  induction keys with
  | nil => simp [lower_bound]
  | cons x xs ih =>
    simp only [lower_bound]
    split
    · simp; omega
    · simp

theorem lower_bound_append (ks1 ks2 : List Int) (s : Int) (h1 : ∀ k ∈ ks1, k < s)
    (h2 : ∀ k ∈ ks2, s ≤ k) : lower_bound (ks1 ++ ks2) s = ks1.length := by
  induction ks1 with
  | nil =>
    cases ks2 with
    | nil => rfl
    | cons k ks2 =>
      have := h2 k (by simp)
      simp only [List.nil_append, lower_bound, List.length_nil]
      rw [if_neg (by omega)]
  | cons k ks1 ih =>
    have := h1 k (by simp)
    have e := ih (fun k1 hk1 => h1 k1 (List.mem_cons_of_mem _ hk1))
    show lower_bound (k :: (ks1 ++ ks2)) s = _
    simp only [lower_bound, this, if_true, List.length_cons, e]

/-- In a sorted vector the elements before the lower bound of `key` are below `key`, the
others are not. -/
theorem lower_bound_split (keys : List Int) (key : Int) (hs : keys.Pairwise (· < ·)) :
    (∀ k ∈ keys.take (lower_bound keys key), k < key)
      ∧ ∀ k ∈ keys.drop (lower_bound keys key), key ≤ k := by
  induction keys with
  | nil => simp [lower_bound]
  | cons x xs ih =>
    rw [List.pairwise_cons] at hs
    obtain ⟨ih1, ih2⟩ := ih hs.2
    by_cases hx : x < key
    · simp only [lower_bound, hx, if_true, List.take_succ_cons, List.drop_succ_cons]
      refine ⟨fun k hk => ?_, ih2⟩
      rcases List.mem_cons.mp hk with rfl | hk
      · exact hx
      · exact ih1 k hk
    · simp only [lower_bound, hx, if_false, List.take_zero, List.drop_zero]
      refine ⟨by simp, fun k hk => ?_⟩
      rcases List.mem_cons.mp hk with rfl | hk
      · omega
      · have := hs.1 k hk
        omega

theorem insertAt_length {α : Type} (v : List α) (i : Nat) (a : α) (h : i ≤ v.length) :
    (insertAt v i a).length = v.length + 1 := by
  simp only [insertAt, List.length_append, List.length_take, List.length_cons, List.length_drop]
  omega

theorem insertAt_append {α : Type} (v1 v2 : List α) (a : α) :
    insertAt (v1 ++ v2) v1.length a = v1 ++ a :: v2 := by
  simp [insertAt]

theorem insertAt_append_succ {α : Type} (v1 v2 : List α) (x a : α) :
    insertAt (v1 ++ x :: v2) (v1.length + 1) a = v1 ++ x :: a :: v2 := by
  have : v1 ++ x :: v2 = (v1 ++ [x]) ++ v2 := by simp
  rw [this, show v1.length + 1 = (v1 ++ [x]).length by simp, insertAt_append]
  simp

theorem mem_insertAt {α : Type} (v : List α) (i : Nat) (a x : α) :
    x ∈ insertAt v i a ↔ x = a ∨ x ∈ v := by
  have h := List.take_append_drop i v
  constructor
  · intro hx
    simp only [insertAt, List.mem_append, List.mem_cons] at hx
    rcases hx with hx | rfl | hx
    · exact Or.inr (List.mem_of_mem_take hx)
    · exact Or.inl rfl
    · exact Or.inr (List.mem_of_mem_drop hx)
  · intro hx
    simp only [insertAt, List.mem_append, List.mem_cons]
    rcases hx with rfl | hx
    · exact Or.inr (Or.inl rfl)
    · rw [← h, List.mem_append] at hx
      rcases hx with hx | hx
      · exact Or.inl hx
      · exact Or.inr (Or.inr hx)

/-- Inserting a new key at its lower bound keeps a vector sorted. -/
theorem insertAt_sorted (keys : List Int) (key : Int) (hs : keys.Pairwise (· < ·))
    (hn : key ∉ keys) : (insertAt keys (lower_bound keys key) key).Pairwise (· < ·) := by
  obtain ⟨h1, h2⟩ := lower_bound_split keys key hs
  have h := List.take_append_drop (lower_bound keys key) keys
  rw [← h] at hs
  rw [List.pairwise_append] at hs
  obtain ⟨s1, s2, s3⟩ := hs
  simp only [insertAt]
  rw [List.pairwise_append, List.pairwise_cons]
  refine ⟨s1, ⟨fun k hk => ?_, s2⟩, fun a ha b hb => ?_⟩
  · have := h2 k hk
    have : k ≠ key := fun e => hn (e ▸ List.mem_of_mem_drop hk)
    omega
  · rcases List.mem_cons.mp hb with rfl | hb
    · exact h1 a ha
    · exact s3 a ha b hb

theorem zip_insertAt (keys values : List Int) (i : Nat) (k v : Int)
    (h : values.length = keys.length) :
    (insertAt keys i k).zip (insertAt values i v) = insertAt (keys.zip values) i (k, v) := by
  simp only [insertAt]
  rw [List.zip_append (by simp [h]), List.zip_cons_cons]
  simp only [List.zip, List.take_zipWith, List.drop_zipWith]

/-! ### The arena -/

theorem deref_append_lt (heap l : List Node) (q : Nat) (h : q < heap.length) :
    deref (heap ++ l) q = deref heap q := by
  simp only [deref, List.getD_eq_getElem?_getD, List.getElem?_append_left h]

theorem deref_append_length (heap : List Node) (n : Node) :
    deref (heap ++ [n]) heap.length = n := by
  simp [deref, List.getD_eq_getElem?_getD]

theorem deref_ge (heap : List Node) (q : Nat) (h : heap.length ≤ q) : deref heap q = default := by
  simp [deref, List.getD_eq_getElem?_getD, List.getElem?_eq_none h]

theorem length_reparent (cs : List Nat) (p : Nat) :
    ∀ heap : List Node, (reparent heap cs p).length = heap.length := by
  induction cs with
  | nil => intro heap; rfl
  | cons c cs ih =>
    intro heap
    simp only [reparent, List.foldl_cons]
    exact (ih _).trans (length_upd _ _ _)

theorem deref_reparent (cs : List Nat) (p q : Nat) :
    ∀ heap : List Node, deref (reparent heap cs p) q =
      if q ∈ cs ∧ q < heap.length then { deref heap q with parent := some p }
      else deref heap q := by
  induction cs with
  | nil => intro heap; simp [reparent]
  | cons c cs ih =>
    intro heap
    have e : reparent heap (c :: cs) p
        = reparent (upd heap c fun n => { n with parent := some p }) cs p := rfl
    rw [e, ih, length_upd, deref_upd]
    by_cases hq : q < heap.length
    · by_cases hc : q = c
      · subst hc
        by_cases hm : q ∈ cs <;> simp [hq, hm]
      · by_cases hm : q ∈ cs <;> simp [hq, hm, hc]
    · have hd := deref_ge heap q (not_lt.mp hq)
      by_cases hc : q = c
      · subst hc
        simp [hq]
      · simp [hq, hc]

theorem NextOK.next_ext {heap heap1 : List Node} {g g1 : Ghost} {next : Option Nat} {hi : Option Int}
    (h : NextOK heap g next hi) (he : Ext heap g heap1 g1) :
    NextOK heap1 g1 next hi := by
  cases hi with
  | none => exact h
  | some b =>
    obtain ⟨j, h1, h2, h3, h4⟩ := h
    obtain ⟨e1, e2, _⟩ := he.2 j h2
    exact ⟨j, h1, lt_of_lt_of_le h2 he.1, e1.trans h3, e2.trans h4⟩

theorem ChildOK.child_ext {heap heap1 : List Node} {g g1 : Ghost} {i c : Nat} {a b : Option Int}
    (h : ChildOK heap g i c a b) (he : Ext heap g heap1 g1)
    (hp : (deref heap1 c).parent = (deref heap c).parent) (hhi : g1.hi c = g.hi c)
    (hl : g1.lvl i = g.lvl i) : ChildOK heap1 g1 i c a b := by
  obtain ⟨h1, h2, h3, h4, h5⟩ := h
  obtain ⟨_, e2, e3⟩ := he.2 c h1
  exact ⟨lt_of_lt_of_le h1 he.1, hp.trans h2, by rw [e3, hl]; exact h3, e2.trans h4,
    hhi.trans h5⟩

/-- A node that changes in its parent pointer at most keeps its local invariant when its
surroundings keep what the invariant reads of them. -/
theorem NodeOK.transfer {m : Nat} {heap : List Node} {r : Nat} {ov : Option Nat} {g : Ghost}
    {i : Nat} (h : NodeOK m heap r ov g i) (heap1 : List Node) (r1 : Nat) (ov1 : Option Nat)
    (g1 : Ghost) (par : Option Nat)
    (hnode : deref heap1 i = { deref heap i with parent := par })
    (hlvl : g1.lvl i = g.lvl i) (hlo : g1.lo i = g.lo i) (hhi : g1.hi i = g.hi i)
    (hsize : ov = some i → ov1 = some i)
    (hlevel : g1.lvl i ≤ g1.lvl r1)
    (hroot : par = none → i = r1)
    (hparent : ∀ p, par = some p →
      p < heap1.length ∧ i ∈ (deref heap1 p).pointers ∧ (deref heap1 p).is_leaf = false)
    (hkids : ∀ c ∈ (deref heap i).pointers, ∀ a b,
      ChildOK heap g i c a b → ChildOK heap1 g1 i c a b)
    (hnext : (deref heap i).is_leaf = true → NextOK heap g (deref heap i).next (g.hi i) →
      NextOK heap1 g1 (deref heap i).next (g.hi i)) :
    NodeOK m heap1 r1 ov1 g1 i := by
  constructor
  · rw [hnode]; exact h.max_keys
  · rw [hnode]; exact h.min_keys
  · rw [hnode]; exact h.num_keys
  · rw [hnode]
    rcases h.size with hs | ⟨hs1, hs2⟩
    · exact Or.inl hs
    · exact Or.inr ⟨hsize hs1, hs2⟩
  · rw [hnode]; exact h.nonempty
  · rw [hnode]; exact h.sorted
  · rw [hnode, hlo, hhi]; exact h.range
  · exact hlevel
  · rw [hnode]; exact hroot
  · rw [hnode]; exact hparent
  · rw [hnode, hlvl, hlo, hhi]
    intro hl
    obtain ⟨a1, a2, a3, a4, a5⟩ := h.leaf hl
    exact ⟨a1, a2, a3, a4, hnext hl a5⟩
  · rw [hnode, hlo, hhi]
    intro hl
    obtain ⟨a1, a2⟩ := h.internal hl
    exact ⟨a1, Kids.mono _ _ _ _ a2 hkids⟩

/-! ### Descent to a leaf -/

theorem ChildOK.fun_of {heap : List Node} {g : Ghost} {i c : Nat} {a b : Option Int}
    (h : ChildOK heap g i c a b) : g.lo c = a ∧ g.hi c = b := ⟨h.2.2.2.1, h.2.2.2.2⟩

/-- From a node in charge of `key`, the loop of `find_leaf_node` reaches a leaf in charge of
`key`, with fuel above the level of the node. -/
theorem find_leaf_loop_inv {m : Nat} {t : BPlusTree} {r : Nat} {ov : Option Nat}
    {kvs : List (Int × Int)} {g : Ghost} (hinv : InvG m t r ov kvs g) (key : Int) :
    ∀ (n i fuel : Nat), g.lvl i = n → i < t.heap.length → loLe (g.lo i) key →
      ltHi key (g.hi i) → n < fuel →
      ∃ leaf, find_leaf_loop t.heap key fuel i = .ok leaf ∧ leaf < t.heap.length
        ∧ (deref t.heap leaf).is_leaf = true ∧ loLe (g.lo leaf) key ∧ ltHi key (g.hi leaf) := by
  intro n
  induction n with
  | zero =>
    intro i fuel hl hi h1 h2 hf
    obtain ⟨fuel, rfl⟩ : ∃ f, fuel = f + 1 := ⟨fuel - 1, by omega⟩
    have hn := hinv.nodes i hi
    cases hleaf : (deref t.heap i).is_leaf with
    | true => exact ⟨i, by simp [find_leaf_loop, hleaf], hi, hleaf, h1, h2⟩
    | false =>
      exfalso
      obtain ⟨_, hk⟩ := hn.internal hleaf
      obtain ⟨c, _, _, _, _, hc, _⟩ := Kids.route key _ _ _ _ hk h1 h2
      have := hc.2.2.1
      omega
  | succ n ih =>
    intro i fuel hl hi h1 h2 hf
    obtain ⟨fuel, rfl⟩ : ∃ f, fuel = f + 1 := ⟨fuel - 1, by omega⟩
    have hn := hinv.nodes i hi
    cases hleaf : (deref t.heap i).is_leaf with
    | true =>
      have := (hn.leaf hleaf).1
      omega
    | false =>
      obtain ⟨_, hk⟩ := hn.internal hleaf
      obtain ⟨c, a, b, hrd, _, hc, ha, hb⟩ := Kids.route key _ _ _ _ hk h1 h2
      obtain ⟨hc1, _, hc3, hc4, hc5⟩ := hc
      obtain ⟨leaf, e, q1, q2, q3, q4⟩ := ih c fuel (by omega) hc1 (by rw [hc4]; exact ha)
        (by rw [hc5]; exact hb) (by omega)
      exact ⟨leaf, by simp [find_leaf_loop, hleaf, hrd, e], q1, q2, q3, q4⟩

theorem loLe_none (k : Int) : loLe none k := fun _ h => by cases h

theorem ltHi_none (k : Int) : ltHi k none := fun _ h => by cases h

/-- In a tree that satisfies the invariant `find_leaf_node` returns a leaf in charge of the
key. -/
theorem find_leaf_node_inv {m : Nat} {t : BPlusTree} {r : Nat} {ov : Option Nat}
    {kvs : List (Int × Int)} {g : Ghost} (hinv : InvG m t r ov kvs g) (key : Int) :
    ∃ leaf, find_leaf_node t key = .ok (some leaf) ∧ leaf < t.heap.length
      ∧ (deref t.heap leaf).is_leaf = true ∧ loLe (g.lo leaf) key ∧ ltHi key (g.hi leaf) := by
  obtain ⟨leaf, e, h1, h2, h3, h4⟩ := find_leaf_loop_inv hinv key (g.lvl r) r t.heap.length rfl
    hinv.root_lt (by rw [hinv.root_lo]; exact loLe_none _) (by rw [hinv.root_hi]; exact ltHi_none _)
    hinv.height
  exact ⟨leaf, by simp [find_leaf_node, hinv.root, e], h1, h2, h3, h4⟩

/-! ### Insertion into a leaf -/

theorem exists_mem_zip (keys values : List Int) (k : Int) (h : values.length = keys.length)
    (hk : k ∈ keys) : ∃ v, (k, v) ∈ keys.zip values := by
  induction keys generalizing values with
  | nil => cases hk
  | cons x xs ih =>
    cases values with
    | nil => simp at h
    | cons y ys =>
      rcases List.mem_cons.mp hk with rfl | hk
      · exact ⟨y, by simp⟩
      · obtain ⟨v, hv⟩ := ih ys (by simpa using h) hk
        exact ⟨v, by simp [hv]⟩

theorem head_insertAt_lower_bound (keys : List Int) (a key : Int) (h : keys.head? = some a)
    (ha : a < key) : (insertAt keys (lower_bound keys key) key).head? = some a := by
  cases keys with
  | nil => cases h
  | cons x xs =>
    simp only [List.head?_cons, Option.some.injEq] at h
    subst h
    simp [lower_bound, ha, insertAt]

theorem deref_insert_into_leaf_node (t : BPlusTree) (leaf : Nat) (key value : Int) (q : Nat)
    (h : leaf < t.heap.length) :
    deref (insert_into_leaf_node t leaf key value).heap q =
      if q = leaf then
        { deref t.heap leaf with
          keys := insertAt (deref t.heap leaf).keys (lower_bound (deref t.heap leaf).keys key) key
          values :=
            insertAt (deref t.heap leaf).values (lower_bound (deref t.heap leaf).keys key) value }
      else deref t.heap q := by
  simp only [insert_into_leaf_node, deref_upd, h, and_true]

/-- The invariant after `insert_into_leaf_node` of a new key into the leaf in charge of it:
the leaf may now hold one key too many. -/
theorem insert_into_leaf_node_inv {m : Nat} {t : BPlusTree} {r : Nat} {kvs : List (Int × Int)}
    {g : Ghost} (hinv : InvG m t r none kvs g) (leaf : Nat) (key value : Int)
    (hlt : leaf < t.heap.length) (hleaf : (deref t.heap leaf).is_leaf = true)
    (hlo : loLe (g.lo leaf) key) (hhi : ltHi key (g.hi leaf)) (hnew : ∀ v, (key, v) ∉ kvs) :
    InvG m (insert_into_leaf_node t leaf key value) r
      (if (deref t.heap leaf).keys.length + 1 ≤ m then none else some leaf)
      (kvs ++ [(key, value)]) g := by
  have hd := fun q => deref_insert_into_leaf_node t leaf key value q hlt
  have hlen : (insert_into_leaf_node t leaf key value).heap.length = t.heap.length := by
    simp [insert_into_leaf_node, length_upd]
  have hn := hinv.nodes leaf hlt
  obtain ⟨l1, l2, l3, l4, l5⟩ := hn.leaf hleaf
  have hlb := lower_bound_le (deref t.heap leaf).keys key
  have hnotin : key ∉ (deref t.heap leaf).keys := by
    intro hk
    obtain ⟨v, hv⟩ := exists_mem_zip _ _ key l3 hk
    exact hnew v ((hinv.content _).mpr ⟨leaf, hlt, hleaf, hv⟩)
  have hext : Ext t.heap g (insert_into_leaf_node t leaf key value).heap g := by
    refine ⟨by rw [hlen], fun j _ => ⟨?_, rfl, rfl⟩⟩
    rw [hd]
    split
    · next h => rw [h]
    · rfl
  have hpar : ∀ q, (deref (insert_into_leaf_node t leaf key value).heap q).parent
      = (deref t.heap q).parent := by
    intro q
    rw [hd]
    split
    · next h => rw [h]
    · rfl
  have hptr : ∀ q, (deref (insert_into_leaf_node t leaf key value).heap q).pointers
      = (deref t.heap q).pointers := by
    intro q
    rw [hd]
    split
    · next h => rw [h]
    · rfl
  constructor
  · exact hinv.order
  · exact hinv.root
  · rw [hlen]; exact hinv.root_lt
  · rw [hpar]; exact hinv.root_parent
  · exact hinv.root_lo
  · exact hinv.root_hi
  · rw [hlen]; exact hinv.height
  · intro i hi
    rw [hlen] at hi
    have hni := hinv.nodes i hi
    by_cases hil : i = leaf
    · subst hil
      have hnode := hd i
      rw [if_pos rfl] at hnode
      constructor
      · rw [hnode]; exact hn.max_keys
      · rw [hnode]; exact hn.min_keys
      · rw [hnode]; exact hn.num_keys
      · rw [hnode]
        simp only [insertAt_length _ _ _ hlb]
        by_cases hsz : (deref t.heap i).keys.length + 1 ≤ m
        · exact Or.inl hsz
        · rcases hn.size with hs | ⟨hs, _⟩
          · exact Or.inr ⟨by simp [hsz], by omega⟩
          · cases hs
      · rw [hnode]
        simp only [insertAt_length _ _ _ hlb]
        omega
      · rw [hnode]; exact insertAt_sorted _ _ hn.sorted hnotin
      · rw [hnode]
        intro k hk
        rcases (mem_insertAt _ _ _ _).mp hk with rfl | hk
        · exact ⟨hlo, hhi⟩
        · exact hn.range k hk
      · exact hn.level
      · rw [hnode]; exact hn.is_root
      · rw [hnode]
        intro p hp
        obtain ⟨p1, p2, p3⟩ := hn.parent p hp
        exact ⟨by rw [hlen]; exact p1, by rw [hptr]; exact p2, by rw [hext.2 p p1 |>.1]; exact p3⟩
      · rw [hnode]
        intro _
        refine ⟨l1, l2, ?_, ?_, l5.next_ext hext⟩
        · simp only [insertAt_length _ _ _ hlb, insertAt_length _ _ _ (l3 ▸ hlb), l3]
        · intro a ha
          have hh := l4 a ha
          have hmem : a ∈ (deref t.heap i).keys := List.mem_of_mem_head? hh
          have : a ≠ key := fun e => hnotin (e ▸ hmem)
          have := hlo a ha
          exact head_insertAt_lower_bound _ _ _ hh (by omega)
      · rw [hnode]
        intro hl
        rw [hleaf] at hl
        cases hl
    · have hnode := hd i
      rw [if_neg hil] at hnode
      refine hni.transfer _ r _ g (deref t.heap i).parent (by rw [hnode]) rfl rfl rfl
        (fun h => by cases h) hni.level hni.is_root ?_ ?_ ?_
      · intro p hp
        obtain ⟨p1, p2, p3⟩ := hni.parent p hp
        exact ⟨by rw [hlen]; exact p1, by rw [hptr]; exact p2, by rw [hext.2 p p1 |>.1]; exact p3⟩
      · intro c _ a b hc
        exact hc.child_ext hext (hpar c) rfl rfl
      · intro _ hnx
        exact hnx.next_ext hext
  · intro p
    rw [List.mem_append, List.mem_singleton, hinv.content]
    constructor
    · rintro (⟨i, h1, h2, h3⟩ | rfl)
      · refine ⟨i, by rw [hlen]; exact h1, by rw [hext.2 i h1 |>.1]; exact h2, ?_⟩
        rw [hd]
        split
        · next h =>
          subst h
          simp only [zip_insertAt _ _ _ _ _ l3]
          exact (mem_insertAt _ _ _ _).mpr (Or.inr h3)
        · exact h3
      · refine ⟨leaf, by rw [hlen]; exact hlt, by rw [hext.2 leaf hlt |>.1]; exact hleaf, ?_⟩
        rw [hd, if_pos rfl]
        simp only [zip_insertAt _ _ _ _ _ l3]
        exact (mem_insertAt _ _ _ _).mpr (Or.inl rfl)
    · rintro ⟨i, h1, h2, h3⟩
      rw [hlen] at h1
      rw [hext.2 i h1 |>.1] at h2
      rw [hd] at h3
      split at h3
      · next h =>
        subst h
        simp only [zip_insertAt _ _ _ _ _ l3] at h3
        rcases (mem_insertAt _ _ _ _).mp h3 with rfl | h3
        · exact Or.inr rfl
        · exact Or.inl ⟨i, h1, h2, h3⟩
      · exact Or.inl ⟨i, h1, h2, h3⟩

/-! ### A new child next to a split one -/

theorem lt_of_lastOr (s : Int) :
    ∀ (ks1 ks2 : List Int) (lo : Option Int), (ks1 ++ ks2).Pairwise (· < ·) →
      (∀ a, lastOr ks1 lo = some a → a < s) → ∀ k ∈ ks1, k < s := by
  intro ks1
  induction ks1 with
  | nil => intro _ _ _ _ k hk; cases hk
  | cons k1 ks1 ih =>
    intro ks2 lo hs ha k hk
    rw [List.cons_append, List.pairwise_cons] at hs
    have hrest := ih ks2 (some k1) hs.2 ha
    rcases List.mem_cons.mp hk with rfl | hk
    · cases ks1 with
      | nil => exact ha k rfl
      | cons k2 ks1 =>
        have h1 := hs.1 k2 (by simp)
        have h2 := hrest k2 (by simp)
        omega
    · exact hrest k hk

theorem gt_of_headOr (s : Int) (ks2 : List Int) (hi : Option Int) (hs : ks2.Pairwise (· < ·))
    (hb : ltHi s (headOr ks2 hi)) : ∀ k ∈ ks2, s < k := by
  cases ks2 with
  | nil => intro k hk; cases hk
  | cons k2 ks2 =>
    intro k hk
    have h1 := hb k2 rfl
    rw [List.pairwise_cons] at hs
    rcases List.mem_cons.mp hk with rfl | hk
    · exact h1
    · have := hs.1 k hk
      omega

/-- The parent of a split node after `insert_into_internal_node`: the promoted key `s` stands
between the split node `x` and the new node `n`. -/
theorem parent_attach_ok {m : Nat} {heap : List Node} {r : Nat} {ov : Option Nat} {g : Ghost}
    {p : Nat} (hP : NodeOK m heap r ov g p) (hint : (deref heap p).is_leaf = false)
    (hsz : (deref heap p).keys.length ≤ m) (x n : Nat) (s : Int)
    (hx : x ∈ (deref heap p).pointers) (hn : n ∉ (deref heap p).pointers)
    (hslo : ∀ a, g.lo x = some a → a < s) (hshi : ltHi s (g.hi x))
    (heap1 : List Node) (r1 : Nat) (g1 : Ghost)
    (hnode : deref heap1 p = { deref heap p with
      keys := insertAt (deref heap p).keys (lower_bound (deref heap p).keys s) s
      pointers := insertAt (deref heap p).pointers (lower_bound (deref heap p).keys s + 1) n })
    (hlo : g1.lo p = g.lo p) (hhi : g1.hi p = g.hi p)
    (hlevel : g1.lvl p ≤ g1.lvl r1)
    (hroot : (deref heap p).parent = none → p = r1)
    (hparent : ∀ q, (deref heap p).parent = some q →
      q < heap1.length ∧ p ∈ (deref heap1 q).pointers ∧ (deref heap1 q).is_leaf = false)
    (hkids : ∀ c ∈ (deref heap p).pointers, c ≠ x → ∀ a b,
      ChildOK heap g p c a b → ChildOK heap1 g1 p c a b)
    (hxok : ChildOK heap1 g1 p x (g.lo x) (some s))
    (hnok : ChildOK heap1 g1 p n (some s) (g.hi x)) :
    NodeOK m heap1 r1 (some p) g1 p := by
  obtain ⟨hnd, hk⟩ := hP.internal hint
  obtain ⟨cs1, cs2, hcs⟩ := List.append_of_mem hx
  rw [hcs] at hk hnd
  obtain ⟨ks1, ks2, hks, hl, hS, hre⟩ := Kids.focus x cs2 cs1 _ _ _ hk
  obtain ⟨e1, e2⟩ := hS.fun_of
  have hsorted := hP.sorted
  rw [hks] at hsorted
  have hlt1 : ∀ k ∈ ks1, k < s :=
    lt_of_lastOr s ks1 ks2 _ hsorted (by rw [← e1]; exact hslo)
  have hlt2 : ∀ k ∈ ks2, s < k :=
    gt_of_headOr s ks2 _ (List.pairwise_append.mp hsorted).2.1 (by rw [← e2]; exact hshi)
  have hlb : lower_bound (deref heap p).keys s = ks1.length := by
    rw [hks]
    exact lower_bound_append _ _ _ hlt1 fun k hk => le_of_lt (hlt2 k hk)
  have hkeys : insertAt (deref heap p).keys (lower_bound (deref heap p).keys s) s
      = ks1 ++ s :: ks2 := by
    rw [hlb, hks, insertAt_append]
  have hptrs : insertAt (deref heap p).pointers (lower_bound (deref heap p).keys s + 1) n
      = cs1 ++ x :: n :: cs2 := by
    rw [hlb, hcs, hl, insertAt_append_succ]
  rw [hkeys, hptrs] at hnode
  have hxnot : x ∉ cs1 ++ cs2 := by
    intro hmem
    have h1 := (List.nodup_append.mp hnd).2.2
    have h2 := (List.nodup_cons.mp (List.nodup_append.mp hnd).2.1).1
    rcases List.mem_append.mp hmem with h | h
    · exact h1 h (by simp)
    · exact h2 h
  have hnnot : n ∉ cs1 ++ x :: cs2 := by rw [← hcs]; exact hn
  constructor
  · rw [hnode]; exact hP.max_keys
  · rw [hnode]; exact hP.min_keys
  · rw [hnode]; exact hP.num_keys
  · rw [hnode]
    rw [hks] at hsz
    by_cases h : (ks1 ++ s :: ks2).length ≤ m
    · exact Or.inl h
    · refine Or.inr ⟨rfl, ?_⟩
      simp only [List.length_append, List.length_cons] at h hsz ⊢
      omega
  · rw [hnode]
    show 1 ≤ (ks1 ++ s :: ks2).length
    simp only [List.length_append, List.length_cons]
    omega
  · rw [hnode]
    show (ks1 ++ s :: ks2).Pairwise (· < ·)
    obtain ⟨s1, s2, s3⟩ := List.pairwise_append.mp hsorted
    refine List.pairwise_append.mpr ⟨s1, List.pairwise_cons.mpr ⟨hlt2, s2⟩, fun a ha b hb => ?_⟩
    rcases List.mem_cons.mp hb with rfl | hb
    · exact hlt1 a ha
    · exact s3 a ha b hb
  · rw [hnode, hlo, hhi]
    show ∀ k ∈ ks1 ++ s :: ks2, _
    intro k hk1
    have hold := hP.range
    rw [hks] at hold
    rcases List.mem_append.mp hk1 with h | h
    · exact hold k (List.mem_append.mpr (Or.inl h))
    · rcases List.mem_cons.mp h with rfl | h
      · have hkk : Kids (ChildOK heap g p) (deref heap p).pointers (deref heap p).keys
            (g.lo p) (g.hi p) := by rw [hcs]; exact hk
        obtain ⟨a, b, hc, hnest⟩ := Kids.lo_nested _ _ _ _ hkk hP.sorted
          (fun k1 hk1 => (hP.range k1 hk1).1) x hx
        obtain ⟨a2, b2, hc2, hnest2⟩ := Kids.hi_nested _ _ _ _ hkk hP.sorted
          (fun k1 hk1 => (hP.range k1 hk1).2) x hx
        refine ⟨hnest k ?_, hnest2 k ?_⟩
        · rw [← hc.fun_of.1]
          intro a1 ha1
          exact le_of_lt (hslo a1 ha1)
        · rw [← hc2.fun_of.2]
          exact hshi
      · exact hold k (List.mem_append.mpr (Or.inr h))
  · exact hlevel
  · rw [hnode]; exact hroot
  · rw [hnode]; exact hparent
  · rw [hnode]
    intro h
    rw [hint] at h
    cases h
  · rw [hnode, hlo, hhi]
    intro _
    refine ⟨?_, ?_⟩
    · show (cs1 ++ x :: n :: cs2).Nodup
      have : (cs1 ++ x :: n :: cs2).Perm (n :: (cs1 ++ x :: cs2)) := by
        have h1 : (x :: n :: cs2).Perm (n :: x :: cs2) := List.Perm.swap n x cs2
        exact ((List.Perm.append_left cs1 h1).trans List.perm_middle)
      rw [this.nodup_iff]
      exact List.nodup_cons.mpr ⟨hnnot, hnd⟩
    · show Kids _ (cs1 ++ x :: n :: cs2) (ks1 ++ s :: ks2) _ _
      apply hre (ChildOK heap1 g1 p) s n
      · intro c hc a b hab
        have hcx : c ≠ x := fun e => hxnot (e ▸ hc)
        refine hkids c ?_ hcx a b hab
        rw [hcs]
        rcases List.mem_append.mp hc with h | h
        · exact List.mem_append.mpr (Or.inl h)
        · exact List.mem_append.mpr (Or.inr (List.mem_cons_of_mem _ h))
      · rw [← e1]; exact hxok
      · rw [← e2]; exact hnok

/-- The new root that a split puts above the split node `x` and the new node `n`. -/
theorem new_root_ok {m : Nat} {heap1 : List Node} {g1 : Ghost} (ov1 : Option Nat)
    (root x n : Nat) (s : Int) (hm : 1 ≤ m)
    (hnode : deref heap1 root = { InternalNode m with keys := [s], pointers := [x, n] })
    (hxn : x ≠ n) (hx : ChildOK heap1 g1 root x none (some s))
    (hn : ChildOK heap1 g1 root n (some s) none) (hlo : g1.lo root = none)
    (hhi : g1.hi root = none) : NodeOK m heap1 root ov1 g1 root := by
  constructor
  · rw [hnode]; rfl
  · rw [hnode]; rfl
  · rw [hnode]; rfl
  · rw [hnode]; exact Or.inl hm
  · rw [hnode]; exact le_refl _
  · rw [hnode]; exact List.pairwise_singleton _ _
  · rw [hlo, hhi]
    intro k _
    exact ⟨loLe_none k, ltHi_none k⟩
  · exact le_refl _
  · intro _; rfl
  · rw [hnode]
    intro p hp
    cases hp
  · rw [hnode]
    intro h
    cases h
  · rw [hnode, hlo, hhi]
    intro _
    refine ⟨?_, x, [n], rfl, hx, n, rfl, hn⟩
    show [x, n].Nodup
    simp [hxn]

/-! ### The two halves of a split leaf -/

theorem head_drop_lt_of_sorted (keys : List Int) (mid : Nat) (s : Int)
    (hs : keys.Pairwise (· < ·)) (hd : (keys.drop mid).head? = some s) :
    (∀ k ∈ keys.take mid, k < s) ∧ ∀ k ∈ keys.drop mid, s ≤ k := by
  have h := List.take_append_drop mid keys
  rw [← h] at hs
  obtain ⟨_, s2, s3⟩ := List.pairwise_append.mp hs
  have hmem : s ∈ keys.drop mid := List.mem_of_mem_head? hd
  refine ⟨fun k hk => s3 k hk s hmem, fun k hk => ?_⟩
  cases hdr : keys.drop mid with
  | nil => rw [hdr] at hk; cases hk
  | cons x xs =>
    rw [hdr] at hd hk s2
    simp only [List.head?_cons, Option.some.injEq] at hd
    subst hd
    rcases List.mem_cons.mp hk with rfl | hk
    · exact le_refl _
    · exact le_of_lt ((List.pairwise_cons.mp s2).1 k hk)

/-- The leaf that `split_leaf_node` cuts down to its first `mid` entries. -/
theorem leaf_left_ok {m : Nat} {heap : List Node} {r : Nat} {ov : Option Nat} {g : Ghost}
    {l : Nat} (hL : NodeOK m heap r ov g l) (hleaf : (deref heap l).is_leaf = true)
    (mid : Nat) (h1 : 1 ≤ mid) (h2 : mid ≤ m) (hlen : mid ≤ (deref heap l).keys.length) (s : Int)
    (hs : ((deref heap l).keys.drop mid).head? = some s)
    (heap1 : List Node) (r1 : Nat) (ov1 : Option Nat) (g1 : Ghost) (n : Nat) (par : Option Nat)
    (hnode : deref heap1 l = { deref heap l with
      keys := (deref heap l).keys.take mid, values := (deref heap l).values.take mid
      next := some n, parent := par })
    (hlvl : g1.lvl l = g.lvl l) (hlo : g1.lo l = g.lo l) (hhi : g1.hi l = some s)
    (hn : n < heap1.length ∧ (deref heap1 n).is_leaf = true ∧ g1.lo n = some s)
    (hlevel : g1.lvl l ≤ g1.lvl r1)
    (hroot : par = none → l = r1)
    (hparent : ∀ p, par = some p →
      p < heap1.length ∧ l ∈ (deref heap1 p).pointers ∧ (deref heap1 p).is_leaf = false) :
    NodeOK m heap1 r1 ov1 g1 l := by
  obtain ⟨l1, l2, l3, l4, _⟩ := hL.leaf hleaf
  obtain ⟨hlt, _⟩ := head_drop_lt_of_sorted _ mid s hL.sorted hs
  constructor
  · rw [hnode]; exact hL.max_keys
  · rw [hnode]; exact hL.min_keys
  · rw [hnode]; exact hL.num_keys
  · rw [hnode]
    left
    simp only [List.length_take]
    omega
  · rw [hnode]
    simp only [List.length_take]
    omega
  · rw [hnode]
    exact hL.sorted.sublist (List.take_sublist _ _)
  · rw [hnode, hlo, hhi]
    intro k hk
    refine ⟨(hL.range k (List.mem_of_mem_take hk)).1, fun b hb => ?_⟩
    cases hb
    exact hlt k hk
  · exact hlevel
  · rw [hnode]; exact hroot
  · rw [hnode]; exact hparent
  · rw [hnode, hlvl, hlo, hhi]
    intro _
    refine ⟨l1, l2, by simp only [List.length_take, l3], ?_, n, rfl, hn⟩
    intro a ha
    have := l4 a ha
    cases hk : (deref heap l).keys with
    | nil => rw [hk] at this; cases this
    | cons x xs =>
      rw [hk] at this
      obtain ⟨mid, rfl⟩ : ∃ k, mid = k + 1 := ⟨mid - 1, by omega⟩
      simpa using this
  · rw [hnode]
    intro h
    rw [hleaf] at h
    cases h

/-- The new leaf that `split_leaf_node` fills with the entries from `mid` on. -/
theorem leaf_right_ok {m : Nat} {heap : List Node} {r : Nat} {ov : Option Nat} {g : Ghost}
    {l : Nat} (hL : NodeOK m heap r ov g l) (hleaf : (deref heap l).is_leaf = true)
    (mid : Nat) (h1 : 1 ≤ mid) (hsz : (deref heap l).keys.length ≤ m + 1)
    (hlen : mid < (deref heap l).keys.length) (s : Int)
    (hs : ((deref heap l).keys.drop mid).head? = some s)
    (heap1 : List Node) (r1 : Nat) (ov1 : Option Nat) (g1 : Ghost) (n par : Nat)
    (hnode : deref heap1 n = { LeafNode m with
      keys := (deref heap l).keys.drop mid, values := (deref heap l).values.drop mid
      next := (deref heap l).next, parent := some par })
    (hlvl : g1.lvl n = 0) (hlo : g1.lo n = some s) (hhi : g1.hi n = g.hi l)
    (hext : Ext heap g heap1 g1)
    (hparent : par < heap1.length ∧ n ∈ (deref heap1 par).pointers
      ∧ (deref heap1 par).is_leaf = false) :
    NodeOK m heap1 r1 ov1 g1 n := by
  obtain ⟨_, _, l3, _, l5⟩ := hL.leaf hleaf
  obtain ⟨_, hge⟩ := head_drop_lt_of_sorted _ mid s hL.sorted hs
  constructor
  · rw [hnode]; rfl
  · rw [hnode]; rfl
  · rw [hnode]; rfl
  · rw [hnode]
    left
    simp only [List.length_drop]
    omega
  · rw [hnode]
    simp only [List.length_drop]
    omega
  · rw [hnode]
    exact hL.sorted.sublist (List.drop_sublist _ _)
  · rw [hnode, hlo, hhi]
    intro k hk
    refine ⟨fun a ha => ?_, (hL.range k (List.mem_of_mem_drop hk)).2⟩
    cases ha
    exact hge k hk
  · rw [hlvl]; exact Nat.zero_le _
  · rw [hnode]
    intro h
    cases h
  · rw [hnode]
    intro p hp
    cases hp
    exact hparent
  · rw [hnode, hlvl, hlo, hhi]
    intro _
    refine ⟨rfl, rfl, by simp only [List.length_drop, l3], ?_, l5.next_ext hext⟩
    intro a ha
    cases ha
    exact hs
  · rw [hnode]
    intro h
    cases h

/-! ### The arena after each path through the split code -/

theorem deref_upd_lt (heap : List Node) (p q : Nat) (f : Node → Node) (h : p < heap.length) :
    deref (upd heap p f) q = if q = p then f (deref heap p) else deref heap q := by
  rw [deref_upd]
  simp only [h, and_true]

theorem deref_append_singleton (heap : List Node) (n : Node) (q : Nat) :
    deref (heap ++ [n]) q = if q = heap.length then n else deref heap q := by
  split
  · next h => rw [h, deref_append_length]
  · next h =>
    by_cases hq : q < heap.length
    · exact deref_append_lt _ _ _ hq
    · rw [deref_ge heap q (by omega), deref_ge _ q (by simp; omega)]

theorem rd_zero_head {α : Type} (v : List α) (a : α) (h : rd v 0 = .ok a) : v.head? = some a := by
  cases v with
  | nil => simp [rd] at h
  | cons x xs =>
    simp only [rd_cons_zero, Except.ok.injEq] at h
    simp [h]

theorem deref_insert_into_internal_node (t : BPlusTree) (parent child : Nat) (key : Int) (q : Nat)
    (hp : parent < t.heap.length) (hc : child < t.heap.length) (hne : child ≠ parent) :
    deref (insert_into_internal_node t parent key child).heap q =
      if q = child then { deref t.heap child with parent := some parent }
      else if q = parent then
        { deref t.heap parent with
          keys := insertAt (deref t.heap parent).keys (lower_bound (deref t.heap parent).keys key) key
          pointers := insertAt (deref t.heap parent).pointers
            (lower_bound (deref t.heap parent).keys key + 1) child }
      else deref t.heap q := by
  simp only [insert_into_internal_node]
  rw [deref_upd_lt _ _ _ _ (by rw [length_upd]; exact hc)]
  by_cases h1 : q = child
  · subst h1
    simp only [if_true]
    rw [deref_upd_lt _ _ _ _ hp, if_neg hne]
  · simp only [h1, if_false]
    rw [deref_upd_lt _ _ _ _ hp]

theorem length_insert_into_internal_node (t : BPlusTree) (parent child : Nat) (key : Int) :
    (insert_into_internal_node t parent key child).heap.length = t.heap.length := by
  simp only [insert_into_internal_node, length_upd]

/-- Path of `split_leaf_node` for a leaf with a parent, up to the closing loop. -/
theorem split_leaf_node_nonroot (t : BPlusTree) (l p : Nat) (s : Int) (hl : l < t.heap.length)
    (hp : p < t.heap.length) (hpl : p ≠ l) (hpar : (deref t.heap l).parent = some p)
    (hs : rd ((deref t.heap l).keys.drop (t.order.tdiv 2).toNat) 0 = .ok s) :
    ∃ t1, split_leaf_node t l
        = split_loop (split_internal_node t1.heap.length) (t1.heap.length + 1) t1 p
      ∧ t1.order = t.order ∧ t1.root = t.root ∧ t1.heap.length = t.heap.length + 1
      ∧ ∀ q, deref t1.heap q =
          if q = t.heap.length then
            { LeafNode t.order with
              keys := (deref t.heap l).keys.drop (t.order.tdiv 2).toNat
              values := (deref t.heap l).values.drop (t.order.tdiv 2).toNat
              next := (deref t.heap l).next, parent := some p }
          else if q = l then
            { deref t.heap l with
              keys := (deref t.heap l).keys.take (t.order.tdiv 2).toNat
              values := (deref t.heap l).values.take (t.order.tdiv 2).toNat
              next := some t.heap.length }
          else if q = p then
            { deref t.heap p with
              keys := insertAt (deref t.heap p).keys (lower_bound (deref t.heap p).keys s) s
              pointers := insertAt (deref t.heap p).pointers
                (lower_bound (deref t.heap p).keys s + 1) t.heap.length }
          else deref t.heap q := by
  have hlen1 : (t.heap ++ [({ LeafNode t.order with
      keys := (deref t.heap l).keys.drop (t.order.tdiv 2).toNat
      values := (deref t.heap l).values.drop (t.order.tdiv 2).toNat
      next := (deref t.heap l).next } : Node)]).length = t.heap.length + 1 := by simp
  have hl1 : l < (t.heap ++ [({ LeafNode t.order with
      keys := (deref t.heap l).keys.drop (t.order.tdiv 2).toNat
      values := (deref t.heap l).values.drop (t.order.tdiv 2).toNat
      next := (deref t.heap l).next } : Node)]).length := by rw [hlen1]; omega
  have hd2 : ∀ q, deref (upd (t.heap ++ [({ LeafNode t.order with
      keys := (deref t.heap l).keys.drop (t.order.tdiv 2).toNat
      values := (deref t.heap l).values.drop (t.order.tdiv 2).toNat
      next := (deref t.heap l).next } : Node)]) l fun n =>
        { n with keys := n.keys.take (t.order.tdiv 2).toNat
                 values := n.values.take (t.order.tdiv 2).toNat
                 next := some t.heap.length }) q =
        if q = l then
          { deref t.heap l with
            keys := (deref t.heap l).keys.take (t.order.tdiv 2).toNat
            values := (deref t.heap l).values.take (t.order.tdiv 2).toNat
            next := some t.heap.length }
        else if q = t.heap.length then
          { LeafNode t.order with
            keys := (deref t.heap l).keys.drop (t.order.tdiv 2).toNat
            values := (deref t.heap l).values.drop (t.order.tdiv 2).toNat
            next := (deref t.heap l).next }
        else deref t.heap q := by
    intro q
    rw [deref_upd_lt _ _ _ _ hl1, deref_append_singleton, deref_append_singleton,
      if_neg (show l ≠ t.heap.length by omega)]
  have hnl := hd2 t.heap.length
  rw [if_neg (show t.heap.length ≠ l by omega), if_pos rfl] at hnl
  have hll := hd2 l
  rw [if_pos rfl] at hll
  have hpp := hd2 p
  rw [if_neg hpl, if_neg (show p ≠ t.heap.length by omega)] at hpp
  refine ⟨insert_into_internal_node { t with heap := upd (t.heap ++ [({ LeafNode t.order with
      keys := (deref t.heap l).keys.drop (t.order.tdiv 2).toNat
      values := (deref t.heap l).values.drop (t.order.tdiv 2).toNat
      next := (deref t.heap l).next } : Node)]) l fun n =>
        { n with keys := n.keys.take (t.order.tdiv 2).toNat
                 values := n.values.take (t.order.tdiv 2).toNat
                 next := some t.heap.length } } p s t.heap.length, ?_, rfl, rfl, ?_, ?_⟩
  · simp only [split_leaf_node, hnl, hll, hs, hpar]
  · rw [length_insert_into_internal_node]
    simp [length_upd]
  · intro q
    rw [deref_insert_into_internal_node _ _ _ _ _ (by simp [length_upd]; omega)
      (by simp [length_upd]) (by omega)]
    simp only [hnl, hpp, hd2]
    by_cases h1 : q = t.heap.length
    · simp only [h1, if_true]
    · simp only [h1, if_false]
      by_cases h2 : q = l
      · subst h2
        simp only [if_true, if_neg (Ne.symm hpl)]
      · simp only [h2, if_false]

/-- Path of `split_leaf_node` for a leaf without parent: a new root is put above the two
leaves. -/
theorem split_leaf_node_root (t : BPlusTree) (l : Nat) (s : Int) (hl : l < t.heap.length)
    (hpar : (deref t.heap l).parent = none)
    (hs : rd ((deref t.heap l).keys.drop (t.order.tdiv 2).toNat) 0 = .ok s) :
    ∃ t1, split_leaf_node t l = .ok t1
      ∧ t1.order = t.order ∧ t1.root = some (t.heap.length + 1)
      ∧ t1.heap.length = t.heap.length + 2
      ∧ ∀ q, deref t1.heap q =
          if q = t.heap.length + 1 then
            { InternalNode t.order with keys := [s], pointers := [l, t.heap.length] }
          else if q = t.heap.length then
            { LeafNode t.order with
              keys := (deref t.heap l).keys.drop (t.order.tdiv 2).toNat
              values := (deref t.heap l).values.drop (t.order.tdiv 2).toNat
              next := (deref t.heap l).next, parent := some (t.heap.length + 1) }
          else if q = l then
            { deref t.heap l with
              keys := (deref t.heap l).keys.take (t.order.tdiv 2).toNat
              values := (deref t.heap l).values.take (t.order.tdiv 2).toNat
              next := some t.heap.length, parent := some (t.heap.length + 1) }
          else deref t.heap q := by
  have hlen1 : (t.heap ++ [({ LeafNode t.order with
      keys := (deref t.heap l).keys.drop (t.order.tdiv 2).toNat
      values := (deref t.heap l).values.drop (t.order.tdiv 2).toNat
      next := (deref t.heap l).next } : Node)]).length = t.heap.length + 1 := by simp
  have hl1 : l < (t.heap ++ [({ LeafNode t.order with
      keys := (deref t.heap l).keys.drop (t.order.tdiv 2).toNat
      values := (deref t.heap l).values.drop (t.order.tdiv 2).toNat
      next := (deref t.heap l).next } : Node)]).length := by rw [hlen1]; omega
  have hd2 : ∀ q, deref (upd (t.heap ++ [({ LeafNode t.order with
      keys := (deref t.heap l).keys.drop (t.order.tdiv 2).toNat
      values := (deref t.heap l).values.drop (t.order.tdiv 2).toNat
      next := (deref t.heap l).next } : Node)]) l fun n =>
        { n with keys := n.keys.take (t.order.tdiv 2).toNat
                 values := n.values.take (t.order.tdiv 2).toNat
                 next := some t.heap.length }) q =
        if q = l then
          { deref t.heap l with
            keys := (deref t.heap l).keys.take (t.order.tdiv 2).toNat
            values := (deref t.heap l).values.take (t.order.tdiv 2).toNat
            next := some t.heap.length }
        else if q = t.heap.length then
          { LeafNode t.order with
            keys := (deref t.heap l).keys.drop (t.order.tdiv 2).toNat
            values := (deref t.heap l).values.drop (t.order.tdiv 2).toNat
            next := (deref t.heap l).next }
        else deref t.heap q := by
    intro q
    rw [deref_upd_lt _ _ _ _ hl1, deref_append_singleton, deref_append_singleton,
      if_neg (show l ≠ t.heap.length by omega)]
  have hnl := hd2 t.heap.length
  rw [if_neg (show t.heap.length ≠ l by omega), if_pos rfl] at hnl
  have hll := hd2 l
  rw [if_pos rfl] at hll
  have hlen2 : (upd (t.heap ++ [({ LeafNode t.order with
      keys := (deref t.heap l).keys.drop (t.order.tdiv 2).toNat
      values := (deref t.heap l).values.drop (t.order.tdiv 2).toNat
      next := (deref t.heap l).next } : Node)]) l fun n =>
        { n with keys := n.keys.take (t.order.tdiv 2).toNat
                 values := n.values.take (t.order.tdiv 2).toNat
                 next := some t.heap.length }).length = t.heap.length + 1 := by
    rw [length_upd, hlen1]
  simp only [split_leaf_node, hnl, hll, hs, hpar]
  refine ⟨_, rfl, rfl, ?_, ?_, ?_⟩
  · simp only [hlen2]
  · simp only [length_upd, List.length_append, List.length_singleton, hlen2]
  · intro q
    simp only [hlen2]
    rw [deref_upd_lt _ _ _ _ (by
      simp only [length_upd, List.length_append, hlen2, List.length_singleton]
      omega)]
    rw [deref_upd_lt _ _ _ _ (by
      simp only [List.length_append, hlen2, List.length_singleton]
      omega)]
    rw [deref_upd_lt _ _ _ _ (by
      simp only [List.length_append, hlen2, List.length_singleton]
      omega)]
    simp only [deref_append_singleton, hlen2, hd2]
    by_cases h1 : q = t.heap.length + 1
    · subst h1
      simp only [if_true]
      rw [if_neg (by omega), if_neg (by omega)]
    · simp only [h1, if_false]
      by_cases h2 : q = t.heap.length
      · subst h2
        simp only [if_true]
        rw [if_neg (show t.heap.length ≠ l by omega), if_neg (by omega), if_neg (by omega)]
      · simp only [h2, if_false]
        by_cases h3 : q = l
        · subst h3
          simp only [if_true]
          rw [if_neg (by omega)]
        · simp only [h3, if_false]

/-- The arena after the first half of `split_internal_node`: the new node `nn` is allocated,
the node `x` is cut down by `f`, and the children of `nn` name it as their parent. -/
theorem deref_split_internal (heap : List Node) (x : Nat) (nn : Node) (f : Node → Node)
    (hx : x < heap.length) (hps : ∀ c ∈ nn.pointers, c < heap.length ∧ c ≠ x) (q : Nat) :
    deref (reparent (upd (heap ++ [nn]) x f)
        (deref (upd (heap ++ [nn]) x f) heap.length).pointers heap.length) q
      = if q = heap.length then nn
        else if q = x then f (deref heap x)
        else if q ∈ nn.pointers then { deref heap q with parent := some heap.length }
        else deref heap q := by
  have hx1 : x < (heap ++ [nn]).length := by simp; omega
  have hd2 : ∀ q, deref (upd (heap ++ [nn]) x f) q
      = if q = x then f (deref heap x) else if q = heap.length then nn else deref heap q := by
    intro q
    rw [deref_upd_lt _ _ _ _ hx1, deref_append_singleton, deref_append_singleton,
      if_neg (show x ≠ heap.length by omega)]
  have hnn : deref (upd (heap ++ [nn]) x f) heap.length = nn := by
    rw [hd2, if_neg (show heap.length ≠ x by omega), if_pos rfl]
  rw [hnn, deref_reparent, hd2, length_upd]
  by_cases h1 : q = heap.length
  · subst h1
    have : heap.length ∉ nn.pointers := fun h => absurd (hps _ h).1 (lt_irrefl _)
    simp only [this, false_and, if_false, if_true]
    rw [if_neg (show heap.length ≠ x by omega)]
  · simp only [h1, if_false]
    by_cases h2 : q = x
    · subst h2
      have : q ∉ nn.pointers := fun h => (hps _ h).2 rfl
      simp only [this, false_and, if_false, if_true]
    · simp only [h2, if_false]
      by_cases h3 : q ∈ nn.pointers
      · have : q < (heap ++ [nn]).length := by
          have := (hps q h3).1
          simp
          omega
        simp only [h3, this, and_self, if_true]
      · simp only [h3, false_and, if_false]

theorem length_split_internal (heap : List Node) (x : Nat) (nn : Node) (f : Node → Node)
    (cs : List Nat) (p : Nat) :
    (reparent (upd (heap ++ [nn]) x f) cs p).length = heap.length + 1 := by
  rw [length_reparent, length_upd]
  simp

/-- Path of `split_internal_node` for a node with a parent, up to the closing loop. -/
theorem split_internal_node_nonroot (fuel : Nat) (t : BPlusTree) (x p : Nat) (s : Int)
    (hx : x < t.heap.length) (hp : p < t.heap.length) (hpx : p ≠ x)
    (hpar : (deref t.heap x).parent = some p)
    (hps : ∀ c ∈ (deref t.heap x).pointers, c < t.heap.length ∧ c ≠ x ∧ c ≠ p)
    (hs : rd (deref t.heap x).keys (t.order.tdiv 2).toNat = .ok s) :
    ∃ t1, split_internal_node (fuel + 1) t x
        = split_loop (split_internal_node fuel) (fuel + 1) t1 p
      ∧ t1.order = t.order ∧ t1.root = t.root ∧ t1.heap.length = t.heap.length + 1
      ∧ ∀ q, deref t1.heap q =
          if q = t.heap.length then
            { InternalNode t.order with
              keys := (deref t.heap x).keys.drop ((t.order.tdiv 2).toNat + 1)
              pointers := (deref t.heap x).pointers.drop ((t.order.tdiv 2).toNat + 1)
              parent := some p }
          else if q = x then
            { deref t.heap x with
              keys := (deref t.heap x).keys.take (t.order.tdiv 2).toNat
              pointers := (deref t.heap x).pointers.take ((t.order.tdiv 2).toNat + 1) }
          else if q = p then
            { deref t.heap p with
              keys := insertAt (deref t.heap p).keys (lower_bound (deref t.heap p).keys s) s
              pointers := insertAt (deref t.heap p).pointers
                (lower_bound (deref t.heap p).keys s + 1) t.heap.length }
          else if q ∈ (deref t.heap x).pointers.drop ((t.order.tdiv 2).toNat + 1) then
            { deref t.heap q with parent := some t.heap.length }
          else deref t.heap q := by
  have hps1 : ∀ c ∈ (deref t.heap x).pointers.drop ((t.order.tdiv 2).toNat + 1),
      c < t.heap.length ∧ c ≠ x := fun c hc =>
    ⟨(hps c (List.mem_of_mem_drop hc)).1, (hps c (List.mem_of_mem_drop hc)).2.1⟩
  have hd3 := deref_split_internal t.heap x
    { InternalNode t.order with
      keys := (deref t.heap x).keys.drop ((t.order.tdiv 2).toNat + 1)
      pointers := (deref t.heap x).pointers.drop ((t.order.tdiv 2).toNat + 1) }
    (fun n => { n with keys := n.keys.take (t.order.tdiv 2).toNat
                       pointers := n.pointers.take ((t.order.tdiv 2).toNat + 1) }) hx hps1
  have hl3 := length_split_internal t.heap x
    { InternalNode t.order with
      keys := (deref t.heap x).keys.drop ((t.order.tdiv 2).toNat + 1)
      pointers := (deref t.heap x).pointers.drop ((t.order.tdiv 2).toNat + 1) }
    (fun n => { n with keys := n.keys.take (t.order.tdiv 2).toNat
                       pointers := n.pointers.take ((t.order.tdiv 2).toNat + 1) })
  have hxx := hd3 x
  rw [if_neg (show x ≠ t.heap.length by omega), if_pos rfl] at hxx
  have hpp := hd3 p
  have hpnot : p ∉ (deref t.heap x).pointers.drop ((t.order.tdiv 2).toNat + 1) := fun h =>
    (hps p (List.mem_of_mem_drop h)).2.2 rfl
  rw [if_neg (show p ≠ t.heap.length by omega), if_neg hpx, if_neg hpnot] at hpp
  have hnn := hd3 t.heap.length
  rw [if_pos rfl] at hnn
  simp only [split_internal_node, hs, hxx, hpar]
  refine ⟨_, rfl, rfl, rfl, ?_, ?_⟩
  · rw [length_insert_into_internal_node]
    exact hl3 _ _
  · intro q
    rw [deref_insert_into_internal_node _ _ _ _ _ (by rw [hl3]; omega) (by rw [hl3]; omega)
      (by omega)]
    simp only [hnn, hpp, hd3]
    by_cases h1 : q = t.heap.length
    · simp only [h1, if_true]
    · simp only [h1, if_false]
      by_cases h2 : q = p
      · subst h2
        simp only [if_true, if_neg hpx]
      · simp only [h2, if_false]
        by_cases h3 : q = x
        · simp only [h3, if_true]
          rw [hpar]
        · simp only [h3, if_false]

/-- The arena after a new root `nr` has been allocated and the two halves `x` and `n` of the
split node have been given their parent. -/
theorem deref_new_root (heap : List Node) (x n : Nat) (nr : Node) (fx fn : Node → Node)
    (hx : x < heap.length) (hn : n < heap.length) (hxn : x ≠ n) (q : Nat) :
    deref (upd (upd (heap ++ [nr]) x fx) n fn) q
      = if q = heap.length then nr
        else if q = n then fn (deref heap n)
        else if q = x then fx (deref heap x)
        else deref heap q := by
  have e1 : x < (heap ++ [nr]).length := by simp; omega
  have e2 : n < (upd (heap ++ [nr]) x fx).length := by rw [length_upd]; simp; omega
  rw [deref_upd_lt _ _ _ _ e2]
  by_cases h1 : q = heap.length
  · subst h1
    rw [if_neg (by omega), if_pos rfl, deref_upd_lt _ _ _ _ e1, if_neg (by omega),
      deref_append_length]
  · rw [if_neg h1]
    by_cases h2 : q = n
    · subst h2
      rw [if_pos rfl, if_pos rfl, deref_upd_lt _ _ _ _ e1, if_neg (Ne.symm hxn),
        deref_append_lt _ _ _ hn]
    · rw [if_neg h2, if_neg h2, deref_upd_lt _ _ _ _ e1]
      by_cases h3 : q = x
      · subst h3
        rw [if_pos rfl, if_pos rfl, deref_append_lt _ _ _ hx]
      · rw [if_neg h3, if_neg h3, deref_append_singleton, if_neg h1]

/-- Path of `split_internal_node` for the root: a new root is put above the two halves. -/
theorem split_internal_node_root (fuel : Nat) (t : BPlusTree) (x : Nat) (s : Int)
    (hx : x < t.heap.length) (hpar : (deref t.heap x).parent = none)
    (hps : ∀ c ∈ (deref t.heap x).pointers, c < t.heap.length ∧ c ≠ x)
    (hs : rd (deref t.heap x).keys (t.order.tdiv 2).toNat = .ok s) :
    ∃ t1, split_internal_node (fuel + 1) t x = .ok t1
      ∧ t1.order = t.order ∧ t1.root = some (t.heap.length + 1)
      ∧ t1.heap.length = t.heap.length + 2
      ∧ ∀ q, deref t1.heap q =
          if q = t.heap.length + 1 then
            { InternalNode t.order with keys := [s], pointers := [x, t.heap.length] }
          else if q = t.heap.length then
            { InternalNode t.order with
              keys := (deref t.heap x).keys.drop ((t.order.tdiv 2).toNat + 1)
              pointers := (deref t.heap x).pointers.drop ((t.order.tdiv 2).toNat + 1)
              parent := some (t.heap.length + 1) }
          else if q = x then
            { deref t.heap x with
              keys := (deref t.heap x).keys.take (t.order.tdiv 2).toNat
              pointers := (deref t.heap x).pointers.take ((t.order.tdiv 2).toNat + 1)
              parent := some (t.heap.length + 1) }
          else if q ∈ (deref t.heap x).pointers.drop ((t.order.tdiv 2).toNat + 1) then
            { deref t.heap q with parent := some t.heap.length }
          else deref t.heap q := by
  have hps1 : ∀ c ∈ (deref t.heap x).pointers.drop ((t.order.tdiv 2).toNat + 1),
      c < t.heap.length ∧ c ≠ x := fun c hc => hps c (List.mem_of_mem_drop hc)
  have hd3 := deref_split_internal t.heap x
    { InternalNode t.order with
      keys := (deref t.heap x).keys.drop ((t.order.tdiv 2).toNat + 1)
      pointers := (deref t.heap x).pointers.drop ((t.order.tdiv 2).toNat + 1) }
    (fun n => { n with keys := n.keys.take (t.order.tdiv 2).toNat
                       pointers := n.pointers.take ((t.order.tdiv 2).toNat + 1) }) hx hps1
  have hl3 := length_split_internal t.heap x
    { InternalNode t.order with
      keys := (deref t.heap x).keys.drop ((t.order.tdiv 2).toNat + 1)
      pointers := (deref t.heap x).pointers.drop ((t.order.tdiv 2).toNat + 1) }
    (fun n => { n with keys := n.keys.take (t.order.tdiv 2).toNat
                       pointers := n.pointers.take ((t.order.tdiv 2).toNat + 1) })
  have hxx := hd3 x
  rw [if_neg (show x ≠ t.heap.length by omega), if_pos rfl] at hxx
  simp only [split_internal_node, hs, hxx, hpar]
  refine ⟨_, rfl, rfl, ?_, ?_, ?_⟩
  · simp only [hl3]
  · simp only [length_upd, List.length_append, List.length_singleton, hl3]
  · intro q
    rw [deref_new_root _ _ _ _ _ _ (by rw [hl3]; omega) (by rw [hl3]; omega) (by omega)]
    simp only [hl3, hd3]
    by_cases h1 : q = t.heap.length + 1
    · simp only [h1, if_true]
    · simp only [h1, if_false]
      by_cases h2 : q = t.heap.length
      · simp only [h2, if_true]
      · simp only [h2, if_false]
        by_cases h3 : q = x
        · subst h3
          simp only [if_true]
          rw [if_neg (by omega), hpar]
        · simp only [h3, if_false]

/-! ### The invariant across the split of a leaf -/

theorem setAt_same {α : Type} (f : Nat → α) (i : Nat) (a : α) : setAt f i a i = a := by
  simp [setAt]

theorem setAt_ne {α : Type} (f : Nat → α) (i : Nat) (a : α) (q : Nat) (h : q ≠ i) :
    setAt f i a q = f q := by
  simp [setAt, h]

theorem tdiv_two_toNat (m : Nat) : ((m : Int).tdiv 2).toNat = m / 2 := by
  have : (m : Int).tdiv 2 = ((m / 2 : Nat) : Int) := by
    rw [Int.tdiv_eq_ediv (by omega) (by omega)]
    simp
  rw [this]
  exact Int.toNat_natCast _

theorem mem_zip_take_or_drop (ks vs : List Int) (n : Nat) (p : Int × Int) :
    p ∈ ks.zip vs ↔ p ∈ (ks.take n).zip (vs.take n) ∨ p ∈ (ks.drop n).zip (vs.drop n) := by
  have h1 : (ks.take n).zip (vs.take n) = (ks.zip vs).take n := by
    simp only [List.zip, List.take_zipWith]
  have h2 : (ks.drop n).zip (vs.drop n) = (ks.zip vs).drop n := by
    simp only [List.zip, List.drop_zipWith]
  rw [h1, h2, ← List.mem_append, List.take_append_drop]

theorem InvG.child_lt {m : Nat} {t : BPlusTree} {r : Nat} {ov : Option Nat}
    {kvs : List (Int × Int)} {g : Ghost} (hinv : InvG m t r ov kvs g) (i c : Nat)
    (hi : i < t.heap.length) (hc : c ∈ (deref t.heap i).pointers) :
    (deref t.heap i).is_leaf = false ∧ ∃ a b, ChildOK t.heap g i c a b := by
  have hn := hinv.nodes i hi
  cases hl : (deref t.heap i).is_leaf with
  | true =>
    rw [(hn.leaf hl).2.1] at hc
    cases hc
  | false => exact ⟨rfl, Kids.exists_of_mem _ _ _ _ (hn.internal hl).2 c hc⟩

theorem leafSplitGhost_ext (heap heap1 : List Node) (g : Ghost) (l : Nat) (s : Int)
    (hlen : heap.length ≤ heap1.length)
    (hleaf : ∀ j, j < heap.length → (deref heap1 j).is_leaf = (deref heap j).is_leaf) :
    Ext heap g heap1 (leafSplitGhost g l heap.length s) := by
  refine ⟨hlen, fun j hj => ⟨hleaf j hj, ?_, ?_⟩⟩
  · exact setAt_ne _ _ _ _ (by omega)
  · exact setAt_ne _ _ _ _ (by omega)

/-- A node that a split does not touch keeps its local invariant. -/
theorem other_node_ok {m : Nat} {t : BPlusTree} {r : Nat} {ov : Option Nat}
    {kvs : List (Int × Int)} {g : Ghost} (hinv : InvG m t r ov kvs g) (i : Nat)
    (hi : i < t.heap.length) (heap1 : List Node) (r1 : Nat) (ov1 : Option Nat) (g1 : Ghost)
    (hext : Ext t.heap g heap1 g1) (hnode : deref heap1 i = deref t.heap i)
    (hhi : g1.hi i = g.hi i) (hov : ov ≠ some i) (hlevel : g.lvl r ≤ g1.lvl r1)
    (hroot : (deref t.heap i).parent = none → i = r1)
    (hsup : ∀ p, (deref t.heap i).parent = some p → i ∈ (deref heap1 p).pointers)
    (hkids : ∀ c ∈ (deref t.heap i).pointers,
      (deref heap1 c).parent = (deref t.heap c).parent ∧ g1.hi c = g.hi c) :
    NodeOK m heap1 r1 ov1 g1 i := by
  have hn := hinv.nodes i hi
  obtain ⟨_, e2, e3⟩ := hext.2 i hi
  refine hn.transfer heap1 r1 ov1 g1 (deref t.heap i).parent (by rw [hnode]) e3 e2 hhi
    (fun h => absurd h hov) (by rw [e3]; exact le_trans hn.level hlevel) hroot ?_ ?_ ?_
  · intro p hp
    obtain ⟨p1, _, p3⟩ := hn.parent p hp
    exact ⟨lt_of_lt_of_le p1 hext.1, hsup p hp, by rw [(hext.2 p p1).1]; exact p3⟩
  · intro c hc a b hab
    exact hab.child_ext hext (hkids c hc).1 (hkids c hc).2 e3
  · intro _ hnx
    exact hnx.next_ext hext

/-- The pairs stored in the leaves are the same before and after the split of leaf `l` into
itself and the new leaf `n`. -/
theorem stored_leaf_split (heap heap1 : List Node) (l n mid : Nat) (hl : l < heap.length)
    (hlen : heap.length ≤ heap1.length) (hn : n < heap1.length) (hnew : heap.length ≤ n)
    (hleaf : (deref heap l).is_leaf = true)
    (hnl : (deref heap1 n).is_leaf = true
      ∧ (deref heap1 n).keys = (deref heap l).keys.drop mid
      ∧ (deref heap1 n).values = (deref heap l).values.drop mid)
    (hll : (deref heap1 l).is_leaf = true
      ∧ (deref heap1 l).keys = (deref heap l).keys.take mid
      ∧ (deref heap1 l).values = (deref heap l).values.take mid)
    (hold : ∀ q, q < heap.length → q ≠ l → (deref heap1 q).is_leaf = (deref heap q).is_leaf
      ∧ ((deref heap q).is_leaf = true → (deref heap1 q).keys = (deref heap q).keys
        ∧ (deref heap1 q).values = (deref heap q).values))
    (hfresh : ∀ q, heap.length ≤ q → q ≠ n → (deref heap1 q).is_leaf = false) (p : Int × Int) :
    Stored heap1 p ↔ Stored heap p := by
  constructor
  · rintro ⟨i, h1, h2, h3⟩
    by_cases hin : i = n
    · subst hin
      rw [hnl.2.1, hnl.2.2] at h3
      exact ⟨l, hl, hleaf, (mem_zip_take_or_drop _ _ mid p).mpr (Or.inr h3)⟩
    · by_cases hil : i = l
      · subst hil
        rw [hll.2.1, hll.2.2] at h3
        exact ⟨i, hl, hleaf, (mem_zip_take_or_drop _ _ mid p).mpr (Or.inl h3)⟩
      · by_cases hlt : i < heap.length
        · obtain ⟨e1, e2⟩ := hold i hlt hil
          rw [e1] at h2
          obtain ⟨e3, e4⟩ := e2 h2
          rw [e3, e4] at h3
          exact ⟨i, hlt, h2, h3⟩
        · rw [hfresh i (by omega) hin] at h2
          cases h2
  · rintro ⟨i, h1, h2, h3⟩
    by_cases hil : i = l
    · subst hil
      rcases (mem_zip_take_or_drop _ _ mid p).mp h3 with h | h
      · exact ⟨i, lt_of_lt_of_le h1 hlen, hll.1, by rw [hll.2.1, hll.2.2]; exact h⟩
      · exact ⟨n, hn, hnl.1, by rw [hnl.2.1, hnl.2.2]; exact h⟩
    · obtain ⟨e1, e2⟩ := hold i h1 hil
      obtain ⟨e3, e4⟩ := e2 h2
      exact ⟨i, lt_of_lt_of_le h1 hlen, by rw [e1]; exact h2, by rw [e3, e4]; exact h3⟩

/-- The invariant after `split_leaf_node` has split a leaf that has a parent and inserted the new
leaf into the parent, before the closing loop: the parent may hold one key too many. -/
theorem split_leaf_nonroot_inv {m : Nat} {t : BPlusTree} {r : Nat} {kvs : List (Int × Int)}
    {g : Ghost} (hm : 3 ≤ m) (l p : Nat) (hinv : InvG m t r (some l) kvs g)
    (hl : l < t.heap.length) (hleaf : (deref t.heap l).is_leaf = true)
    (hsz : (deref t.heap l).keys.length = m + 1) (hpar : (deref t.heap l).parent = some p) :
    ∃ t1 g1, split_leaf_node t l
        = split_loop (split_internal_node t1.heap.length) (t1.heap.length + 1) t1 p
      ∧ InvG m t1 r (some p) kvs g1 ∧ p < t1.heap.length ∧ (deref t1.heap p).is_leaf = false
      ∧ g1.lvl r = g.lvl r ∧ g1.lvl p = g.lvl p := by
  have hnl := hinv.nodes l hl
  obtain ⟨hp, hlp, hpint⟩ := hnl.parent p hpar
  have hnp := hinv.nodes p hp
  have hpl : p ≠ l := fun e => by rw [e, hleaf] at hpint; cases hpint
  have hmid : (t.order.tdiv 2).toNat = m / 2 := by rw [hinv.order, tdiv_two_toNat]
  have hmid1 : 1 ≤ m / 2 := by omega
  have hmid2 : m / 2 ≤ m := by omega
  obtain ⟨s, hs⟩ : ∃ s, rd ((deref t.heap l).keys.drop (m / 2)) 0 = .ok s :=
    ⟨_, rd_ok _ 0 (by simp only [List.length_drop]; omega)⟩
  have hhead := rd_zero_head _ _ hs
  obtain ⟨t1, heq, hord, hroot, hlen, hd⟩ := split_leaf_node_nonroot t l p s hl hp hpl hpar
    (by rw [hmid]; exact hs)
  rw [hmid, hinv.order] at hd
  obtain ⟨l1, l2, l3, l4, l5⟩ := hnl.leaf hleaf
  obtain ⟨hlt, hge⟩ := head_drop_lt_of_sorted _ (m / 2) s hnl.sorted hhead
  have hsmem : s ∈ (deref t.heap l).keys := List.mem_of_mem_drop (List.mem_of_mem_head? hhead)
  obtain ⟨_, pa, pb, hcl⟩ := hinv.child_lt p l hp hlp
  -- the nodes of the new arena
  have hdn := hd t.heap.length
  rw [if_pos rfl] at hdn
  have hdl := hd l
  rw [if_neg (show l ≠ t.heap.length by omega), if_pos rfl] at hdl
  have hdp := hd p
  rw [if_neg (show p ≠ t.heap.length by omega), if_neg hpl, if_pos rfl] at hdp
  have hdo : ∀ q, q ≠ t.heap.length → q ≠ l → q ≠ p → deref t1.heap q = deref t.heap q := by
    intro q h1 h2 h3
    rw [hd, if_neg h1, if_neg h2, if_neg h3]
  have hparent : ∀ q, q ≠ t.heap.length →
      (deref t1.heap q).parent = (deref t.heap q).parent := by
    intro q h1
    by_cases h2 : q = l
    · rw [h2, hdl]
    · by_cases h3 : q = p
      · rw [h3, hdp]
      · rw [hdo q h1 h2 h3]
  have hisleaf : ∀ q, q < t.heap.length →
      (deref t1.heap q).is_leaf = (deref t.heap q).is_leaf := by
    intro q h1
    by_cases h2 : q = l
    · rw [h2, hdl]
    · by_cases h3 : q = p
      · rw [h3, hdp]
      · rw [hdo q (by omega) h2 h3]
  have hsup : ∀ q c, c ∈ (deref t.heap q).pointers → c ∈ (deref t1.heap q).pointers := by
    intro q c hc
    by_cases h1 : q = t.heap.length
    · rw [h1, deref_ge _ _ (le_refl _)] at hc
      cases hc
    · by_cases h2 : q = l
      · rw [h2, hdl]
        rw [h2] at hc
        exact hc
      · by_cases h3 : q = p
        · rw [h3, hdp]
          rw [h3] at hc
          exact (mem_insertAt _ _ _ _).mpr (Or.inr hc)
        · rw [hdo q h1 h2 h3]
          exact hc
  have hext : Ext t.heap g t1.heap (leafSplitGhost g l t.heap.length s) :=
    leafSplitGhost_ext _ _ _ _ _ (by omega) hisleaf
  have hghi : ∀ q, q ≠ t.heap.length → q ≠ l →
      (leafSplitGhost g l t.heap.length s).hi q = g.hi q := by
    intro q h1 h2
    show setAt (setAt g.hi l (some s)) t.heap.length (g.hi l) q = g.hi q
    rw [setAt_ne _ _ _ _ h1, setAt_ne _ _ _ _ h2]
  have hlvl0 : g.lvl l = 0 := l1
  refine ⟨t1, leafSplitGhost g l t.heap.length s, heq, ?_, by omega, by rw [hisleaf p hp]; exact hpint,
    setAt_ne _ _ _ _ (by have := hinv.root_lt; omega), setAt_ne _ _ _ _ (by omega)⟩
  have hrl : r ≠ l := fun e => by
    have := hinv.root_parent
    rw [e, hpar] at this
    cases this
  constructor
  · rw [hord]; exact hinv.order
  · rw [hroot]; exact hinv.root
  · have := hinv.root_lt; omega
  · rw [hparent r (by have := hinv.root_lt; omega)]; exact hinv.root_parent
  · exact (hext.2 r hinv.root_lt).2.1.trans hinv.root_lo
  · exact (hghi r (by have := hinv.root_lt; omega) hrl).trans hinv.root_hi
  · rw [(hext.2 r hinv.root_lt).2.2]
    have := hinv.height
    omega
  · intro i hi
    rw [hlen] at hi
    have hlvlr : (leafSplitGhost g l t.heap.length s).lvl r = g.lvl r :=
      (hext.2 r hinv.root_lt).2.2
    by_cases hin : i = t.heap.length
    · subst hin
      refine leaf_right_ok hnl hleaf (m / 2) hmid1 (by omega) (by omega) s hhead t1.heap r _
        _ _ p hdn (setAt_same _ _ _) (setAt_same _ _ _) (setAt_same _ _ _) hext
        ⟨by omega, ?_, by rw [hisleaf p hp]; exact hpint⟩
      rw [hdp]
      exact (mem_insertAt _ _ _ _).mpr (Or.inl rfl)
    · have hi' : i < t.heap.length := by omega
      by_cases hil : i = l
      · subst hil
        refine leaf_left_ok hnl hleaf (m / 2) hmid1 hmid2 (by omega) s hhead t1.heap r _ _
          t.heap.length (deref t.heap i).parent hdl (hext.2 i hl).2.2 (hext.2 i hl).2.1 ?_
          ⟨by omega, by rw [hdn]; rfl, setAt_same _ _ _⟩
          (by rw [hlvlr, (hext.2 i hl).2.2]; exact hnl.level) (fun h => by rw [hpar] at h; cases h)
          ?_
        · show setAt (setAt g.hi i (some s)) t.heap.length (g.hi i) i = some s
          rw [setAt_ne _ _ _ _ hin, setAt_same]
        · intro q hq
          rw [hpar] at hq
          obtain rfl := Option.some.inj hq
          exact ⟨by omega, hsup _ _ hlp, by rw [hisleaf _ hp]; exact hpint⟩
      · by_cases hip : i = p
        · subst hip
          have hov : (deref t.heap i).keys.length ≤ m := by
            rcases hnp.size with h | ⟨h, _⟩
            · exact h
            · cases h
              exact absurd rfl hil
          refine parent_attach_ok hnp hpint hov l t.heap.length s hlp ?_ ?_ ?_ t1.heap r _ hdp
            (hext.2 i hp).2.1 (hghi i hin hil) (by rw [hlvlr, (hext.2 i hp).2.2]; exact hnp.level)
            hnp.is_root ?_ ?_ ?_ ?_
          · intro hmem
            obtain ⟨_, a, b, hc⟩ := hinv.child_lt i _ hp hmem
            exact absurd hc.1 (lt_irrefl _)
          · intro a ha
            have h1 := l4 a ha
            apply hlt
            cases hk : (deref t.heap l).keys with
            | nil => rw [hk] at h1; cases h1
            | cons x xs =>
              rw [hk] at h1
              simp only [List.head?_cons, Option.some.injEq] at h1
              subst h1
              obtain ⟨k, hk2⟩ : ∃ k, m / 2 = k + 1 := ⟨m / 2 - 1, by omega⟩
              rw [hk2]
              simp
          · exact (hnl.range s hsmem).2
          · intro q hq
            obtain ⟨q1, q2, q3⟩ := hnp.parent q hq
            exact ⟨by omega, hsup _ _ q2, by rw [hisleaf q q1]; exact q3⟩
          · intro c hc hcl2 a b hab
            exact hab.child_ext hext (hparent c (by have := hab.1; omega))
              (hghi c (by have := hab.1; omega) hcl2) (hext.2 i hp).2.2
          · refine ⟨by omega, by rw [hdl]; exact hpar, ?_, (hext.2 l hl).2.1, ?_⟩
            · rw [(hext.2 l hl).2.2, (hext.2 i hp).2.2]
              exact hcl.2.2.1
            · show setAt (setAt g.hi l (some s)) t.heap.length (g.hi l) l = some s
              rw [setAt_ne _ _ _ _ (show l ≠ t.heap.length by omega), setAt_same]
          · refine ⟨by omega, by rw [hdn], ?_, setAt_same _ _ _, setAt_same _ _ _⟩
            show setAt g.lvl t.heap.length 0 t.heap.length + 1 = _
            rw [setAt_same, (hext.2 i hp).2.2, ← hcl.2.2.1, hlvl0]
        · refine other_node_ok hinv i hi' t1.heap r _ _ hext (hdo i hin hil hip) (hghi i hin hil)
            (fun h => hil (Option.some.inj h).symm) (by rw [hlvlr]) (hinv.nodes i hi').is_root
            (fun q hq => hsup _ _ ((hinv.nodes i hi').parent q hq).2.1) ?_
          intro c hc
          obtain ⟨_, a, b, hab⟩ := hinv.child_lt i c hi' hc
          have hcl2 : c ≠ l := fun e => by
            have := hab.2.1
            rw [e, hpar] at this
            exact hip (Option.some.inj this).symm
          exact ⟨hparent c (by have := hab.1; omega), hghi c (by have := hab.1; omega) hcl2⟩
  · intro q
    rw [hinv.content]
    refine (stored_leaf_split t.heap t1.heap l t.heap.length (m / 2) hl (by omega) (by omega)
      (le_refl _) hleaf ⟨by rw [hdn]; rfl, by rw [hdn], by rw [hdn]⟩
      ⟨by rw [hdl]; exact hleaf, by rw [hdl], by rw [hdl]⟩ ?_ ?_ q).symm
    · intro q1 h1 h2
      refine ⟨hisleaf q1 h1, fun h3 => ?_⟩
      have h4 : q1 ≠ p := fun e => by rw [e, hpint] at h3; cases h3
      rw [hdo q1 (by omega) h2 h4]
      exact ⟨rfl, rfl⟩
    · intro q1 h1 h2
      rw [hdo q1 h2 (by omega) (by omega), deref_ge _ _ h1]
      rfl

/-- The invariant after `split_leaf_node` has split the root leaf and put a new root above the
two leaves. -/
theorem split_leaf_root_inv {m : Nat} {t : BPlusTree} {r : Nat} {kvs : List (Int × Int)}
    {g : Ghost} (hm : 3 ≤ m) (l : Nat) (hinv : InvG m t r (some l) kvs g)
    (hl : l < t.heap.length) (hleaf : (deref t.heap l).is_leaf = true)
    (hsz : (deref t.heap l).keys.length = m + 1) (hpar : (deref t.heap l).parent = none) :
    ∃ t1 r1 g1, split_leaf_node t l = .ok t1 ∧ InvG m t1 r1 none kvs g1
      ∧ t.heap.length ≤ t1.heap.length := by
  have hnl := hinv.nodes l hl
  have hlr : l = r := hnl.is_root hpar
  have hmid : (t.order.tdiv 2).toNat = m / 2 := by rw [hinv.order, tdiv_two_toNat]
  have hmid1 : 1 ≤ m / 2 := by omega
  have hmid2 : m / 2 ≤ m := by omega
  obtain ⟨s, hs⟩ : ∃ s, rd ((deref t.heap l).keys.drop (m / 2)) 0 = .ok s :=
    ⟨_, rd_ok _ 0 (by simp only [List.length_drop]; omega)⟩
  have hhead := rd_zero_head _ _ hs
  obtain ⟨t1, heq, hord, hroot, hlen, hd⟩ := split_leaf_node_root t l s hl hpar
    (by rw [hmid]; exact hs)
  rw [hmid, hinv.order] at hd
  obtain ⟨l1, l2, l3, l4, l5⟩ := hnl.leaf hleaf
  have hdr := hd (t.heap.length + 1)
  rw [if_pos rfl] at hdr
  have hdn := hd t.heap.length
  rw [if_neg (show t.heap.length ≠ t.heap.length + 1 by omega), if_pos rfl] at hdn
  have hdl := hd l
  rw [if_neg (show l ≠ t.heap.length + 1 by omega), if_neg (show l ≠ t.heap.length by omega),
    if_pos rfl] at hdl
  have hdo : ∀ q, q ≠ t.heap.length + 1 → q ≠ t.heap.length → q ≠ l →
      deref t1.heap q = deref t.heap q := by
    intro q h1 h2 h3
    rw [hd, if_neg h1, if_neg h2, if_neg h3]
  have hisleaf : ∀ q, q < t.heap.length →
      (deref t1.heap q).is_leaf = (deref t.heap q).is_leaf := by
    intro q h1
    by_cases h2 : q = l
    · rw [h2, hdl]
    · rw [hdo q (by omega) (by omega) h2]
  have hext : Ext t.heap g t1.heap
      (newRootGhost (leafSplitGhost g l t.heap.length s) (t.heap.length + 1) 1) := by
    refine ⟨by omega, fun j hj => ⟨hisleaf j hj, ?_, ?_⟩⟩
    · show setAt (setAt g.lo t.heap.length (some s)) (t.heap.length + 1) none j = g.lo j
      rw [setAt_ne _ _ _ _ (by omega), setAt_ne _ _ _ _ (by omega)]
    · show setAt (setAt g.lvl t.heap.length 0) (t.heap.length + 1) 1 j = g.lvl j
      rw [setAt_ne _ _ _ _ (by omega), setAt_ne _ _ _ _ (by omega)]
  have hghi : ∀ q, q < t.heap.length → q ≠ l →
      (newRootGhost (leafSplitGhost g l t.heap.length s) (t.heap.length + 1) 1).hi q
        = g.hi q := by
    intro q h1 h2
    show setAt (setAt (setAt g.hi l (some s)) t.heap.length (g.hi l)) (t.heap.length + 1) none q
      = g.hi q
    rw [setAt_ne _ _ _ _ (by omega), setAt_ne _ _ _ _ (by omega), setAt_ne _ _ _ _ h2]
  have hlvlR : (newRootGhost (leafSplitGhost g l t.heap.length s) (t.heap.length + 1) 1).lvl
      (t.heap.length + 1) = 1 := setAt_same _ _ _
  have hlvlN : (newRootGhost (leafSplitGhost g l t.heap.length s) (t.heap.length + 1) 1).lvl
      t.heap.length = 0 := by
    show setAt (setAt g.lvl t.heap.length 0) (t.heap.length + 1) 1 t.heap.length = 0
    rw [setAt_ne _ _ _ _ (by omega), setAt_same]
  have hloN : (newRootGhost (leafSplitGhost g l t.heap.length s) (t.heap.length + 1) 1).lo
      t.heap.length = some s := by
    show setAt (setAt g.lo t.heap.length (some s)) (t.heap.length + 1) none t.heap.length = some s
    rw [setAt_ne _ _ _ _ (by omega), setAt_same]
  have hhiN : (newRootGhost (leafSplitGhost g l t.heap.length s) (t.heap.length + 1) 1).hi
      t.heap.length = g.hi l := by
    show setAt (setAt (setAt g.hi l (some s)) t.heap.length (g.hi l)) (t.heap.length + 1) none
      t.heap.length = g.hi l
    rw [setAt_ne _ _ _ _ (by omega), setAt_same]
  have hhiL : (newRootGhost (leafSplitGhost g l t.heap.length s) (t.heap.length + 1) 1).hi l
      = some s := by
    show setAt (setAt (setAt g.hi l (some s)) t.heap.length (g.hi l)) (t.heap.length + 1) none l
      = some s
    rw [setAt_ne _ _ _ _ (by omega), setAt_ne _ _ _ _ (by omega), setAt_same]
  have hchildL : ChildOK t1.heap
      (newRootGhost (leafSplitGhost g l t.heap.length s) (t.heap.length + 1) 1)
      (t.heap.length + 1) l none (some s) := by
    refine ⟨by omega, by rw [hdl], ?_, ?_, hhiL⟩
    · rw [(hext.2 l hl).2.2, hlvlR, l1]
    · rw [(hext.2 l hl).2.1, hlr]; exact hinv.root_lo
  have hchildN : ChildOK t1.heap
      (newRootGhost (leafSplitGhost g l t.heap.length s) (t.heap.length + 1) 1)
      (t.heap.length + 1) t.heap.length (some s) none := by
    refine ⟨by omega, by rw [hdn], by rw [hlvlN, hlvlR], hloN, ?_⟩
    rw [hhiN, hlr]; exact hinv.root_hi
  have hrootint : (deref t1.heap (t.heap.length + 1)).is_leaf = false := by rw [hdr]; rfl
  refine ⟨t1, t.heap.length + 1,
    newRootGhost (leafSplitGhost g l t.heap.length s) (t.heap.length + 1) 1, heq, ?_, by omega⟩
  constructor
  · rw [hord]; exact hinv.order
  · exact hroot
  · omega
  · rw [hdr]; rfl
  · exact setAt_same _ _ _
  · exact setAt_same _ _ _
  · rw [hlvlR]; omega
  · intro i hi
    rw [hlen] at hi
    by_cases hir : i = t.heap.length + 1
    · subst hir
      exact new_root_ok none _ l t.heap.length s (by omega) hdr (by omega) hchildL hchildN
        (setAt_same _ _ _) (setAt_same _ _ _)
    · by_cases hin : i = t.heap.length
      · subst hin
        refine leaf_right_ok hnl hleaf (m / 2) hmid1 (by omega) (by omega) s hhead t1.heap _ _
          _ _ (t.heap.length + 1) hdn hlvlN hloN hhiN hext ⟨by omega, ?_, hrootint⟩
        rw [hdr]
        simp
      · have hi' : i < t.heap.length := by omega
        by_cases hil : i = l
        · subst hil
          refine leaf_left_ok hnl hleaf (m / 2) hmid1 hmid2 (by omega) s hhead t1.heap _ _ _
            t.heap.length (some (t.heap.length + 1)) hdl (hext.2 i hl).2.2 (hext.2 i hl).2.1 hhiL
            ⟨by omega, by rw [hdn]; rfl, hloN⟩ (by rw [hlvlR, (hext.2 i hl).2.2, l1]; omega)
            (fun h => by cases h) ?_
          intro q hq
          obtain rfl := Option.some.inj hq
          refine ⟨by omega, ?_, hrootint⟩
          rw [hdr]
          simp
        · refine other_node_ok hinv i hi' t1.heap _ _ _ hext (hdo i hir hin hil) (hghi i hi' hil)
            (fun h => hil (Option.some.inj h).symm) (by rw [hlvlR, ← hlr, l1]; omega)
            (fun h => absurd ((hinv.nodes i hi').is_root h) (by rw [← hlr]; exact hil)) ?_ ?_
          · intro q hq
            obtain ⟨q1, q2, q3⟩ := (hinv.nodes i hi').parent q hq
            by_cases hql : q = l
            · rw [hql, hleaf] at q3
              cases q3
            · rw [hdo q (by omega) (by omega) hql]
              exact q2
          · intro c hc
            obtain ⟨_, a, b, hab⟩ := hinv.child_lt i c hi' hc
            have hcl2 : c ≠ l := fun e => by
              have := hab.2.1
              rw [e, hpar] at this
              cases this
            exact ⟨by rw [hdo c (by have := hab.1; omega) (by have := hab.1; omega) hcl2],
              hghi c hab.1 hcl2⟩
  · intro q
    rw [hinv.content]
    refine (stored_leaf_split t.heap t1.heap l t.heap.length (m / 2) hl (by omega) (by omega)
      (le_refl _) hleaf ⟨by rw [hdn]; rfl, by rw [hdn], by rw [hdn]⟩
      ⟨by rw [hdl]; exact hleaf, by rw [hdl], by rw [hdl]⟩ ?_ ?_ q).symm
    · intro q1 h1 h2
      refine ⟨hisleaf q1 h1, fun _ => ?_⟩
      rw [hdo q1 (by omega) (by omega) h2]
      exact ⟨rfl, rfl⟩
    · intro q1 h1 h2
      by_cases h3 : q1 = t.heap.length + 1
      · rw [h3]; exact hrootint
      · rw [hdo q1 h3 h2 (by omega), deref_ge _ _ h1]
        rfl

/-! ### The two halves of a split internal node -/

/-- The internal node that `split_internal_node` cuts down to the keys before the promoted
one. -/
theorem internal_left_ok {m : Nat} {heap : List Node} {r : Nat} {ov : Option Nat} {g : Ghost}
    {x : Nat} (hX : NodeOK m heap r ov g x) (hint : (deref heap x).is_leaf = false)
    (ksL ksR : List Int) (s : Int) (hks : (deref heap x).keys = ksL ++ s :: ksR)
    (h1 : 1 ≤ ksL.length) (h2 : ksL.length ≤ m)
    (heap1 : List Node) (r1 : Nat) (ov1 : Option Nat) (g1 : Ghost) (par : Option Nat)
    (hnode : deref heap1 x = { deref heap x with
      keys := ksL, pointers := (deref heap x).pointers.take (ksL.length + 1), parent := par })
    (hlo : g1.lo x = g.lo x) (hhi : g1.hi x = some s)
    (hlevel : g1.lvl x ≤ g1.lvl r1)
    (hroot : par = none → x = r1)
    (hparent : ∀ p, par = some p →
      p < heap1.length ∧ x ∈ (deref heap1 p).pointers ∧ (deref heap1 p).is_leaf = false)
    (hkids : ∀ c ∈ (deref heap x).pointers.take (ksL.length + 1), ∀ a b,
      ChildOK heap g x c a b → ChildOK heap1 g1 x c a b) :
    NodeOK m heap1 r1 ov1 g1 x := by
  obtain ⟨hnd, hk⟩ := hX.internal hint
  have hsorted := hX.sorted
  rw [hks] at hsorted hk
  obtain ⟨s1, _, s3⟩ := List.pairwise_append.mp hsorted
  have hrange := hX.range
  rw [hks] at hrange
  constructor
  · rw [hnode]; exact hX.max_keys
  · rw [hnode]; exact hX.min_keys
  · rw [hnode]; exact hX.num_keys
  · rw [hnode]; exact Or.inl h2
  · rw [hnode]; exact h1
  · rw [hnode]; exact s1
  · rw [hnode, hlo, hhi]
    intro k hk1
    refine ⟨(hrange k (List.mem_append.mpr (Or.inl hk1))).1, fun b hb => ?_⟩
    cases hb
    exact s3 k hk1 s (by simp)
  · exact hlevel
  · rw [hnode]; exact hroot
  · rw [hnode]; exact hparent
  · rw [hnode]
    intro h
    rw [hint] at h
    cases h
  · rw [hnode, hlo, hhi]
    intro _
    exact ⟨hnd.sublist (List.take_sublist _ _),
      Kids.mono _ _ _ _ (Kids.split s ksR ksL _ _ _ hk).1 hkids⟩

/-- The new internal node that `split_internal_node` fills with the keys after the promoted
one. -/
theorem internal_right_ok {m : Nat} {heap : List Node} {r : Nat} {ov : Option Nat} {g : Ghost}
    {x : Nat} (hX : NodeOK m heap r ov g x) (hint : (deref heap x).is_leaf = false)
    (ksL ksR : List Int) (s : Int) (hks : (deref heap x).keys = ksL ++ s :: ksR)
    (h1 : 1 ≤ ksR.length) (h2 : ksR.length ≤ m)
    (heap1 : List Node) (r1 : Nat) (ov1 : Option Nat) (g1 : Ghost) (n par : Nat)
    (hnode : deref heap1 n = { InternalNode m with
      keys := ksR, pointers := (deref heap x).pointers.drop (ksL.length + 1)
      parent := some par })
    (hlo : g1.lo n = some s) (hhi : g1.hi n = g.hi x)
    (hlevel : g1.lvl n ≤ g1.lvl r1)
    (hparent : par < heap1.length ∧ n ∈ (deref heap1 par).pointers
      ∧ (deref heap1 par).is_leaf = false)
    (hkids : ∀ c ∈ (deref heap x).pointers.drop (ksL.length + 1), ∀ a b,
      ChildOK heap g x c a b → ChildOK heap1 g1 n c a b) :
    NodeOK m heap1 r1 ov1 g1 n := by
  obtain ⟨hnd, hk⟩ := hX.internal hint
  have hsorted := hX.sorted
  rw [hks] at hsorted hk
  obtain ⟨_, s2, _⟩ := List.pairwise_append.mp hsorted
  obtain ⟨s4, s5⟩ := List.pairwise_cons.mp s2
  have hrange := hX.range
  rw [hks] at hrange
  constructor
  · rw [hnode]; rfl
  · rw [hnode]; rfl
  · rw [hnode]; rfl
  · rw [hnode]; exact Or.inl h2
  · rw [hnode]; exact h1
  · rw [hnode]; exact s5
  · rw [hnode, hlo, hhi]
    intro k hk1
    refine ⟨fun a ha => ?_,
      (hrange k (List.mem_append.mpr (Or.inr (List.mem_cons_of_mem _ hk1)))).2⟩
    cases ha
    exact le_of_lt (s4 k hk1)
  · exact hlevel
  · rw [hnode]
    intro h
    cases h
  · rw [hnode]
    intro p hp
    cases hp
    exact hparent
  · rw [hnode]
    intro h
    cases h
  · rw [hnode, hlo, hhi]
    intro _
    exact ⟨hnd.sublist (List.drop_sublist _ _),
      Kids.mono _ _ _ _ (Kids.split s ksR ksL _ _ _ hk).2 hkids⟩

/-! ### The invariant across the split of an internal node -/

theorem rd_split {α : Type} (v : List α) (i : Nat) (h : i < v.length) :
    ∃ s, rd v i = .ok s ∧ v = v.take i ++ s :: v.drop (i + 1) := by
  refine ⟨v.get ⟨i, h⟩, rd_ok v i h, ?_⟩
  have h1 : v.drop i = v.get ⟨i, h⟩ :: v.drop (i + 1) := List.drop_eq_getElem_cons h
  rw [← h1, List.take_append_drop]

/-- What the invariant says of an internal node with `m + 1` keys that is about to be split. -/
theorem internal_split_facts {m : Nat} {t : BPlusTree} {r : Nat} {ov : Option Nat}
    {kvs : List (Int × Int)} {g : Ghost} (hm : 3 ≤ m) (x : Nat) (hinv : InvG m t r ov kvs g)
    (hx : x < t.heap.length) (hsz : (deref t.heap x).keys.length = m + 1) :
    ∃ s, rd (deref t.heap x).keys (m / 2) = .ok s
      ∧ (deref t.heap x).keys
          = (deref t.heap x).keys.take (m / 2) ++ s :: (deref t.heap x).keys.drop (m / 2 + 1)
      ∧ ((deref t.heap x).keys.take (m / 2)).length = m / 2
      ∧ ((deref t.heap x).keys.drop (m / 2 + 1)).length = m - m / 2
      ∧ (∀ a, g.lo x = some a → a < s) ∧ ltHi s (g.hi x)
      ∧ ∀ c ∈ (deref t.heap x).pointers, c < t.heap.length ∧ c ≠ x
          ∧ ∃ a b, ChildOK t.heap g x c a b := by
  have hn := hinv.nodes x hx
  obtain ⟨s, hs, hks⟩ := rd_split (deref t.heap x).keys (m / 2) (by omega)
  have hlenL : ((deref t.heap x).keys.take (m / 2)).length = m / 2 := by
    rw [List.length_take]; omega
  have hsmem : s ∈ (deref t.heap x).keys := by
    rw [hks]; simp
  refine ⟨s, hs, hks, hlenL, by rw [List.length_drop]; omega, ?_, (hn.range s hsmem).2, ?_⟩
  · intro a ha
    have hsorted := hn.sorted
    rw [hks] at hsorted
    obtain ⟨_, _, s3⟩ := List.pairwise_append.mp hsorted
    cases hk : (deref t.heap x).keys.take (m / 2) with
    | nil => rw [hk] at hlenL; simp at hlenL; omega
    | cons k0 ks =>
      have hk0 : k0 ∈ (deref t.heap x).keys.take (m / 2) := by rw [hk]; simp
      have h1 := (hn.range k0 (List.mem_of_mem_take hk0)).1 a ha
      have h2 := s3 k0 hk0 s (by simp)
      omega
  · intro c hc
    obtain ⟨_, a, b, hab⟩ := hinv.child_lt x c hx hc
    refine ⟨hab.1, fun e => ?_, a, b, hab⟩
    have := hab.2.2.1
    rw [e] at this
    omega

theorem stored_same (heap heap1 : List Node) (hlen : heap.length ≤ heap1.length)
    (hold : ∀ q, q < heap.length → (deref heap1 q).is_leaf = (deref heap q).is_leaf
      ∧ ((deref heap q).is_leaf = true → (deref heap1 q).keys = (deref heap q).keys
        ∧ (deref heap1 q).values = (deref heap q).values))
    (hfresh : ∀ q, heap.length ≤ q → (deref heap1 q).is_leaf = false) (p : Int × Int) :
    Stored heap1 p ↔ Stored heap p := by
  constructor
  · rintro ⟨i, h1, h2, h3⟩
    by_cases hlt : i < heap.length
    · obtain ⟨e1, e2⟩ := hold i hlt
      rw [e1] at h2
      obtain ⟨e3, e4⟩ := e2 h2
      rw [e3, e4] at h3
      exact ⟨i, hlt, h2, h3⟩
    · rw [hfresh i (by omega)] at h2
      cases h2
  · rintro ⟨i, h1, h2, h3⟩
    obtain ⟨e1, e2⟩ := hold i h1
    obtain ⟨e3, e4⟩ := e2 h2
    exact ⟨i, lt_of_lt_of_le h1 hlen, by rw [e1]; exact h2, by rw [e3, e4]; exact h3⟩

/-- The invariant after `split_internal_node` has split a node that has a parent and inserted
the new node into the parent, before the closing loop: the parent may hold one key too many. -/
theorem split_internal_nonroot_inv {m : Nat} {t : BPlusTree} {r : Nat} {kvs : List (Int × Int)}
    {g : Ghost} (hm : 3 ≤ m) (fuel x p : Nat) (hinv : InvG m t r (some x) kvs g)
    (hx : x < t.heap.length) (hint : (deref t.heap x).is_leaf = false)
    (hsz : (deref t.heap x).keys.length = m + 1) (hpar : (deref t.heap x).parent = some p) :
    ∃ t1 g1, split_internal_node (fuel + 1) t x
        = split_loop (split_internal_node fuel) (fuel + 1) t1 p
      ∧ InvG m t1 r (some p) kvs g1 ∧ p < t1.heap.length ∧ (deref t1.heap p).is_leaf = false
      ∧ g1.lvl r = g.lvl r ∧ g1.lvl p = g.lvl p ∧ t1.heap.length = t.heap.length + 1 := by
  have hnx := hinv.nodes x hx
  obtain ⟨hp, hxp, hpint⟩ := hnx.parent p hpar
  have hnp := hinv.nodes p hp
  obtain ⟨_, pa, pb, hcx⟩ := hinv.child_lt p x hp hxp
  have hpx : p ≠ x := fun e => by
    have := hcx.2.2.1
    rw [e] at this
    omega
  have hmid : (t.order.tdiv 2).toNat = m / 2 := by rw [hinv.order, tdiv_two_toNat]
  obtain ⟨s, hs, hks, hlenL, hlenR, hslo, hshi, hkidsx⟩ := internal_split_facts hm x hinv hx hsz
  have hps : ∀ c ∈ (deref t.heap x).pointers, c < t.heap.length ∧ c ≠ x ∧ c ≠ p := by
    intro c hc
    obtain ⟨h1, h2, a, b, hab⟩ := hkidsx c hc
    refine ⟨h1, h2, fun e => ?_⟩
    have h3 := hab.2.2.1
    have h4 := hcx.2.2.1
    rw [e] at h3
    omega
  obtain ⟨t1, heq, hord, hroot, hlen, hd⟩ := split_internal_node_nonroot fuel t x p s hx hp hpx
    hpar hps (by rw [hmid]; exact hs)
  rw [hmid, hinv.order] at hd
  have hnd := (hnx.internal hint).1
  have hdisj : ∀ c, c ∈ (deref t.heap x).pointers.take (m / 2 + 1) →
      c ∉ (deref t.heap x).pointers.drop (m / 2 + 1) := fun c h1 h2 =>
    List.disjoint_take_drop hnd (le_refl _) h1 h2
  -- the nodes of the new arena
  have hdn := hd t.heap.length
  rw [if_pos rfl] at hdn
  have hdx := hd x
  rw [if_neg (show x ≠ t.heap.length by omega), if_pos rfl] at hdx
  have hdp := hd p
  rw [if_neg (show p ≠ t.heap.length by omega), if_neg hpx, if_pos rfl] at hdp
  have hdm : ∀ q, q ∈ (deref t.heap x).pointers.drop (m / 2 + 1) →
      deref t1.heap q = { deref t.heap q with parent := some t.heap.length } := by
    intro q hq
    obtain ⟨h1, h2, h3⟩ := hps q (List.mem_of_mem_drop hq)
    rw [hd, if_neg (by omega), if_neg h2, if_neg h3, if_pos hq]
  have hdo : ∀ q, q ≠ t.heap.length → q ≠ x → q ≠ p →
      q ∉ (deref t.heap x).pointers.drop (m / 2 + 1) → deref t1.heap q = deref t.heap q := by
    intro q h1 h2 h3 h4
    rw [hd, if_neg h1, if_neg h2, if_neg h3, if_neg h4]
  have hparent : ∀ q, q ≠ t.heap.length → q ∉ (deref t.heap x).pointers.drop (m / 2 + 1) →
      (deref t1.heap q).parent = (deref t.heap q).parent := by
    intro q h1 h4
    by_cases h2 : q = x
    · rw [h2, hdx]
    · by_cases h3 : q = p
      · rw [h3, hdp]
      · rw [hdo q h1 h2 h3 h4]
  have hsame : ∀ q, q ≠ t.heap.length →
      (deref t1.heap q).is_leaf = (deref t.heap q).is_leaf
        ∧ (deref t1.heap q).values = (deref t.heap q).values
        ∧ ((deref t.heap q).is_leaf = true → (deref t1.heap q).keys = (deref t.heap q).keys) := by
    intro q h1
    by_cases h2 : q = x
    · rw [h2, hdx]
      exact ⟨rfl, rfl, fun h => by rw [hint] at h; cases h⟩
    · by_cases h3 : q = p
      · rw [h3, hdp]
        exact ⟨rfl, rfl, fun h => by rw [hpint] at h; cases h⟩
      · by_cases h4 : q ∈ (deref t.heap x).pointers.drop (m / 2 + 1)
        · rw [hdm q h4]
          exact ⟨rfl, rfl, fun _ => rfl⟩
        · rw [hdo q h1 h2 h3 h4]
          exact ⟨rfl, rfl, fun _ => rfl⟩
  have hsup : ∀ q c, c ∈ (deref t.heap q).pointers →
      c ∉ (deref t.heap x).pointers.drop (m / 2 + 1) → c ∈ (deref t1.heap q).pointers := by
    intro q c hc hcm
    by_cases h1 : q = t.heap.length
    · rw [h1, deref_ge _ _ (le_refl _)] at hc
      cases hc
    · by_cases h2 : q = x
      · rw [h2, hdx]
        rw [h2] at hc
        have := List.take_append_drop (m / 2 + 1) (deref t.heap x).pointers
        rw [← this] at hc
        rcases List.mem_append.mp hc with h | h
        · exact h
        · exact absurd h hcm
      · by_cases h3 : q = p
        · rw [h3, hdp]
          rw [h3] at hc
          exact (mem_insertAt _ _ _ _).mpr (Or.inr hc)
        · by_cases h4 : q ∈ (deref t.heap x).pointers.drop (m / 2 + 1)
          · rw [hdm q h4]
            exact hc
          · rw [hdo q h1 h2 h3 h4]
            exact hc
  have hext : Ext t.heap g t1.heap (splitGhost g x t.heap.length s) := by
    refine ⟨by omega, fun j hj => ⟨(hsame j (by omega)).1, ?_, ?_⟩⟩
    · exact setAt_ne _ _ _ _ (by omega)
    · exact setAt_ne _ _ _ _ (by omega)
  have hghi : ∀ q, q ≠ t.heap.length → q ≠ x →
      (splitGhost g x t.heap.length s).hi q = g.hi q := by
    intro q h1 h2
    show setAt (setAt g.hi x (some s)) t.heap.length (g.hi x) q = g.hi q
    rw [setAt_ne _ _ _ _ h1, setAt_ne _ _ _ _ h2]
  have hhiX : (splitGhost g x t.heap.length s).hi x = some s := by
    show setAt (setAt g.hi x (some s)) t.heap.length (g.hi x) x = some s
    rw [setAt_ne _ _ _ _ (show x ≠ t.heap.length by omega), setAt_same]
  have hlvlr : (splitGhost g x t.heap.length s).lvl r = g.lvl r := (hext.2 r hinv.root_lt).2.2
  have hnint : (deref t1.heap t.heap.length).is_leaf = false := by rw [hdn]; rfl
  -- a child of a node other than `x` has not been moved
  have hnotmoved : ∀ i c, i < t.heap.length → i ≠ x → c ∈ (deref t.heap i).pointers →
      c < t.heap.length ∧ c ∉ (deref t.heap x).pointers.drop (m / 2 + 1) := by
    intro i c hi hix hc
    obtain ⟨_, a, b, hab⟩ := hinv.child_lt i c hi hc
    refine ⟨hab.1, fun hcm => ?_⟩
    obtain ⟨_, _, a2, b2, hab2⟩ := hkidsx c (List.mem_of_mem_drop hcm)
    have h1 := hab.2.1
    rw [hab2.2.1] at h1
    exact hix (Option.some.inj h1).symm
  have hrx : r ≠ x := fun e => by
    have := hinv.root_parent
    rw [e, hpar] at this
    cases this
  have hrm : r ∉ (deref t.heap x).pointers.drop (m / 2 + 1) := fun h => by
    obtain ⟨_, _, a, b, hab⟩ := hkidsx r (List.mem_of_mem_drop h)
    have := hab.2.1
    rw [hinv.root_parent] at this
    cases this
  refine ⟨t1, splitGhost g x t.heap.length s, heq, ?_, by omega,
    by rw [(hsame p (by omega)).1]; exact hpint, hlvlr, (hext.2 p hp).2.2, hlen⟩
  constructor
  · rw [hord]; exact hinv.order
  · rw [hroot]; exact hinv.root
  · have := hinv.root_lt; omega
  · rw [hparent r (by have := hinv.root_lt; omega) hrm]; exact hinv.root_parent
  · exact (hext.2 r hinv.root_lt).2.1.trans hinv.root_lo
  · exact (hghi r (by have := hinv.root_lt; omega) hrx).trans hinv.root_hi
  · rw [hlvlr]
    have := hinv.height
    omega
  · intro i hi
    rw [hlen] at hi
    by_cases hin : i = t.heap.length
    · subst hin
      refine internal_right_ok hnx hint _ _ s hks (by rw [hlenR]; omega) (by rw [hlenR]; omega)
        t1.heap r _ _ _ p (by rw [hdn, hlenL]) (setAt_same _ _ _) (setAt_same _ _ _) ?_
        ⟨by omega, ?_, by rw [(hsame p (by omega)).1]; exact hpint⟩ ?_
      · show setAt g.lvl t.heap.length (g.lvl x) t.heap.length ≤ _
        rw [setAt_same, hlvlr]
        exact hnx.level
      · rw [hdp]
        exact (mem_insertAt _ _ _ _).mpr (Or.inl rfl)
      · intro c hc a b hab
        rw [hlenL] at hc
        obtain ⟨h1, h2, _⟩ := hps c (List.mem_of_mem_drop hc)
        refine ⟨by omega, by rw [hdm c hc], ?_, (hext.2 c h1).2.1.trans hab.2.2.2.1,
          (hghi c (by omega) h2).trans hab.2.2.2.2⟩
        show (splitGhost g x t.heap.length s).lvl c + 1 = setAt g.lvl t.heap.length (g.lvl x) _
        rw [setAt_same, (hext.2 c h1).2.2]
        exact hab.2.2.1
    · have hi' : i < t.heap.length := by omega
      by_cases hix : i = x
      · subst hix
        refine internal_left_ok hnx hint _ _ s hks (by rw [hlenL]; omega) (by rw [hlenL]; omega)
          t1.heap r _ _ (deref t.heap i).parent (by rw [hdx, hlenL]) (hext.2 i hx).2.1 hhiX
          (by rw [hlvlr, (hext.2 i hx).2.2]; exact hnx.level)
          (fun h => by rw [hpar] at h; cases h) ?_ ?_
        · intro q hq
          rw [hpar] at hq
          obtain rfl := Option.some.inj hq
          refine ⟨by omega, hsup _ _ hxp ?_, by rw [(hsame _ (by omega)).1]; exact hpint⟩
          intro h
          exact (hps i (List.mem_of_mem_drop h)).2.1 rfl
        · intro c hc a b hab
          rw [hlenL] at hc
          obtain ⟨h1, h2, _⟩ := hps c (List.mem_of_mem_take hc)
          exact hab.child_ext hext (hparent c (by omega) (hdisj c hc)) (hghi c (by omega) h2)
            (hext.2 i hx).2.2
      · by_cases hip : i = p
        · subst hip
          have hov : (deref t.heap i).keys.length ≤ m := by
            rcases hnp.size with h | ⟨h, _⟩
            · exact h
            · cases h
              exact absurd rfl hix
          refine parent_attach_ok hnp hpint hov x t.heap.length s hxp ?_ hslo hshi t1.heap r _ hdp
            (hext.2 i hp).2.1 (hghi i hin hix) (by rw [hlvlr, (hext.2 i hp).2.2]; exact hnp.level)
            hnp.is_root ?_ ?_ ?_ ?_
          · intro hmem
            obtain ⟨_, a, b, hc⟩ := hinv.child_lt i _ hp hmem
            exact absurd hc.1 (lt_irrefl _)
          · intro q hq
            obtain ⟨q1, q2, q3⟩ := hnp.parent q hq
            refine ⟨by omega, hsup _ _ q2 ?_, by rw [(hsame q (by omega)).1]; exact q3⟩
            intro h
            exact (hps i (List.mem_of_mem_drop h)).2.2 rfl
          · intro c hc hcx2 a b hab
            obtain ⟨h1, h2⟩ := hnotmoved i c hi' hix hc
            exact hab.child_ext hext (hparent c (by omega) h2) (hghi c (by omega) hcx2)
              (hext.2 i hp).2.2
          · refine ⟨by omega, by rw [hdx]; exact hpar, ?_, (hext.2 x hx).2.1, hhiX⟩
            rw [(hext.2 x hx).2.2, (hext.2 i hp).2.2]
            exact hcx.2.2.1
          · refine ⟨by omega, by rw [hdn], ?_, setAt_same _ _ _, setAt_same _ _ _⟩
            show setAt g.lvl t.heap.length (g.lvl x) t.heap.length + 1 = _
            rw [setAt_same, (hext.2 i hp).2.2]
            exact hcx.2.2.1
        · by_cases him : i ∈ (deref t.heap x).pointers.drop (m / 2 + 1)
          · have hni := hinv.nodes i hi'
            refine hni.transfer t1.heap r _ _ (some t.heap.length) (hdm i him) (hext.2 i hi').2.2
              (hext.2 i hi').2.1 (hghi i hin hix) (fun h => absurd (Option.some.inj h).symm hix)
              (by rw [hlvlr, (hext.2 i hi').2.2]; exact hni.level) (fun h => by cases h) ?_ ?_ ?_
            · intro q hq
              obtain rfl := Option.some.inj hq
              refine ⟨by omega, ?_, hnint⟩
              rw [hdn]
              exact him
            · intro c hc a b hab
              obtain ⟨h1, h2⟩ := hnotmoved i c hi' hix hc
              have hcx2 : c ≠ x := fun e => by
                have := hab.2.1
                rw [e, hpar] at this
                exact hip (Option.some.inj this).symm
              exact hab.child_ext hext (hparent c (by omega) h2) (hghi c (by omega) hcx2)
                (hext.2 i hi').2.2
            · intro _ hnx2
              exact hnx2.next_ext hext
          · refine other_node_ok hinv i hi' t1.heap r _ _ hext (hdo i hin hix hip him)
              (hghi i hin hix) (fun h => hix (Option.some.inj h).symm) (by rw [hlvlr])
              (hinv.nodes i hi').is_root
              (fun q hq => hsup _ _ ((hinv.nodes i hi').parent q hq).2.1 him) ?_
            intro c hc
            obtain ⟨_, a, b, hab⟩ := hinv.child_lt i c hi' hc
            obtain ⟨h1, h2⟩ := hnotmoved i c hi' hix hc
            have hcx2 : c ≠ x := fun e => by
              have := hab.2.1
              rw [e, hpar] at this
              exact hip (Option.some.inj this).symm
            exact ⟨hparent c (by omega) h2, hghi c (by omega) hcx2⟩
  · intro q
    rw [hinv.content]
    refine (stored_same t.heap t1.heap (by omega) ?_ ?_ q).symm
    · intro q1 h1
      obtain ⟨e1, e2, e3⟩ := hsame q1 (by omega)
      exact ⟨e1, fun h => ⟨e3 h, e2⟩⟩
    · intro q1 h1
      by_cases h2 : q1 = t.heap.length
      · rw [h2]; exact hnint
      · rw [hdo q1 h2 (by omega) (by omega) (fun h => by
          have := (hps q1 (List.mem_of_mem_drop h)).1
          omega), deref_ge _ _ h1]
        rfl

/-- The invariant after `split_internal_node` has split the root and put a new root above the
two halves. -/
theorem split_internal_root_inv {m : Nat} {t : BPlusTree} {r : Nat} {kvs : List (Int × Int)}
    {g : Ghost} (hm : 3 ≤ m) (fuel x : Nat) (hinv : InvG m t r (some x) kvs g)
    (hx : x < t.heap.length) (hint : (deref t.heap x).is_leaf = false)
    (hsz : (deref t.heap x).keys.length = m + 1) (hpar : (deref t.heap x).parent = none) :
    ∃ t1 r1 g1, split_internal_node (fuel + 1) t x = .ok t1 ∧ InvG m t1 r1 none kvs g1
      ∧ t.heap.length ≤ t1.heap.length := by
  have hnx := hinv.nodes x hx
  have hxr : x = r := hnx.is_root hpar
  have hmid : (t.order.tdiv 2).toNat = m / 2 := by rw [hinv.order, tdiv_two_toNat]
  obtain ⟨s, hs, hks, hlenL, hlenR, _, _, hkidsx⟩ := internal_split_facts hm x hinv hx hsz
  have hps : ∀ c ∈ (deref t.heap x).pointers, c < t.heap.length ∧ c ≠ x := fun c hc =>
    ⟨(hkidsx c hc).1, (hkidsx c hc).2.1⟩
  obtain ⟨t1, heq, hord, hroot, hlen, hd⟩ := split_internal_node_root fuel t x s hx hpar hps
    (by rw [hmid]; exact hs)
  rw [hmid, hinv.order] at hd
  have hnd := (hnx.internal hint).1
  have hdisj : ∀ c, c ∈ (deref t.heap x).pointers.take (m / 2 + 1) →
      c ∉ (deref t.heap x).pointers.drop (m / 2 + 1) := fun c h1 h2 =>
    List.disjoint_take_drop hnd (le_refl _) h1 h2
  have hdr := hd (t.heap.length + 1)
  rw [if_pos rfl] at hdr
  have hdn := hd t.heap.length
  rw [if_neg (show t.heap.length ≠ t.heap.length + 1 by omega), if_pos rfl] at hdn
  have hdx := hd x
  rw [if_neg (show x ≠ t.heap.length + 1 by omega), if_neg (show x ≠ t.heap.length by omega),
    if_pos rfl] at hdx
  have hdm : ∀ q, q ∈ (deref t.heap x).pointers.drop (m / 2 + 1) →
      deref t1.heap q = { deref t.heap q with parent := some t.heap.length } := by
    intro q hq
    obtain ⟨h1, h2⟩ := hps q (List.mem_of_mem_drop hq)
    rw [hd, if_neg (by omega), if_neg (by omega), if_neg h2, if_pos hq]
  have hdo : ∀ q, q ≠ t.heap.length + 1 → q ≠ t.heap.length → q ≠ x →
      q ∉ (deref t.heap x).pointers.drop (m / 2 + 1) → deref t1.heap q = deref t.heap q := by
    intro q h0 h1 h2 h4
    rw [hd, if_neg h0, if_neg h1, if_neg h2, if_neg h4]
  have hparent : ∀ q, q < t.heap.length → q ≠ x →
      q ∉ (deref t.heap x).pointers.drop (m / 2 + 1) →
      (deref t1.heap q).parent = (deref t.heap q).parent := by
    intro q h1 h2 h4
    rw [hdo q (by omega) (by omega) h2 h4]
  have hsame : ∀ q, q < t.heap.length →
      (deref t1.heap q).is_leaf = (deref t.heap q).is_leaf
        ∧ (deref t1.heap q).values = (deref t.heap q).values
        ∧ ((deref t.heap q).is_leaf = true → (deref t1.heap q).keys = (deref t.heap q).keys) := by
    intro q h1
    by_cases h2 : q = x
    · rw [h2, hdx]
      exact ⟨rfl, rfl, fun h => by rw [hint] at h; cases h⟩
    · by_cases h4 : q ∈ (deref t.heap x).pointers.drop (m / 2 + 1)
      · rw [hdm q h4]
        exact ⟨rfl, rfl, fun _ => rfl⟩
      · rw [hdo q (by omega) (by omega) h2 h4]
        exact ⟨rfl, rfl, fun _ => rfl⟩
  have hsup : ∀ q c, q < t.heap.length → c ∈ (deref t.heap q).pointers →
      c ∉ (deref t.heap x).pointers.drop (m / 2 + 1) → c ∈ (deref t1.heap q).pointers := by
    intro q c hq hc hcm
    by_cases h2 : q = x
    · rw [h2, hdx]
      rw [h2] at hc
      have := List.take_append_drop (m / 2 + 1) (deref t.heap x).pointers
      rw [← this] at hc
      rcases List.mem_append.mp hc with h | h
      · exact h
      · exact absurd h hcm
    · by_cases h4 : q ∈ (deref t.heap x).pointers.drop (m / 2 + 1)
      · rw [hdm q h4]
        exact hc
      · rw [hdo q (by omega) (by omega) h2 h4]
        exact hc
  have hext : Ext t.heap g t1.heap
      (newRootGhost (splitGhost g x t.heap.length s) (t.heap.length + 1) (g.lvl x + 1)) := by
    refine ⟨by omega, fun j hj => ⟨(hsame j hj).1, ?_, ?_⟩⟩
    · show setAt (setAt g.lo t.heap.length (some s)) (t.heap.length + 1) none j = g.lo j
      rw [setAt_ne _ _ _ _ (by omega), setAt_ne _ _ _ _ (by omega)]
    · show setAt (setAt g.lvl t.heap.length (g.lvl x)) (t.heap.length + 1) (g.lvl x + 1) j
        = g.lvl j
      rw [setAt_ne _ _ _ _ (by omega), setAt_ne _ _ _ _ (by omega)]
  have hghi : ∀ q, q < t.heap.length → q ≠ x →
      (newRootGhost (splitGhost g x t.heap.length s) (t.heap.length + 1) (g.lvl x + 1)).hi q
        = g.hi q := by
    intro q h1 h2
    show setAt (setAt (setAt g.hi x (some s)) t.heap.length (g.hi x)) (t.heap.length + 1) none q
      = g.hi q
    rw [setAt_ne _ _ _ _ (by omega), setAt_ne _ _ _ _ (by omega), setAt_ne _ _ _ _ h2]
  have hlvlR : (newRootGhost (splitGhost g x t.heap.length s) (t.heap.length + 1)
      (g.lvl x + 1)).lvl (t.heap.length + 1) = g.lvl x + 1 := setAt_same _ _ _
  have hlvlN : (newRootGhost (splitGhost g x t.heap.length s) (t.heap.length + 1)
      (g.lvl x + 1)).lvl t.heap.length = g.lvl x := by
    show setAt (setAt g.lvl t.heap.length (g.lvl x)) (t.heap.length + 1) (g.lvl x + 1)
      t.heap.length = g.lvl x
    rw [setAt_ne _ _ _ _ (by omega), setAt_same]
  have hloN : (newRootGhost (splitGhost g x t.heap.length s) (t.heap.length + 1)
      (g.lvl x + 1)).lo t.heap.length = some s := by
    show setAt (setAt g.lo t.heap.length (some s)) (t.heap.length + 1) none t.heap.length = some s
    rw [setAt_ne _ _ _ _ (by omega), setAt_same]
  have hhiN : (newRootGhost (splitGhost g x t.heap.length s) (t.heap.length + 1)
      (g.lvl x + 1)).hi t.heap.length = g.hi x := by
    show setAt (setAt (setAt g.hi x (some s)) t.heap.length (g.hi x)) (t.heap.length + 1) none
      t.heap.length = g.hi x
    rw [setAt_ne _ _ _ _ (by omega), setAt_same]
  have hhiX : (newRootGhost (splitGhost g x t.heap.length s) (t.heap.length + 1)
      (g.lvl x + 1)).hi x = some s := by
    show setAt (setAt (setAt g.hi x (some s)) t.heap.length (g.hi x)) (t.heap.length + 1) none x
      = some s
    rw [setAt_ne _ _ _ _ (by omega), setAt_ne _ _ _ _ (by omega), setAt_same]
  have hchildX : ChildOK t1.heap
      (newRootGhost (splitGhost g x t.heap.length s) (t.heap.length + 1) (g.lvl x + 1))
      (t.heap.length + 1) x none (some s) := by
    refine ⟨by omega, by rw [hdx], ?_, ?_, hhiX⟩
    · rw [(hext.2 x hx).2.2, hlvlR]
    · rw [(hext.2 x hx).2.1, hxr]; exact hinv.root_lo
  have hchildN : ChildOK t1.heap
      (newRootGhost (splitGhost g x t.heap.length s) (t.heap.length + 1) (g.lvl x + 1))
      (t.heap.length + 1) t.heap.length (some s) none := by
    refine ⟨by omega, by rw [hdn], by rw [hlvlN, hlvlR], hloN, ?_⟩
    rw [hhiN, hxr]; exact hinv.root_hi
  have hrootint : (deref t1.heap (t.heap.length + 1)).is_leaf = false := by rw [hdr]; rfl
  have hnint : (deref t1.heap t.heap.length).is_leaf = false := by rw [hdn]; rfl
  have hnotmoved : ∀ i c, i < t.heap.length → i ≠ x → c ∈ (deref t.heap i).pointers →
      c < t.heap.length ∧ c ∉ (deref t.heap x).pointers.drop (m / 2 + 1) ∧ c ≠ x := by
    intro i c hi hix hc
    obtain ⟨_, a, b, hab⟩ := hinv.child_lt i c hi hc
    refine ⟨hab.1, fun hcm => ?_, fun e => ?_⟩
    · obtain ⟨_, _, a2, b2, hab2⟩ := hkidsx c (List.mem_of_mem_drop hcm)
      have h1 := hab.2.1
      rw [hab2.2.1] at h1
      exact hix (Option.some.inj h1).symm
    · have := hab.2.1
      rw [e, hpar] at this
      cases this
  refine ⟨t1, t.heap.length + 1,
    newRootGhost (splitGhost g x t.heap.length s) (t.heap.length + 1) (g.lvl x + 1), heq, ?_,
    by omega⟩
  constructor
  · rw [hord]; exact hinv.order
  · exact hroot
  · omega
  · rw [hdr]; rfl
  · exact setAt_same _ _ _
  · exact setAt_same _ _ _
  · rw [hlvlR, hxr]
    have := hinv.height
    omega
  · intro i hi
    rw [hlen] at hi
    by_cases hir : i = t.heap.length + 1
    · subst hir
      exact new_root_ok none _ x t.heap.length s (by omega) hdr (by omega) hchildX hchildN
        (setAt_same _ _ _) (setAt_same _ _ _)
    · by_cases hin : i = t.heap.length
      · subst hin
        refine internal_right_ok hnx hint _ _ s hks (by rw [hlenR]; omega) (by rw [hlenR]; omega)
          t1.heap _ _ _ _ (t.heap.length + 1) (by rw [hdn, hlenL]) hloN hhiN
          (by rw [hlvlN, hlvlR]; omega) ⟨by omega, by rw [hdr]; simp, hrootint⟩ ?_
        intro c hc a b hab
        rw [hlenL] at hc
        obtain ⟨h1, h2⟩ := hps c (List.mem_of_mem_drop hc)
        refine ⟨by omega, by rw [hdm c hc], ?_, (hext.2 c h1).2.1.trans hab.2.2.2.1,
          (hghi c h1 h2).trans hab.2.2.2.2⟩
        rw [hlvlN, (hext.2 c h1).2.2]
        exact hab.2.2.1
      · have hi' : i < t.heap.length := by omega
        by_cases hix : i = x
        · subst hix
          refine internal_left_ok hnx hint _ _ s hks (by rw [hlenL]; omega)
            (by rw [hlenL]; omega) t1.heap _ _ _ (some (t.heap.length + 1)) (by rw [hdx, hlenL])
            (hext.2 i hx).2.1 hhiX (by rw [hlvlR, (hext.2 i hx).2.2]; omega)
            (fun h => by cases h) ?_ ?_
          · intro q hq
            obtain rfl := Option.some.inj hq
            exact ⟨by omega, by rw [hdr]; simp, hrootint⟩
          · intro c hc a b hab
            rw [hlenL] at hc
            obtain ⟨h1, h2⟩ := hps c (List.mem_of_mem_take hc)
            exact hab.child_ext hext (hparent c h1 h2 (hdisj c hc)) (hghi c h1 h2) (hext.2 i hx).2.2
        · have hni := hinv.nodes i hi'
          have hlev : g.lvl i ≤ g.lvl x + 1 := by
            have := hni.level
            rw [← hxr] at this
            omega
          by_cases him : i ∈ (deref t.heap x).pointers.drop (m / 2 + 1)
          · refine hni.transfer t1.heap _ _ _ (some t.heap.length) (hdm i him) (hext.2 i hi').2.2
              (hext.2 i hi').2.1 (hghi i hi' hix) (fun h => absurd (Option.some.inj h).symm hix)
              (by rw [hlvlR, (hext.2 i hi').2.2]; exact hlev) (fun h => by cases h) ?_ ?_ ?_
            · intro q hq
              obtain rfl := Option.some.inj hq
              refine ⟨by omega, ?_, hnint⟩
              rw [hdn]
              exact him
            · intro c hc a b hab
              obtain ⟨h1, h2, h3⟩ := hnotmoved i c hi' hix hc
              exact hab.child_ext hext (hparent c h1 h3 h2) (hghi c h1 h3) (hext.2 i hi').2.2
            · intro _ hnx2
              exact hnx2.next_ext hext
          · refine other_node_ok hinv i hi' t1.heap _ _ _ hext
              (hdo i (by omega) (by omega) hix him) (hghi i hi' hix)
              (fun h => hix (Option.some.inj h).symm) (by rw [hlvlR, ← hxr]; omega)
              (fun h => absurd (hni.is_root h) (by rw [← hxr]; exact hix))
              (fun q hq => hsup _ _ (hni.parent q hq).1 (hni.parent q hq).2.1 him) ?_
            intro c hc
            obtain ⟨h1, h2, h3⟩ := hnotmoved i c hi' hix hc
            exact ⟨hparent c h1 h3 h2, hghi c h1 h3⟩
  · intro q
    rw [hinv.content]
    refine (stored_same t.heap t1.heap (by omega) ?_ ?_ q).symm
    · intro q1 h1
      obtain ⟨e1, e2, e3⟩ := hsame q1 h1
      exact ⟨e1, fun h => ⟨e3 h, e2⟩⟩
    · intro q1 h1
      by_cases h0 : q1 = t.heap.length + 1
      · rw [h0]; exact hrootint
      · by_cases h2 : q1 = t.heap.length
        · rw [h2]; exact hnint
        · rw [hdo q1 h0 h2 (by omega) (fun h => by
            have := (hps q1 (List.mem_of_mem_drop h)).1
            omega), deref_ge _ _ h1]
          rfl

/-! ### The invariant across `insert` -/

theorem InvG.clear {m : Nat} {t : BPlusTree} {r : Nat} {kvs : List (Int × Int)} {g : Ghost}
    {p : Nat} (hinv : InvG m t r (some p) kvs g) (hsz : (deref t.heap p).keys.length ≤ m) :
    InvG m t r none kvs g := by
  refine ⟨hinv.order, hinv.root, hinv.root_lt, hinv.root_parent, hinv.root_lo, hinv.root_hi,
    hinv.height, fun i hi => ?_, hinv.content⟩
  have hn := hinv.nodes i hi
  refine ⟨hn.max_keys, hn.min_keys, hn.num_keys, ?_, hn.nonempty, hn.sorted, hn.range, hn.level,
    hn.is_root, hn.parent, hn.leaf, hn.internal⟩
  rcases hn.size with h | ⟨h1, _⟩
  · exact Or.inl h
  · obtain rfl := Option.some.inj h1
    exact Or.inl hsz

theorem toSizeT_eq (x : Int) (h : 0 ≤ x) (h2 : x < 18446744073709551616) : toSizeT x = x := by
  unfold toSizeT
  omega

theorem overflow_iff {m : Nat} {heap : List Node} {r : Nat} {ov : Option Nat} {g : Ghost}
    {i : Nat} (hn : NodeOK m heap r ov g i) (hmax : m ≤ 2147483647) :
    (((deref heap i).keys.length : Int) > toSizeT (deref heap i).max_keys)
      ↔ (deref heap i).keys.length = m + 1 := by
  rw [hn.max_keys, toSizeT_eq _ (by omega) (by omega)]
  rcases hn.size with h | ⟨_, h⟩ <;> omega

/-- The closing loop of the split functions restores the invariant, given that
`split_internal_node` with fuel `fuel` does. -/
theorem split_loop_inv {m : Nat} (hmax : m ≤ 2147483647) (fuel : Nat)
    (hsplit : ∀ (t : BPlusTree) (r : Nat) (kvs : List (Int × Int)) (g : Ghost) (x : Nat),
      InvG m t r (some x) kvs g → x < t.heap.length → (deref t.heap x).is_leaf = false →
      (deref t.heap x).keys.length = m + 1 → g.lvl r + 1 ≤ fuel + g.lvl x →
      ∃ t1 r1 g1, split_internal_node fuel t x = .ok t1 ∧ InvG m t1 r1 none kvs g1
        ∧ t.heap.length ≤ t1.heap.length)
    (t : BPlusTree) (r : Nat) (kvs : List (Int × Int)) (g : Ghost) (p : Nat)
    (hinv : InvG m t r (some p) kvs g) (hp : p < t.heap.length)
    (hint : (deref t.heap p).is_leaf = false) (hfuel : g.lvl r + 1 ≤ fuel + g.lvl p) :
    ∃ t1 r1 g1, split_loop (split_internal_node fuel) (fuel + 1) t p = .ok t1
      ∧ InvG m t1 r1 none kvs g1 ∧ t.heap.length ≤ t1.heap.length := by
  have hnp := hinv.nodes p hp
  unfold split_loop
  by_cases hov : ((deref t.heap p).keys.length : Int) > toSizeT (deref t.heap p).max_keys
  · simp only [hov, if_true]
    have hsz := (overflow_iff hnp hmax).mp hov
    obtain ⟨t1, r1, g1, e1, hinv1, hlen1⟩ := hsplit t r kvs g p hinv hp hint hsz hfuel
    simp only [e1]
    cases hpar : (deref t1.heap p).parent with
    | none => exact ⟨t1, r1, g1, rfl, hinv1, hlen1⟩
    | some pp =>
      have hp1 : p < t1.heap.length := by omega
      obtain ⟨hpp, _, _⟩ := (hinv1.nodes p hp1).parent pp hpar
      have hnpp := hinv1.nodes pp hpp
      obtain ⟨f, rfl⟩ : ∃ f, fuel = f + 1 := ⟨fuel - 1, by have := hnp.level; omega⟩
      refine ⟨t1, r1, g1, ?_, hinv1, hlen1⟩
      simp only []
      unfold split_loop
      have hno : ¬ ((deref t1.heap pp).keys.length : Int) > toSizeT (deref t1.heap pp).max_keys := by
        rw [overflow_iff hnpp hmax]
        rcases hnpp.size with h | ⟨h, _⟩
        · omega
        · cases h
      simp only [hno, if_false]
  · simp only [hov, if_false]
    refine ⟨t, r, g, rfl, hinv.clear ?_, le_refl _⟩
    rw [overflow_iff hnp hmax] at hov
    rcases hnp.size with h | ⟨_, h⟩
    · exact h
    · exact absurd h hov

/-- Method `split_internal_node` restores the invariant when it is called on the node that
holds one key too many, with fuel for every level up to the root. -/
theorem split_internal_node_inv {m : Nat} (hm : 3 ≤ m) (hmax : m ≤ 2147483647) :
    ∀ (fuel : Nat) (t : BPlusTree) (r : Nat) (kvs : List (Int × Int)) (g : Ghost) (x : Nat),
      InvG m t r (some x) kvs g → x < t.heap.length → (deref t.heap x).is_leaf = false →
      (deref t.heap x).keys.length = m + 1 → g.lvl r + 1 ≤ fuel + g.lvl x →
      ∃ t1 r1 g1, split_internal_node fuel t x = .ok t1 ∧ InvG m t1 r1 none kvs g1
        ∧ t.heap.length ≤ t1.heap.length := by
  intro fuel
  induction fuel with
  | zero =>
    intro t r kvs g x hinv hx _ _ hfuel
    have := (hinv.nodes x hx).level
    omega
  | succ fuel ih =>
    intro t r kvs g x hinv hx hint hsz hfuel
    cases hpar : (deref t.heap x).parent with
    | none => exact split_internal_root_inv hm fuel x hinv hx hint hsz hpar
    | some p =>
      obtain ⟨t1, g1, heq, hinv1, hp1, hint1, hl1, hl2, hlen⟩ :=
        split_internal_nonroot_inv hm fuel x p hinv hx hint hsz hpar
      obtain ⟨hp, hxp, _⟩ := (hinv.nodes x hx).parent p hpar
      obtain ⟨_, a, b, hab⟩ := hinv.child_lt p x hp hxp
      have hlv := hab.2.2.1
      obtain ⟨t2, r2, g2, e2, hinv2, hlen2⟩ := split_loop_inv hmax fuel ih t1 r kvs g1 p hinv1
        hp1 hint1 (by rw [hl1, hl2]; omega)
      exact ⟨t2, r2, g2, heq.trans e2, hinv2, by omega⟩

theorem insert_empty_eq {m : Nat} (hmax : m ≤ 2147483647) (hm : 3 ≤ m) (key value : Int) :
    insert { order := m, root := none, heap := [] } key value
      = .ok { order := m, root := some 0
              heap := [{ LeafNode m with keys := [key], values := [value] }] } := by
  have h1 : ¬ (((1 : Nat) : Int) > toSizeT (m : Int)) := by
    rw [toSizeT_eq _ (by omega) (by omega)]
    omega
  simp only [insert, find_leaf_node, insert_into_leaf_node, upd, deref, List.nil_append,
    List.length_nil, List.getD_cons_zero, List.set_cons_zero, LeafNode, Node.new, insertAt,
    lower_bound, List.take_nil, List.drop_nil, List.length_singleton]
  rw [if_neg h1]

/-- The first `insert` into the empty tree makes a root leaf that holds the pair. -/
theorem insert_empty_inv {m : Nat} (hm : 3 ≤ m) (hmax : m ≤ 2147483647) (t : BPlusTree)
    (key value : Int) (hroot : t.root = none) (hheap : t.heap = []) (hord : t.order = m) :
    ∃ t1, insert t key value = .ok t1 ∧ InvG m t1 0 none [(key, value)] leafGhost := by
  obtain ⟨order, root, heap⟩ := t
  simp only at hroot hheap hord
  subst hroot hheap hord
  refine ⟨_, insert_empty_eq hmax hm key value, ?_⟩
  have hnode : deref [({ LeafNode m with keys := [key], values := [value] } : Node)] 0
      = { LeafNode m with keys := [key], values := [value] } := rfl
  constructor
  · rfl
  · rfl
  · exact Nat.zero_lt_one
  · rfl
  · rfl
  · rfl
  · exact Nat.zero_lt_one
  · intro i hi
    obtain rfl : i = 0 := by
      simp only [List.length_singleton] at hi
      omega
    constructor
    · rfl
    · rfl
    · rfl
    · exact Or.inl (by show 1 ≤ m; omega)
    · exact le_refl _
    · exact List.pairwise_singleton _ _
    · intro k _
      exact ⟨loLe_none k, ltHi_none k⟩
    · exact le_refl _
    · intro _; rfl
    · intro p hp
      cases hp
    · intro _
      refine ⟨rfl, rfl, rfl, ?_, ?_⟩
      · intro a ha
        have hb : (none : Option Int) = some a := ha
        cases hb
      · show (none : Option Nat) = none
        rfl
    · intro h
      cases h
  · intro p
    constructor
    · intro hp
      rw [List.mem_singleton] at hp
      subst hp
      exact ⟨0, Nat.zero_lt_one, rfl, by rw [hnode]; simp⟩
    · rintro ⟨i, h1, _, h3⟩
      obtain rfl : i = 0 := by
        simp only [List.length_singleton] at h1
        omega
      rw [hnode] at h3
      simpa using h3

/-- Method `insert` of a key that is not stored keeps the invariant and adds the pair. -/
theorem insert_inv {m : Nat} (hm : 3 ≤ m) (hmax : m ≤ 2147483647) (t : BPlusTree) (r : Nat)
    (kvs : List (Int × Int)) (g : Ghost) (key value : Int) (hinv : InvG m t r none kvs g)
    (hnew : ∀ v, (key, v) ∉ kvs) :
    ∃ t1 r1 g1, insert t key value = .ok t1 ∧ InvG m t1 r1 none (kvs ++ [(key, value)]) g1 := by
  obtain ⟨leaf, hfind, hlt, hleaf, hlo, hhi⟩ := find_leaf_node_inv hinv key
  have hinv2 := insert_into_leaf_node_inv hinv leaf key value hlt hleaf hlo hhi hnew
  have hlen2 : (insert_into_leaf_node t leaf key value).heap.length = t.heap.length := by
    simp [insert_into_leaf_node, length_upd]
  have hn2 := hinv2.nodes leaf (by rw [hlen2]; exact hlt)
  have hleaf2 : (deref (insert_into_leaf_node t leaf key value).heap leaf).is_leaf = true := by
    rw [deref_insert_into_leaf_node t leaf key value leaf hlt, if_pos rfl]
    exact hleaf
  have hkeys2 : (deref (insert_into_leaf_node t leaf key value).heap leaf).keys.length
      = (deref t.heap leaf).keys.length + 1 := by
    rw [deref_insert_into_leaf_node t leaf key value leaf hlt, if_pos rfl]
    exact insertAt_length _ _ _ (lower_bound_le _ _)
  simp only [insert, hfind]
  by_cases hov : ((deref (insert_into_leaf_node t leaf key value).heap leaf).keys.length : Int)
      > toSizeT (deref (insert_into_leaf_node t leaf key value).heap leaf).max_keys
  · rw [if_pos hov]
    have hsz := (overflow_iff hn2 hmax).mp hov
    have hne : ¬ (deref t.heap leaf).keys.length + 1 ≤ m := by omega
    rw [if_neg hne] at hinv2
    cases hpar : (deref (insert_into_leaf_node t leaf key value).heap leaf).parent with
    | none =>
      obtain ⟨t1, r1, g1, e, h1, _⟩ := split_leaf_root_inv hm leaf hinv2
        (by rw [hlen2]; exact hlt) hleaf2 hsz hpar
      exact ⟨t1, r1, g1, e, h1⟩
    | some p =>
      obtain ⟨t1, g1, e, h1, hp1, hint1, hl1, _⟩ := split_leaf_nonroot_inv hm leaf p hinv2
        (by rw [hlen2]; exact hlt) hleaf2 hsz hpar
      obtain ⟨t2, r2, g2, e2, h2, _⟩ := split_loop_inv hmax t1.heap.length
        (split_internal_node_inv hm hmax t1.heap.length) t1 r _ g1 p h1 hp1 hint1
        (by have := h1.height; omega)
      exact ⟨t2, r2, g2, e.trans e2, h2⟩
  · rw [if_neg hov]
    have hle : (deref t.heap leaf).keys.length + 1 ≤ m := by
      rw [overflow_iff hn2 hmax] at hov
      rcases hn2.size with h | ⟨_, h⟩
      · omega
      · exact absurd h hov
    rw [if_pos hle] at hinv2
    exact ⟨_, r, g, rfl, hinv2⟩

/-! ### Sequences of inserts -/

/-- A sequence of inserts of pairwise distinct keys, none of them stored, runs to completion
and keeps the invariant. -/
theorem insert_all_inv {m : Nat} (hm : 3 ≤ m) (hmax : m ≤ 2147483647) :
    ∀ (new : List (Int × Int)) (t : BPlusTree) (kvs : List (Int × Int)), Inv m t kvs →
      ((kvs ++ new).map Prod.fst).Nodup →
      ∃ t1, insert_all (.ok t) new = .ok t1 ∧ Inv m t1 (kvs ++ new) := by
  intro new
  induction new with
  | nil =>
    intro t kvs hinv _
    exact ⟨t, rfl, by rw [List.append_nil]; exact hinv⟩
  | cons kv new ih =>
    intro t kvs hinv hnd
    obtain ⟨key, value⟩ := kv
    have hnd1 : (((kvs ++ [(key, value)]) ++ new).map Prod.fst).Nodup := by
      rw [List.append_assoc]
      exact hnd
    have hnew : ∀ v, (key, v) ∉ kvs := by
      intro v hv
      rw [List.map_append, List.nodup_append] at hnd
      exact hnd.2.2 (List.mem_map.mpr ⟨(key, v), hv, rfl⟩) (by simp)
    have hstep : ∃ t1, insert t key value = .ok t1 ∧ Inv m t1 (kvs ++ [(key, value)]) := by
      rcases hinv with ⟨h1, h2, h3, h4⟩ | ⟨r, g, h⟩
      · obtain ⟨t1, e, h5⟩ := insert_empty_inv hm hmax t key value h1 h2 h3
        subst h4
        exact ⟨t1, e, Or.inr ⟨0, leafGhost, h5⟩⟩
      · obtain ⟨t1, r1, g1, e, h5⟩ := insert_inv hm hmax t r kvs g key value h hnew
        exact ⟨t1, e, Or.inr ⟨r1, g1, h5⟩⟩
    obtain ⟨t1, e1, hinv1⟩ := hstep
    obtain ⟨t2, e2, hinv2⟩ := ih t1 _ hinv1 hnd1
    refine ⟨t2, ?_, by rw [List.append_assoc] at hinv2; exact hinv2⟩
    simp only [insert_all, e1]
    exact e2

/-- The tree built from the empty tree of order `m` by inserts of pairwise distinct keys. -/
theorem build_inv {m : Nat} (hm : 3 ≤ m) (hmax : m ≤ 2147483647) (kvs : List (Int × Int))
    (hnd : (kvs.map Prod.fst).Nodup) :
    ∃ t, insert_all (BPlusTree.new m) kvs = .ok t ∧ Inv m t kvs := by
  have h := insert_all_inv hm hmax kvs { order := m, root := none, heap := [] } []
    (Or.inl ⟨rfl, rfl, rfl, rfl⟩) (by simpa using hnd)
  simpa [BPlusTree.new] using h

theorem Kids.first {S : Nat → Option Int → Option Int → Prop} (ks : List Int) (cs : List Nat)
    (lo hi : Option Int) (h : Kids S cs ks lo hi) :
    ∃ c b, rd cs 0 = .ok c ∧ c ∈ cs ∧ S c lo b := by
  cases ks with
  | nil =>
    obtain ⟨c, rfl, hc⟩ := h
    exact ⟨c, hi, rd_cons_zero _ _, by simp, hc⟩
  | cons k ks =>
    obtain ⟨c, rest, rfl, hc, _⟩ := h
    exact ⟨c, some k, rd_cons_zero _ _, by simp, hc⟩

theorem InvG.is_leaf_iff {m : Nat} {t : BPlusTree} {r : Nat} {ov : Option Nat}
    {kvs : List (Int × Int)} {g : Ghost} (hinv : InvG m t r ov kvs g) (i : Nat)
    (hi : i < t.heap.length) : (deref t.heap i).is_leaf = true ↔ g.lvl i = 0 := by
  have hn := hinv.nodes i hi
  constructor
  · intro h
    exact (hn.leaf h).1
  · intro h
    cases hl : (deref t.heap i).is_leaf with
    | true => rfl
    | false =>
      obtain ⟨c, b, _, _, hc⟩ := Kids.first _ _ _ _ (hn.internal hl).2
      have := hc.2.2.1
      omega

/-- Under the invariant every leaf below a node is as many levels down as the level of the
node says. -/
theorem leaves_at_depth_inv {m : Nat} {t : BPlusTree} {r : Nat} {ov : Option Nat}
    {kvs : List (Int × Int)} {g : Ghost} (hinv : InvG m t r ov kvs g) :
    ∀ (n i : Nat), i < t.heap.length → g.lvl i = n → leaves_at_depth t.heap n i = true := by
  intro n
  induction n with
  | zero =>
    intro i hi hl
    exact (hinv.is_leaf_iff i hi).mpr hl
  | succ n ih =>
    intro i hi hl
    have hint : (deref t.heap i).is_leaf = false := by
      cases h : (deref t.heap i).is_leaf with
      | false => rfl
      | true =>
        have := (hinv.is_leaf_iff i hi).mp h
        omega
    simp only [leaves_at_depth, hint, Bool.not_false, Bool.true_and, List.all_eq_true]
    intro c hc
    obtain ⟨_, a, b, hab⟩ := hinv.child_lt i c hi hc
    exact ih c hab.1 (by have := hab.2.2.1; omega)

/-! ### Search -/

theorem InvG.eq_root_of_level {m : Nat} {t : BPlusTree} {r : Nat} {ov : Option Nat}
    {kvs : List (Int × Int)} {g : Ghost} (hinv : InvG m t r ov kvs g) (i : Nat)
    (hi : i < t.heap.length) (hl : g.lvl r ≤ g.lvl i) : i = r := by
  have hn := hinv.nodes i hi
  cases hp : (deref t.heap i).parent with
  | none => exact hn.is_root hp
  | some p =>
    obtain ⟨hp1, hp2, _⟩ := hn.parent p hp
    obtain ⟨_, a, b, hab⟩ := hinv.child_lt p i hp1 hp2
    have h1 := hab.2.2.1
    have h2 := (hinv.nodes p hp1).level
    omega

/-- The descent of `find_leaf_node` ends in the one leaf whose range holds the key: a leaf in
charge of `key` is reached from every node above it, hence from the root. -/
theorem find_leaf_loop_unique {m : Nat} {t : BPlusTree} {r : Nat} {ov : Option Nat}
    {kvs : List (Int × Int)} {g : Ghost} (hinv : InvG m t r ov kvs g) (key : Int) (leaf : Nat) :
    ∀ (d i : Nat), i < t.heap.length → g.lvl i + d = g.lvl r → loLe (g.lo i) key →
      ltHi key (g.hi i) →
      (∀ fuel, g.lvl i < fuel → find_leaf_loop t.heap key fuel i = .ok leaf) →
      ∀ fuel, g.lvl r < fuel → find_leaf_loop t.heap key fuel r = .ok leaf := by
  intro d
  induction d with
  | zero =>
    intro i hi hl _ _ hloop fuel hf
    have := hinv.eq_root_of_level i hi (by omega)
    subst this
    exact hloop fuel hf
  | succ d ih =>
    intro i hi hl h1 h2 hloop
    have hn := hinv.nodes i hi
    cases hp : (deref t.heap i).parent with
    | none =>
      have := hn.is_root hp
      subst this
      omega
    | some p =>
      obtain ⟨hp1, hp2, hp3⟩ := hn.parent p hp
      have hnp := hinv.nodes p hp1
      obtain ⟨_, hk⟩ := hnp.internal hp3
      obtain ⟨_, a, b, hab⟩ := hinv.child_lt p i hp1 hp2
      have hlv := hab.2.2.1
      obtain ⟨a1, b1, hc1, hn1⟩ := Kids.lo_nested _ _ _ _ hk hnp.sorted
        (fun k hk1 => (hnp.range k hk1).1) i hp2
      obtain ⟨a2, b2, hc2, hn2⟩ := Kids.hi_nested _ _ _ _ hk hnp.sorted
        (fun k hk1 => (hnp.range k hk1).2) i hp2
      refine ih p hp1 (by omega) (hn1 key (by rw [← hc1.fun_of.1]; exact h1))
        (hn2 key (by rw [← hc2.fun_of.2]; exact h2)) ?_
      intro fuel hf
      obtain ⟨fuel, rfl⟩ : ∃ f, fuel = f + 1 := ⟨fuel - 1, by omega⟩
      have hroute := Kids.route_unique g.lo g.hi (fun c a b h => ChildOK.fun_of h) key i _ _ _ _
        hk hnp.sorted hp2 h1 h2
      simp only [find_leaf_loop, hp3, hroute]
      exact hloop fuel (by omega)

/-- A leaf whose range holds `key` is the leaf that `find_leaf_node` returns for `key`. -/
theorem find_leaf_node_unique {m : Nat} {t : BPlusTree} {r : Nat} {ov : Option Nat}
    {kvs : List (Int × Int)} {g : Ghost} (hinv : InvG m t r ov kvs g) (key : Int) (leaf : Nat)
    (hlt : leaf < t.heap.length) (hleaf : (deref t.heap leaf).is_leaf = true)
    (hlo : loLe (g.lo leaf) key) (hhi : ltHi key (g.hi leaf)) :
    find_leaf_node t key = .ok (some leaf) := by
  have hlvl := (hinv.nodes leaf hlt).level
  have h := find_leaf_loop_unique hinv key leaf (g.lvl r - g.lvl leaf) leaf hlt (by omega) hlo hhi
    (by
      intro fuel hf
      obtain ⟨fuel, rfl⟩ : ∃ f, fuel = f + 1 := ⟨fuel - 1, by omega⟩
      simp only [find_leaf_loop, hleaf, if_true]) t.heap.length hinv.height
  simp only [find_leaf_node, hinv.root, h]

/-- In a sorted vector of keys with parallel values, the lower bound of a stored key is the
index of the key and of its value. -/
theorem lower_bound_zip (key value : Int) :
    ∀ (keys values : List Int), keys.Pairwise (· < ·) → (key, value) ∈ keys.zip values →
      keys.get? (lower_bound keys key) = some key
        ∧ rd values (lower_bound keys key) = .ok value := by
  intro keys
  induction keys with
  | nil => intro values _ h; simp at h
  | cons k ks ih =>
    intro values hs h
    cases values with
    | nil => simp at h
    | cons v vs =>
      rw [List.pairwise_cons] at hs
      simp only [List.zip_cons_cons, List.mem_cons, Prod.mk.injEq] at h
      rcases h with ⟨rfl, rfl⟩ | h
      · simp [lower_bound, rd_cons_zero]
      · have hmem : key ∈ ks := (List.of_mem_zip h).1
        have hlt := hs.1 key hmem
        obtain ⟨e1, e2⟩ := ih vs hs.2 h
        simp only [lower_bound, hlt, if_true, List.get?_cons_succ, rd_cons_succ]
        exact ⟨e1, e2⟩

theorem mem_of_get?_lower_bound (keys : List Int) (key k : Int)
    (h : keys.get? (lower_bound keys key) = some k) : k ∈ keys :=
  List.get?_mem h

/-- Under the invariant `search` returns the value stored with a key. -/
theorem search_stored {m : Nat} {t : BPlusTree} {r : Nat} {kvs : List (Int × Int)} {g : Ghost}
    (hinv : InvG m t r none kvs g) (key value : Int) (h : (key, value) ∈ kvs) :
    search t key = .ok value := by
  obtain ⟨leaf, hlt, hleaf, hmem⟩ := (hinv.content _).mp h
  have hn := hinv.nodes leaf hlt
  have hk : key ∈ (deref t.heap leaf).keys := (List.of_mem_zip hmem).1
  obtain ⟨hlo, hhi⟩ := hn.range key hk
  have hfind := find_leaf_node_unique hinv key leaf hlt hleaf hlo hhi
  obtain ⟨e1, e2⟩ := lower_bound_zip key value _ _ hn.sorted hmem
  simp only [search, hfind, e1, e2]
  simp

/-- Under the invariant `search` returns -1 for a key that is not stored. -/
theorem search_absent {m : Nat} {t : BPlusTree} {r : Nat} {kvs : List (Int × Int)} {g : Ghost}
    (hinv : InvG m t r none kvs g) (key : Int) (h : ∀ v, (key, v) ∉ kvs) :
    search t key = .ok (-1) := by
  obtain ⟨leaf, hfind, hlt, hleaf, _, _⟩ := find_leaf_node_inv hinv key
  have hn := hinv.nodes leaf hlt
  have hnot : key ∉ (deref t.heap leaf).keys := by
    intro hk
    obtain ⟨v, hv⟩ := exists_mem_zip _ _ key (hn.leaf hleaf).2.2.1 hk
    exact h v ((hinv.content _).mpr ⟨leaf, hlt, hleaf, hv⟩)
  simp only [search, hfind]
  cases hget : (deref t.heap leaf).keys.get? (lower_bound (deref t.heap leaf).keys key) with
  | none => rfl
  | some k =>
    have hk : k ∈ (deref t.heap leaf).keys := mem_of_get?_lower_bound _ _ _ hget
    have hne : k ≠ key := fun e => hnot (e ▸ hk)
    simp only [hne, ne_eq, not_false_eq_true, if_true]

/-! ### The leaf chain -/

/-- The first key of a leaf is its least key, lies in the range of the leaf, and is the lower
end of the range if there is one. -/
theorem headKey_facts {m : Nat} {t : BPlusTree} {r : Nat} {ov : Option Nat}
    {kvs : List (Int × Int)} {g : Ghost} (hinv : InvG m t r ov kvs g) (i : Nat)
    (hi : i < t.heap.length) (hleaf : (deref t.heap i).is_leaf = true) :
    headKey t.heap i ∈ (deref t.heap i).keys
      ∧ (∀ k ∈ (deref t.heap i).keys, headKey t.heap i ≤ k)
      ∧ loLe (g.lo i) (headKey t.heap i) ∧ ltHi (headKey t.heap i) (g.hi i)
      ∧ (∀ a, g.lo i = some a → headKey t.heap i = a) := by
  have hn := hinv.nodes i hi
  have hne := hn.nonempty
  have hs := hn.sorted
  have h4 := (hn.leaf hleaf).2.2.2.1
  unfold headKey
  cases hk : (deref t.heap i).keys with
  | nil => rw [hk] at hne; simp at hne
  | cons k ks =>
    rw [hk] at hs h4
    have hmem : k ∈ (deref t.heap i).keys := by rw [hk]; simp
    refine ⟨by simp, ?_, (hn.range k hmem).1, (hn.range k hmem).2, ?_⟩
    · intro k1 hk1
      rcases List.mem_cons.mp hk1 with rfl | hk1
      · exact le_refl _
      · exact le_of_lt ((List.pairwise_cons.mp hs).1 k1 hk1)
    · intro a ha
      have := h4 a ha
      simpa using this

/-- Two leaves whose ranges hold the same key are one leaf. -/
theorem leaf_unique {m : Nat} {t : BPlusTree} {r : Nat} {ov : Option Nat}
    {kvs : List (Int × Int)} {g : Ghost} (hinv : InvG m t r ov kvs g) (key : Int) (i j : Nat)
    (hi : i < t.heap.length) (hj : j < t.heap.length)
    (hli : (deref t.heap i).is_leaf = true) (hlj : (deref t.heap j).is_leaf = true)
    (h1 : loLe (g.lo i) key) (h2 : ltHi key (g.hi i))
    (h3 : loLe (g.lo j) key) (h4 : ltHi key (g.hi j)) : i = j := by
  have e1 := find_leaf_node_unique hinv key i hi hli h1 h2
  have e2 := find_leaf_node_unique hinv key j hj hlj h3 h4
  rw [e1] at e2
  cases e2
  rfl

/-- The walk of the leaf chain from a leaf on ends within the fuel that the nodes not yet
visited allow, and visits in ascending order of keys the entries of the leaves whose first key
is not below the first key of the start. -/
theorem chain_loop_inv {m : Nat} {t : BPlusTree} {r : Nat} {ov : Option Nat}
    {kvs : List (Int × Int)} {g : Ghost} (hinv : InvG m t r ov kvs g) :
    ∀ (fuel : Nat) (V : Finset Nat) (l : Nat), l < t.heap.length →
      (deref t.heap l).is_leaf = true → (∀ v ∈ V, v < t.heap.length) →
      (∀ v ∈ V, headKey t.heap v < headKey t.heap l) → t.heap.length ≤ V.card + fuel →
      ∃ es, chain_loop t.heap fuel (some l) = .ok es ∧ (es.map Prod.fst).Pairwise (· < ·)
        ∧ (∀ p ∈ es, headKey t.heap l ≤ p.1)
        ∧ ∀ p, p ∈ es ↔ ∃ v, v < t.heap.length ∧ (deref t.heap v).is_leaf = true
            ∧ headKey t.heap l ≤ headKey t.heap v
            ∧ p ∈ (deref t.heap v).keys.zip (deref t.heap v).values := by
  intro fuel
  induction fuel with
  | zero =>
    intro V l hl _ hV hlt hcard
    exfalso
    have hsub : V ⊆ Finset.range t.heap.length := fun v hv =>
      Finset.mem_range.mpr (hV v hv)
    have heq : V = Finset.range t.heap.length :=
      Finset.eq_of_subset_of_card_le hsub (by rw [Finset.card_range]; omega)
    have := hlt l (by rw [heq]; exact Finset.mem_range.mpr hl)
    omega
  | succ fuel ih =>
    intro V l hl hleaf hV hlt hcard
    have hn := hinv.nodes l hl
    obtain ⟨_, _, l3, _, l5⟩ := hn.leaf hleaf
    obtain ⟨f1, f2, f3, f4, _⟩ := headKey_facts hinv l hl hleaf
    have hkeys : ((deref t.heap l).keys.zip (deref t.heap l).values).map Prod.fst
        = (deref t.heap l).keys := List.map_fst_zip _ _ (by omega)
    have hself : ∀ p, p ∈ (deref t.heap l).keys.zip (deref t.heap l).values →
        headKey t.heap l ≤ p.1 ∧ ltHi p.1 (g.hi l) := by
      intro p hp
      have : p.1 ∈ (deref t.heap l).keys := (List.of_mem_zip hp).1
      exact ⟨f2 _ this, (hn.range _ this).2⟩
    cases hhi : g.hi l with
    | none =>
      rw [hhi] at l5
      have hnext : (deref t.heap l).next = none := l5
      refine ⟨(deref t.heap l).keys.zip (deref t.heap l).values, ?_, ?_, ?_, ?_⟩
      · simp [chain_loop, hnext]
      · rw [hkeys]; exact hn.sorted
      · intro p hp
        exact (hself p hp).1
      · intro p
        constructor
        · intro hp
          exact ⟨l, hl, hleaf, le_refl _, hp⟩
        · rintro ⟨v, hv, hvl, hle, hp⟩
          obtain ⟨_, _, g3, g4, _⟩ := headKey_facts hinv v hv hvl
          have : l = v := leaf_unique hinv (headKey t.heap v) l v hl hv hleaf hvl
            (fun a ha => le_trans (f3 a ha) hle) (by rw [hhi]; exact ltHi_none _) g3 g4
          subst this
          exact hp
    | some b =>
      rw [hhi] at l5
      obtain ⟨j, hnext, hj, hjl, hjlo⟩ := l5
      obtain ⟨_, _, _, _, j5⟩ := headKey_facts hinv j hj hjl
      have hjb : headKey t.heap j = b := j5 b hjlo
      have hlb : headKey t.heap l < b := f4 b hhi
      have hnotin : l ∉ V := fun h => by
        have := hlt l h
        omega
      obtain ⟨es, e, s1, s2, s3⟩ := ih (Insert.insert l V) j hj hjl
        (by
          intro v hv
          rcases Finset.mem_insert.mp hv with rfl | hv
          · exact hl
          · exact hV v hv)
        (by
          intro v hv
          rcases Finset.mem_insert.mp hv with rfl | hv
          · omega
          · have := hlt v hv
            omega)
        (by rw [Finset.card_insert_of_not_mem hnotin]; omega)
      refine ⟨(deref t.heap l).keys.zip (deref t.heap l).values ++ es, ?_, ?_, ?_, ?_⟩
      · simp [chain_loop, hnext, e]
      · rw [List.map_append, hkeys, List.pairwise_append]
        refine ⟨hn.sorted, s1, ?_⟩
        intro a ha c hc
        obtain ⟨p, hp, rfl⟩ := List.mem_map.mp hc
        have h1 := (hn.range a ha).2 b hhi
        have h2 := s2 p hp
        omega
      · intro p hp
        rcases List.mem_append.mp hp with h | h
        · exact (hself p h).1
        · have := s2 p h
          omega
      · intro p
        rw [List.mem_append, s3]
        constructor
        · rintro (h | ⟨v, hv, hvl, hle, hp⟩)
          · exact ⟨l, hl, hleaf, le_refl _, h⟩
          · exact ⟨v, hv, hvl, by omega, hp⟩
        · rintro ⟨v, hv, hvl, hle, hp⟩
          by_cases hvb : headKey t.heap v < b
          · obtain ⟨_, _, g3, g4, _⟩ := headKey_facts hinv v hv hvl
            have : l = v := leaf_unique hinv (headKey t.heap v) l v hl hv hleaf hvl
              (fun a ha => le_trans (f3 a ha) hle)
              (by rw [hhi]; intro b1 hb1; cases hb1; exact hvb) g3 g4
            subst this
            exact Or.inl hp
          · exact Or.inr ⟨v, hv, hvl, by omega, hp⟩

/-- The descent along the first children ends in a leaf whose range is open below. -/
theorem leftmost_loop_inv {m : Nat} {t : BPlusTree} {r : Nat} {ov : Option Nat}
    {kvs : List (Int × Int)} {g : Ghost} (hinv : InvG m t r ov kvs g) :
    ∀ (n i fuel : Nat), g.lvl i = n → i < t.heap.length → g.lo i = none → n < fuel →
      ∃ leaf, leftmost_loop t.heap fuel i = .ok leaf ∧ leaf < t.heap.length
        ∧ (deref t.heap leaf).is_leaf = true ∧ g.lo leaf = none := by
  intro n
  induction n with
  | zero =>
    intro i fuel hl hi hlo hf
    obtain ⟨fuel, rfl⟩ : ∃ f, fuel = f + 1 := ⟨fuel - 1, by omega⟩
    have hleaf := (hinv.is_leaf_iff i hi).mpr hl
    exact ⟨i, by simp [leftmost_loop, hleaf], hi, hleaf, hlo⟩
  | succ n ih =>
    intro i fuel hl hi hlo hf
    obtain ⟨fuel, rfl⟩ : ∃ f, fuel = f + 1 := ⟨fuel - 1, by omega⟩
    have hn := hinv.nodes i hi
    have hint : (deref t.heap i).is_leaf = false := by
      cases h : (deref t.heap i).is_leaf with
      | false => rfl
      | true =>
        have := (hinv.is_leaf_iff i hi).mp h
        omega
    obtain ⟨c, b, hrd, _, hc⟩ := Kids.first _ _ _ _ (hn.internal hint).2
    obtain ⟨leaf, e, q1, q2, q3⟩ := ih c fuel (by have := hc.2.2.1; omega) hc.1
      (by rw [hc.2.2.2.1]; exact hlo) (by omega)
    exact ⟨leaf, by simp [leftmost_loop, hint, hrd, e], q1, q2, q3⟩

/-- A leaf that stores a key in the range of a second leaf or right of it does not start
before the second leaf. -/
theorem headKey_le_of_key {m : Nat} {t : BPlusTree} {r : Nat} {ov : Option Nat}
    {kvs : List (Int × Int)} {g : Ghost} (hinv : InvG m t r ov kvs g) (l v : Nat) (k : Int)
    (hl : l < t.heap.length) (hv : v < t.heap.length)
    (hll : (deref t.heap l).is_leaf = true) (hvl : (deref t.heap v).is_leaf = true)
    (hk : k ∈ (deref t.heap v).keys) (hlo : loLe (g.lo l) k) :
    headKey t.heap l ≤ headKey t.heap v := by
  by_contra hcon
  have hlt : headKey t.heap v < headKey t.heap l := by omega
  obtain ⟨_, _, f3, f4, f5⟩ := headKey_facts hinv l hl hll
  obtain ⟨_, _, g3, g4, _⟩ := headKey_facts hinv v hv hvl
  cases hlol : g.lo l with
  | none =>
    have : l = v := leaf_unique hinv (headKey t.heap v) l v hl hv hll hvl
      (by rw [hlol]; exact loLe_none _) (fun b hb => lt_trans hlt (f4 b hb)) g3 g4
    subst this
    omega
  | some c =>
    have hc : headKey t.heap l = c := f5 c hlol
    have h1 : c ≤ k := hlo c hlol
    have : l = v := leaf_unique hinv c l v hl hv hll hvl (by rw [← hc]; exact f3)
      (by rw [← hc]; exact f4)
      (fun a ha => by have := g3 a ha; omega)
      (fun b hb => by have := ((hinv.nodes v hv).range k hk).2 b hb; omega)
    subst this
    omega

/-- Under the invariant the walk of the leaf chain from the leftmost leaf visits the stored
pairs, in ascending order of their keys. -/
theorem leaf_chain_inv {m : Nat} {t : BPlusTree} {r : Nat} {kvs : List (Int × Int)} {g : Ghost}
    (hinv : InvG m t r none kvs g) :
    ∃ es l, leftmost_loop t.heap t.heap.length r = .ok l ∧ l < t.heap.length
      ∧ (deref t.heap l).is_leaf = true ∧ g.lo l = none
      ∧ leaf_chain t = .ok es ∧ (es.map Prod.fst).Pairwise (· < ·) ∧ ∀ p, p ∈ es ↔ p ∈ kvs := by
  obtain ⟨l, e1, hl, hleaf, hlo⟩ := leftmost_loop_inv hinv (g.lvl r) r t.heap.length rfl
    hinv.root_lt hinv.root_lo hinv.height
  obtain ⟨es, e2, s1, _, s3⟩ := chain_loop_inv hinv t.heap.length ∅ l hl hleaf
    (fun v hv => absurd hv (Finset.not_mem_empty v))
    (fun v hv => absurd hv (Finset.not_mem_empty v)) (by simp)
  refine ⟨es, l, e1, hl, hleaf, hlo, by simp only [leaf_chain, hinv.root, e1, e2], s1, ?_⟩
  intro p
  rw [s3, hinv.content]
  constructor
  · rintro ⟨v, hv, hvl, _, hp⟩
    exact ⟨v, hv, hvl, hp⟩
  · rintro ⟨v, hv, hvl, hp⟩
    refine ⟨v, hv, hvl, ?_, hp⟩
    exact headKey_le_of_key hinv l v p.1 hl hv hleaf hvl (List.of_mem_zip hp).1
      (by rw [hlo]; exact loLe_none _)

/-! ### Range search -/

theorem filter_in_range_nil (a b : Int) (es : List (Int × Int)) (h : ∀ p ∈ es, b < p.1) :
    es.filter (in_range a b) = [] := by
  rw [List.filter_eq_nil_iff]
  intro p hp
  have := h p hp
  simp only [in_range, decide_eq_true_eq]
  omega

/-- The loop of `range_search` over the keys of one sorted leaf collects the values of the keys
in the range, and leaves early only at a key above the range. -/
theorem range_leaf_spec (values : List Int) (a b : Int) :
    ∀ (ks vs : List Int) (i : Nat) (acc : List Int), values.drop i = vs →
      vs.length = ks.length → ks.Pairwise (· < ·) →
      ∃ flag, range_leaf values a b ks i acc
          = .ok (acc ++ ((ks.zip vs).filter (in_range a b)).map Prod.snd, flag)
        ∧ (flag = true → ∃ k ∈ ks, b < k) := by
  intro ks
  induction ks with
  | nil =>
    intro vs i acc _ _ _
    exact ⟨false, by simp [range_leaf], fun h => by cases h⟩
  | cons k ks ih =>
    intro vs i acc hdrop hlen hs
    cases vs with
    | nil => simp at hlen
    | cons v vs =>
      rw [List.pairwise_cons] at hs
      have hi : i < values.length := by
        by_contra hcon
        rw [List.drop_eq_nil_of_le (by omega)] at hdrop
        cases hdrop
      have hrd : rd values i = .ok v := by
        rw [rd_ok values i hi]
        have h1 : values.drop i = values.get ⟨i, hi⟩ :: values.drop (i + 1) :=
          List.drop_eq_getElem_cons hi
        rw [h1] at hdrop
        simp only [List.cons.injEq] at hdrop
        rw [hdrop.1]
      have hdrop1 : values.drop (i + 1) = vs := by
        have h1 : values.drop i = values.get ⟨i, hi⟩ :: values.drop (i + 1) :=
          List.drop_eq_getElem_cons hi
        rw [h1] at hdrop
        simp only [List.cons.injEq] at hdrop
        exact hdrop.2
      by_cases hin : a ≤ k ∧ k ≤ b
      · obtain ⟨flag, e, hf⟩ := ih vs (i + 1) (acc ++ [v]) hdrop1 (by simpa using hlen) hs.2
        refine ⟨flag, ?_, fun h => ?_⟩
        · simp only [range_leaf, hin, and_self, if_true, hrd, e, List.zip_cons_cons]
          have : in_range a b (k, v) = true := by simp [in_range, hin]
          simp [List.filter_cons, this]
        · obtain ⟨k1, hk1, hb⟩ := hf h
          exact ⟨k1, List.mem_cons_of_mem _ hk1, hb⟩
      · by_cases hgt : k > b
        · refine ⟨true, ?_, fun _ => ⟨k, by simp, hgt⟩⟩
          simp only [range_leaf, hin, if_false, hgt, if_true]
          rw [filter_in_range_nil]
          · simp
          · intro p hp
            have hmem : p.1 ∈ k :: ks := (List.of_mem_zip hp).1
            rcases List.mem_cons.mp hmem with h | h
            · omega
            · have := hs.1 p.1 h
              omega
        · obtain ⟨flag, e, hf⟩ := ih vs (i + 1) acc hdrop1 (by simpa using hlen) hs.2
          refine ⟨flag, ?_, fun h => ?_⟩
          · simp only [range_leaf, hin, if_false, hgt, e, List.zip_cons_cons]
            have : in_range a b (k, v) = false := by simp [in_range, hin]
            simp [List.filter_cons, this]
          · obtain ⟨k1, hk1, hb⟩ := hf h
            exact ⟨k1, List.mem_cons_of_mem _ hk1, hb⟩

/-- The walk of `range_search` along the leaf chain returns the values of the entries in the
range that the plain walk of the chain visits. -/
theorem range_loop_spec {m : Nat} {t : BPlusTree} {r : Nat} {ov : Option Nat}
    {kvs : List (Int × Int)} {g : Ghost} (hinv : InvG m t r ov kvs g) (a b : Int) :
    ∀ (fuel l : Nat), l < t.heap.length → (deref t.heap l).is_leaf = true →
      ∀ (es : List (Int × Int)) (acc : List Int), chain_loop t.heap fuel (some l) = .ok es →
      (es.map Prod.fst).Pairwise (· < ·) →
      range_loop t.heap a b fuel (some l) acc
        = .ok (acc ++ (es.filter (in_range a b)).map Prod.snd) := by
  intro fuel
  induction fuel with
  | zero =>
    intro l _ _ es acc h _
    simp [chain_loop] at h
  | succ fuel ih =>
    intro l hl hleaf es acc hchain hsorted
    have hn := hinv.nodes l hl
    obtain ⟨_, _, l3, _, l5⟩ := hn.leaf hleaf
    simp only [chain_loop] at hchain
    cases hrest : chain_loop t.heap fuel (deref t.heap l).next with
    | error e => rw [hrest] at hchain; cases hchain
    | ok rest =>
      rw [hrest] at hchain
      simp only [Except.ok.injEq] at hchain
      subst hchain
      obtain ⟨flag, e, hf⟩ := range_leaf_spec (deref t.heap l).values a b (deref t.heap l).keys
        (deref t.heap l).values 0 acc rfl l3 hn.sorted
      rw [List.map_append, List.pairwise_append] at hsorted
      obtain ⟨_, s2, s3⟩ := hsorted
      have hkeys : ((deref t.heap l).keys.zip (deref t.heap l).values).map Prod.fst
          = (deref t.heap l).keys := List.map_fst_zip _ _ (by omega)
      rw [hkeys] at s3
      simp only [range_loop, e, List.filter_append, List.map_append]
      cases flag with
      | true =>
        obtain ⟨k, hk, hb⟩ := hf rfl
        rw [filter_in_range_nil a b rest]
        · simp
        · intro p hp
          have := s3 k hk p.1 (List.mem_map.mpr ⟨p, hp, rfl⟩)
          omega
      | false =>
        simp only []
        cases hnext : (deref t.heap l).next with
        | none =>
          rw [hnext] at hrest
          simp only [chain_loop, Except.ok.injEq] at hrest
          subst hrest
          simp [range_loop]
        | some j =>
          rw [hnext] at hrest
          cases hhi : g.hi l with
          | none =>
            rw [hhi] at l5
            have : (deref t.heap l).next = none := l5
            rw [hnext] at this
            cases this
          | some c =>
            rw [hhi] at l5
            obtain ⟨j1, h1, h2, h3, _⟩ := l5
            rw [hnext] at h1
            obtain rfl := Option.some.inj h1
            rw [ih j h2 h3 rest _ hrest s2, List.append_assoc]

/-- Sorted lists of entries with the same members are equal. -/
theorem eq_of_sorted_of_mem (l1 l2 : List (Int × Int)) (h1 : (l1.map Prod.fst).Pairwise (· < ·))
    (h2 : (l2.map Prod.fst).Pairwise (· < ·)) (h : ∀ p, p ∈ l1 ↔ p ∈ l2) : l1 = l2 := by
  have s1 : l1.Pairwise (fun p q => p.1 < q.1) := List.pairwise_map.mp h1
  have s2 : l2.Pairwise (fun p q => p.1 < q.1) := List.pairwise_map.mp h2
  have n1 : l1.Nodup := s1.imp (fun hpq e => by rw [e] at hpq; exact lt_irrefl _ hpq)
  have n2 : l2.Nodup := s2.imp (fun hpq e => by rw [e] at hpq; exact lt_irrefl _ hpq)
  have hperm : l1.Perm l2 := (List.perm_ext_iff_of_nodup n1 n2).mpr h
  haveI : IsAntisymm (Int × Int) (fun p q => p.1 < q.1) :=
    ⟨fun p q h3 h4 => absurd h3 (lt_asymm h4)⟩
  exact List.eq_of_perm_of_sorted hperm s1 s2

/-- Under the invariant `range_search` returns the values of the stored entries with a key in
the range, in ascending order of the keys. -/
theorem range_search_inv {m : Nat} {t : BPlusTree} {r : Nat} {kvs : List (Int × Int)}
    {g : Ghost} (hinv : InvG m t r none kvs g) (a b : Int) :
    ∃ es, leaf_chain t = .ok es ∧ (es.map Prod.fst).Pairwise (· < ·) ∧ (∀ p, p ∈ es ↔ p ∈ kvs)
      ∧ range_search t a b = .ok ((es.filter (in_range a b)).map Prod.snd) := by
  obtain ⟨es, l0, _, _, _, _, e1, s1, hmem⟩ := leaf_chain_inv hinv
  obtain ⟨ls, hfind, hls, hleaf, hlo, _⟩ := find_leaf_node_inv hinv a
  obtain ⟨es2, e2, t1, _, t3⟩ := chain_loop_inv hinv t.heap.length ∅ ls hls hleaf
    (fun v hv => absurd hv (Finset.not_mem_empty v))
    (fun v hv => absurd hv (Finset.not_mem_empty v)) (by simp)
  have hloop := range_loop_spec hinv a b t.heap.length ls hls hleaf es2 [] e2 t1
  refine ⟨es, e1, s1, hmem, ?_⟩
  simp only [range_search, hfind, hloop, List.nil_append]
  have hfilter : es2.filter (in_range a b) = es.filter (in_range a b) := by
    apply eq_of_sorted_of_mem
    · rw [List.pairwise_map]
      exact (List.pairwise_map.mp t1).filter _
    · rw [List.pairwise_map]
      exact (List.pairwise_map.mp s1).filter _
    · intro p
      simp only [List.mem_filter]
      constructor
      · rintro ⟨h1, h2⟩
        obtain ⟨v, hv, hvl, _, hp⟩ := (t3 p).mp h1
        exact ⟨(hmem p).mpr ((hinv.content p).mpr ⟨v, hv, hvl, hp⟩), h2⟩
      · rintro ⟨h1, h2⟩
        obtain ⟨v, hv, hvl, hp⟩ := (hinv.content p).mp ((hmem p).mp h1)
        refine ⟨(t3 p).mpr ⟨v, hv, hvl, ?_, hp⟩, h2⟩
        simp only [in_range, decide_eq_true_eq] at h2
        exact headKey_le_of_key hinv ls v p.1 hls hv hleaf hvl (List.of_mem_zip hp).1
          (fun c hc => le_trans (hlo c hc) h2.1)
  rw [hfilter]

/-! ### The claims on trees built by inserts -/

theorem order_nat (order : Int) (h3 : 3 ≤ order) (hmax : order ≤ 2147483647) :
    ∃ m : Nat, order = m ∧ 3 ≤ m ∧ m ≤ 2147483647 :=
  ⟨order.toNat, by omega, by omega, by omega⟩

/-- Claim C1: for every order from 3 on and every sequence of inserts of pairwise distinct keys
into the empty tree, the inserts run to completion and the walk of the `next` links from the
leftmost leaf visits the inserted entries, each once, in strictly ascending order of keys. -/
theorem leaf_chain_visits_inserted_keys_ascending (order : Int) (h3 : 3 ≤ order)
    (hmax : order ≤ 2147483647) (kvs : List (Int × Int)) (hnd : (kvs.map Prod.fst).Nodup) :
    ∃ t es, insert_all (BPlusTree.new order) kvs = .ok t ∧ leaf_chain t = .ok es
      ∧ (es.map Prod.fst).Sorted (· < ·) ∧ es.Perm kvs := by
  obtain ⟨m, rfl, hm, hmax1⟩ := order_nat order h3 hmax
  obtain ⟨t, e, hinv⟩ := build_inv hm hmax1 kvs hnd
  rcases hinv with ⟨h1, _, _, h4⟩ | ⟨r, g, hinv⟩
  · subst h4
    exact ⟨t, [], e, by simp [leaf_chain, h1], List.sorted_nil, List.Perm.refl _⟩
  · obtain ⟨es, _, _, _, _, _, e1, s1, hmem⟩ := leaf_chain_inv hinv
    refine ⟨t, es, e, e1, s1, ?_⟩
    have n1 : es.Nodup := by
      have : (es.map Prod.fst).Nodup :=
        s1.imp (fun hpq e => by rw [e] at hpq; exact lt_irrefl _ hpq)
      exact this.of_map
    exact (List.perm_ext_iff_of_nodup n1 hnd.of_map).mpr hmem

theorem leaf_chain_visits_inserted_keys_ascending_witness :
    (main_records.map Prod.fst).Nodup
      ∧ ∃ t es, insert_all (BPlusTree.new 3) main_records = .ok t ∧ leaf_chain t = .ok es
          ∧ (es.map Prod.fst).Sorted (· < ·) ∧ es.Perm main_records :=
  ⟨by decide, leaf_chain_visits_inserted_keys_ascending 3 (by decide) (by decide) main_records
    (by decide)⟩

/-- Claim C2: for every order from 3 on and every tree built from the empty tree by inserts of
pairwise distinct keys, `search` returns the value of every inserted pair and -1 for every key
that was not inserted; for the empty sequence this is the empty tree. -/
theorem search_finds_inserted_pairs (order : Int) (h3 : 3 ≤ order) (hmax : order ≤ 2147483647)
    (kvs : List (Int × Int)) (hnd : (kvs.map Prod.fst).Nodup) :
    ∃ t, insert_all (BPlusTree.new order) kvs = .ok t
      ∧ (∀ k v, (k, v) ∈ kvs → search t k = .ok v)
      ∧ ∀ k, k ∉ kvs.map Prod.fst → search t k = .ok (-1) := by
  obtain ⟨m, rfl, hm, hmax1⟩ := order_nat order h3 hmax
  obtain ⟨t, e, hinv⟩ := build_inv hm hmax1 kvs hnd
  rcases hinv with ⟨h1, _, _, h4⟩ | ⟨r, g, hinv⟩
  · subst h4
    refine ⟨t, e, fun k v h => absurd h (List.not_mem_nil _), fun k _ => ?_⟩
    simp [search, find_leaf_node, h1]
  · refine ⟨t, e, fun k v h => search_stored hinv k v h, fun k hk => ?_⟩
    exact search_absent hinv k fun v hv => hk (List.mem_map.mpr ⟨(k, v), hv, rfl⟩)

theorem search_finds_inserted_pairs_witness :
    (main_records.map Prod.fst).Nodup
      ∧ ∃ t, insert_all (BPlusTree.new 3) main_records = .ok t
          ∧ (∀ k v, (k, v) ∈ main_records → search t k = .ok v)
          ∧ ∀ k, k ∉ main_records.map Prod.fst → search t k = .ok (-1) :=
  ⟨by decide, search_finds_inserted_pairs 3 (by decide) (by decide) main_records (by decide)⟩

/-- Claim C3: for every order from 3 on, every tree built from the empty tree by inserts of
pairwise distinct keys and all bounds `lo ≤ hi`, `range_search` returns the values of the
stored entries whose key lies in `[lo, hi]`, in ascending order of the keys: the list `es` is
the stored entries sorted by key. -/
theorem range_search_returns_range (order : Int) (h3 : 3 ≤ order) (hmax : order ≤ 2147483647)
    (kvs : List (Int × Int)) (hnd : (kvs.map Prod.fst).Nodup) (lo hi : Int) (_hle : lo ≤ hi) :
    ∃ (t : BPlusTree) (es : List (Int × Int)),
      insert_all (BPlusTree.new order) kvs = .ok t ∧ es.Perm kvs
      ∧ (es.map Prod.fst).Sorted (· < ·)
      ∧ range_search t lo hi = .ok ((es.filter (in_range lo hi)).map Prod.snd) := by
  obtain ⟨m, rfl, hm, hmax1⟩ := order_nat order h3 hmax
  obtain ⟨t, e, hinv⟩ := build_inv hm hmax1 kvs hnd
  rcases hinv with ⟨h1, _, _, h4⟩ | ⟨r, g, hinv⟩
  · subst h4
    exact ⟨t, [], e, List.Perm.refl _, List.sorted_nil, by simp [range_search, find_leaf_node, h1]⟩
  · obtain ⟨es, _, s1, hmem, e2⟩ := range_search_inv hinv lo hi
    refine ⟨t, es, e, ?_, s1, e2⟩
    have n1 : es.Nodup := by
      have : (es.map Prod.fst).Nodup :=
        s1.imp (fun hpq e => by rw [e] at hpq; exact lt_irrefl _ hpq)
      exact this.of_map
    exact (List.perm_ext_iff_of_nodup n1 hnd.of_map).mpr hmem

theorem range_search_returns_range_witness :
    (main_records.map Prod.fst).Nodup
      ∧ (insert_all (BPlusTree.new 3) main_records >>= fun t => range_search t 9 29)
          = .ok [9, 11, 13, 15, 18, 20, 25, 28, 29]
      ∧ ∃ (t : BPlusTree) (es : List (Int × Int)),
          insert_all (BPlusTree.new 3) main_records = .ok t ∧ es.Perm main_records
          ∧ (es.map Prod.fst).Sorted (· < ·)
          ∧ range_search t 9 29 = .ok ((es.filter (in_range 9 29)).map Prod.snd) :=
  ⟨by decide, by decide,
    range_search_returns_range 3 (by decide) (by decide) main_records (by decide) 9 29
      (by decide)⟩

/-- Claim C8: for every order from 3 on and every sequence of inserts of pairwise distinct keys
into the empty tree, after each completed insert, that is after every prefix of the sequence,
all leaves are at one depth `d` under the root. -/
theorem insert_keeps_leaves_at_equal_depth (order : Int) (h3 : 3 ≤ order)
    (hmax : order ≤ 2147483647) (kvs : List (Int × Int)) (hnd : (kvs.map Prod.fst).Nodup)
    (n : Nat) :
    ∃ t d, insert_all (BPlusTree.new order) (kvs.take n) = .ok t
      ∧ leaves_equal_depth t d = true ∧ (kvs.take n ≠ [] → t.root.isSome = true) := by
  obtain ⟨m, rfl, hm, hmax1⟩ := order_nat order h3 hmax
  have hnd1 : ((kvs.take n).map Prod.fst).Nodup := by
    rw [← List.take_append_drop n kvs, List.map_append] at hnd
    exact (List.nodup_append.mp hnd).1
  obtain ⟨t, e, hinv⟩ := build_inv hm hmax1 (kvs.take n) hnd1
  rcases hinv with ⟨h1, _, _, h4⟩ | ⟨r, g, hinv⟩
  · exact ⟨t, 0, e, by simp [leaves_equal_depth, h1], fun h => absurd h4 h⟩
  · refine ⟨t, g.lvl r, e, ?_, fun _ => by simp [hinv.root]⟩
    simp only [leaves_equal_depth, hinv.root]
    exact leaves_at_depth_inv hinv (g.lvl r) r hinv.root_lt rfl

theorem insert_keeps_leaves_at_equal_depth_witness :
    (main_records.map Prod.fst).Nodup
      ∧ ∃ t d, insert_all (BPlusTree.new 3) (main_records.take 18) = .ok t
          ∧ leaves_equal_depth t d = true ∧ (main_records.take 18 ≠ [] → t.root.isSome = true) :=
  ⟨by decide, insert_keeps_leaves_at_equal_depth 3 (by decide) (by decide) main_records
    (by decide) 18⟩

/-! ### Element accesses of the insertion path -/

theorem rd_error_of_le {α : Type} (v : List α) (i : Nat) (h : v.length ≤ i) :
    rd v i = .error .outOfBounds := by
  unfold rd
  rw [List.get?_eq_none.mpr h]

theorem keys_reparent (cs : List Nat) (p q : Nat) (heap : List Node) :
    (deref (reparent heap cs p) q).keys = (deref heap q).keys := by
  rw [deref_reparent]
  split <;> rfl

/-- The promoted key of `split_internal_node_checked` is read at the index `mid` of a vector
that holds at most `mid` elements. -/
theorem split_internal_node_checked_fault (fuel : Nat) (t : BPlusTree) (node : Nat) :
    split_internal_node_checked (fuel + 1) t node = .error .outOfBounds := by
  have h : ∀ (heap1 : List Node) (cs : List Nat) (p : Nat),
      rd (deref (reparent (upd heap1 node fun n =>
        { n with keys := n.keys.take (t.order.tdiv 2).toNat
                 pointers := n.pointers.take ((t.order.tdiv 2).toNat + 1) }) cs p) node).keys
        (t.order.tdiv 2).toNat = .error .outOfBounds := by
    intro heap1 cs p
    apply rd_error_of_le
    rw [keys_reparent, deref_upd]
    split
    · simp only [List.length_take]
      omega
    · next hn =>
      have : heap1.length ≤ node := by
        by_contra hc
        exact hn ⟨rfl, by omega⟩
      rw [deref_ge _ _ this]
      exact Nat.zero_le _
  simp only [split_internal_node_checked, h]

/-- Claim C11, evaluated: with every element access checked against the size of its vector at
the moment of the access, the inserts of 1, ..., 6 into the empty tree of order 3 succeed and
the insert of 7, the first one that splits an internal node, stops at an access out of bounds.
It is the read of the promoted key: every call of `split_internal_node` reads `node->keys[mid]`
when `node->keys` has just been cut down to `mid` elements. -/
theorem insert_reads_promoted_key_out_of_bounds :
    (∃ t, insert_all_checked (BPlusTree.new 3) [(1, 1), (2, 2), (3, 3), (4, 4), (5, 5), (6, 6)]
            = .ok t
          ∧ insert_checked t 7 7 = .error .outOfBounds)
      ∧ ∀ fuel t node, split_internal_node_checked (fuel + 1) t node = .error .outOfBounds := by
  refine ⟨⟨_, rfl, ?_⟩, split_internal_node_checked_fault⟩
  decide

/-! ### The hash-based join -/

set_option maxRecDepth 100000 in
/-- Claim C12, evaluated: on a relation `R` of one tuple and a relation `S` of 121 tuples, which
takes the two-pass path, `twoPassJoin` returns the tuples (1, 10005, 7) and (0, 10005, 7), while
the natural join consists of (1, 10005, 0) and (1, 10005, 7): the tuple of `S` whose `C` is 0 is
taken for a tuple of `R` in the join phase. -/
theorem two_pass_join_takes_zero_tuple_for_R :
    toInt32 ((join_example_R.length : Int) + (join_example_S.length : Int)) = 122
      ∧ twoPassJoin join_example_R join_example_S 0
        = .ok ([{ A := 1, B := 10005, C := 7 }, { A := 0, B := 10005, C := 7 }], 14)
      ∧ natural_join join_example_R join_example_S
        = [{ A := 1, B := 10005, C := 0 }, { A := 1, B := 10005, C := 7 }] := by
  decide

/-! ### Removal -/

theorem build_three_keys_order_three :
    build_dense_tree [1, 2, 3] 3 = .ok three_keys_order_three := by decide

theorem build_twelve_keys_order_five :
    build_dense_tree [1, 2, 3, 4, 5, 6, 7, 8, 9, 10, 0, -1] 5 = .ok twelve_keys_order_five := by
  decide

/-- Claim C14, evaluated: in the tree of order 3 built from the keys 1, 2, 3 the root leaf holds
the key 2 once, and `remove_from_leaf_node` called for that leaf and the key 2 returns the tree
as it was, the leaf still holding the keys 1, 2, 3 and their values. -/
theorem remove_from_leaf_node_keeps_entry :
    build_dense_tree [1, 2, 3] 3 = .ok three_keys_order_three
      ∧ (deref three_keys_order_three.heap 0).keys = [1, 2, 3]
      ∧ (deref three_keys_order_three.heap 0).num_keys = 0
      ∧ remove_from_leaf_node three_keys_order_three 0 2 = .ok three_keys_order_three := by
  decide

/-- Claim C15, evaluated: in the tree of order 5 built from the keys 1, ..., 10, 0, -1 the leaf 3
holds two keys, under its `min_keys` of 3, and the left sibling that the loop selects for it,
node 0, holds four. The turn of the loop is the call `borrow_key(left_sibling, node, parent,
index - 1)`, and it moves the first entry of the node to the end of the left sibling: the node
is left with one key, the sibling has five. -/
theorem borrow_from_left_gives_key_to_sibling :
    build_dense_tree [1, 2, 3, 4, 5, 6, 7, 8, 9, 10, 0, -1] 5 = .ok twelve_keys_order_five
      ∧ (∀ del fuel, rebalance_loop del (fuel + 1) twelve_keys_order_five 3
          = match borrow_key twelve_keys_order_five 0 3 2 0 with
            | .error e => .error e
            | .ok t1 => rebalance_loop del fuel t1 3)
      ∧ borrow_key twelve_keys_order_five 0 3 2 0 = .ok twelve_keys_after_borrow
      ∧ (deref twelve_keys_order_five.heap 3).keys = [5, 6]
      ∧ (deref twelve_keys_order_five.heap 0).keys = [-1, 0, 1, 2]
      ∧ (deref twelve_keys_after_borrow.heap 3).keys = [6]
      ∧ (deref twelve_keys_after_borrow.heap 0).keys = [-1, 0, 1, 2, 5] := by
  refine ⟨by decide, fun del fuel => rfl, by decide, by decide, by decide, by decide, by decide⟩

/-- Claim C16, evaluated: in the tree of order 3 built from the keys 1, 2, 3, 4 the right leaf,
node 1, is the child 1 of the root, and the index computed from its first key is 0: the first
key equals the separator before the leaf, and `std::lower_bound` stops at that separator. So
`pointers[index]` is the left leaf and `pointers[index + 1]` is the node itself. -/
theorem delete_entry_index_is_one_short :
    build_dense_tree [1, 2, 3, 4] 3 = .ok four_keys_order_three
      ∧ (deref four_keys_order_three.heap 1).parent = some 2
      ∧ (deref four_keys_order_three.heap 2).pointers = [0, 1]
      ∧ delete_entry_index four_keys_order_three.heap 1 = .ok 0
      ∧ rd (deref four_keys_order_three.heap 2).pointers 0 = .ok 0
      ∧ rd (deref four_keys_order_three.heap 2).pointers (0 + 1) = .ok 1 := by
  decide

/-! ### Bounds of a node -/

/-- Claim C17, evaluated: for every even order `2 * k` the constructor gives an internal node
the `min_keys` of `k - 1`, one less than `ceil((2 * k + 1) / 2) - 1 = k` with the exact
quotient: the division of `(order + 1) / 2` is the division of integers, and `std::ceil` is
applied to its result. For the order 4 the values are 1 and 2. -/
theorem internal_min_keys_is_one_short (k : Nat) :
    (InternalNode (2 * k)).min_keys = k - 1
      ∧ Int.ceil ((((2 * k : Int) : ℚ) + 1) / 2) - 1 = k
      ∧ (InternalNode 4).min_keys = 1
      ∧ Int.ceil ((((4 : Int) : ℚ) + 1) / 2) - 1 = 2 := by
  have hc : ∀ j : Int, Int.ceil ((((2 * j : Int) : ℚ) + 1) / 2) = j + 1 := by
    intro j
    rw [Int.ceil_eq_iff]
    push_cast
    constructor <;> linarith
  refine ⟨?_, ?_, by decide, ?_⟩
  · simp only [InternalNode, Node.new, Bool.false_eq_true, if_false]
    have : ((2 : Int) * k + 1).tdiv 2 = k := by
      rw [Int.tdiv_eq_ediv (by omega) (by omega)]
      omega
    rw [this]
  · rw [hc k]
    omega
  · have := hc 2
    norm_num at this ⊢
    rw [this]
    rfl

/-! ### Insert of a key into a leaf that has room -/

theorem lower_bound_insertAt (keys : List Int) (key : Int) :
    lower_bound (insertAt keys (lower_bound keys key) key) key = lower_bound keys key
      ∧ (insertAt keys (lower_bound keys key) key).get? (lower_bound keys key) = some key := by
  induction keys with
  | nil => simp [lower_bound, insertAt]
  | cons x xs ih =>
    by_cases hx : x < key
    · have e : insertAt (x :: xs) (lower_bound xs key + 1) key
          = x :: insertAt xs (lower_bound xs key) key := by
        simp [insertAt]
      simp only [lower_bound, hx, if_true, e, List.get?_cons_succ]
      exact ⟨by rw [ih.1], ih.2⟩
    · simp [lower_bound, hx, insertAt]

theorem rd_insertAt {α : Type} (v : List α) (i : Nat) (a : α) (h : i ≤ v.length) :
    rd (insertAt v i a) i = .ok a := by
  have e : (insertAt v i a).get? i = some a := by
    simp only [insertAt, List.get?_eq_getElem?]
    rw [List.getElem?_append_right (by simp [List.length_take])]
    simp [List.length_take, Nat.min_eq_left h]
  simp only [rd, e]

/-- The descent of `find_leaf_node` does not read what a leaf holds. -/
theorem find_leaf_loop_upd_leaf (heap : List Node) (leaf : Nat) (f : Node → Node) (key : Int)
    (hleaf : (deref heap leaf).is_leaf = true) (hf : (f (deref heap leaf)).is_leaf = true) :
    ∀ fuel node, find_leaf_loop (upd heap leaf f) key fuel node
      = find_leaf_loop heap key fuel node := by
  intro fuel
  induction fuel with
  | zero => intro node; rfl
  | succ fuel ih =>
    intro node
    simp only [find_leaf_loop]
    rw [deref_upd]
    split
    · next h =>
      obtain ⟨rfl, _⟩ := h
      simp only [hf, hleaf, if_true]
    · split
      · rfl
      · cases rd (deref heap node).pointers (upper_bound (deref heap node).keys key) with
        | error e => rfl
        | ok child => exact ih child

/-- An insert into a leaf that holds fewer keys than the order splits nothing, and `search`
then finds the inserted value at the key: the new entry is put before any entry with the same
key. -/
theorem insert_search_room {m : Nat} (hmax : m ≤ 2147483647) {t : BPlusTree} {r : Nat}
    {kvs : List (Int × Int)} {g : Ghost} (hinv : InvG m t r none kvs g) (key value : Int)
    (leaf : Nat) (hfind : find_leaf_node t key = .ok (some leaf))
    (hroom : (deref t.heap leaf).keys.length < m) :
    insert t key value = .ok (insert_into_leaf_node t leaf key value)
      ∧ search (insert_into_leaf_node t leaf key value) key = .ok value := by
  obtain ⟨leaf1, hfind1, hlt, hleaf, _, _⟩ := find_leaf_node_inv hinv key
  rw [hfind] at hfind1
  obtain rfl : leaf = leaf1 := Option.some.inj (Except.ok.inj hfind1)
  have hn := hinv.nodes leaf hlt
  have hd := deref_insert_into_leaf_node t leaf key value leaf hlt
  rw [if_pos rfl] at hd
  have hloop : find_leaf_loop t.heap key t.heap.length r = .ok leaf := by
    have h := hfind
    simp only [find_leaf_node, hinv.root] at h
    cases hl : find_leaf_loop t.heap key t.heap.length r with
    | error e => rw [hl] at h; cases h
    | ok l =>
      rw [hl] at h
      rw [Option.some.inj (Except.ok.inj h)]
  constructor
  · have hlen := insertAt_length (deref t.heap leaf).keys (lower_bound (deref t.heap leaf).keys key)
      key (lower_bound_le _ _)
    simp only [insert, hfind, hd]
    rw [hn.max_keys, toSizeT_eq _ (by omega) (by omega), if_neg (by omega)]
  · have hfind2 : find_leaf_node (insert_into_leaf_node t leaf key value) key
        = .ok (some leaf) := by
      simp only [find_leaf_node, insert_into_leaf_node, hinv.root, length_upd]
      rw [find_leaf_loop_upd_leaf _ _ _ _ hleaf hleaf, hloop]
    obtain ⟨e1, e2⟩ := lower_bound_insertAt (deref t.heap leaf).keys key
    have e3 := rd_insertAt (deref t.heap leaf).values (lower_bound (deref t.heap leaf).keys key)
      value (by rw [(hn.leaf hleaf).2.2.1]; exact lower_bound_le _ _)
    simp only [search, hfind2, hd, e1, e2, e3]
    simp

/-! ### Search after the insert of a stored key -/

/-- Claim C18, refuted as stated: in the tree of order 3 built from the keys 1, 2, 3, each its
own value, the key 1 is stored with the value 1; after `insert(1, 99)`, which splits the root
leaf between the new entry and the old one, `search(1)` returns the old value 1, not 99. -/
theorem search_after_splitting_insert_returns_old_value :
    build_dense_tree [1, 2, 3] 3 = .ok three_keys_order_three
      ∧ search three_keys_order_three 1 = .ok 1
      ∧ (insert three_keys_order_three 1 99 >>= fun t => search t 1) = .ok 1
      ∧ (insert three_keys_order_three 1 99 >>= fun t => search t 1) ≠ .ok 99 := by
  decide

/-- Claim C18, amended: for every order from 3 on, every tree built from the empty tree by
inserts of pairwise distinct keys and every key `k` stored in it, `find_leaf_node` finds the
leaf that holds `k`, and if that leaf holds fewer keys than the order, `insert(k, v2)` succeeds
and `search(k)` then returns `v2`. -/
theorem search_after_insert_of_stored_key (order : Int) (h3 : 3 ≤ order)
    (hmax : order ≤ 2147483647) (kvs : List (Int × Int)) (hnd : (kvs.map Prod.fst).Nodup)
    (k v1 v2 : Int) (hk : (k, v1) ∈ kvs) :
    ∃ t leaf, insert_all (BPlusTree.new order) kvs = .ok t
      ∧ find_leaf_node t k = .ok (some leaf) ∧ k ∈ (deref t.heap leaf).keys
      ∧ (((deref t.heap leaf).keys.length : Int) < order →
          ∃ t1, insert t k v2 = .ok t1 ∧ search t1 k = .ok v2) := by
  obtain ⟨m, rfl, hm, hmax1⟩ := order_nat order h3 hmax
  obtain ⟨t, e, hinv⟩ := build_inv hm hmax1 kvs hnd
  rcases hinv with ⟨_, _, _, h4⟩ | ⟨r, g, hinv⟩
  · subst h4
    exact absurd hk (List.not_mem_nil _)
  · obtain ⟨leaf, hlt, hleaf, hmem⟩ := (hinv.content _).mp hk
    have hkeys : k ∈ (deref t.heap leaf).keys := (List.of_mem_zip hmem).1
    obtain ⟨hlo, hhi⟩ := (hinv.nodes leaf hlt).range k hkeys
    have hfind := find_leaf_node_unique hinv k leaf hlt hleaf hlo hhi
    refine ⟨t, leaf, e, hfind, hkeys, fun hroom => ?_⟩
    obtain ⟨e1, e2⟩ := insert_search_room hmax1 hinv k v2 leaf hfind (by omega)
    exact ⟨_, e1, e2⟩

theorem search_after_insert_of_stored_key_witness :
    (([(1, 1), (2, 2)] : List (Int × Int)).map Prod.fst).Nodup
      ∧ ((1 : Int), (1 : Int)) ∈ ([(1, 1), (2, 2)] : List (Int × Int))
      ∧ (insert_all (BPlusTree.new 3) [(1, 1), (2, 2)] >>= fun t =>
          insert t 1 99 >>= fun t1 => search t1 1) = .ok 99
      ∧ ∃ t leaf, insert_all (BPlusTree.new 3) [(1, 1), (2, 2)] = .ok t
          ∧ find_leaf_node t 1 = .ok (some leaf) ∧ (1 : Int) ∈ (deref t.heap leaf).keys
          ∧ (((deref t.heap leaf).keys.length : Int) < 3 →
              ∃ t1, insert t 1 99 = .ok t1 ∧ search t1 1 = .ok 99) :=
  ⟨by decide, by decide, by decide,
    search_after_insert_of_stored_key 3 (by decide) (by decide) [(1, 1), (2, 2)] (by decide)
      1 1 99 (by decide)⟩

/-! ### The split of a leaf and of an internal node, step by step -/

theorem rd_drop_zero {α : Type} (v : List α) (n : Nat) (h : n < v.length) :
    ∃ s, rd (v.drop n) 0 = .ok s ∧ rd v n = .ok s ∧ (v.drop n).head? = some s := by
  cases hd : v.drop n with
  | nil =>
    have := congrArg List.length hd
    simp only [List.length_drop, List.length_nil] at this
    omega
  | cons s rest =>
    refine ⟨s, rd_cons_zero _ _, ?_, rfl⟩
    have e : v.get? n = some s := by
      have h1 : (v.drop n).get? 0 = some s := by rw [hd]; rfl
      rw [List.get?_eq_getElem?, List.getElem?_drop] at h1
      rw [List.get?_eq_getElem?]
      simpa using h1
    simp only [rd, e]

/-- Claim C20: for every order `m` from 3 on and every leaf `l` that holds `m + 1` entries,
its parent, if any, being another node of the arena, `split_leaf_node` with `mid = m / 2`
brings the tree into a state `t1` in which `l` keeps the
entries `[0, mid)`, the new leaf `n` holds the entries `[mid, m + 1)` with their values, is
linked between `l` and the old successor of `l`, and has as its first key the separator `s`.
If `l` has no parent, `t1` is the result, with a new internal root that holds `s` and the two
leaves; otherwise `s` and `n` have been inserted into the parent `p` at the lower bound of `s`,
and the call continues with the loop over `p`, which returns `t1` if `p` does not overflow. -/
theorem split_leaf_node_moves_upper_half (t : BPlusTree) (m l : Nat) (hm : t.order = m)
    (_h3 : 3 ≤ m) (hl : l < t.heap.length) (hkeys : (deref t.heap l).keys.length = m + 1)
    (_hvalues : (deref t.heap l).values.length = m + 1)
    (hpar : ∀ p, (deref t.heap l).parent = some p → p < t.heap.length ∧ p ≠ l) :
    ∃ t1 s,
      (match (deref t.heap l).parent with
        | none => split_leaf_node t l = .ok t1 ∧ t1.root = some (t.heap.length + 1)
            ∧ deref t1.heap (t.heap.length + 1)
              = { InternalNode t.order with keys := [s], pointers := [l, t.heap.length] }
            ∧ (deref t1.heap l).parent = some (t.heap.length + 1)
            ∧ (deref t1.heap t.heap.length).parent = some (t.heap.length + 1)
        | some p =>
          split_leaf_node t l
              = split_loop (split_internal_node t1.heap.length) (t1.heap.length + 1) t1 p
            ∧ (deref t1.heap p).keys
              = insertAt (deref t.heap p).keys (lower_bound (deref t.heap p).keys s) s
            ∧ (deref t1.heap p).pointers
              = insertAt (deref t.heap p).pointers (lower_bound (deref t.heap p).keys s + 1)
                  t.heap.length
            ∧ (deref t1.heap l).parent = some p
            ∧ (deref t1.heap t.heap.length).parent = some p
            ∧ (¬ ((deref t1.heap p).keys.length : Int) > toSizeT (deref t1.heap p).max_keys →
                split_leaf_node t l = .ok t1))
      ∧ (deref t1.heap l).keys = (deref t.heap l).keys.take (m / 2)
      ∧ (deref t1.heap l).values = (deref t.heap l).values.take (m / 2)
      ∧ (deref t1.heap t.heap.length).keys = (deref t.heap l).keys.drop (m / 2)
      ∧ (deref t1.heap t.heap.length).values = (deref t.heap l).values.drop (m / 2)
      ∧ (deref t1.heap t.heap.length).is_leaf = true
      ∧ (deref t1.heap t.heap.length).next = (deref t.heap l).next
      ∧ (deref t1.heap l).next = some t.heap.length
      ∧ (deref t1.heap t.heap.length).keys.head? = some s
      ∧ (deref t1.heap l).keys.length = m / 2
      ∧ (deref t1.heap t.heap.length).keys.length = m + 1 - m / 2 := by
  have hmid : (t.order.tdiv 2).toNat = m / 2 := by rw [hm]; exact tdiv_two_toNat m
  obtain ⟨s, hs, _, hhead⟩ := rd_drop_zero (deref t.heap l).keys (m / 2) (by omega)
  have hs1 : rd ((deref t.heap l).keys.drop (t.order.tdiv 2).toNat) 0 = .ok s := by
    rw [hmid]; exact hs
  have hlentake : ((deref t.heap l).keys.take (m / 2)).length = m / 2 := by
    rw [List.length_take]; omega
  have hlendrop : ((deref t.heap l).keys.drop (m / 2)).length = m + 1 - m / 2 := by
    rw [List.length_drop]; omega
  cases hq : (deref t.heap l).parent with
  | none =>
    obtain ⟨t1, e, _, hr, _, hd⟩ := split_leaf_node_root t l s hl hq hs1
    have hdr := hd (t.heap.length + 1)
    rw [if_pos rfl] at hdr
    have hdn := hd t.heap.length
    rw [if_neg (by omega), if_pos rfl, hmid] at hdn
    have hdl := hd l
    rw [if_neg (by omega), if_neg (by omega), if_pos rfl, hmid] at hdl
    refine ⟨t1, s, ⟨e, hr, hdr, by rw [hdl], by rw [hdn]⟩, by rw [hdl], by rw [hdl], by rw [hdn],
      by rw [hdn], by rw [hdn]; rfl, by rw [hdn], by rw [hdl], by rw [hdn]; exact hhead,
      by rw [hdl]; exact hlentake, by rw [hdn]; exact hlendrop⟩
  | some p =>
    obtain ⟨hp, hpl⟩ := hpar p hq
    obtain ⟨t1, e, _, _, _, hd⟩ := split_leaf_node_nonroot t l p s hl hp hpl hq hs1
    have hdn := hd t.heap.length
    rw [if_pos rfl, hmid] at hdn
    have hdl := hd l
    rw [if_neg (by omega), if_pos rfl, hmid] at hdl
    have hdp := hd p
    rw [if_neg (by omega), if_neg hpl, if_pos rfl] at hdp
    refine ⟨t1, s, ⟨e, by rw [hdp], by rw [hdp], by rw [hdl]; exact hq, by rw [hdn], ?_⟩,
      by rw [hdl], by rw [hdl], by rw [hdn],
      by rw [hdn], by rw [hdn]; rfl, by rw [hdn], by rw [hdl], by rw [hdn]; exact hhead,
      by rw [hdl]; exact hlentake, by rw [hdn]; exact hlendrop⟩
    intro hno
    rw [e]
    simp only [split_loop, hno, if_false]

theorem split_leaf_node_moves_upper_half_witness :
    leaf_overflow_order_three.order = (3 : Nat) ∧ 3 ≤ 3
      ∧ (deref leaf_overflow_order_three.heap 1).keys = [2, 3, 4, 5]
      ∧ split_leaf_node leaf_overflow_order_three 1
        = (insert four_keys_order_three 5 5)
      ∧ ∃ t1 s,
      (match (deref leaf_overflow_order_three.heap 1).parent with
        | none => split_leaf_node leaf_overflow_order_three 1 = .ok t1
            ∧ t1.root = some (leaf_overflow_order_three.heap.length + 1)
            ∧ deref t1.heap (leaf_overflow_order_three.heap.length + 1)
              = { InternalNode leaf_overflow_order_three.order with
                  keys := [s], pointers := [1, leaf_overflow_order_three.heap.length] }
            ∧ (deref t1.heap 1).parent = some (leaf_overflow_order_three.heap.length + 1)
            ∧ (deref t1.heap leaf_overflow_order_three.heap.length).parent
              = some (leaf_overflow_order_three.heap.length + 1)
        | some p =>
          split_leaf_node leaf_overflow_order_three 1
              = split_loop (split_internal_node t1.heap.length) (t1.heap.length + 1) t1 p
            ∧ (deref t1.heap p).keys
              = insertAt (deref leaf_overflow_order_three.heap p).keys
                  (lower_bound (deref leaf_overflow_order_three.heap p).keys s) s
            ∧ (deref t1.heap p).pointers
              = insertAt (deref leaf_overflow_order_three.heap p).pointers
                  (lower_bound (deref leaf_overflow_order_three.heap p).keys s + 1)
                  leaf_overflow_order_three.heap.length
            ∧ (deref t1.heap 1).parent = some p
            ∧ (deref t1.heap leaf_overflow_order_three.heap.length).parent = some p
            ∧ (¬ ((deref t1.heap p).keys.length : Int) > toSizeT (deref t1.heap p).max_keys →
                split_leaf_node leaf_overflow_order_three 1 = .ok t1))
      ∧ (deref t1.heap 1).keys = (deref leaf_overflow_order_three.heap 1).keys.take (3 / 2)
      ∧ (deref t1.heap 1).values = (deref leaf_overflow_order_three.heap 1).values.take (3 / 2)
      ∧ (deref t1.heap leaf_overflow_order_three.heap.length).keys
        = (deref leaf_overflow_order_three.heap 1).keys.drop (3 / 2)
      ∧ (deref t1.heap leaf_overflow_order_three.heap.length).values
        = (deref leaf_overflow_order_three.heap 1).values.drop (3 / 2)
      ∧ (deref t1.heap leaf_overflow_order_three.heap.length).is_leaf = true
      ∧ (deref t1.heap leaf_overflow_order_three.heap.length).next
        = (deref leaf_overflow_order_three.heap 1).next
      ∧ (deref t1.heap 1).next = some leaf_overflow_order_three.heap.length
      ∧ (deref t1.heap leaf_overflow_order_three.heap.length).keys.head? = some s
      ∧ (deref t1.heap 1).keys.length = 3 / 2
      ∧ (deref t1.heap leaf_overflow_order_three.heap.length).keys.length = 3 + 1 - 3 / 2 :=
  ⟨by decide, by decide, by decide, by decide,
    split_leaf_node_moves_upper_half leaf_overflow_order_three 3 1 (by decide) (by decide)
      (by decide) (by decide) (by decide)
      (fun p hp => by
        obtain rfl : 2 = p := Option.some.inj hp
        decide)⟩

theorem not_mem_of_sorted_split (keys : List Int) (n : Nat) (s : Int)
    (hs : keys.Pairwise (· < ·)) (h : rd keys n = .ok s) :
    s ∉ keys.take n ∧ s ∉ keys.drop (n + 1) := by
  have hget : keys.get? n = some s := by
    unfold rd at h
    cases hg : keys.get? n with
    | none => rw [hg] at h; cases h
    | some a =>
      rw [hg] at h
      rw [Except.ok.inj h]
  have hn : n < keys.length := by
    rw [List.get?_eq_getElem?] at hget
    exact (List.getElem?_eq_some_iff.mp hget).1
  have hdrop : keys.drop n = s :: keys.drop (n + 1) := by
    rw [List.get?_eq_getElem?] at hget
    obtain ⟨_, e⟩ := List.getElem?_eq_some_iff.mp hget
    rw [← e]
    exact List.drop_eq_getElem_cons hn
  have hsplit : keys = keys.take n ++ s :: keys.drop (n + 1) := by
    rw [← hdrop, List.take_append_drop]
  rw [hsplit, List.pairwise_append] at hs
  obtain ⟨_, h2, h3⟩ := hs
  rw [List.pairwise_cons] at h2
  constructor
  · intro hmem
    have := h3 s hmem s (by simp)
    omega
  · intro hmem
    have := h2.1 s hmem
    omega

/-- Claim C19: for every order `m` from 3 on and every internal node `x` that holds `m + 1`
sorted keys and `m + 2` children, the children and the parent, if any, being nodes of the arena
other than `x` and the parent not being a child, `split_internal_node` with `mid = m / 2`
brings the tree into
a state `t1` in which `x` keeps the keys before `mid` and the children up to `mid`, the new node
`n` holds the keys and the children after `mid`, every child of `n` names `n` as its parent,
and the promoted key `s`, the key that `x` held at `mid`, is in neither half. If `x` has no
parent, `t1` is the result, with a new root that holds `s` and the two halves; otherwise `s`
and `n` have been inserted into the parent `p` at the lower bound of `s`, and the call
continues with the loop over `p`, which returns `t1` if `p` does not overflow. -/
theorem split_internal_node_promotes_middle_key (fuel : Nat) (t : BPlusTree) (m x : Nat)
    (hm : t.order = m) (_h3 : 3 ≤ m) (hx : x < t.heap.length)
    (hkeys : (deref t.heap x).keys.length = m + 1)
    (_hpointers : (deref t.heap x).pointers.length = m + 2)
    (hsorted : (deref t.heap x).keys.Pairwise (· < ·))
    (hps : ∀ c ∈ (deref t.heap x).pointers,
      c < t.heap.length ∧ c ≠ x ∧ (deref t.heap x).parent ≠ some c)
    (hpar : ∀ p, (deref t.heap x).parent = some p → p < t.heap.length ∧ p ≠ x) :
    ∃ t1 s, rd (deref t.heap x).keys (m / 2) = .ok s
      ∧ (match (deref t.heap x).parent with
        | none => split_internal_node (fuel + 1) t x = .ok t1
            ∧ t1.root = some (t.heap.length + 1)
            ∧ deref t1.heap (t.heap.length + 1)
              = { InternalNode t.order with keys := [s], pointers := [x, t.heap.length] }
            ∧ (deref t1.heap x).parent = some (t.heap.length + 1)
            ∧ (deref t1.heap t.heap.length).parent = some (t.heap.length + 1)
        | some p =>
          split_internal_node (fuel + 1) t x
              = split_loop (split_internal_node fuel) (fuel + 1) t1 p
            ∧ (deref t1.heap p).keys
              = insertAt (deref t.heap p).keys (lower_bound (deref t.heap p).keys s) s
            ∧ (deref t1.heap p).pointers
              = insertAt (deref t.heap p).pointers (lower_bound (deref t.heap p).keys s + 1)
                  t.heap.length
            ∧ (deref t1.heap x).parent = some p
            ∧ (deref t1.heap t.heap.length).parent = some p
            ∧ (¬ ((deref t1.heap p).keys.length : Int) > toSizeT (deref t1.heap p).max_keys →
                split_internal_node (fuel + 1) t x = .ok t1))
      ∧ (deref t1.heap x).keys = (deref t.heap x).keys.take (m / 2)
      ∧ (deref t1.heap x).pointers = (deref t.heap x).pointers.take (m / 2 + 1)
      ∧ (deref t1.heap t.heap.length).keys = (deref t.heap x).keys.drop (m / 2 + 1)
      ∧ (deref t1.heap t.heap.length).pointers = (deref t.heap x).pointers.drop (m / 2 + 1)
      ∧ (deref t1.heap t.heap.length).is_leaf = false
      ∧ (∀ c ∈ (deref t.heap x).pointers.drop (m / 2 + 1),
          (deref t1.heap c).parent = some t.heap.length)
      ∧ s ∉ (deref t1.heap x).keys ∧ s ∉ (deref t1.heap t.heap.length).keys
      ∧ (deref t1.heap x).keys.length = m / 2
      ∧ (deref t1.heap t.heap.length).keys.length = m - m / 2 := by
  have hmid : (t.order.tdiv 2).toNat = m / 2 := by rw [hm]; exact tdiv_two_toNat m
  obtain ⟨s, _, hs, _⟩ := rd_drop_zero (deref t.heap x).keys (m / 2) (by omega)
  have hs1 : rd (deref t.heap x).keys (t.order.tdiv 2).toNat = .ok s := by
    rw [hmid]; exact hs
  obtain ⟨hnot1, hnot2⟩ := not_mem_of_sorted_split _ _ _ hsorted hs
  have hlentake : ((deref t.heap x).keys.take (m / 2)).length = m / 2 := by
    rw [List.length_take]; omega
  have hlendrop : ((deref t.heap x).keys.drop (m / 2 + 1)).length = m - m / 2 := by
    rw [List.length_drop]; omega
  cases hq : (deref t.heap x).parent with
  | none =>
    obtain ⟨t1, e, _, hr, _, hd⟩ := split_internal_node_root fuel t x s hx hq
      (fun c hc => ⟨(hps c hc).1, (hps c hc).2.1⟩) hs1
    have hdr := hd (t.heap.length + 1)
    rw [if_pos rfl] at hdr
    have hdn := hd t.heap.length
    rw [if_neg (by omega), if_pos rfl, hmid] at hdn
    have hdx := hd x
    rw [if_neg (by omega), if_neg (by omega), if_pos rfl, hmid] at hdx
    have hdc : ∀ c ∈ (deref t.heap x).pointers.drop (m / 2 + 1),
        (deref t1.heap c).parent = some t.heap.length := by
      intro c hc
      obtain ⟨h1, h2, _⟩ := hps c (List.mem_of_mem_drop hc)
      rw [hd c, if_neg (by omega), if_neg (by omega), if_neg h2, hmid, if_pos hc]
    refine ⟨t1, s, hs, ⟨e, hr, hdr, by rw [hdx], by rw [hdn]⟩, by rw [hdx], by rw [hdx],
      by rw [hdn], by rw [hdn], by rw [hdn]; rfl, hdc, by rw [hdx]; exact hnot1,
      by rw [hdn]; exact hnot2, by rw [hdx]; exact hlentake, by rw [hdn]; exact hlendrop⟩
  | some p =>
    obtain ⟨hp, hpx⟩ := hpar p hq
    obtain ⟨t1, e, _, _, _, hd⟩ := split_internal_node_nonroot fuel t x p s hx hp hpx hq
      (fun c hc => ⟨(hps c hc).1, (hps c hc).2.1, fun h => (hps c hc).2.2 (by rw [hq, h])⟩) hs1
    have hdn := hd t.heap.length
    rw [if_pos rfl, hmid] at hdn
    have hdx := hd x
    rw [if_neg (by omega), if_pos rfl, hmid] at hdx
    have hdp := hd p
    rw [if_neg (by omega), if_neg hpx, if_pos rfl] at hdp
    have hdc : ∀ c ∈ (deref t.heap x).pointers.drop (m / 2 + 1),
        (deref t1.heap c).parent = some t.heap.length := by
      intro c hc
      obtain ⟨h1, h2, h3⟩ := hps c (List.mem_of_mem_drop hc)
      have h4 : c ≠ p := fun h => h3 (by rw [hq, h])
      rw [hd c, if_neg (by omega), if_neg h2, if_neg h4, hmid, if_pos hc]
    refine ⟨t1, s, hs, ⟨e, by rw [hdp], by rw [hdp], by rw [hdx]; exact hq, by rw [hdn], ?_⟩,
      by rw [hdx], by rw [hdx],
      by rw [hdn], by rw [hdn], by rw [hdn]; rfl, hdc, by rw [hdx]; exact hnot1,
      by rw [hdn]; exact hnot2, by rw [hdx]; exact hlentake, by rw [hdn]; exact hlendrop⟩
    intro hno
    rw [e]
    simp only [split_loop, hno, if_false]

theorem split_internal_node_promotes_middle_key_witness :
    root_overflow_order_three.order = (3 : Nat) ∧ 3 ≤ 3
      ∧ (deref root_overflow_order_three.heap 2).keys = [2, 3, 4, 5]
      ∧ (deref root_overflow_order_three.heap 2).pointers = [0, 1, 3, 4, 5]
      ∧ split_internal_node 1 root_overflow_order_three 2
        = (build_dense_tree [1, 2, 3, 4, 5, 6] 3 >>= fun t => insert t 7 7)
      ∧ ∃ t1 s, rd (deref root_overflow_order_three.heap 2).keys (3 / 2) = .ok s
      ∧ (match (deref root_overflow_order_three.heap 2).parent with
        | none => split_internal_node (0 + 1) root_overflow_order_three 2 = .ok t1
            ∧ t1.root = some (root_overflow_order_three.heap.length + 1)
            ∧ deref t1.heap (root_overflow_order_three.heap.length + 1)
              = { InternalNode root_overflow_order_three.order with
                  keys := [s], pointers := [2, root_overflow_order_three.heap.length] }
            ∧ (deref t1.heap 2).parent = some (root_overflow_order_three.heap.length + 1)
            ∧ (deref t1.heap root_overflow_order_three.heap.length).parent
              = some (root_overflow_order_three.heap.length + 1)
        | some p =>
          split_internal_node (0 + 1) root_overflow_order_three 2
              = split_loop (split_internal_node 0) (0 + 1) t1 p
            ∧ (deref t1.heap p).keys
              = insertAt (deref root_overflow_order_three.heap p).keys
                  (lower_bound (deref root_overflow_order_three.heap p).keys s) s
            ∧ (deref t1.heap p).pointers
              = insertAt (deref root_overflow_order_three.heap p).pointers
                  (lower_bound (deref root_overflow_order_three.heap p).keys s + 1)
                  root_overflow_order_three.heap.length
            ∧ (deref t1.heap 2).parent = some p
            ∧ (deref t1.heap root_overflow_order_three.heap.length).parent = some p
            ∧ (¬ ((deref t1.heap p).keys.length : Int) > toSizeT (deref t1.heap p).max_keys →
                split_internal_node (0 + 1) root_overflow_order_three 2 = .ok t1))
      ∧ (deref t1.heap 2).keys = (deref root_overflow_order_three.heap 2).keys.take (3 / 2)
      ∧ (deref t1.heap 2).pointers
        = (deref root_overflow_order_three.heap 2).pointers.take (3 / 2 + 1)
      ∧ (deref t1.heap root_overflow_order_three.heap.length).keys
        = (deref root_overflow_order_three.heap 2).keys.drop (3 / 2 + 1)
      ∧ (deref t1.heap root_overflow_order_three.heap.length).pointers
        = (deref root_overflow_order_three.heap 2).pointers.drop (3 / 2 + 1)
      ∧ (deref t1.heap root_overflow_order_three.heap.length).is_leaf = false
      ∧ (∀ c ∈ (deref root_overflow_order_three.heap 2).pointers.drop (3 / 2 + 1),
          (deref t1.heap c).parent = some root_overflow_order_three.heap.length)
      ∧ s ∉ (deref t1.heap 2).keys
      ∧ s ∉ (deref t1.heap root_overflow_order_three.heap.length).keys
      ∧ (deref t1.heap 2).keys.length = 3 / 2
      ∧ (deref t1.heap root_overflow_order_three.heap.length).keys.length = 3 - 3 / 2 :=
  ⟨by decide, by decide, by decide, by decide, by decide,
    split_internal_node_promotes_middle_key 0 root_overflow_order_three 3 2 (by decide)
      (by decide) (by decide) (by decide) (by decide) (by decide) (by decide)
      (fun p hp => by
        have h : (deref root_overflow_order_three.heap 2).parent = none := by decide
        rw [h] at hp
        cases hp)⟩

/-! ### Separators and the subtrees to their right -/

/-- The child after the separator at index `i` is in charge of a range that starts at that
separator. -/
theorem Kids.after_separator {S : Nat → Option Int → Option Int → Prop} :
    ∀ (ks : List Int) (cs : List Nat) (lo hi : Option Int), Kids S cs ks lo hi →
      ∀ (i : Nat) (k : Int), ks.get? i = some k →
        ∃ c b, rd cs (i + 1) = .ok c ∧ c ∈ cs ∧ S c (some k) b := by
  intro ks
  induction ks with
  | nil =>
    intro cs lo hi _ i k hk
    cases hk
  | cons k0 ks ih =>
    rintro cs lo hi ⟨c0, rest, rfl, _, hrest⟩ i k hk
    cases i with
    | zero =>
      simp only [List.get?_cons_zero, Option.some.injEq] at hk
      subst hk
      obtain ⟨c, b, e, hc, hS⟩ := Kids.first _ _ _ _ hrest
      exact ⟨c, b, by rw [rd_cons_succ]; exact e, List.mem_cons_of_mem _ hc, hS⟩
    | succ j =>
      simp only [List.get?_cons_succ] at hk
      obtain ⟨c, b, e, hc, hS⟩ := ih rest _ _ hrest j k hk
      exact ⟨c, b, by rw [rd_cons_succ]; exact e, List.mem_cons_of_mem _ hc, hS⟩

/-- The descent along the first children ends in a leaf whose range starts where the range of
the node starts. -/
theorem leftmost_loop_lo {m : Nat} {t : BPlusTree} {r : Nat} {ov : Option Nat}
    {kvs : List (Int × Int)} {g : Ghost} (hinv : InvG m t r ov kvs g) :
    ∀ (n i fuel : Nat), g.lvl i = n → i < t.heap.length → n < fuel →
      ∃ leaf, leftmost_loop t.heap fuel i = .ok leaf ∧ leaf < t.heap.length
        ∧ (deref t.heap leaf).is_leaf = true ∧ g.lo leaf = g.lo i := by
  intro n
  induction n with
  | zero =>
    intro i fuel hl hi hf
    obtain ⟨fuel, rfl⟩ : ∃ f, fuel = f + 1 := ⟨fuel - 1, by omega⟩
    have hleaf := (hinv.is_leaf_iff i hi).mpr hl
    exact ⟨i, by simp [leftmost_loop, hleaf], hi, hleaf, rfl⟩
  | succ n ih =>
    intro i fuel hl hi hf
    obtain ⟨fuel, rfl⟩ : ∃ f, fuel = f + 1 := ⟨fuel - 1, by omega⟩
    have hn := hinv.nodes i hi
    have hint : (deref t.heap i).is_leaf = false := by
      cases h : (deref t.heap i).is_leaf with
      | false => rfl
      | true =>
        have := (hinv.is_leaf_iff i hi).mp h
        omega
    obtain ⟨c, b, hrd, _, hc⟩ := Kids.first _ _ _ _ (hn.internal hint).2
    obtain ⟨leaf, e, q1, q2, q3⟩ := ih c fuel (by have := hc.2.2.1; omega) hc.1 (by omega)
    exact ⟨leaf, by simp [leftmost_loop, hint, hrd, e], q1, q2, by rw [q3, hc.2.2.2.1]⟩

/-- No key stored under a node lies below the lower end of the range of the node. -/
theorem subtree_keys_lo {m : Nat} {t : BPlusTree} {r : Nat} {ov : Option Nat}
    {kvs : List (Int × Int)} {g : Ghost} (hinv : InvG m t r ov kvs g) :
    ∀ (n i : Nat), g.lvl i = n → i < t.heap.length →
      ∀ k ∈ subtree_keys t.heap n i, loLe (g.lo i) k := by
  intro n
  induction n with
  | zero =>
    intro i _ hi k hk
    exact ((hinv.nodes i hi).range k hk).1
  | succ n ih =>
    intro i hl hi k hk
    have hn := hinv.nodes i hi
    simp only [subtree_keys, List.mem_flatMap] at hk
    obtain ⟨c, hc, hkc⟩ := hk
    obtain ⟨hint, _⟩ := hinv.child_lt i c hi hc
    obtain ⟨a, b, hS, hnest⟩ := Kids.lo_nested _ _ _ _ (hn.internal hint).2 hn.sorted
      (fun k1 hk1 => (hn.range k1 hk1).1) c hc
    have h1 := ih c (by have := hS.2.2.1; omega) hS.1 k hkc
    rw [hS.2.2.2.1] at h1
    exact hnest k h1

/-- The lower end of the range of a node is a key stored under the node. -/
theorem subtree_keys_mem {m : Nat} {t : BPlusTree} {r : Nat} {ov : Option Nat}
    {kvs : List (Int × Int)} {g : Ghost} (hinv : InvG m t r ov kvs g) :
    ∀ (n i : Nat) (a : Int), g.lvl i = n → i < t.heap.length → g.lo i = some a →
      a ∈ subtree_keys t.heap n i := by
  intro n
  induction n with
  | zero =>
    intro i a hl hi hlo
    have hleaf := (hinv.is_leaf_iff i hi).mpr hl
    have := ((hinv.nodes i hi).leaf hleaf).2.2.2.1 a hlo
    exact List.mem_of_mem_head? this
  | succ n ih =>
    intro i a hl hi hlo
    have hn := hinv.nodes i hi
    have hint : (deref t.heap i).is_leaf = false := by
      cases h : (deref t.heap i).is_leaf with
      | false => rfl
      | true =>
        have := (hinv.is_leaf_iff i hi).mp h
        omega
    obtain ⟨c, b, _, hc, hS⟩ := Kids.first _ _ _ _ (hn.internal hint).2
    simp only [subtree_keys, List.mem_flatMap]
    exact ⟨c, hc, ih c a (by have := hS.2.2.1; omega) hS.1 (by rw [hS.2.2.2.1]; exact hlo)⟩

/-- Under the invariant every separator of an internal node is the first key of the leftmost
leaf under the child to its right, and the least key stored under that child. -/
theorem separator_inv {m : Nat} {t : BPlusTree} {r : Nat} {ov : Option Nat}
    {kvs : List (Int × Int)} {g : Ghost} (hinv : InvG m t r ov kvs g) (x : Nat)
    (hx : x < t.heap.length) (hint : (deref t.heap x).is_leaf = false) (i : Nat) (sep : Int)
    (hsep : (deref t.heap x).keys.get? i = some sep) :
    ∃ c leaf d, rd (deref t.heap x).pointers (i + 1) = .ok c
      ∧ leftmost_loop t.heap t.heap.length c = .ok leaf
      ∧ (deref t.heap leaf).is_leaf = true
      ∧ (deref t.heap leaf).keys.head? = some sep
      ∧ leaves_at_depth t.heap d c = true
      ∧ sep ∈ subtree_keys t.heap d c
      ∧ ∀ k ∈ subtree_keys t.heap d c, sep ≤ k := by
  have hn := hinv.nodes x hx
  obtain ⟨c, b, hrd, _, hS⟩ := Kids.after_separator _ _ _ _ (hn.internal hint).2 i sep hsep
  have hlvl : g.lvl c < t.heap.length := by
    have := hS.2.2.1
    have := hn.level
    have := hinv.height
    omega
  obtain ⟨leaf, e, hlt, hleaf, hlo⟩ := leftmost_loop_lo hinv (g.lvl c) c t.heap.length rfl hS.1
    hlvl
  refine ⟨c, leaf, g.lvl c, hrd, e, hleaf, ?_, leaves_at_depth_inv hinv _ c hS.1 rfl,
    subtree_keys_mem hinv _ c sep rfl hS.1 hS.2.2.2.1, fun k hk => ?_⟩
  · exact ((hinv.nodes leaf hlt).leaf hleaf).2.2.2.1 sep (by rw [hlo]; exact hS.2.2.2.1)
  · exact subtree_keys_lo hinv _ c rfl hS.1 k hk sep hS.2.2.2.1

/-- Claim C13: for every order from 3 on and every sequence of inserts of pairwise distinct
keys into the empty tree, after each completed insert, that is after every prefix of the
sequence, every separator `sep` of every internal node, at index `i`, is the first key of the
leftmost leaf under the child `i + 1`, and it is the least of the keys stored in the subtree
of that child, whose leaves all lie `d` levels under the child. -/
theorem separator_is_first_key_of_right_subtree (order : Int) (h3 : 3 ≤ order)
    (hmax : order ≤ 2147483647) (kvs : List (Int × Int)) (hnd : (kvs.map Prod.fst).Nodup)
    (n : Nat) :
    ∃ t, insert_all (BPlusTree.new order) (kvs.take n) = .ok t
      ∧ ∀ x, x < t.heap.length → (deref t.heap x).is_leaf = false →
        ∀ i sep, (deref t.heap x).keys.get? i = some sep →
          ∃ c leaf d, rd (deref t.heap x).pointers (i + 1) = .ok c
            ∧ leftmost_loop t.heap t.heap.length c = .ok leaf
            ∧ (deref t.heap leaf).is_leaf = true
            ∧ (deref t.heap leaf).keys.head? = some sep
            ∧ leaves_at_depth t.heap d c = true
            ∧ sep ∈ subtree_keys t.heap d c
            ∧ ∀ k ∈ subtree_keys t.heap d c, sep ≤ k := by
  obtain ⟨m, rfl, hm, hmax1⟩ := order_nat order h3 hmax
  have hnd1 : ((kvs.take n).map Prod.fst).Nodup := by
    rw [← List.take_append_drop n kvs, List.map_append] at hnd
    exact (List.nodup_append.mp hnd).1
  obtain ⟨t, e, hinv⟩ := build_inv hm hmax1 (kvs.take n) hnd1
  rcases hinv with ⟨_, h2, _, _⟩ | ⟨r, g, hinv⟩
  · refine ⟨t, e, fun x hx => ?_⟩
    rw [h2] at hx
    cases hx
  · exact ⟨t, e, fun x hx hint i sep hsep => separator_inv hinv x hx hint i sep hsep⟩

theorem separator_is_first_key_of_right_subtree_witness :
    (main_records.map Prod.fst).Nodup
      ∧ (build_dense_tree [1, 2, 3, 4, 5, 6, 7] 3).map (fun t =>
          ((deref t.heap 7).keys, (deref t.heap 7).pointers, subtree_keys t.heap 1 6))
        = .ok ([3], [2, 6], [3, 4, 5, 6, 7])
      ∧ ∃ t, insert_all (BPlusTree.new 3) (main_records.take 18) = .ok t
        ∧ ∀ x, x < t.heap.length → (deref t.heap x).is_leaf = false →
          ∀ i sep, (deref t.heap x).keys.get? i = some sep →
            ∃ c leaf d, rd (deref t.heap x).pointers (i + 1) = .ok c
              ∧ leftmost_loop t.heap t.heap.length c = .ok leaf
              ∧ (deref t.heap leaf).is_leaf = true
              ∧ (deref t.heap leaf).keys.head? = some sep
              ∧ leaves_at_depth t.heap d c = true
              ∧ sep ∈ subtree_keys t.heap d c
              ∧ ∀ k ∈ subtree_keys t.heap d c, sep ≤ k :=
  ⟨by decide, by decide,
    separator_is_first_key_of_right_subtree 3 (by decide) (by decide) main_records (by decide)
      18⟩

/-! ### Removal from trees built by inserts -/

theorem build_eight_keys_order_three :
    build_dense_tree [1, 2, 3, 4, 5, 6, 0, -1] 3 = .ok eight_keys_order_three := by decide

/-- Claim C22, evaluated: in the tree of order 3 built from the keys 1, ..., 6, 0, -1,
`remove(3)` stops at an access out of bounds. The leaf of 3, node 3, holds one key; the loop
selects node 0, which holds three keys, as its left sibling and calls
`borrow_key(left_sibling, node, parent, index - 1)`, which takes the only entry out of the node
and then reads `right_leaf->keys[0]` from the vector that is now empty. -/
theorem remove_reads_first_key_of_empty_leaf :
    build_dense_tree [1, 2, 3, 4, 5, 6, 0, -1] 3 = .ok eight_keys_order_three
      ∧ find_leaf_node eight_keys_order_three 3 = .ok (some 3)
      ∧ (deref eight_keys_order_three.heap 3).keys = [3]
      ∧ (∀ del fuel, rebalance_loop del (fuel + 1) eight_keys_order_three 3
          = match borrow_key eight_keys_order_three 0 3 2 0 with
            | .error e => .error e
            | .ok t1 => rebalance_loop del fuel t1 3)
      ∧ borrow_key eight_keys_order_three 0 3 2 0 = .error .outOfBounds
      ∧ remove eight_keys_order_three 3 = .error .outOfBounds := by
  refine ⟨by decide, by decide, by decide, fun del fuel => rfl, by decide, by decide⟩

/-! ### Children and their parent references -/

theorem Kids.parent_of_mem {heap : List Node} {g : Ghost} {i : Nat} (ks : List Int)
    (cs : List Nat) (lo hi : Option Int) (h : Kids (ChildOK heap g i) cs ks lo hi) (c : Nat)
    (hc : c ∈ cs) : c < heap.length ∧ (deref heap c).parent = some i := by
  obtain ⟨a, b, hab⟩ := Kids.exists_of_mem ks cs lo hi h c hc
  exact ⟨hab.1, hab.2.1⟩

/-- Claim C24: for every order from 3 on and every sequence of inserts of pairwise distinct
keys into the empty tree, after each completed insert, that is after every prefix of the
sequence, every internal node has one child more than keys, every child of an internal node
names that node as its parent, and the root has no parent. -/
theorem children_count_and_parent_references (order : Int) (h3 : 3 ≤ order)
    (hmax : order ≤ 2147483647) (kvs : List (Int × Int)) (hnd : (kvs.map Prod.fst).Nodup)
    (n : Nat) :
    ∃ t, insert_all (BPlusTree.new order) (kvs.take n) = .ok t
      ∧ (∀ x, x < t.heap.length → (deref t.heap x).is_leaf = false →
          (deref t.heap x).pointers.length = (deref t.heap x).keys.length + 1
            ∧ ∀ c ∈ (deref t.heap x).pointers,
                c < t.heap.length ∧ (deref t.heap c).parent = some x)
      ∧ ∀ r, t.root = some r → (deref t.heap r).parent = none := by
  obtain ⟨m, rfl, hm, hmax1⟩ := order_nat order h3 hmax
  have hnd1 : ((kvs.take n).map Prod.fst).Nodup := by
    rw [← List.take_append_drop n kvs, List.map_append] at hnd
    exact (List.nodup_append.mp hnd).1
  obtain ⟨t, e, hinv⟩ := build_inv hm hmax1 (kvs.take n) hnd1
  rcases hinv with ⟨h1, h2, _, _⟩ | ⟨r, g, hinv⟩
  · refine ⟨t, e, fun x hx => ?_, fun r hr => ?_⟩
    · rw [h2] at hx
      cases hx
    · rw [h1] at hr
      cases hr
  · refine ⟨t, e, fun x hx hint => ?_, fun r1 hr => ?_⟩
    · have hk := ((hinv.nodes x hx).internal hint).2
      exact ⟨Kids.length_eq _ _ _ _ hk, fun c hc => Kids.parent_of_mem _ _ _ _ hk c hc⟩
    · rw [hinv.root] at hr
      rw [← Option.some.inj hr]
      exact hinv.root_parent

theorem children_count_and_parent_references_witness :
    (main_records.map Prod.fst).Nodup
      ∧ (build_dense_tree [1, 2, 3, 4, 5, 6, 7] 3).map (fun t =>
          (t.root, (deref t.heap 7).keys, (deref t.heap 7).pointers))
        = .ok (some 7, [3], [2, 6])
      ∧ (build_dense_tree [1, 2, 3, 4, 5, 6, 7] 3).map (fun t =>
          ((deref t.heap 2).parent, (deref t.heap 6).parent, (deref t.heap 7).parent))
        = .ok (some 7, some 7, none)
      ∧ ∃ t, insert_all (BPlusTree.new 3) (main_records.take 18) = .ok t
        ∧ (∀ x, x < t.heap.length → (deref t.heap x).is_leaf = false →
            (deref t.heap x).pointers.length = (deref t.heap x).keys.length + 1
              ∧ ∀ c ∈ (deref t.heap x).pointers,
                  c < t.heap.length ∧ (deref t.heap c).parent = some x)
        ∧ ∀ r, t.root = some r → (deref t.heap r).parent = none :=
  ⟨by decide, by decide, by decide,
    children_count_and_parent_references 3 (by decide) (by decide) main_records (by decide) 18⟩

/-! ### The closing step of `delete_entry` -/

theorem parent_upd_none (heap : List Node) (c : Nat) :
    deref (upd heap c fun n => { n with parent := none }) c
      = { deref heap c with parent := none } := by
  rw [deref_upd]
  split
  · rfl
  · next h =>
    have hc : heap.length ≤ c := by
      by_contra hlt
      exact h ⟨rfl, by omega⟩
    rw [deref_ge _ _ hc]
    rfl

/-- Claim C28: let `t2` be the tree with which `delete_entry` leaves its rebalancing loop, and
`r` its root. If `r` is an internal node without keys and `c` is its child 0, `delete_entry`
returns the tree in which `c` is the root and has no parent, and nothing else has changed; if
`r` is a leaf or holds a key, `delete_entry` returns `t2`, with the root `r`. -/
theorem delete_entry_collapses_empty_root (fuel : Nat) (t : BPlusTree) (node : Nat) (key : Int)
    (t2 : BPlusTree) (r : Nat)
    (hloop : (match (if (deref t.heap node).is_leaf then remove_from_leaf_node t node key
                else remove_from_internal_node t node key) with
              | .error e => Except.error e
              | .ok t1 => rebalance_loop (delete_entry fuel) (fuel + 1) t1 node) = .ok t2)
    (hroot : t2.root = some r) :
    (∀ c, (deref t2.heap r).keys = [] → (deref t2.heap r).is_leaf = false →
        rd (deref t2.heap r).pointers 0 = .ok c →
        ∃ t3, delete_entry (fuel + 1) t node key = .ok t3 ∧ t3.root = some c
          ∧ t3.order = t2.order ∧ t3.heap.length = t2.heap.length
          ∧ deref t3.heap c = { deref t2.heap c with parent := none }
          ∧ ∀ q, q ≠ c → deref t3.heap q = deref t2.heap q)
      ∧ ((deref t2.heap r).is_leaf = true ∨ (deref t2.heap r).keys ≠ [] →
          delete_entry (fuel + 1) t node key = .ok t2 ∧ t2.root = some r) := by
  have hdel : delete_entry (fuel + 1) t node key = collapse_root t2 := by
    simp only [delete_entry]
    cases hrem : (if (deref t.heap node).is_leaf then remove_from_leaf_node t node key
        else remove_from_internal_node t node key) with
    | error e =>
      rw [hrem] at hloop
      cases hloop
    | ok t1 =>
      rw [hrem] at hloop
      simp only at hloop
      simp only [hloop]
  constructor
  · intro c hk hl hc
    refine ⟨{ t2 with root := some c, heap := upd t2.heap c fun n => { n with parent := none } },
      ?_, rfl, rfl, by simp only [length_upd], parent_upd_none _ _, fun q hq => ?_⟩
    · rw [hdel]
      simp only [collapse_root, hroot, hk, hl, hc, and_self, if_true]
    · dsimp only
      rw [deref_upd]
      simp [hq]
  · intro h
    refine ⟨?_, hroot⟩
    rw [hdel]
    simp only [collapse_root, hroot]
    rw [if_neg]
    rintro ⟨h1, h2⟩
    rcases h with h | h
    · rw [h2] at h
      cases h
    · exact h h1

theorem delete_entry_collapses_empty_root_witness :
    delete_entry 1 merged_leaves_order_three 2 2
        = .ok { merged_leaves_order_three with
            root := some 0
            heap :=
              [ { is_leaf := true, min_keys := 2, max_keys := 3, num_keys := 0, keys := [1, 2],
                  parent := none, pointers := [], values := [1, 2], next := none },
                { is_leaf := true, min_keys := 2, max_keys := 3, num_keys := 0, keys := [2],
                  parent := some 2, pointers := [], values := [2], next := none },
                { is_leaf := false, min_keys := 1, max_keys := 3, num_keys := 0, keys := [],
                  parent := none, pointers := [0], values := [], next := none } ] }
      ∧ (∀ c, (deref (upd merged_leaves_order_three.heap 2 fun n =>
              { n with keys := [], pointers := [0] }) 2).keys = [] →
          (deref (upd merged_leaves_order_three.heap 2 fun n =>
              { n with keys := [], pointers := [0] }) 2).is_leaf = false →
          rd (deref (upd merged_leaves_order_three.heap 2 fun n =>
              { n with keys := [], pointers := [0] }) 2).pointers 0 = .ok c →
          ∃ t3, delete_entry (0 + 1) merged_leaves_order_three 2 2 = .ok t3 ∧ t3.root = some c
            ∧ t3.order = merged_leaves_order_three.order
            ∧ t3.heap.length = (upd merged_leaves_order_three.heap 2 fun n =>
                { n with keys := [], pointers := [0] }).length
            ∧ deref t3.heap c = { deref (upd merged_leaves_order_three.heap 2 fun n =>
                { n with keys := [], pointers := [0] }) c with parent := none }
            ∧ ∀ q, q ≠ c → deref t3.heap q = deref (upd merged_leaves_order_three.heap 2 fun n =>
                { n with keys := [], pointers := [0] }) q)
      ∧ ((deref (upd merged_leaves_order_three.heap 2 fun n =>
              { n with keys := [], pointers := [0] }) 2).is_leaf = true
          ∨ (deref (upd merged_leaves_order_three.heap 2 fun n =>
              { n with keys := [], pointers := [0] }) 2).keys ≠ [] →
          delete_entry (0 + 1) merged_leaves_order_three 2 2
              = .ok { merged_leaves_order_three with
                  heap := upd merged_leaves_order_three.heap 2 fun n =>
                    { n with keys := [], pointers := [0] } }
            ∧ merged_leaves_order_three.root = some 2) :=
  ⟨by decide,
    delete_entry_collapses_empty_root 0 merged_leaves_order_three 2 2
      { merged_leaves_order_three with
        heap := upd merged_leaves_order_three.heap 2 fun n =>
          { n with keys := [], pointers := [0] } } 2 (by decide) rfl⟩

/-! ### The hash function of the join -/

set_option maxRecDepth 100000 in
/-- Claim C29, evaluated: `hashFunction(-1)` is -1, not a bucket number between 0 and 14: the
remainder of the division that truncates has the sign of the dividend. `twoPassJoin` on 121
tuples whose `B` is -1 then indexes `memoryHashTable` with -1, outside the 15 buckets. -/
theorem hash_function_negative_for_negative_value :
    hashFunction (-1) = -1
      ∧ ¬ (0 ≤ hashFunction (-1))
      ∧ twoPassJoin (List.replicate 121 { A := 1, B := -1, C := 0 }) [] 0
        = .error .outOfBounds := by
  decide

/-! ### Borrowing and merging, step by step -/

theorem wr_ok {α : Type} (v : List α) (i : Nat) (a : α) (h : i < v.length) :
    wr v i a = .ok (v.set i a) := by
  simp only [wr, h, if_true]

theorem rd_head {α : Type} (v : List α) (a : α) (h : rd v 0 = .ok a) : v = a :: v.drop 1 := by
  cases v with
  | nil => simp [rd] at h
  | cons x xs =>
    simp only [rd_cons_zero, Except.ok.injEq] at h
    simp [h]

/-- Claim C27: for internal nodes `left` and `right` and a node `parent`, the three of them
distinct nodes of the arena, with `index` a position among the keys of `parent`, `right`
holding a first key `rk` and a first child `c` that is a fourth node of the arena,
`borrow_key(left, right, parent, index)` appends the old `parent.keys[index]` to the keys of
`left` and `c` to its children, makes `left` the parent of `c`, puts `rk` at `index` in the
keys of `parent`, and takes the first key and the first child out of `right`; no other member
of these nodes and no other node changes. -/
theorem borrow_key_internal_moves_first_child (t : BPlusTree) (left right parent index : Nat)
    (pk rk : Int) (c : Nat)
    (hl : left < t.heap.length) (hr : right < t.heap.length) (hp : parent < t.heap.length)
    (hc : c < t.heap.length) (hlr : left ≠ right) (hlp : left ≠ parent) (hrp : right ≠ parent)
    (hcl : c ≠ left) (hcr : c ≠ right) (hcp : c ≠ parent)
    (hleft : (deref t.heap left).is_leaf = false)
    (hpk : rd (deref t.heap parent).keys index = .ok pk)
    (hrk : rd (deref t.heap right).keys 0 = .ok rk)
    (hrc : rd (deref t.heap right).pointers 0 = .ok c) :
    ∃ t1, borrow_key t left right parent index = .ok t1
      ∧ t1.root = t.root ∧ t1.order = t.order ∧ t1.heap.length = t.heap.length
      ∧ (deref t.heap right).keys = rk :: (deref t1.heap right).keys
      ∧ (deref t.heap right).pointers = c :: (deref t1.heap right).pointers
      ∧ ∀ q, deref t1.heap q =
          if q = left then
            { deref t.heap left with
              keys := (deref t.heap left).keys ++ [pk]
              pointers := (deref t.heap left).pointers ++ [c] }
          else if q = right then
            { deref t.heap right with
              keys := (deref t.heap right).keys.drop 1
              pointers := (deref t.heap right).pointers.drop 1 }
          else if q = parent then
            { deref t.heap parent with keys := (deref t.heap parent).keys.set index rk }
          else if q = c then { deref t.heap c with parent := some left }
          else deref t.heap q := by
  have hidx : index < (deref t.heap parent).keys.length := by
    unfold rd at hpk
    cases hg : (deref t.heap parent).keys.get? index with
    | none => rw [hg] at hpk; cases hpk
    | some a =>
      rw [List.get?_eq_getElem?] at hg
      exact (List.getElem?_eq_some_iff.mp hg).1
  have d1 : ∀ q, deref (upd t.heap left fun n =>
      { n with keys := n.keys ++ [pk], pointers := n.pointers ++ [c] }) q
      = if q = left then { deref t.heap left with
          keys := (deref t.heap left).keys ++ [pk]
          pointers := (deref t.heap left).pointers ++ [c] } else deref t.heap q :=
    fun q => deref_upd_lt _ _ _ _ hl
  have l1 : (upd t.heap left fun n =>
      { n with keys := n.keys ++ [pk], pointers := n.pointers ++ [c] }).length = t.heap.length :=
    length_upd _ _ _
  have e1 := d1 right
  rw [if_neg (Ne.symm hlr)] at e1
  have d2 : ∀ q, deref (upd (upd t.heap left fun n =>
      { n with keys := n.keys ++ [pk], pointers := n.pointers ++ [c] }) c fun n =>
        { n with parent := some left }) q
      = if q = c then { deref t.heap c with parent := some left }
        else if q = left then { deref t.heap left with
          keys := (deref t.heap left).keys ++ [pk]
          pointers := (deref t.heap left).pointers ++ [c] } else deref t.heap q := by
    intro q
    rw [deref_upd_lt _ _ _ _ (by rw [l1]; exact hc), d1, d1, if_neg hcl]
  have l2 : (upd (upd t.heap left fun n =>
      { n with keys := n.keys ++ [pk], pointers := n.pointers ++ [c] }) c fun n =>
        { n with parent := some left }).length = t.heap.length := by
    rw [length_upd, l1]
  have e2 := d2 right
  rw [if_neg (Ne.symm hcr), if_neg (Ne.symm hlr)] at e2
  have e3 := d2 parent
  rw [if_neg (Ne.symm hcp), if_neg (Ne.symm hlp)] at e3
  simp only [borrow_key, hleft, Bool.false_eq_true, if_false, hpk, hrc, e1, e2, hrk, e3,
    wr_ok _ _ _ hidx]
  refine ⟨_, rfl, rfl, rfl, ?_, ?_, ?_, ?_⟩
  · simp only [length_upd]
  · simp only [deref_upd, length_upd, hr, hp, hc, hl, and_true, if_true, hrp, if_false,
      Ne.symm hcr, Ne.symm hlr]
    exact rd_head _ _ hrk
  · simp only [deref_upd, length_upd, hr, hp, hc, hl, and_true, if_true, hrp, if_false,
      Ne.symm hcr, Ne.symm hlr]
    exact rd_head _ _ hrc
  · intro q
    simp only [deref_upd, length_upd, hr, hp, hc, hl, and_true, if_true, hrp, if_false,
      Ne.symm hcr, Ne.symm hlr, Ne.symm hcp, Ne.symm hlp, hcl]
    by_cases h1 : q = left
    · subst h1
      simp only [if_true, hlr, hlp, Ne.symm hcl, if_false]
      rw [hleft]
    · simp only [h1, if_false]

theorem build_seven_keys_order_three :
    build_dense_tree [1, 2, 3, 4, 5, 6, 7] 3 = .ok seven_keys_order_three := by decide

theorem borrow_key_internal_moves_first_child_witness :
    build_dense_tree [1, 2, 3, 4, 5, 6, 7] 3 = .ok seven_keys_order_three
      ∧ (deref seven_keys_order_three.heap 7).pointers = [2, 6]
      ∧ borrow_key seven_keys_order_three 2 6 7 0 = .ok seven_keys_after_borrow
      ∧ ∃ t1, borrow_key seven_keys_order_three 2 6 7 0 = .ok t1
        ∧ t1.root = seven_keys_order_three.root ∧ t1.order = seven_keys_order_three.order
        ∧ t1.heap.length = seven_keys_order_three.heap.length
        ∧ (deref seven_keys_order_three.heap 6).keys = 4 :: (deref t1.heap 6).keys
        ∧ (deref seven_keys_order_three.heap 6).pointers = 3 :: (deref t1.heap 6).pointers
        ∧ ∀ q, deref t1.heap q =
            if q = 2 then
              { deref seven_keys_order_three.heap 2 with
                keys := (deref seven_keys_order_three.heap 2).keys ++ [3]
                pointers := (deref seven_keys_order_three.heap 2).pointers ++ [3] }
            else if q = 6 then
              { deref seven_keys_order_three.heap 6 with
                keys := (deref seven_keys_order_three.heap 6).keys.drop 1
                pointers := (deref seven_keys_order_three.heap 6).pointers.drop 1 }
            else if q = 7 then
              { deref seven_keys_order_three.heap 7 with
                keys := (deref seven_keys_order_three.heap 7).keys.set 0 4 }
            else if q = 3 then { deref seven_keys_order_three.heap 3 with parent := some 2 }
            else deref seven_keys_order_three.heap q :=
  ⟨by decide, by decide, by decide,
    borrow_key_internal_moves_first_child seven_keys_order_three 2 6 7 0 3 4 3 (by decide)
      (by decide) (by decide) (by decide) (by decide) (by decide) (by decide) (by decide)
      (by decide) (by decide) (by decide) (by decide) (by decide) (by decide)⟩

theorem lower_bound_of_get? (keys : List Int) (hs : keys.Pairwise (· < ·)) :
    ∀ (i : Nat) (k : Int), keys.get? i = some k → lower_bound keys k = i := by
  induction keys with
  | nil => intro i k h; cases h
  | cons x xs ih =>
    intro i k h
    rw [List.pairwise_cons] at hs
    cases i with
    | zero =>
      simp only [List.get?_cons_zero, Option.some.injEq] at h
      subst h
      simp [lower_bound]
    | succ j =>
      simp only [List.get?_cons_succ] at h
      have hlt : x < k := hs.1 k (List.get?_mem h)
      simp only [lower_bound, hlt, if_true, ih hs.2 j k h]

theorem rd_get? {α : Type} (v : List α) (i : Nat) (a : α) (h : rd v i = .ok a) :
    v.get? i = some a ∧ i < v.length := by
  unfold rd at h
  cases hg : v.get? i with
  | none => rw [hg] at h; cases h
  | some b =>
    rw [hg] at h
    rw [Except.ok.inj h]
    rw [List.get?_eq_getElem?] at hg
    exact ⟨rfl, (List.getElem?_eq_some_iff.mp hg).1⟩

/-- The first step of `delete_entry` for an internal node `parent` and the key at `index` of
its strictly sorted keys: that key and the child after it are taken out. -/
theorem remove_from_internal_node_at (t : BPlusTree) (parent index : Nat) (pk : Int)
    (hsorted : (deref t.heap parent).keys.Pairwise (· < ·))
    (hpk : rd (deref t.heap parent).keys index = .ok pk)
    (hptr : index + 1 < (deref t.heap parent).pointers.length) :
    remove_from_internal_node t parent pk
      = .ok { t with heap := upd t.heap parent fun m =>
          { m with keys := m.keys.eraseIdx index
                   pointers := m.pointers.eraseIdx (index + 1) } } := by
  obtain ⟨hg, hlt⟩ := rd_get? _ _ _ hpk
  have hlb := lower_bound_of_get? _ hsorted index pk hg
  simp only [remove_from_internal_node, hlb, hlt, hptr, and_self, if_true]

/-- Method `delete_entry` called for an internal node, up to its rebalancing loop. -/
theorem delete_entry_internal (fuel : Nat) (t : BPlusTree) (parent index : Nat) (pk : Int)
    (hint : (deref t.heap parent).is_leaf = false)
    (hsorted : (deref t.heap parent).keys.Pairwise (· < ·))
    (hpk : rd (deref t.heap parent).keys index = .ok pk)
    (hptr : index + 1 < (deref t.heap parent).pointers.length) :
    delete_entry (fuel + 1) t parent pk
      = match rebalance_loop (delete_entry fuel) (fuel + 1)
          { t with heap := upd t.heap parent fun m =>
            { m with keys := m.keys.eraseIdx index
                     pointers := m.pointers.eraseIdx (index + 1) } } parent with
        | .error e => Except.error e
        | .ok t3 => collapse_root t3 := by
  simp only [delete_entry, hint, Bool.false_eq_true, if_false,
    remove_from_internal_node_at t parent index pk hsorted hpk hptr]

/-- After the removal of a separator from a root that holds at least two keys, the rebalancing
loop and the closing step of `delete_entry` change nothing. -/
theorem delete_entry_root_idle (fuel : Nat) (t2 : BPlusTree) (parent : Nat)
    (hpar : (deref t2.heap parent).parent = none) (hroot : t2.root = some parent)
    (hkeys : (deref t2.heap parent).keys ≠ []) :
    (match rebalance_loop (delete_entry fuel) (fuel + 1) t2 parent with
      | .error e => Except.error e
      | .ok t3 => collapse_root t3) = .ok t2 := by
  rw [rebalance_loop_idle _ _ _ _ (Or.inl hpar)]
  simp only [collapse_root, hroot]
  rw [if_neg (fun h => hkeys h.1)]

/-- Claim C25: for leaves `left` and `right` that are the children `index` and `index + 1` of
`parent`, the three of them distinct nodes of the arena, `parent` being an internal node with
strictly sorted keys and one child more than keys, `merge_nodes(left, right, parent, index)`
brings the tree into a state `t2` in which `left` holds its entries followed by those of
`right` and has the `next` link of `right`, and `parent` has lost the separator at `index` and
the child at `index + 1`, its other keys and children in their order; no other node has
changed. The call then continues with the rebalancing loop of `delete_entry` for `parent` and
the closing step, and returns `t2` if `parent` is the root and held at least two keys. -/
theorem merge_nodes_leaf_concatenates (fuel : Nat) (t : BPlusTree)
    (left right parent index : Nat)
    (hl : left < t.heap.length) (_hr : right < t.heap.length) (hp : parent < t.heap.length)
    (hlr : left ≠ right) (hlp : left ≠ parent) (_hrp : right ≠ parent)
    (hleaf : (deref t.heap left).is_leaf = true)
    (hint : (deref t.heap parent).is_leaf = false)
    (hsorted : (deref t.heap parent).keys.Pairwise (· < ·))
    (hcount : (deref t.heap parent).pointers.length = (deref t.heap parent).keys.length + 1)
    (_hpl : rd (deref t.heap parent).pointers index = .ok left)
    (hpr : rd (deref t.heap parent).pointers (index + 1) = .ok right) :
    ∃ t2 pk, rd (deref t.heap parent).keys index = .ok pk
      ∧ merge_nodes (delete_entry (fuel + 1)) t left (some right) parent index
        = (match rebalance_loop (delete_entry fuel) (fuel + 1) t2 parent with
          | .error e => Except.error e
          | .ok t3 => collapse_root t3)
      ∧ t2.root = t.root ∧ t2.order = t.order ∧ t2.heap.length = t.heap.length
      ∧ (∀ q, deref t2.heap q =
          if q = left then
            { deref t.heap left with
              keys := (deref t.heap left).keys ++ (deref t.heap right).keys
              values := (deref t.heap left).values ++ (deref t.heap right).values
              next := (deref t.heap right).next }
          else if q = parent then
            { deref t.heap parent with
              keys := (deref t.heap parent).keys.eraseIdx index
              pointers := (deref t.heap parent).pointers.eraseIdx (index + 1) }
          else deref t.heap q)
      ∧ ((deref t.heap parent).parent = none → t.root = some parent →
          2 ≤ (deref t.heap parent).keys.length →
          merge_nodes (delete_entry (fuel + 1)) t left (some right) parent index = .ok t2) := by
  obtain ⟨_, hlt⟩ := rd_get? _ _ _ hpr
  obtain ⟨pk, hpk, _⟩ := rd_ok_mem (deref t.heap parent).keys index (by omega)
  have d2 : ∀ q, deref (upd (upd t.heap left fun n =>
      { n with keys := n.keys ++ (deref t.heap right).keys
               values := n.values ++ (deref t.heap right).values }) left fun n =>
        { n with next := (deref (upd t.heap left fun n =>
          { n with keys := n.keys ++ (deref t.heap right).keys
                   values := n.values ++ (deref t.heap right).values }) right).next }) q
      = if q = left then
          { deref t.heap left with
            keys := (deref t.heap left).keys ++ (deref t.heap right).keys
            values := (deref t.heap left).values ++ (deref t.heap right).values
            next := (deref t.heap right).next }
        else deref t.heap q := by
    intro q
    simp only [deref_upd, length_upd, hl, and_true, if_true, Ne.symm hlr, if_false]
    by_cases h1 : q = left
    · simp only [h1, if_true]
    · simp only [h1, if_false]
  have e2 := d2 parent
  rw [if_neg (Ne.symm hlp)] at e2
  have hstep := delete_entry_internal fuel { t with heap := upd (upd t.heap left fun n =>
      { n with keys := n.keys ++ (deref t.heap right).keys
               values := n.values ++ (deref t.heap right).values }) left fun n =>
        { n with next := (deref (upd t.heap left fun n =>
          { n with keys := n.keys ++ (deref t.heap right).keys
                   values := n.values ++ (deref t.heap right).values }) right).next } }
    parent index pk (by dsimp only; rw [e2]; exact hint) (by dsimp only; rw [e2]; exact hsorted)
    (by dsimp only; rw [e2]; exact hpk) (by dsimp only; rw [e2]; exact hlt)
  have hmerge : merge_nodes (delete_entry (fuel + 1)) t left (some right) parent index
      = delete_entry (fuel + 1) { t with heap := upd (upd t.heap left fun n =>
          { n with keys := n.keys ++ (deref t.heap right).keys
                   values := n.values ++ (deref t.heap right).values }) left fun n =>
            { n with next := (deref (upd t.heap left fun n =>
              { n with keys := n.keys ++ (deref t.heap right).keys
                       values := n.values ++ (deref t.heap right).values }) right).next } }
        parent pk := by
    simp only [merge_nodes, hleaf, if_true, e2, hpk]
  have hd : ∀ q, deref (upd (upd (upd t.heap left fun n =>
      { n with keys := n.keys ++ (deref t.heap right).keys
               values := n.values ++ (deref t.heap right).values }) left fun n =>
        { n with next := (deref (upd t.heap left fun n =>
          { n with keys := n.keys ++ (deref t.heap right).keys
                   values := n.values ++ (deref t.heap right).values }) right).next })
        parent fun m =>
          { m with keys := m.keys.eraseIdx index
                   pointers := m.pointers.eraseIdx (index + 1) }) q =
      if q = left then
        { deref t.heap left with
          keys := (deref t.heap left).keys ++ (deref t.heap right).keys
          values := (deref t.heap left).values ++ (deref t.heap right).values
          next := (deref t.heap right).next }
      else if q = parent then
        { deref t.heap parent with
          keys := (deref t.heap parent).keys.eraseIdx index
          pointers := (deref t.heap parent).pointers.eraseIdx (index + 1) }
      else deref t.heap q := by
    intro q
    rw [deref_upd_lt _ _ _ _ (by simp only [length_upd]; exact hp), e2, d2]
    by_cases h1 : q = left
    · subst h1
      simp only [hlp, if_false, if_true]
    · simp only [h1, if_false]
  refine ⟨_, pk, hpk, hmerge.trans hstep, rfl, rfl, by simp only [length_upd], hd, ?_⟩
  intro hpar hroot hk
  rw [hmerge, hstep]
  apply delete_entry_root_idle
  · dsimp only
    rw [hd, if_neg (Ne.symm hlp), if_pos rfl]
    exact hpar
  · exact hroot
  · dsimp only
    rw [hd, if_neg (Ne.symm hlp), if_pos rfl]
    intro h
    have := congrArg List.length h
    simp only [List.length_eraseIdx, List.length_nil] at this
    split at this <;> omega

theorem merge_nodes_leaf_concatenates_witness :
    (deref eight_keys_order_three.heap 2).pointers = [0, 1, 3, 4]
      ∧ (deref eight_keys_order_three.heap 2).keys = [2, 3, 4]
      ∧ (merge_nodes (delete_entry (0 + 1)) eight_keys_order_three 1 (some 3) 2 1).map
          (fun t => ((deref t.heap 1).keys, (deref t.heap 1).next, (deref t.heap 2).keys,
            (deref t.heap 2).pointers))
        = .ok ([2, 3], some 4, [2, 4], [0, 1, 4])
      ∧ ∃ t2 pk, rd (deref eight_keys_order_three.heap 2).keys 1 = .ok pk
        ∧ merge_nodes (delete_entry (0 + 1)) eight_keys_order_three 1 (some 3) 2 1
          = (match rebalance_loop (delete_entry 0) (0 + 1) t2 2 with
            | .error e => Except.error e
            | .ok t3 => collapse_root t3)
        ∧ t2.root = eight_keys_order_three.root ∧ t2.order = eight_keys_order_three.order
        ∧ t2.heap.length = eight_keys_order_three.heap.length
        ∧ (∀ q, deref t2.heap q =
            if q = 1 then
              { deref eight_keys_order_three.heap 1 with
                keys := (deref eight_keys_order_three.heap 1).keys
                  ++ (deref eight_keys_order_three.heap 3).keys
                values := (deref eight_keys_order_three.heap 1).values
                  ++ (deref eight_keys_order_three.heap 3).values
                next := (deref eight_keys_order_three.heap 3).next }
            else if q = 2 then
              { deref eight_keys_order_three.heap 2 with
                keys := (deref eight_keys_order_three.heap 2).keys.eraseIdx 1
                pointers := (deref eight_keys_order_three.heap 2).pointers.eraseIdx (1 + 1) }
            else deref eight_keys_order_three.heap q)
        ∧ ((deref eight_keys_order_three.heap 2).parent = none →
            eight_keys_order_three.root = some 2 →
            2 ≤ (deref eight_keys_order_three.heap 2).keys.length →
            merge_nodes (delete_entry (0 + 1)) eight_keys_order_three 1 (some 3) 2 1
              = .ok t2) :=
  ⟨by decide, by decide, by decide,
    merge_nodes_leaf_concatenates 0 eight_keys_order_three 1 3 2 1 (by decide) (by decide)
      (by decide) (by decide) (by decide) (by decide) (by decide) (by decide) (by decide)
      (by decide) (by decide) (by decide)⟩

theorem pointers_reparent (cs : List Nat) (p q : Nat) (heap : List Node) :
    (deref (reparent heap cs p) q).pointers = (deref heap q).pointers := by
  rw [deref_reparent]
  split <;> rfl

theorem is_leaf_reparent (cs : List Nat) (p q : Nat) (heap : List Node) :
    (deref (reparent heap cs p) q).is_leaf = (deref heap q).is_leaf := by
  rw [deref_reparent]
  split <;> rfl

/-- Claim C26: for internal nodes `left` and `right` that are the children `index` and
`index + 1` of `parent`, the three of them distinct nodes of the arena, `parent` being an
internal node with strictly sorted keys and one child more than keys, and the children of
`right` being nodes of the arena other than `left` and `parent`,
`merge_nodes(left, right, parent, index)` brings the tree into a state `t2` in which `left`
holds its keys, the separator `parent.keys[index]` and the keys of `right`, and its children
followed by those of `right`, every child that came from `right` names `left` as its parent,
and `parent` has lost the separator at `index` and the child at `index + 1`; no other node has
changed. The call then continues with the rebalancing loop of `delete_entry` for `parent` and
the closing step, and returns `t2` if `parent` is the root and held at least two keys. -/
theorem merge_nodes_internal_pulls_separator_down (fuel : Nat) (t : BPlusTree)
    (left right parent index : Nat)
    (hl : left < t.heap.length) (_hr : right < t.heap.length) (hp : parent < t.heap.length)
    (hlr : left ≠ right) (hlp : left ≠ parent) (_hrp : right ≠ parent)
    (hleft : (deref t.heap left).is_leaf = false)
    (hint : (deref t.heap parent).is_leaf = false)
    (hsorted : (deref t.heap parent).keys.Pairwise (· < ·))
    (hcount : (deref t.heap parent).pointers.length = (deref t.heap parent).keys.length + 1)
    (_hpl : rd (deref t.heap parent).pointers index = .ok left)
    (hpr : rd (deref t.heap parent).pointers (index + 1) = .ok right)
    (hcs : ∀ c ∈ (deref t.heap right).pointers, c < t.heap.length ∧ c ≠ left ∧ c ≠ parent) :
    ∃ t2 pk, rd (deref t.heap parent).keys index = .ok pk
      ∧ merge_nodes (delete_entry (fuel + 1)) t left (some right) parent index
        = (match rebalance_loop (delete_entry fuel) (fuel + 1) t2 parent with
          | .error e => Except.error e
          | .ok t3 => collapse_root t3)
      ∧ t2.root = t.root ∧ t2.order = t.order ∧ t2.heap.length = t.heap.length
      ∧ (∀ q, deref t2.heap q =
          if q = left then
            { deref t.heap left with
              keys := (deref t.heap left).keys ++ [pk] ++ (deref t.heap right).keys
              pointers := (deref t.heap left).pointers ++ (deref t.heap right).pointers }
          else if q = parent then
            { deref t.heap parent with
              keys := (deref t.heap parent).keys.eraseIdx index
              pointers := (deref t.heap parent).pointers.eraseIdx (index + 1) }
          else if q ∈ (deref t.heap right).pointers then
            { deref t.heap q with parent := some left }
          else deref t.heap q)
      ∧ ((deref t.heap parent).parent = none → t.root = some parent →
          2 ≤ (deref t.heap parent).keys.length →
          merge_nodes (delete_entry (fuel + 1)) t left (some right) parent index = .ok t2) := by
  obtain ⟨_, hlt⟩ := rd_get? _ _ _ hpr
  obtain ⟨pk, hpk, _⟩ := rd_ok_mem (deref t.heap parent).keys index (by omega)
  have d3 : ∀ q, deref (upd (upd (upd t.heap left fun n => { n with keys := n.keys ++ [pk] })
      left fun n => { n with keys := n.keys ++ (deref (upd t.heap left fun n =>
        { n with keys := n.keys ++ [pk] }) right).keys })
      left fun n => { n with pointers := n.pointers ++ (deref (upd (upd t.heap left fun n =>
        { n with keys := n.keys ++ [pk] }) left fun n =>
          { n with keys := n.keys ++ (deref (upd t.heap left fun n =>
            { n with keys := n.keys ++ [pk] }) right).keys }) right).pointers }) q
      = if q = left then
          { deref t.heap left with
            keys := (deref t.heap left).keys ++ [pk] ++ (deref t.heap right).keys
            pointers := (deref t.heap left).pointers ++ (deref t.heap right).pointers }
        else deref t.heap q := by
    intro q
    simp only [deref_upd, length_upd, hl, and_true, if_true, Ne.symm hlr, if_false]
    by_cases h1 : q = left
    · simp only [h1, if_true]
    · simp only [h1, if_false]
  have l3 : (upd (upd (upd t.heap left fun n => { n with keys := n.keys ++ [pk] })
      left fun n => { n with keys := n.keys ++ (deref (upd t.heap left fun n =>
        { n with keys := n.keys ++ [pk] }) right).keys })
      left fun n => { n with pointers := n.pointers ++ (deref (upd (upd t.heap left fun n =>
        { n with keys := n.keys ++ [pk] }) left fun n =>
          { n with keys := n.keys ++ (deref (upd t.heap left fun n =>
            { n with keys := n.keys ++ [pk] }) right).keys }) right).pointers }).length
      = t.heap.length := by
    simp only [length_upd]
  have e3 := d3 right
  rw [if_neg (Ne.symm hlr)] at e3
  have hparentnot : parent ∉ (deref t.heap right).pointers := fun h => (hcs _ h).2.2 rfl
  have hleftnot : left ∉ (deref t.heap right).pointers := fun h => (hcs _ h).2.1 rfl
  have d4 : ∀ q, deref (reparent (upd (upd (upd t.heap left fun n =>
        { n with keys := n.keys ++ [pk] })
      left fun n => { n with keys := n.keys ++ (deref (upd t.heap left fun n =>
        { n with keys := n.keys ++ [pk] }) right).keys })
      left fun n => { n with pointers := n.pointers ++ (deref (upd (upd t.heap left fun n =>
        { n with keys := n.keys ++ [pk] }) left fun n =>
          { n with keys := n.keys ++ (deref (upd t.heap left fun n =>
            { n with keys := n.keys ++ [pk] }) right).keys }) right).pointers })
      (deref t.heap right).pointers left) q
      = if q = left then
          { deref t.heap left with
            keys := (deref t.heap left).keys ++ [pk] ++ (deref t.heap right).keys
            pointers := (deref t.heap left).pointers ++ (deref t.heap right).pointers }
        else if q ∈ (deref t.heap right).pointers then
          { deref t.heap q with parent := some left }
        else deref t.heap q := by
    intro q
    rw [deref_reparent, d3, l3]
    by_cases h1 : q = left
    · subst h1
      simp only [hleftnot, false_and, if_false, if_true]
    · simp only [h1, if_false]
      by_cases h2 : q ∈ (deref t.heap right).pointers
      · simp only [h2, (hcs q h2).1, and_self, if_true]
      · simp only [h2, false_and, if_false]
  have e4 := d4 parent
  rw [if_neg (Ne.symm hlp), if_neg hparentnot] at e4
  have hstep := delete_entry_internal fuel { t with heap := (reparent (upd (upd (upd t.heap left
        fun n => { n with keys := n.keys ++ [pk] })
      left fun n => { n with keys := n.keys ++ (deref (upd t.heap left fun n =>
        { n with keys := n.keys ++ [pk] }) right).keys })
      left fun n => { n with pointers := n.pointers ++ (deref (upd (upd t.heap left fun n =>
        { n with keys := n.keys ++ [pk] }) left fun n =>
          { n with keys := n.keys ++ (deref (upd t.heap left fun n =>
            { n with keys := n.keys ++ [pk] }) right).keys }) right).pointers })
      (deref t.heap right).pointers left) }
    parent index pk (by dsimp only; rw [e4]; exact hint) (by dsimp only; rw [e4]; exact hsorted)
    (by dsimp only; rw [e4]; exact hpk) (by dsimp only; rw [e4]; exact hlt)
  have hmerge : merge_nodes (delete_entry (fuel + 1)) t left (some right) parent index
      = delete_entry (fuel + 1) { t with heap := (reparent (upd (upd (upd t.heap left
          fun n => { n with keys := n.keys ++ [pk] })
        left fun n => { n with keys := n.keys ++ (deref (upd t.heap left fun n =>
          { n with keys := n.keys ++ [pk] }) right).keys })
        left fun n => { n with pointers := n.pointers ++ (deref (upd (upd t.heap left fun n =>
          { n with keys := n.keys ++ [pk] }) left fun n =>
            { n with keys := n.keys ++ (deref (upd t.heap left fun n =>
              { n with keys := n.keys ++ [pk] }) right).keys }) right).pointers })
        (deref t.heap right).pointers left) } parent pk := by
    simp only [merge_nodes, hleft, Bool.false_eq_true, if_false, hpk, e3, e4]
  have l4 : (reparent (upd (upd (upd t.heap left fun n => { n with keys := n.keys ++ [pk] })
      left fun n => { n with keys := n.keys ++ (deref (upd t.heap left fun n =>
        { n with keys := n.keys ++ [pk] }) right).keys })
      left fun n => { n with pointers := n.pointers ++ (deref (upd (upd t.heap left fun n =>
        { n with keys := n.keys ++ [pk] }) left fun n =>
          { n with keys := n.keys ++ (deref (upd t.heap left fun n =>
            { n with keys := n.keys ++ [pk] }) right).keys }) right).pointers })
      (deref t.heap right).pointers left).length = t.heap.length := by
    rw [length_reparent, l3]
  have hd : ∀ q, deref (upd (reparent (upd (upd (upd t.heap left fun n =>
        { n with keys := n.keys ++ [pk] })
      left fun n => { n with keys := n.keys ++ (deref (upd t.heap left fun n =>
        { n with keys := n.keys ++ [pk] }) right).keys })
      left fun n => { n with pointers := n.pointers ++ (deref (upd (upd t.heap left fun n =>
        { n with keys := n.keys ++ [pk] }) left fun n =>
          { n with keys := n.keys ++ (deref (upd t.heap left fun n =>
            { n with keys := n.keys ++ [pk] }) right).keys }) right).pointers })
      (deref t.heap right).pointers left) parent fun m =>
        { m with keys := m.keys.eraseIdx index
                 pointers := m.pointers.eraseIdx (index + 1) }) q =
      if q = left then
        { deref t.heap left with
          keys := (deref t.heap left).keys ++ [pk] ++ (deref t.heap right).keys
          pointers := (deref t.heap left).pointers ++ (deref t.heap right).pointers }
      else if q = parent then
        { deref t.heap parent with
          keys := (deref t.heap parent).keys.eraseIdx index
          pointers := (deref t.heap parent).pointers.eraseIdx (index + 1) }
      else if q ∈ (deref t.heap right).pointers then
        { deref t.heap q with parent := some left }
      else deref t.heap q := by
    intro q
    rw [deref_upd_lt _ _ _ _ (by rw [l4]; exact hp), e4, d4]
    by_cases h1 : q = left
    · subst h1
      simp only [hlp, if_false, if_true]
    · simp only [h1, if_false]
  refine ⟨_, pk, hpk, hmerge.trans hstep, rfl, rfl, by simp only [length_upd, l4], hd, ?_⟩
  intro hpar hroot hk
  rw [hmerge, hstep]
  apply delete_entry_root_idle
  · dsimp only
    rw [hd, if_neg (Ne.symm hlp), if_pos rfl]
    exact hpar
  · exact hroot
  · dsimp only
    rw [hd, if_neg (Ne.symm hlp), if_pos rfl]
    intro h
    have := congrArg List.length h
    simp only [List.length_eraseIdx, List.length_nil] at this
    split at this <;> omega

theorem merge_nodes_internal_pulls_separator_down_witness :
    (deref seven_keys_order_three.heap 7).pointers = [2, 6]
      ∧ (merge_nodes (delete_entry (0 + 1)) seven_keys_order_three 2 (some 6) 7 0).map
          (fun t => (t.root, (deref t.heap 2).keys, (deref t.heap 2).pointers,
            (deref t.heap 3).parent))
        = .ok (some 2, [2, 3, 4, 5], [0, 1, 3, 4, 5], some 2)
      ∧ ∃ t2 pk, rd (deref seven_keys_order_three.heap 7).keys 0 = .ok pk
        ∧ merge_nodes (delete_entry (0 + 1)) seven_keys_order_three 2 (some 6) 7 0
          = (match rebalance_loop (delete_entry 0) (0 + 1) t2 7 with
            | .error e => Except.error e
            | .ok t3 => collapse_root t3)
        ∧ t2.root = seven_keys_order_three.root ∧ t2.order = seven_keys_order_three.order
        ∧ t2.heap.length = seven_keys_order_three.heap.length
        ∧ (∀ q, deref t2.heap q =
            if q = 2 then
              { deref seven_keys_order_three.heap 2 with
                keys := (deref seven_keys_order_three.heap 2).keys ++ [pk]
                  ++ (deref seven_keys_order_three.heap 6).keys
                pointers := (deref seven_keys_order_three.heap 2).pointers
                  ++ (deref seven_keys_order_three.heap 6).pointers }
            else if q = 7 then
              { deref seven_keys_order_three.heap 7 with
                keys := (deref seven_keys_order_three.heap 7).keys.eraseIdx 0
                pointers := (deref seven_keys_order_three.heap 7).pointers.eraseIdx (0 + 1) }
            else if q ∈ (deref seven_keys_order_three.heap 6).pointers then
              { deref seven_keys_order_three.heap q with parent := some 2 }
            else deref seven_keys_order_three.heap q)
        ∧ ((deref seven_keys_order_three.heap 7).parent = none →
            seven_keys_order_three.root = some 7 →
            2 ≤ (deref seven_keys_order_three.heap 7).keys.length →
            merge_nodes (delete_entry (0 + 1)) seven_keys_order_three 2 (some 6) 7 0
              = .ok t2) :=
  ⟨by decide, by decide,
    merge_nodes_internal_pulls_separator_down 0 seven_keys_order_three 2 6 7 0 (by decide)
      (by decide) (by decide) (by decide) (by decide) (by decide) (by decide) (by decide)
      (by decide) (by decide) (by decide) (by decide) (by decide)⟩

/-! ### The arena after each path through the split code, with the log -/

/-- Path of `split_leaf_node` for a leaf with a parent, up to the closing loop. -/
theorem split_leaf_node_nonroot_traced (t : BPlusTree) (l p : Nat) (s : Int) (hl : l < t.heap.length)
    (hp : p < t.heap.length) (hpl : p ≠ l) (hpar : (deref t.heap l).parent = some p)
    (hs : rd ((deref t.heap l).keys.drop (t.order.tdiv 2).toNat) 0 = .ok s) :
    ∃ t1, split_leaf_node_traced t l
        = (match split_loop_traced (split_internal_node_traced t1.heap.length)
              (t1.heap.length + 1) t1 p with
          | .ok (t2, log) => Except.ok (t2, l :: log)
          | .error e => Except.error e)
      ∧ t1.order = t.order ∧ t1.root = t.root ∧ t1.heap.length = t.heap.length + 1
      ∧ ∀ q, deref t1.heap q =
          if q = t.heap.length then
            { LeafNode t.order with
              keys := (deref t.heap l).keys.drop (t.order.tdiv 2).toNat
              values := (deref t.heap l).values.drop (t.order.tdiv 2).toNat
              next := (deref t.heap l).next, parent := some p }
          else if q = l then
            { deref t.heap l with
              keys := (deref t.heap l).keys.take (t.order.tdiv 2).toNat
              values := (deref t.heap l).values.take (t.order.tdiv 2).toNat
              next := some t.heap.length }
          else if q = p then
            { deref t.heap p with
              keys := insertAt (deref t.heap p).keys (lower_bound (deref t.heap p).keys s) s
              pointers := insertAt (deref t.heap p).pointers
                (lower_bound (deref t.heap p).keys s + 1) t.heap.length }
          else deref t.heap q := by
  have hlen1 : (t.heap ++ [({ LeafNode t.order with
      keys := (deref t.heap l).keys.drop (t.order.tdiv 2).toNat
      values := (deref t.heap l).values.drop (t.order.tdiv 2).toNat
      next := (deref t.heap l).next } : Node)]).length = t.heap.length + 1 := by simp
  have hl1 : l < (t.heap ++ [({ LeafNode t.order with
      keys := (deref t.heap l).keys.drop (t.order.tdiv 2).toNat
      values := (deref t.heap l).values.drop (t.order.tdiv 2).toNat
      next := (deref t.heap l).next } : Node)]).length := by rw [hlen1]; omega
  have hd2 : ∀ q, deref (upd (t.heap ++ [({ LeafNode t.order with
      keys := (deref t.heap l).keys.drop (t.order.tdiv 2).toNat
      values := (deref t.heap l).values.drop (t.order.tdiv 2).toNat
      next := (deref t.heap l).next } : Node)]) l fun n =>
        { n with keys := n.keys.take (t.order.tdiv 2).toNat
                 values := n.values.take (t.order.tdiv 2).toNat
                 next := some t.heap.length }) q =
        if q = l then
          { deref t.heap l with
            keys := (deref t.heap l).keys.take (t.order.tdiv 2).toNat
            values := (deref t.heap l).values.take (t.order.tdiv 2).toNat
            next := some t.heap.length }
        else if q = t.heap.length then
          { LeafNode t.order with
            keys := (deref t.heap l).keys.drop (t.order.tdiv 2).toNat
            values := (deref t.heap l).values.drop (t.order.tdiv 2).toNat
            next := (deref t.heap l).next }
        else deref t.heap q := by
    intro q
    rw [deref_upd_lt _ _ _ _ hl1, deref_append_singleton, deref_append_singleton,
      if_neg (show l ≠ t.heap.length by omega)]
  have hnl := hd2 t.heap.length
  rw [if_neg (show t.heap.length ≠ l by omega), if_pos rfl] at hnl
  have hll := hd2 l
  rw [if_pos rfl] at hll
  have hpp := hd2 p
  rw [if_neg hpl, if_neg (show p ≠ t.heap.length by omega)] at hpp
  refine ⟨insert_into_internal_node { t with heap := upd (t.heap ++ [({ LeafNode t.order with
      keys := (deref t.heap l).keys.drop (t.order.tdiv 2).toNat
      values := (deref t.heap l).values.drop (t.order.tdiv 2).toNat
      next := (deref t.heap l).next } : Node)]) l fun n =>
        { n with keys := n.keys.take (t.order.tdiv 2).toNat
                 values := n.values.take (t.order.tdiv 2).toNat
                 next := some t.heap.length } } p s t.heap.length, ?_, rfl, rfl, ?_, ?_⟩
  · simp only [split_leaf_node_traced, hnl, hll, hs, hpar]
  · rw [length_insert_into_internal_node]
    simp [length_upd]
  · intro q
    rw [deref_insert_into_internal_node _ _ _ _ _ (by simp [length_upd]; omega)
      (by simp [length_upd]) (by omega)]
    simp only [hnl, hpp, hd2]
    by_cases h1 : q = t.heap.length
    · simp only [h1, if_true]
    · simp only [h1, if_false]
      by_cases h2 : q = l
      · subst h2
        simp only [if_true, if_neg (Ne.symm hpl)]
      · simp only [h2, if_false]

/-- Path of `split_leaf_node` for a leaf without parent: a new root is put above the two
leaves. -/
theorem split_leaf_node_root_traced (t : BPlusTree) (l : Nat) (s : Int) (hl : l < t.heap.length)
    (hpar : (deref t.heap l).parent = none)
    (hs : rd ((deref t.heap l).keys.drop (t.order.tdiv 2).toNat) 0 = .ok s) :
    ∃ t1, split_leaf_node_traced t l = .ok (t1, [l])
      ∧ t1.order = t.order ∧ t1.root = some (t.heap.length + 1)
      ∧ t1.heap.length = t.heap.length + 2
      ∧ ∀ q, deref t1.heap q =
          if q = t.heap.length + 1 then
            { InternalNode t.order with keys := [s], pointers := [l, t.heap.length] }
          else if q = t.heap.length then
            { LeafNode t.order with
              keys := (deref t.heap l).keys.drop (t.order.tdiv 2).toNat
              values := (deref t.heap l).values.drop (t.order.tdiv 2).toNat
              next := (deref t.heap l).next, parent := some (t.heap.length + 1) }
          else if q = l then
            { deref t.heap l with
              keys := (deref t.heap l).keys.take (t.order.tdiv 2).toNat
              values := (deref t.heap l).values.take (t.order.tdiv 2).toNat
              next := some t.heap.length, parent := some (t.heap.length + 1) }
          else deref t.heap q := by
  have hlen1 : (t.heap ++ [({ LeafNode t.order with
      keys := (deref t.heap l).keys.drop (t.order.tdiv 2).toNat
      values := (deref t.heap l).values.drop (t.order.tdiv 2).toNat
      next := (deref t.heap l).next } : Node)]).length = t.heap.length + 1 := by simp
  have hl1 : l < (t.heap ++ [({ LeafNode t.order with
      keys := (deref t.heap l).keys.drop (t.order.tdiv 2).toNat
      values := (deref t.heap l).values.drop (t.order.tdiv 2).toNat
      next := (deref t.heap l).next } : Node)]).length := by rw [hlen1]; omega
  have hd2 : ∀ q, deref (upd (t.heap ++ [({ LeafNode t.order with
      keys := (deref t.heap l).keys.drop (t.order.tdiv 2).toNat
      values := (deref t.heap l).values.drop (t.order.tdiv 2).toNat
      next := (deref t.heap l).next } : Node)]) l fun n =>
        { n with keys := n.keys.take (t.order.tdiv 2).toNat
                 values := n.values.take (t.order.tdiv 2).toNat
                 next := some t.heap.length }) q =
        if q = l then
          { deref t.heap l with
            keys := (deref t.heap l).keys.take (t.order.tdiv 2).toNat
            values := (deref t.heap l).values.take (t.order.tdiv 2).toNat
            next := some t.heap.length }
        else if q = t.heap.length then
          { LeafNode t.order with
            keys := (deref t.heap l).keys.drop (t.order.tdiv 2).toNat
            values := (deref t.heap l).values.drop (t.order.tdiv 2).toNat
            next := (deref t.heap l).next }
        else deref t.heap q := by
    intro q
    rw [deref_upd_lt _ _ _ _ hl1, deref_append_singleton, deref_append_singleton,
      if_neg (show l ≠ t.heap.length by omega)]
  have hnl := hd2 t.heap.length
  rw [if_neg (show t.heap.length ≠ l by omega), if_pos rfl] at hnl
  have hll := hd2 l
  rw [if_pos rfl] at hll
  have hlen2 : (upd (t.heap ++ [({ LeafNode t.order with
      keys := (deref t.heap l).keys.drop (t.order.tdiv 2).toNat
      values := (deref t.heap l).values.drop (t.order.tdiv 2).toNat
      next := (deref t.heap l).next } : Node)]) l fun n =>
        { n with keys := n.keys.take (t.order.tdiv 2).toNat
                 values := n.values.take (t.order.tdiv 2).toNat
                 next := some t.heap.length }).length = t.heap.length + 1 := by
    rw [length_upd, hlen1]
  simp only [split_leaf_node_traced, hnl, hll, hs, hpar]
  refine ⟨_, rfl, rfl, ?_, ?_, ?_⟩
  · simp only [hlen2]
  · simp only [length_upd, List.length_append, List.length_singleton, hlen2]
  · intro q
    simp only [hlen2]
    rw [deref_upd_lt _ _ _ _ (by
      simp only [length_upd, List.length_append, hlen2, List.length_singleton]
      omega)]
    rw [deref_upd_lt _ _ _ _ (by
      simp only [List.length_append, hlen2, List.length_singleton]
      omega)]
    rw [deref_upd_lt _ _ _ _ (by
      simp only [List.length_append, hlen2, List.length_singleton]
      omega)]
    simp only [deref_append_singleton, hlen2, hd2]
    by_cases h1 : q = t.heap.length + 1
    · subst h1
      simp only [if_true]
      rw [if_neg (by omega), if_neg (by omega)]
    · simp only [h1, if_false]
      by_cases h2 : q = t.heap.length
      · subst h2
        simp only [if_true]
        rw [if_neg (show t.heap.length ≠ l by omega), if_neg (by omega), if_neg (by omega)]
      · simp only [h2, if_false]
        by_cases h3 : q = l
        · subst h3
          simp only [if_true]
          rw [if_neg (by omega)]
        · simp only [h3, if_false]

/-- Path of `split_internal_node` for a node with a parent, up to the closing loop. -/
theorem split_internal_node_nonroot_traced (fuel : Nat) (t : BPlusTree) (x p : Nat) (s : Int)
    (hx : x < t.heap.length) (hp : p < t.heap.length) (hpx : p ≠ x)
    (hpar : (deref t.heap x).parent = some p)
    (hps : ∀ c ∈ (deref t.heap x).pointers, c < t.heap.length ∧ c ≠ x ∧ c ≠ p)
    (hs : rd (deref t.heap x).keys (t.order.tdiv 2).toNat = .ok s) :
    ∃ t1, split_internal_node_traced (fuel + 1) t x
        = (match split_loop_traced (split_internal_node_traced fuel) (fuel + 1) t1 p with
          | .ok (t2, log) => Except.ok (t2, x :: log)
          | .error e => Except.error e)
      ∧ t1.order = t.order ∧ t1.root = t.root ∧ t1.heap.length = t.heap.length + 1
      ∧ ∀ q, deref t1.heap q =
          if q = t.heap.length then
            { InternalNode t.order with
              keys := (deref t.heap x).keys.drop ((t.order.tdiv 2).toNat + 1)
              pointers := (deref t.heap x).pointers.drop ((t.order.tdiv 2).toNat + 1)
              parent := some p }
          else if q = x then
            { deref t.heap x with
              keys := (deref t.heap x).keys.take (t.order.tdiv 2).toNat
              pointers := (deref t.heap x).pointers.take ((t.order.tdiv 2).toNat + 1) }
          else if q = p then
            { deref t.heap p with
              keys := insertAt (deref t.heap p).keys (lower_bound (deref t.heap p).keys s) s
              pointers := insertAt (deref t.heap p).pointers
                (lower_bound (deref t.heap p).keys s + 1) t.heap.length }
          else if q ∈ (deref t.heap x).pointers.drop ((t.order.tdiv 2).toNat + 1) then
            { deref t.heap q with parent := some t.heap.length }
          else deref t.heap q := by
  have hps1 : ∀ c ∈ (deref t.heap x).pointers.drop ((t.order.tdiv 2).toNat + 1),
      c < t.heap.length ∧ c ≠ x := fun c hc =>
    ⟨(hps c (List.mem_of_mem_drop hc)).1, (hps c (List.mem_of_mem_drop hc)).2.1⟩
  have hd3 := deref_split_internal t.heap x
    { InternalNode t.order with
      keys := (deref t.heap x).keys.drop ((t.order.tdiv 2).toNat + 1)
      pointers := (deref t.heap x).pointers.drop ((t.order.tdiv 2).toNat + 1) }
    (fun n => { n with keys := n.keys.take (t.order.tdiv 2).toNat
                       pointers := n.pointers.take ((t.order.tdiv 2).toNat + 1) }) hx hps1
  have hl3 := length_split_internal t.heap x
    { InternalNode t.order with
      keys := (deref t.heap x).keys.drop ((t.order.tdiv 2).toNat + 1)
      pointers := (deref t.heap x).pointers.drop ((t.order.tdiv 2).toNat + 1) }
    (fun n => { n with keys := n.keys.take (t.order.tdiv 2).toNat
                       pointers := n.pointers.take ((t.order.tdiv 2).toNat + 1) })
  have hxx := hd3 x
  rw [if_neg (show x ≠ t.heap.length by omega), if_pos rfl] at hxx
  have hpp := hd3 p
  have hpnot : p ∉ (deref t.heap x).pointers.drop ((t.order.tdiv 2).toNat + 1) := fun h =>
    (hps p (List.mem_of_mem_drop h)).2.2 rfl
  rw [if_neg (show p ≠ t.heap.length by omega), if_neg hpx, if_neg hpnot] at hpp
  have hnn := hd3 t.heap.length
  rw [if_pos rfl] at hnn
  simp only [split_internal_node_traced, hs, hxx, hpar]
  refine ⟨_, rfl, rfl, rfl, ?_, ?_⟩
  · rw [length_insert_into_internal_node]
    exact hl3 _ _
  · intro q
    rw [deref_insert_into_internal_node _ _ _ _ _ (by rw [hl3]; omega) (by rw [hl3]; omega)
      (by omega)]
    simp only [hnn, hpp, hd3]
    by_cases h1 : q = t.heap.length
    · simp only [h1, if_true]
    · simp only [h1, if_false]
      by_cases h2 : q = p
      · subst h2
        simp only [if_true, if_neg hpx]
      · simp only [h2, if_false]
        by_cases h3 : q = x
        · simp only [h3, if_true]
          rw [hpar]
        · simp only [h3, if_false]

/-- Path of `split_internal_node` for the root: a new root is put above the two halves. -/
theorem split_internal_node_root_traced (fuel : Nat) (t : BPlusTree) (x : Nat) (s : Int)
    (hx : x < t.heap.length) (hpar : (deref t.heap x).parent = none)
    (hps : ∀ c ∈ (deref t.heap x).pointers, c < t.heap.length ∧ c ≠ x)
    (hs : rd (deref t.heap x).keys (t.order.tdiv 2).toNat = .ok s) :
    ∃ t1, split_internal_node_traced (fuel + 1) t x = .ok (t1, [x])
      ∧ t1.order = t.order ∧ t1.root = some (t.heap.length + 1)
      ∧ t1.heap.length = t.heap.length + 2
      ∧ ∀ q, deref t1.heap q =
          if q = t.heap.length + 1 then
            { InternalNode t.order with keys := [s], pointers := [x, t.heap.length] }
          else if q = t.heap.length then
            { InternalNode t.order with
              keys := (deref t.heap x).keys.drop ((t.order.tdiv 2).toNat + 1)
              pointers := (deref t.heap x).pointers.drop ((t.order.tdiv 2).toNat + 1)
              parent := some (t.heap.length + 1) }
          else if q = x then
            { deref t.heap x with
              keys := (deref t.heap x).keys.take (t.order.tdiv 2).toNat
              pointers := (deref t.heap x).pointers.take ((t.order.tdiv 2).toNat + 1)
              parent := some (t.heap.length + 1) }
          else if q ∈ (deref t.heap x).pointers.drop ((t.order.tdiv 2).toNat + 1) then
            { deref t.heap q with parent := some t.heap.length }
          else deref t.heap q := by
  have hps1 : ∀ c ∈ (deref t.heap x).pointers.drop ((t.order.tdiv 2).toNat + 1),
      c < t.heap.length ∧ c ≠ x := fun c hc => hps c (List.mem_of_mem_drop hc)
  have hd3 := deref_split_internal t.heap x
    { InternalNode t.order with
      keys := (deref t.heap x).keys.drop ((t.order.tdiv 2).toNat + 1)
      pointers := (deref t.heap x).pointers.drop ((t.order.tdiv 2).toNat + 1) }
    (fun n => { n with keys := n.keys.take (t.order.tdiv 2).toNat
                       pointers := n.pointers.take ((t.order.tdiv 2).toNat + 1) }) hx hps1
  have hl3 := length_split_internal t.heap x
    { InternalNode t.order with
      keys := (deref t.heap x).keys.drop ((t.order.tdiv 2).toNat + 1)
      pointers := (deref t.heap x).pointers.drop ((t.order.tdiv 2).toNat + 1) }
    (fun n => { n with keys := n.keys.take (t.order.tdiv 2).toNat
                       pointers := n.pointers.take ((t.order.tdiv 2).toNat + 1) })
  have hxx := hd3 x
  rw [if_neg (show x ≠ t.heap.length by omega), if_pos rfl] at hxx
  simp only [split_internal_node_traced, hs, hxx, hpar]
  refine ⟨_, rfl, rfl, ?_, ?_, ?_⟩
  · simp only [hl3]
  · simp only [length_upd, List.length_append, List.length_singleton, hl3]
  · intro q
    rw [deref_new_root _ _ _ _ _ _ (by rw [hl3]; omega) (by rw [hl3]; omega) (by omega)]
    simp only [hl3, hd3]
    by_cases h1 : q = t.heap.length + 1
    · simp only [h1, if_true]
    · simp only [h1, if_false]
      by_cases h2 : q = t.heap.length
      · simp only [h2, if_true]
      · simp only [h2, if_false]
        by_cases h3 : q = x
        · subst h3
          simp only [if_true]
          rw [if_neg (by omega), hpar]
        · simp only [h3, if_false]

/-! ### The log does not change the tree -/

theorem split_loop_erase (split : BPlusTree → Nat → Except Fault BPlusTree)
    (split_tr : BPlusTree → Nat → Except Fault (BPlusTree × List Nat))
    (h : ∀ t x, (split_tr t x).map Prod.fst = split t x) :
    ∀ fuel t p, (split_loop_traced split_tr fuel t p).map Prod.fst = split_loop split fuel t p := by
  intro fuel
  induction fuel with
  | zero => intro t p; rfl
  | succ fuel ih =>
    intro t p
    simp only [split_loop_traced, split_loop]
    by_cases hov : ((deref t.heap p).keys.length : Int) > toSizeT (deref t.heap p).max_keys
    · simp only [hov, if_true]
      rw [← h t p]
      cases hs : split_tr t p with
      | error e => rfl
      | ok r =>
        obtain ⟨t1, log1⟩ := r
        simp only [Except.map]
        cases hpar : (deref t1.heap p).parent with
        | none => rfl
        | some pp =>
          simp only []
          rw [← ih t1 pp]
          cases split_loop_traced split_tr fuel t1 pp with
          | error e => rfl
          | ok r2 => rfl
    · simp only [hov, if_false]
      rfl

theorem split_internal_node_erase :
    ∀ fuel t x, (split_internal_node_traced fuel t x).map Prod.fst
      = split_internal_node fuel t x := by
  intro fuel
  induction fuel with
  | zero => intro t x; rfl
  | succ fuel ih =>
    intro t x
    simp only [split_internal_node_traced, split_internal_node]
    cases rd (deref t.heap x).keys (t.order.tdiv 2).toNat with
    | error e => rfl
    | ok s =>
      simp only []
      split
      · rfl
      · rw [← split_loop_erase _ _ ih]
        split <;> rename_i heq <;> (rw [heq]; try rfl)

theorem split_leaf_node_erase (t : BPlusTree) (l : Nat) :
    (split_leaf_node_traced t l).map Prod.fst = split_leaf_node t l := by
  simp only [split_leaf_node_traced, split_leaf_node]
  split
  · rfl
  · split
    · rfl
    · rw [← split_loop_erase _ _ (split_internal_node_erase _)]
      split <;> rename_i heq <;> (rw [heq]; try rfl)

/-- Method `insert` returns the tree that `insert_traced` returns with its log. -/
theorem insert_erase (t : BPlusTree) (key value : Int) :
    (insert_traced t key value).map Prod.fst = insert t key value := by
  simp only [insert_traced, insert]
  cases find_leaf_node t key with
  | error e => rfl
  | ok found =>
    simp only []
    split
    · exact split_leaf_node_erase _ _
    · rfl

/-! ### Consequences of the shape -/

theorem ShapeG.child {m : Nat} {t : BPlusTree} {r : Nat} {ov : Option Nat} {lvl : Nat → Nat}
    (h : ShapeG m t r ov lvl) (i c : Nat) (hi : i < t.heap.length)
    (hc : c ∈ (deref t.heap i).pointers) :
    (deref t.heap i).is_leaf = false ∧ c < t.heap.length ∧ (deref t.heap c).parent = some i
      ∧ lvl c + 1 = lvl i := by
  have hn := h.nodes i hi
  have hint : (deref t.heap i).is_leaf = false := by
    cases hl : (deref t.heap i).is_leaf with
    | false => rfl
    | true =>
      rw [(hn.leaf hl).2.1] at hc
      cases hc
  obtain ⟨hlt, hpar⟩ := (hn.internal hint).2.2 c hc
  exact ⟨hint, hlt, hpar, ((h.nodes c hlt).parent i hpar).2.2.2⟩

theorem ShapeG.leaf_iff_level_zero {m : Nat} {t : BPlusTree} {r : Nat} {ov : Option Nat}
    {lvl : Nat → Nat} (h : ShapeG m t r ov lvl) (i : Nat) (hi : i < t.heap.length) :
    (deref t.heap i).is_leaf = true ↔ lvl i = 0 := by
  have hn := h.nodes i hi
  constructor
  · intro hl
    exact (hn.leaf hl).1
  · intro h0
    cases hl : (deref t.heap i).is_leaf with
    | true => rfl
    | false =>
      have hlen := (hn.internal hl).2.1
      obtain ⟨c, _, hc⟩ := rd_ok_mem (deref t.heap i).pointers 0 (by omega)
      have := (h.child i c hi hc).2.2.2
      omega

/-- The shape with no node awaiting a split, when the node that was allowed one key too many
holds at most `m` keys. -/
theorem ShapeG.settled {m : Nat} {t : BPlusTree} {r : Nat} {x : Nat} {lvl : Nat → Nat}
    (h : ShapeG m t r (some x) lvl) (hx : (deref t.heap x).keys.length ≤ m) :
    ShapeG m t r none lvl := by
  refine ⟨h.order, h.root, h.root_lt, h.root_parent, h.height, fun i hi => ?_⟩
  have hn := h.nodes i hi
  refine ⟨hn.max_keys, hn.min_keys, hn.num_keys, ?_, hn.nonempty, hn.level, hn.is_root,
    hn.parent, hn.leaf, hn.internal⟩
  rcases hn.size with hs | ⟨h1, _⟩
  · exact Or.inl hs
  · obtain rfl := Option.some.inj h1
    exact Or.inl hx

/-- A node keeps its shape when all of its record but the parent reference is as before and
the nodes around it still name it. -/
theorem ShapeOK.frame {m : Nat} {heap : List Node} {r : Nat} {ov : Option Nat}
    {lvl : Nat → Nat} {i : Nat} (h : ShapeOK m heap r ov lvl i) (heap1 : List Node) (r1 : Nat)
    (ov1 : Option Nat) (lvl1 : Nat → Nat) (par : Option Nat)
    (hd : deref heap1 i = { deref heap i with parent := par })
    (hov : ov = some i → ov1 = some i)
    (hlvl : lvl1 i ≤ lvl1 r1)
    (hroot : par = none → i = r1)
    (hpar : ∀ p, par = some p →
      p < heap1.length ∧ i ∈ (deref heap1 p).pointers ∧ (deref heap1 p).is_leaf = false
        ∧ lvl1 i + 1 = lvl1 p)
    (hlvl0 : (deref heap i).is_leaf = true → lvl1 i = 0)
    (hmin : (deref heap i).is_leaf = true → par ≠ none → m / 2 ≤ (deref heap i).keys.length)
    (hkids : ∀ c ∈ (deref heap i).pointers, c < heap1.length ∧ (deref heap1 c).parent = some i) :
    ShapeOK m heap1 r1 ov1 lvl1 i := by
  constructor
  · rw [hd]; exact h.max_keys
  · rw [hd]; exact h.min_keys
  · rw [hd]; exact h.num_keys
  · rw [hd]
    rcases h.size with hs | ⟨h1, h2⟩
    · exact Or.inl hs
    · exact Or.inr ⟨hov h1, h2⟩
  · rw [hd]; exact h.nonempty
  · exact hlvl
  · rw [hd]; exact hroot
  · rw [hd]; exact hpar
  · rw [hd]
    intro hl
    exact ⟨hlvl0 hl, (h.leaf hl).2.1, hmin hl⟩
  · rw [hd]
    intro hl
    exact ⟨(h.internal hl).1, (h.internal hl).2.1, hkids⟩

/-- From a node of the tree the loop of `find_leaf_node` reaches a leaf, with fuel above the
level of the node, whatever the keys are. -/
theorem find_leaf_loop_shape {m : Nat} {t : BPlusTree} {r : Nat} {ov : Option Nat}
    {lvl : Nat → Nat} (h : ShapeG m t r ov lvl) (key : Int) :
    ∀ (n i fuel : Nat), lvl i = n → i < t.heap.length → n < fuel →
      ∃ leaf, find_leaf_loop t.heap key fuel i = .ok leaf ∧ leaf < t.heap.length
        ∧ (deref t.heap leaf).is_leaf = true := by
  intro n
  induction n with
  | zero =>
    intro i fuel hl hi hf
    obtain ⟨fuel, rfl⟩ : ∃ f, fuel = f + 1 := ⟨fuel - 1, by omega⟩
    have hleaf := (h.leaf_iff_level_zero i hi).mpr hl
    exact ⟨i, by simp [find_leaf_loop, hleaf], hi, hleaf⟩
  | succ n ih =>
    intro i fuel hl hi hf
    obtain ⟨fuel, rfl⟩ : ∃ f, fuel = f + 1 := ⟨fuel - 1, by omega⟩
    have hn := h.nodes i hi
    have hint : (deref t.heap i).is_leaf = false := by
      cases hq : (deref t.heap i).is_leaf with
      | false => rfl
      | true =>
        have := (h.leaf_iff_level_zero i hi).mp hq
        omega
    have hlen := (hn.internal hint).2.1
    have hub := upper_bound_le (deref t.heap i).keys key
    obtain ⟨c, hrd, hc⟩ := rd_ok_mem (deref t.heap i).pointers
      (upper_bound (deref t.heap i).keys key) (by omega)
    obtain ⟨_, hclt, _, hclvl⟩ := h.child i c hi hc
    obtain ⟨leaf, e, q1, q2⟩ := ih c fuel (by omega) hclt (by omega)
    exact ⟨leaf, by simp [find_leaf_loop, hint, hrd, e], q1, q2⟩

theorem find_leaf_node_shape {m : Nat} {t : BPlusTree} {r : Nat} {ov : Option Nat}
    {lvl : Nat → Nat} (h : ShapeG m t r ov lvl) (key : Int) :
    ∃ leaf, find_leaf_node t key = .ok (some leaf) ∧ leaf < t.heap.length
      ∧ (deref t.heap leaf).is_leaf = true := by
  obtain ⟨leaf, e, h1, h2⟩ := find_leaf_loop_shape h key (lvl r) r t.heap.length rfl h.root_lt
    h.height
  exact ⟨leaf, by simp [find_leaf_node, h.root, e], h1, h2⟩

/-- The shape after `insert_into_leaf_node`: the leaf may now hold one key too many. -/
theorem insert_into_leaf_node_shape {m : Nat} {t : BPlusTree} {r : Nat} {lvl : Nat → Nat}
    (h : ShapeG m t r none lvl) (leaf : Nat) (key value : Int) (hlt : leaf < t.heap.length)
    (hleaf : (deref t.heap leaf).is_leaf = true) :
    ShapeG m (insert_into_leaf_node t leaf key value) r (some leaf) lvl := by
  have hd := deref_insert_into_leaf_node t leaf key value
  have hlen : (insert_into_leaf_node t leaf key value).heap.length = t.heap.length := by
    simp [insert_into_leaf_node, length_upd]
  have hparent : ∀ q, (deref (insert_into_leaf_node t leaf key value).heap q).parent
      = (deref t.heap q).parent := by
    intro q
    rw [hd q hlt]
    split
    · next hq => rw [hq]
    · rfl
  have hptrs : ∀ q, (deref (insert_into_leaf_node t leaf key value).heap q).pointers
      = (deref t.heap q).pointers := by
    intro q
    rw [hd q hlt]
    split
    · next hq => rw [hq]
    · rfl
  have hisleaf : ∀ q, (deref (insert_into_leaf_node t leaf key value).heap q).is_leaf
      = (deref t.heap q).is_leaf := by
    intro q
    rw [hd q hlt]
    split
    · next hq => rw [hq]
    · rfl
  refine ⟨h.order, h.root, by rw [hlen]; exact h.root_lt, by rw [hparent]; exact h.root_parent,
    by rw [hlen]; exact h.height, fun i hi => ?_⟩
  rw [hlen] at hi
  have hn := h.nodes i hi
  have hkids : ∀ c ∈ (deref t.heap i).pointers, c < (insert_into_leaf_node t leaf key value).heap.length
      ∧ (deref (insert_into_leaf_node t leaf key value).heap c).parent = some i := by
    intro c hc
    obtain ⟨_, h1, h2, _⟩ := h.child i c hi hc
    exact ⟨by rw [hlen]; exact h1, by rw [hparent]; exact h2⟩
  have hpar : ∀ p, (deref t.heap i).parent = some p →
      p < (insert_into_leaf_node t leaf key value).heap.length
        ∧ i ∈ (deref (insert_into_leaf_node t leaf key value).heap p).pointers
        ∧ (deref (insert_into_leaf_node t leaf key value).heap p).is_leaf = false
        ∧ lvl i + 1 = lvl p := by
    intro p hp
    obtain ⟨h1, h2, h3, h4⟩ := hn.parent p hp
    exact ⟨by rw [hlen]; exact h1, by rw [hptrs]; exact h2, by rw [hisleaf]; exact h3, h4⟩
  by_cases hil : i = leaf
  · subst hil
    have hdi := hd i hi
    rw [if_pos rfl] at hdi
    have hklen := insertAt_length (deref t.heap i).keys (lower_bound (deref t.heap i).keys key)
      key (lower_bound_le _ _)
    have hsz : (deref t.heap i).keys.length ≤ m := by
      rcases hn.size with hs | ⟨h1, _⟩
      · exact hs
      · cases h1
    constructor
    · rw [hdi]; exact hn.max_keys
    · rw [hdi]; exact hn.min_keys
    · rw [hdi]; exact hn.num_keys
    · rw [hdi]
      show (insertAt _ _ _).length ≤ m ∨ _
      rw [hklen]
      by_cases hm : (deref t.heap i).keys.length + 1 ≤ m
      · exact Or.inl hm
      · exact Or.inr ⟨rfl, by omega⟩
    · rw [hdi]
      show 1 ≤ (insertAt _ _ _).length
      rw [hklen]
      omega
    · exact hn.level
    · rw [hparent]; exact hn.is_root
    · rw [hparent]; exact hpar
    · intro _
      refine ⟨(hn.leaf hleaf).1, by rw [hptrs]; exact (hn.leaf hleaf).2.1, ?_⟩
      rw [hparent, hdi]
      intro hp
      show m / 2 ≤ (insertAt _ _ _).length
      have := (hn.leaf hleaf).2.2 hp
      rw [hklen]
      omega
    · intro hl
      rw [hisleaf, hleaf] at hl
      cases hl
  · have hdi := hd i hlt
    rw [if_neg hil] at hdi
    exact hn.frame _ r (some leaf) lvl (deref t.heap i).parent hdi (fun h1 => by cases h1)
      hn.level hn.is_root hpar (fun hl => (hn.leaf hl).1) (fun hl => (hn.leaf hl).2.2) hkids

/-! ### The shape across the split of a leaf -/

theorem length_take_of_le {α : Type} (v : List α) (n : Nat) (h : n ≤ v.length) :
    (v.take n).length = n := by
  rw [List.length_take]
  omega

/-- The shape after the split of a root leaf. -/
theorem split_leaf_root_shape {m : Nat} (hm : 3 ≤ m) {t : BPlusTree} {r : Nat}
    {lvl : Nat → Nat} (l : Nat) (h : ShapeG m t r (some l) lvl) (hl : l < t.heap.length)
    (hleaf : (deref t.heap l).is_leaf = true) (hsz : (deref t.heap l).keys.length = m + 1)
    (hpar : (deref t.heap l).parent = none) :
    ∃ t1 r1 lvl1, split_leaf_node_traced t l = .ok (t1, [l]) ∧ ShapeG m t1 r1 none lvl1
      ∧ t.heap.length ≤ t1.heap.length := by
  have hmid : (t.order.tdiv 2).toNat = m / 2 := by rw [h.order]; exact tdiv_two_toNat m
  obtain ⟨s, hs, _, _⟩ := rd_drop_zero (deref t.heap l).keys (m / 2) (by omega)
  obtain ⟨t1, e, ho, hr, hlen, hd⟩ := split_leaf_node_root_traced t l s hl hpar
    (by rw [hmid]; exact hs)
  have hnl := h.nodes l hl
  obtain rfl : l = r := hnl.is_root hpar
  have hlvl0 : lvl l = 0 := (hnl.leaf hleaf).1
  have hold : ∀ i, i < t.heap.length → i ≠ l → deref t1.heap i = deref t.heap i := by
    intro i hi hil
    rw [hd, if_neg (by omega), if_neg (by omega), if_neg hil]
  have hdr := hd (t.heap.length + 1)
  rw [if_pos rfl] at hdr
  have hdn := hd t.heap.length
  rw [if_neg (by omega), if_pos rfl, hmid] at hdn
  have hdl := hd l
  rw [if_neg (by omega), if_neg (by omega), if_pos rfl, hmid] at hdl
  have hlv : ∀ i, i < t.heap.length →
      setAt (setAt lvl t.heap.length 0) (t.heap.length + 1) 1 i = lvl i := by
    intro i hi
    rw [setAt_ne _ _ _ _ (by omega), setAt_ne _ _ _ _ (by omega)]
  have hlvR : setAt (setAt lvl t.heap.length 0) (t.heap.length + 1) 1 (t.heap.length + 1) = 1 :=
    setAt_same _ _ _
  have hlvn : setAt (setAt lvl t.heap.length 0) (t.heap.length + 1) 1 t.heap.length = 0 := by
    rw [setAt_ne _ _ _ _ (by omega), setAt_same]
  have htake := length_take_of_le (deref t.heap l).keys (m / 2) (by omega)
  have hdrop : ((deref t.heap l).keys.drop (m / 2)).length = m + 1 - m / 2 := by
    rw [List.length_drop, hsz]
  refine ⟨t1, t.heap.length + 1, setAt (setAt lvl t.heap.length 0) (t.heap.length + 1) 1, e,
    ?_, by omega⟩
  refine ⟨by rw [ho]; exact h.order, hr, by omega, by rw [hdr]; rfl, by rw [hlvR]; omega,
    fun i hi => ?_⟩
  rw [hlen] at hi
  by_cases hiR : i = t.heap.length + 1
  · subst hiR
    constructor
    · rw [hdr]; exact h.order
    · rw [hdr]; show (Node.new t.order false).min_keys = _; rw [h.order]; rfl
    · rw [hdr]; rfl
    · rw [hdr]; exact Or.inl (by show 1 ≤ m; omega)
    · rw [hdr]; exact le_refl _
    · exact le_refl _
    · intro _; rfl
    · rw [hdr]; intro p hp; cases hp
    · rw [hdr]; intro hl1; cases hl1
    · rw [hdr]
      intro _
      refine ⟨?_, rfl, ?_⟩
      · show [l, t.heap.length].Nodup
        simp
        omega
      · intro c hc
        have hc1 : c = l ∨ c = t.heap.length := by simpa using hc
        rcases hc1 with rfl | rfl
        · exact ⟨by omega, by rw [hdl]⟩
        · exact ⟨by omega, by rw [hdn]⟩
  · by_cases hin : i = t.heap.length
    · subst hin
      constructor
      · rw [hdn]; exact h.order
      · rw [hdn]; show (Node.new t.order true).min_keys = _; rw [h.order]; rfl
      · rw [hdn]; rfl
      · rw [hdn]; exact Or.inl (by show (List.drop _ _).length ≤ m; rw [hdrop]; omega)
      · rw [hdn]; show 1 ≤ (List.drop _ _).length; rw [hdrop]; omega
      · rw [hlvn]; exact Nat.zero_le _
      · rw [hdn]; intro hp; cases hp
      · rw [hdn]
        intro p hp
        obtain rfl : t.heap.length + 1 = p := Option.some.inj hp
        refine ⟨by omega, by rw [hdr]; simp, by rw [hdr]; rfl, by rw [hlvn, hlvR]⟩
      · rw [hdn]
        intro _
        refine ⟨hlvn, rfl, fun _ => ?_⟩
        show m / 2 ≤ (List.drop _ _).length
        rw [hdrop]
        omega
      · rw [hdn]; intro hl1; cases hl1
    · have hi' : i < t.heap.length := by omega
      by_cases hil : i = l
      · subst hil
        constructor
        · rw [hdl]; exact hnl.max_keys
        · rw [hdl]; exact hnl.min_keys
        · rw [hdl]; exact hnl.num_keys
        · rw [hdl]; exact Or.inl (by show (List.take _ _).length ≤ m; rw [htake]; omega)
        · rw [hdl]; show 1 ≤ (List.take _ _).length; rw [htake]; omega
        · rw [hlv i hi', hlvR, hlvl0]; omega
        · rw [hdl]; intro hp; cases hp
        · rw [hdl]
          intro p hp
          obtain rfl : t.heap.length + 1 = p := Option.some.inj hp
          refine ⟨by omega, by rw [hdr]; simp, by rw [hdr]; rfl, by rw [hlv i hi', hlvR, hlvl0]⟩
        · rw [hdl]
          intro _
          refine ⟨by rw [hlv i hi', hlvl0], (hnl.leaf hleaf).2.1, fun _ => ?_⟩
          show m / 2 ≤ (List.take _ _).length
          rw [htake]
        · rw [hdl]
          intro hl1
          rw [hleaf] at hl1
          cases hl1
      · have hn := h.nodes i hi'
        have hlvi : lvl i = 0 := by
          have := hn.level
          omega
        exfalso
        cases hp : (deref t.heap i).parent with
        | none => exact hil (hn.is_root hp)
        | some p =>
          obtain ⟨hp1, _, _, hp4⟩ := hn.parent p hp
          have := (h.nodes p hp1).level
          omega

/-! ### The shape across the split of a node that has a parent -/

theorem nodup_insertAt {α : Type} (v : List α) (i : Nat) (a : α) (h : v.Nodup) (ha : a ∉ v) :
    (insertAt v i a).Nodup := by
  have hp : List.Perm (insertAt v i a) (a :: v) := by
    have hmid : List.Perm (v.take i ++ a :: v.drop i) (a :: (v.take i ++ v.drop i)) :=
      List.perm_middle
    rw [List.take_append_drop] at hmid
    exact hmid
  rw [hp.nodup_iff]
  exact List.nodup_cons.mpr ⟨ha, h⟩

/-- The shape after a node `x` with a parent `p` was split into `xx` and the new node `nn`
and the new node was handed to `p`: the tree has its shape again, `p` being now the node that
may hold one key too many. -/
theorem attach_shape {m : Nat} {t t1 : BPlusTree} {r x p : Nat} {lvl : Nat → Nat}
    (h : ShapeG m t r (some x) lvl) (hx : x < t.heap.length)
    (hpar : (deref t.heap x).parent = some p) (nn xx : Node) (k : Int)
    (ho : t1.order = t.order) (hr : t1.root = t.root)
    (hlen : t1.heap.length = t.heap.length + 1)
    (hdn : deref t1.heap t.heap.length = nn) (hdx : deref t1.heap x = xx)
    (hdp : deref t1.heap p = { deref t.heap p with
      keys := insertAt (deref t.heap p).keys (lower_bound (deref t.heap p).keys k) k
      pointers := insertAt (deref t.heap p).pointers
        (lower_bound (deref t.heap p).keys k + 1) t.heap.length })
    (hdq : ∀ q, q < t.heap.length → q ≠ x → q ≠ p → deref t1.heap q =
      if q ∈ nn.pointers then { deref t.heap q with parent := some t.heap.length }
      else deref t.heap q)
    (hnn : nn.is_leaf = (deref t.heap x).is_leaf ∧ nn.parent = some p ∧ nn.max_keys = m
      ∧ nn.min_keys = (Node.new m nn.is_leaf).min_keys ∧ nn.num_keys = 0
      ∧ 1 ≤ nn.keys.length ∧ nn.keys.length ≤ m)
    (hxx : xx.is_leaf = (deref t.heap x).is_leaf ∧ xx.parent = some p ∧ xx.max_keys = m
      ∧ xx.min_keys = (Node.new m xx.is_leaf).min_keys ∧ xx.num_keys = 0
      ∧ 1 ≤ xx.keys.length ∧ xx.keys.length ≤ m)
    (hleaf : (deref t.heap x).is_leaf = true →
      nn.pointers = [] ∧ xx.pointers = [] ∧ m / 2 ≤ nn.keys.length ∧ m / 2 ≤ xx.keys.length)
    (hint : (deref t.heap x).is_leaf = false →
      nn.pointers.Nodup ∧ xx.pointers.Nodup ∧ nn.pointers.length = nn.keys.length + 1
        ∧ xx.pointers.length = xx.keys.length + 1
        ∧ (∀ c ∈ nn.pointers, c ∈ (deref t.heap x).pointers)
        ∧ (∀ c ∈ xx.pointers, c ∈ (deref t.heap x).pointers ∧ c ∉ nn.pointers)
        ∧ ∀ c ∈ (deref t.heap x).pointers, c ∈ nn.pointers ∨ c ∈ xx.pointers) :
    ShapeG m t1 r (some p) (setAt lvl t.heap.length (lvl x)) ∧ p < t.heap.length ∧ p ≠ x
      ∧ lvl x + 1 = lvl p ∧ (deref t.heap p).is_leaf = false
      ∧ ∀ q, q < t.heap.length → lvl x ≤ lvl q →
          (deref t1.heap q).parent = (deref t.heap q).parent := by
  obtain ⟨hnn1, hnn2, hnn3, hnn4, hnn5, hnn6, hnn7⟩ := hnn
  obtain ⟨hxx1, hxx2, hxx3, hxx4, hxx5, hxx6, hxx7⟩ := hxx
  have hnx := h.nodes x hx
  obtain ⟨hp, hxp_mem, hpint, hlvlp⟩ := hnx.parent p hpar
  have hpx : p ≠ x := by
    intro e
    rw [e] at hlvlp
    omega
  have hnp := h.nodes p hp
  have hlv : ∀ q, q < t.heap.length → setAt lvl t.heap.length (lvl x) q = lvl q :=
    fun q hq => setAt_ne _ _ _ _ (by omega)
  have hlvn : setAt lvl t.heap.length (lvl x) t.heap.length = lvl x := setAt_same _ _ _
  have hmoved : ∀ c ∈ nn.pointers, c < t.heap.length ∧ c ≠ x ∧ c ≠ p
      ∧ (deref t.heap c).parent = some x ∧ lvl c + 1 = lvl x
      ∧ (deref t.heap x).is_leaf = false := by
    intro c hc
    cases hl : (deref t.heap x).is_leaf with
    | true =>
      rw [(hleaf hl).1] at hc
      cases hc
    | false =>
      obtain ⟨_, h2, h3, h4⟩ := h.child x c hx ((hint hl).2.2.2.2.1 c hc)
      refine ⟨h2, ?_, ?_, h3, h4, rfl⟩
      · intro e
        rw [e] at h4
        omega
      · intro e
        rw [e] at h4
        omega
  have hdm : ∀ c ∈ nn.pointers,
      deref t1.heap c = { deref t.heap c with parent := some t.heap.length } := by
    intro c hc
    obtain ⟨h1, h2, h3, _⟩ := hmoved c hc
    rw [hdq c h1 h2 h3, if_pos hc]
  have hds : ∀ q, q < t.heap.length → q ≠ x → q ≠ p → q ∉ nn.pointers →
      deref t1.heap q = deref t.heap q := by
    intro q h1 h2 h3 h4
    rw [hdq q h1 h2 h3, if_neg h4]
  have hparent : ∀ q, q < t.heap.length → q ∉ nn.pointers →
      (deref t1.heap q).parent = (deref t.heap q).parent := by
    intro q h1 h4
    by_cases h2 : q = x
    · rw [h2, hdx, hxx2, hpar]
    · by_cases h3 : q = p
      · rw [h3, hdp]
      · rw [hds q h1 h2 h3 h4]
  have hptr : ∀ q, q < t.heap.length → q ≠ x → q ≠ p →
      (deref t1.heap q).pointers = (deref t.heap q).pointers := by
    intro q h1 h2 h3
    rw [hdq q h1 h2 h3]
    split <;> rfl
  have hisl : ∀ q, q < t.heap.length → (deref t1.heap q).is_leaf = (deref t.heap q).is_leaf := by
    intro q h1
    by_cases h2 : q = x
    · rw [h2, hdx, hxx1]
    · by_cases h3 : q = p
      · rw [h3, hdp]
      · rw [hdq q h1 h2 h3]
        split <;> rfl
  have hkid : ∀ i c, i < t.heap.length → i ≠ x → c ∈ (deref t.heap i).pointers →
      c < t1.heap.length ∧ (deref t1.heap c).parent = some i := by
    intro i c hi hix hc
    obtain ⟨_, hc1, hc2, _⟩ := h.child i c hi hc
    have hcn : c ∉ nn.pointers := by
      intro hcm
      have := (hmoved c hcm).2.2.2.1
      rw [hc2] at this
      exact hix (Option.some.inj this)
    rw [hparent c hc1 hcn]
    exact ⟨by omega, hc2⟩
  have hmemp : ∀ i p1, i < t.heap.length → i ∉ nn.pointers → p1 < t.heap.length →
      i ∈ (deref t.heap p1).pointers → i ∈ (deref t1.heap p1).pointers := by
    intro i p1 hi hin hp1 hmem
    by_cases h2 : p1 = x
    · subst h2
      rw [hdx]
      have hl := (h.child p1 i hx hmem).1
      rcases (hint hl).2.2.2.2.2.2 i hmem with hc | hc
      · exact absurd hc hin
      · exact hc
    · by_cases h3 : p1 = p
      · rw [h3, hdp]
        rw [h3] at hmem
        exact (mem_insertAt _ _ _ _).2 (Or.inr hmem)
      · rw [hptr p1 hp1 h2 h3]
        exact hmem
  have hrl : r < t1.heap.length := by rw [hlen]; exact Nat.lt_succ_of_lt h.root_lt
  refine ⟨⟨by rw [ho]; exact h.order, by rw [hr]; exact h.root, hrl, ?_, ?_, fun i hi => ?_⟩,
    hp, hpx, hlvlp, hpint, ?_⟩
  · have hrn : r ∉ nn.pointers := by
      intro hc
      have := (hmoved r hc).2.2.2.1
      rw [h.root_parent] at this
      cases this
    rw [hparent r h.root_lt hrn]
    exact h.root_parent
  · rw [hlv r h.root_lt, hlen]
    exact Nat.lt_succ_of_lt h.height
  · rw [hlen] at hi
    by_cases hin : i = t.heap.length
    · subst hin
      constructor
      · rw [hdn]; exact hnn3
      · rw [hdn]; exact hnn4
      · rw [hdn]; exact hnn5
      · rw [hdn]; exact Or.inl hnn7
      · rw [hdn]; exact hnn6
      · rw [hlvn, hlv r h.root_lt]; exact hnx.level
      · rw [hdn, hnn2]
        intro hc
        cases hc
      · rw [hdn, hnn2]
        intro p1 hp1
        obtain rfl : p = p1 := Option.some.inj hp1
        refine ⟨by omega, ?_, ?_, by rw [hlvn, hlv p hp]; exact hlvlp⟩
        · rw [hdp]
          exact (mem_insertAt _ _ _ _).2 (Or.inl rfl)
        · rw [hdp]
          exact hpint
      · rw [hdn]
        intro hl
        have hl1 : (deref t.heap x).is_leaf = true := by rw [← hnn1]; exact hl
        exact ⟨by rw [hlvn]; exact (hnx.leaf hl1).1, (hleaf hl1).1, fun _ => (hleaf hl1).2.2.1⟩
      · rw [hdn]
        intro hl
        have hl1 : (deref t.heap x).is_leaf = false := by rw [← hnn1]; exact hl
        refine ⟨(hint hl1).1, (hint hl1).2.2.1, fun c hc => ?_⟩
        have := hmoved c hc
        refine ⟨by omega, ?_⟩
        rw [hdm c hc]
    · have hi1 : i < t.heap.length := by omega
      by_cases hix : i = x
      · subst hix
        constructor
        · rw [hdx]; exact hxx3
        · rw [hdx]; exact hxx4
        · rw [hdx]; exact hxx5
        · rw [hdx]; exact Or.inl hxx7
        · rw [hdx]; exact hxx6
        · rw [hlv i hi1, hlv r h.root_lt]; exact hnx.level
        · rw [hdx, hxx2]
          intro hc
          cases hc
        · rw [hdx, hxx2]
          intro p1 hp1
          obtain rfl : p = p1 := Option.some.inj hp1
          refine ⟨by omega, ?_, ?_, by rw [hlv i hi1, hlv p hp]; exact hlvlp⟩
          · rw [hdp]
            exact (mem_insertAt _ _ _ _).2 (Or.inr hxp_mem)
          · rw [hdp]
            exact hpint
        · rw [hdx]
          intro hl
          have hl1 : (deref t.heap i).is_leaf = true := by rw [← hxx1]; exact hl
          exact ⟨by rw [hlv i hi1]; exact (hnx.leaf hl1).1, (hleaf hl1).2.1,
            fun _ => (hleaf hl1).2.2.2⟩
        · rw [hdx]
          intro hl
          have hl1 : (deref t.heap i).is_leaf = false := by rw [← hxx1]; exact hl
          refine ⟨(hint hl1).2.1, (hint hl1).2.2.2.1, fun c hc => ?_⟩
          obtain ⟨hc1, hc2⟩ := (hint hl1).2.2.2.2.2.1 c hc
          obtain ⟨_, hc3, hc4, _⟩ := h.child i c hx hc1
          rw [hparent c hc3 hc2]
          exact ⟨by omega, hc4⟩
      · by_cases hip : i = p
        · subst hip
          have hlb := lower_bound_le (deref t.heap i).keys k
          have hpl := (hnp.internal hpint).2.1
          constructor
          · rw [hdp]; exact hnp.max_keys
          · rw [hdp]; exact hnp.min_keys
          · rw [hdp]; exact hnp.num_keys
          · rw [hdp]
            show (insertAt _ _ _).length ≤ m ∨ _ ∧ (insertAt _ _ _).length = m + 1
            rw [insertAt_length _ _ _ hlb]
            rcases hnp.size with hs | ⟨h1, _⟩
            · by_cases hle : (deref t.heap i).keys.length + 1 ≤ m
              · exact Or.inl hle
              · exact Or.inr ⟨rfl, by omega⟩
            · exact absurd (Option.some.inj h1).symm hpx
          · rw [hdp]
            show 1 ≤ (insertAt _ _ _).length
            rw [insertAt_length _ _ _ hlb]
            omega
          · rw [hlv i hp, hlv r h.root_lt]; exact hnp.level
          · rw [hdp]; exact hnp.is_root
          · rw [hdp]
            intro pp hpp
            obtain ⟨h1, h2, h3, h4⟩ := hnp.parent pp hpp
            have hppn : pp ∉ nn.pointers := by
              intro hc
              have := (hmoved pp hc).2.2.2.2.1
              omega
            refine ⟨by omega, hmemp i pp hp ?_ h1 h2, by rw [hisl pp h1]; exact h3,
              by rw [hlv i hp, hlv pp h1]; exact h4⟩
            intro hc
            exact (hmoved i hc).2.2.1 rfl
          · rw [hdp]
            intro hl
            have hl1 : (deref t.heap i).is_leaf = true := hl
            rw [hpint] at hl1
            cases hl1
          · rw [hdp]
            intro _
            refine ⟨?_, ?_, fun c hc => ?_⟩
            · refine nodup_insertAt _ _ _ (hnp.internal hpint).1 ?_
              intro hc
              have := ((hnp.internal hpint).2.2 _ hc).1
              omega
            · show (insertAt _ _ _).length = (insertAt _ _ _).length + 1
              rw [insertAt_length _ _ _ hlb, insertAt_length _ _ _ (by omega), hpl]
            · have hc1 : c = t.heap.length ∨ c ∈ (deref t.heap i).pointers :=
                (mem_insertAt _ _ _ _).1 hc
              rcases hc1 with rfl | hc1
              · exact ⟨by omega, by rw [hdn]; exact hnn2⟩
              · exact hkid i c hp hpx hc1
        · have hn := h.nodes i hi1
          by_cases hmv : i ∈ nn.pointers
          · obtain ⟨_, _, _, hm4, hm5, hm6⟩ := hmoved i hmv
            refine hn.frame t1.heap r (some p) _ (some t.heap.length) (hdm i hmv)
              (fun e => absurd (Option.some.inj e).symm hix)
              (by rw [hlv i hi1, hlv r h.root_lt]; exact hn.level)
              (fun e => by cases e) ?_ (fun hl => by rw [hlv i hi1]; exact (hn.leaf hl).1)
              (fun hl _ => (hn.leaf hl).2.2 (by rw [hm4]; exact Option.some_ne_none _))
              (fun c hc => hkid i c hi1 hix hc)
            intro p1 hp1
            obtain rfl : t.heap.length = p1 := Option.some.inj hp1
            refine ⟨by omega, by rw [hdn]; exact hmv, by rw [hdn, hnn1]; exact hm6,
              by rw [hlv i hi1, hlvn]; exact hm5⟩
          · refine hn.frame t1.heap r (some p) _ (deref t.heap i).parent
              (by rw [hds i hi1 hix hip hmv])
              (fun e => absurd (Option.some.inj e).symm hix)
              (by rw [hlv i hi1, hlv r h.root_lt]; exact hn.level)
              hn.is_root ?_ (fun hl => by rw [hlv i hi1]; exact (hn.leaf hl).1)
              (fun hl => (hn.leaf hl).2.2)
              (fun c hc => hkid i c hi1 hix hc)
            intro p1 hp1
            obtain ⟨h1, h2, h3, h4⟩ := hn.parent p1 hp1
            exact ⟨by omega, hmemp i p1 hi1 hmv h1 h2, by rw [hisl p1 h1]; exact h3,
              by rw [hlv i hi1, hlv p1 h1]; exact h4⟩
  · intro q hq hlq
    refine hparent q hq ?_
    intro hc
    have := (hmoved q hc).2.2.2.2.1
    omega

/-! ### The shape across each path of the split code -/

theorem take_drop_facts {α : Type} (v : List α) (n : Nat) (h : v.Nodup) :
    (v.drop n).Nodup ∧ (v.take n).Nodup ∧ (∀ c ∈ v.drop n, c ∈ v)
      ∧ (∀ c ∈ v.take n, c ∈ v ∧ c ∉ v.drop n) ∧ ∀ c ∈ v, c ∈ v.drop n ∨ c ∈ v.take n := by
  have h1 := List.take_append_drop n v
  have h2 : (v.take n ++ v.drop n).Nodup := by rw [h1]; exact h
  refine ⟨h.sublist (List.drop_sublist n v), h.sublist (List.take_sublist n v),
    fun c hc => List.mem_of_mem_drop hc,
    fun c hc => ⟨List.mem_of_mem_take hc, fun hd => ?_⟩, fun c hc => ?_⟩
  · exact (List.nodup_append.1 h2).2.2 hc hd
  · rw [← h1, List.mem_append] at hc
    exact hc.symm

/-- The shape after the first part of the split of a leaf that has a parent: the parent is now
the node that may hold one key too many. -/
theorem split_leaf_nonroot_shape {m : Nat} (hm : 3 ≤ m) {t : BPlusTree} {r : Nat}
    {lvl : Nat → Nat} (l p : Nat) (h : ShapeG m t r (some l) lvl) (hl : l < t.heap.length)
    (hleaf : (deref t.heap l).is_leaf = true) (hsz : (deref t.heap l).keys.length = m + 1)
    (hpar : (deref t.heap l).parent = some p) :
    ∃ t1, split_leaf_node_traced t l
        = (match split_loop_traced (split_internal_node_traced t1.heap.length)
              (t1.heap.length + 1) t1 p with
          | .ok (t2, log) => Except.ok (t2, l :: log)
          | .error e => Except.error e)
      ∧ t1.heap.length = t.heap.length + 1
      ∧ ShapeG m t1 r (some p) (setAt lvl t.heap.length (lvl l)) ∧ p < t.heap.length ∧ p ≠ l
      ∧ lvl l + 1 = lvl p ∧ (deref t.heap p).is_leaf = false
      ∧ ∀ q, q < t.heap.length → lvl l ≤ lvl q →
          (deref t1.heap q).parent = (deref t.heap q).parent := by
  have hmid : (t.order.tdiv 2).toNat = m / 2 := by rw [h.order]; exact tdiv_two_toNat m
  obtain ⟨s, hs, _, _⟩ := rd_drop_zero (deref t.heap l).keys (m / 2) (by omega)
  have hnl := h.nodes l hl
  obtain ⟨hp, _, _, hlvlp⟩ := hnl.parent p hpar
  have hpl : p ≠ l := by
    intro e
    rw [e] at hlvlp
    omega
  obtain ⟨t1, e, ho, hr, hlen, hd⟩ := split_leaf_node_nonroot_traced t l p s hl hp hpl hpar
    (by rw [hmid]; exact hs)
  have htake := length_take_of_le (deref t.heap l).keys (m / 2) (by omega)
  have hdrop : ((deref t.heap l).keys.drop (m / 2)).length = m + 1 - m / 2 := by
    rw [List.length_drop, hsz]
  have hdn := hd t.heap.length
  rw [if_pos rfl, hmid] at hdn
  have hdl := hd l
  rw [if_neg (by omega), if_pos rfl, hmid] at hdl
  have hdp := hd p
  rw [if_neg (by omega), if_neg hpl, if_pos rfl] at hdp
  refine ⟨t1, e, hlen, attach_shape h hl hpar _ _ s ho hr hlen hdn hdl hdp ?_ ?_ ?_ ?_ ?_⟩
  · intro q hq hql hqp
    rw [hd, if_neg (by omega), if_neg hql, if_neg hqp]
    exact (if_neg (List.not_mem_nil q)).symm
  · refine ⟨hleaf.symm, rfl, h.order, ?_, rfl, ?_, ?_⟩
    · show (Node.new t.order true).min_keys = _
      rw [h.order]
      rfl
    · show 1 ≤ (List.drop _ _).length
      rw [hdrop]
      omega
    · show (List.drop _ _).length ≤ m
      rw [hdrop]
      omega
  · refine ⟨rfl, hpar, hnl.max_keys, hnl.min_keys, hnl.num_keys, ?_, ?_⟩
    · show 1 ≤ (List.take _ _).length
      rw [htake]
      omega
    · show (List.take _ _).length ≤ m
      rw [htake]
      omega
  · intro _
    refine ⟨rfl, (hnl.leaf hleaf).2.1, ?_, ?_⟩
    · show m / 2 ≤ (List.drop _ _).length
      rw [hdrop]
      omega
    · show m / 2 ≤ (List.take _ _).length
      rw [htake]
  · intro hl1
    rw [hleaf] at hl1
    cases hl1

/-- The shape after the first part of the split of an internal node that has a parent. -/
theorem split_internal_nonroot_shape {m : Nat} (hm : 3 ≤ m) {t : BPlusTree} {r : Nat}
    {lvl : Nat → Nat} (fuel x p : Nat) (h : ShapeG m t r (some x) lvl) (hx : x < t.heap.length)
    (hleaf : (deref t.heap x).is_leaf = false) (hsz : (deref t.heap x).keys.length = m + 1)
    (hpar : (deref t.heap x).parent = some p) :
    ∃ t1, split_internal_node_traced (fuel + 1) t x
        = (match split_loop_traced (split_internal_node_traced fuel) (fuel + 1) t1 p with
          | .ok (t2, log) => Except.ok (t2, x :: log)
          | .error e => Except.error e)
      ∧ t1.heap.length = t.heap.length + 1
      ∧ ShapeG m t1 r (some p) (setAt lvl t.heap.length (lvl x)) ∧ p < t.heap.length ∧ p ≠ x
      ∧ lvl x + 1 = lvl p ∧ (deref t.heap p).is_leaf = false
      ∧ ∀ q, q < t.heap.length → lvl x ≤ lvl q →
          (deref t1.heap q).parent = (deref t.heap q).parent := by
  have hmid : (t.order.tdiv 2).toNat = m / 2 := by rw [h.order]; exact tdiv_two_toNat m
  obtain ⟨s, hs, _⟩ := rd_ok_mem (deref t.heap x).keys (m / 2) (by omega)
  have hnx := h.nodes x hx
  obtain ⟨hp, _, _, hlvlp⟩ := hnx.parent p hpar
  have hpx : p ≠ x := by
    intro e
    rw [e] at hlvlp
    omega
  have hps : ∀ c ∈ (deref t.heap x).pointers, c < t.heap.length ∧ c ≠ x ∧ c ≠ p := by
    intro c hc
    obtain ⟨_, h2, _, h4⟩ := h.child x c hx hc
    refine ⟨h2, ?_, ?_⟩
    · intro e
      rw [e] at h4
      omega
    · intro e
      rw [e] at h4
      omega
  obtain ⟨t1, e, ho, hr, hlen, hd⟩ := split_internal_node_nonroot_traced fuel t x p s hx hp hpx
    hpar hps (by rw [hmid]; exact hs)
  have hpl := (hnx.internal hleaf).2.1
  have htake := length_take_of_le (deref t.heap x).keys (m / 2) (by omega)
  have hdrop : ((deref t.heap x).keys.drop (m / 2 + 1)).length = m - m / 2 := by
    rw [List.length_drop, hsz]
    omega
  have htakep := length_take_of_le (deref t.heap x).pointers (m / 2 + 1) (by omega)
  have hdropp : ((deref t.heap x).pointers.drop (m / 2 + 1)).length = m - m / 2 + 1 := by
    rw [List.length_drop, hpl, hsz]
    omega
  have hdn := hd t.heap.length
  rw [if_pos rfl, hmid] at hdn
  have hdx := hd x
  rw [if_neg (by omega), if_pos rfl, hmid] at hdx
  have hdp := hd p
  rw [if_neg (by omega), if_neg hpx, if_pos rfl] at hdp
  obtain ⟨f1, f2, f3, f4, f5⟩ := take_drop_facts (deref t.heap x).pointers (m / 2 + 1)
    (hnx.internal hleaf).1
  refine ⟨t1, e, hlen, attach_shape h hx hpar _ _ s ho hr hlen hdn hdx hdp ?_ ?_ ?_ ?_ ?_⟩
  · intro q hq hqx hqp
    rw [hd, if_neg (by omega), if_neg hqx, if_neg hqp, hmid]
  · refine ⟨hleaf.symm, rfl, h.order, ?_, rfl, ?_, ?_⟩
    · show (Node.new t.order false).min_keys = _
      rw [h.order]
      rfl
    · show 1 ≤ (List.drop _ _).length
      rw [hdrop]
      omega
    · show (List.drop _ _).length ≤ m
      rw [hdrop]
      omega
  · refine ⟨rfl, hpar, hnx.max_keys, hnx.min_keys, hnx.num_keys, ?_, ?_⟩
    · show 1 ≤ (List.take _ _).length
      rw [htake]
      omega
    · show (List.take _ _).length ≤ m
      rw [htake]
      omega
  · intro hl1
    rw [hleaf] at hl1
    cases hl1
  · intro _
    refine ⟨f1, f2, ?_, ?_, f3, f4, f5⟩
    · show (List.drop _ _).length = (List.drop _ _).length + 1
      rw [hdrop, hdropp]
    · show (List.take _ _).length = (List.take _ _).length + 1
      rw [htake, htakep]

/-- The shape after the split of an internal root. -/
theorem split_internal_root_shape {m : Nat} (hm : 3 ≤ m) {t : BPlusTree} {r : Nat}
    {lvl : Nat → Nat} (fuel x : Nat) (h : ShapeG m t r (some x) lvl) (hx : x < t.heap.length)
    (hleaf : (deref t.heap x).is_leaf = false) (hsz : (deref t.heap x).keys.length = m + 1)
    (hpar : (deref t.heap x).parent = none) :
    ∃ t1 r1 lvl1, split_internal_node_traced (fuel + 1) t x = .ok (t1, [x])
      ∧ ShapeG m t1 r1 none lvl1 ∧ t.heap.length ≤ t1.heap.length := by
  have hmid : (t.order.tdiv 2).toNat = m / 2 := by rw [h.order]; exact tdiv_two_toNat m
  obtain ⟨s, hs, _⟩ := rd_ok_mem (deref t.heap x).keys (m / 2) (by omega)
  have hnx := h.nodes x hx
  obtain rfl : x = r := hnx.is_root hpar
  have hps : ∀ c ∈ (deref t.heap x).pointers, c < t.heap.length ∧ c ≠ x := by
    intro c hc
    obtain ⟨_, h2, _, h4⟩ := h.child x c hx hc
    refine ⟨h2, ?_⟩
    intro e
    rw [e] at h4
    omega
  obtain ⟨t1, e, ho, hr, hlen, hd⟩ := split_internal_node_root_traced fuel t x s hx hpar hps
    (by rw [hmid]; exact hs)
  have hpl := (hnx.internal hleaf).2.1
  have htake := length_take_of_le (deref t.heap x).keys (m / 2) (by omega)
  have hdrop : ((deref t.heap x).keys.drop (m / 2 + 1)).length = m - m / 2 := by
    rw [List.length_drop, hsz]
    omega
  have htakep := length_take_of_le (deref t.heap x).pointers (m / 2 + 1) (by omega)
  have hdropp : ((deref t.heap x).pointers.drop (m / 2 + 1)).length = m - m / 2 + 1 := by
    rw [List.length_drop, hpl, hsz]
    omega
  have hdr := hd (t.heap.length + 1)
  rw [if_pos rfl] at hdr
  have hdn := hd t.heap.length
  rw [if_neg (by omega), if_pos rfl, hmid] at hdn
  have hdx := hd x
  rw [if_neg (by omega), if_neg (by omega), if_pos rfl, hmid] at hdx
  obtain ⟨f1, f2, f3, f4, f5⟩ := take_drop_facts (deref t.heap x).pointers (m / 2 + 1)
    (hnx.internal hleaf).1
  have hlv : ∀ i, i < t.heap.length →
      setAt (setAt lvl t.heap.length (lvl x)) (t.heap.length + 1) (lvl x + 1) i = lvl i := by
    intro i hi
    rw [setAt_ne _ _ _ _ (by omega), setAt_ne _ _ _ _ (by omega)]
  have hlvR : setAt (setAt lvl t.heap.length (lvl x)) (t.heap.length + 1) (lvl x + 1)
      (t.heap.length + 1) = lvl x + 1 := setAt_same _ _ _
  have hlvn : setAt (setAt lvl t.heap.length (lvl x)) (t.heap.length + 1) (lvl x + 1)
      t.heap.length = lvl x := by
    rw [setAt_ne _ _ _ _ (by omega), setAt_same]
  have hmoved : ∀ c ∈ (deref t.heap x).pointers.drop (m / 2 + 1), c < t.heap.length ∧ c ≠ x
      ∧ (deref t.heap c).parent = some x ∧ lvl c + 1 = lvl x := by
    intro c hc
    obtain ⟨_, h2, h3, h4⟩ := h.child x c hx (f3 c hc)
    exact ⟨h2, (hps c (f3 c hc)).2, h3, h4⟩
  have hdm : ∀ c ∈ (deref t.heap x).pointers.drop (m / 2 + 1),
      deref t1.heap c = { deref t.heap c with parent := some t.heap.length } := by
    intro c hc
    obtain ⟨h1, h2, _⟩ := hmoved c hc
    rw [hd, if_neg (by omega), if_neg (by omega), if_neg h2, hmid, if_pos hc]
  have hds : ∀ q, q < t.heap.length → q ≠ x → q ∉ (deref t.heap x).pointers.drop (m / 2 + 1) →
      deref t1.heap q = deref t.heap q := by
    intro q h1 h2 h4
    rw [hd, if_neg (by omega), if_neg (by omega), if_neg h2, hmid, if_neg h4]
  have hptr : ∀ q, q < t.heap.length → q ≠ x →
      (deref t1.heap q).pointers = (deref t.heap q).pointers := by
    intro q h1 h2
    rw [hd, if_neg (by omega), if_neg (by omega), if_neg h2]
    split <;> rfl
  have hisl : ∀ q, q < t.heap.length → (deref t1.heap q).is_leaf = (deref t.heap q).is_leaf := by
    intro q h1
    by_cases h2 : q = x
    · rw [h2, hdx]
    · rw [hd, if_neg (by omega), if_neg (by omega), if_neg h2]
      split <;> rfl
  have hkid : ∀ i c, i < t.heap.length → i ≠ x → c ∈ (deref t.heap i).pointers →
      c < t1.heap.length ∧ (deref t1.heap c).parent = some i := by
    intro i c hi hix hc
    obtain ⟨_, hc1, hc2, _⟩ := h.child i c hi hc
    have hcn : c ∉ (deref t.heap x).pointers.drop (m / 2 + 1) := by
      intro hcm
      have := (hmoved c hcm).2.2.1
      rw [hc2] at this
      exact hix (Option.some.inj this)
    have hcx : c ≠ x := by
      intro e
      rw [e, hpar] at hc2
      cases hc2
    rw [hds c hc1 hcx hcn]
    exact ⟨by omega, hc2⟩
  have hmemp : ∀ i p1, i < t.heap.length →
      i ∉ (deref t.heap x).pointers.drop (m / 2 + 1) → p1 < t.heap.length →
      i ∈ (deref t.heap p1).pointers → i ∈ (deref t1.heap p1).pointers := by
    intro i p1 hi hin hp1 hmem
    by_cases h2 : p1 = x
    · subst h2
      rw [hdx]
      rcases f5 i hmem with hc | hc
      · exact absurd hc hin
      · exact hc
    · rw [hptr p1 hp1 h2]
      exact hmem
  refine ⟨t1, t.heap.length + 1,
    setAt (setAt lvl t.heap.length (lvl x)) (t.heap.length + 1) (lvl x + 1), e, ?_, by omega⟩
  have hheight := h.height
  refine ⟨by rw [ho]; exact h.order, hr, by omega, by rw [hdr]; rfl, by rw [hlvR]; omega,
    fun i hi => ?_⟩
  rw [hlen] at hi
  by_cases hiR : i = t.heap.length + 1
  · subst hiR
    constructor
    · rw [hdr]; exact h.order
    · rw [hdr]; show (Node.new t.order false).min_keys = _; rw [h.order]; rfl
    · rw [hdr]; rfl
    · rw [hdr]; exact Or.inl (by show 1 ≤ m; omega)
    · rw [hdr]; exact le_refl _
    · exact le_refl _
    · intro _; rfl
    · rw [hdr]; intro p hp; cases hp
    · rw [hdr]; intro hl1; cases hl1
    · rw [hdr]
      intro _
      refine ⟨?_, rfl, ?_⟩
      · show [x, t.heap.length].Nodup
        simp
        omega
      · intro c hc
        have hc1 : c = x ∨ c = t.heap.length := by simpa using hc
        rcases hc1 with rfl | rfl
        · exact ⟨by omega, by rw [hdx]⟩
        · exact ⟨by omega, by rw [hdn]⟩
  · by_cases hin : i = t.heap.length
    · subst hin
      constructor
      · rw [hdn]; exact h.order
      · rw [hdn]; show (Node.new t.order false).min_keys = _; rw [h.order]; rfl
      · rw [hdn]; rfl
      · rw [hdn]; exact Or.inl (by show (List.drop _ _).length ≤ m; rw [hdrop]; omega)
      · rw [hdn]; show 1 ≤ (List.drop _ _).length; rw [hdrop]; omega
      · rw [hlvn, hlvR]; omega
      · rw [hdn]; intro hp; cases hp
      · rw [hdn]
        intro p hp
        obtain rfl : t.heap.length + 1 = p := Option.some.inj hp
        refine ⟨by omega, by rw [hdr]; simp, by rw [hdr]; rfl, by rw [hlvn, hlvR]⟩
      · rw [hdn]; intro hl1; cases hl1
      · rw [hdn]
        intro _
        refine ⟨f1, ?_, fun c hc => ?_⟩
        · show (List.drop _ _).length = (List.drop _ _).length + 1
          rw [hdrop, hdropp]
        · have := hmoved c hc
          exact ⟨by omega, by rw [hdm c hc]⟩
    · have hi1 : i < t.heap.length := by omega
      by_cases hix : i = x
      · subst hix
        constructor
        · rw [hdx]; exact hnx.max_keys
        · rw [hdx]; exact hnx.min_keys
        · rw [hdx]; exact hnx.num_keys
        · rw [hdx]; exact Or.inl (by show (List.take _ _).length ≤ m; rw [htake]; omega)
        · rw [hdx]; show 1 ≤ (List.take _ _).length; rw [htake]; omega
        · rw [hlv i hi1, hlvR]; omega
        · rw [hdx]; intro hp; cases hp
        · rw [hdx]
          intro p hp
          obtain rfl : t.heap.length + 1 = p := Option.some.inj hp
          refine ⟨by omega, by rw [hdr]; simp, by rw [hdr]; rfl, by rw [hlv i hi1, hlvR]⟩
        · rw [hdx]
          intro hl1
          rw [hleaf] at hl1
          cases hl1
        · rw [hdx]
          intro _
          refine ⟨f2, ?_, fun c hc => ?_⟩
          · show (List.take _ _).length = (List.take _ _).length + 1
            rw [htake, htakep]
          · obtain ⟨hc1, hc2⟩ := f4 c hc
            obtain ⟨_, hc3, hc4, _⟩ := h.child i c hx hc1
            rw [hds c hc3 (hps c hc1).2 hc2]
            exact ⟨by omega, hc4⟩
      · have hn := h.nodes i hi1
        have hlvi : lvl i ≤ lvl x := hn.level
        by_cases hmv : i ∈ (deref t.heap x).pointers.drop (m / 2 + 1)
        · obtain ⟨_, _, hm4, hm5⟩ := hmoved i hmv
          refine hn.frame t1.heap _ none _ (some t.heap.length) (hdm i hmv)
            (fun e => absurd (Option.some.inj e).symm hix)
            (by rw [hlv i hi1, hlvR]; omega)
            (fun e => by cases e) ?_ (fun hl => by rw [hlv i hi1]; exact (hn.leaf hl).1)
            (fun hl _ => (hn.leaf hl).2.2 (by rw [hm4]; exact Option.some_ne_none _))
            (fun c hc => hkid i c hi1 hix hc)
          intro p1 hp1
          obtain rfl : t.heap.length = p1 := Option.some.inj hp1
          exact ⟨by omega, by rw [hdn]; exact hmv, by rw [hdn]; rfl,
            by rw [hlv i hi1, hlvn]; exact hm5⟩
        · refine hn.frame t1.heap _ none _ (deref t.heap i).parent
            (by rw [hds i hi1 hix hmv])
            (fun e => absurd (Option.some.inj e).symm hix)
            (by rw [hlv i hi1, hlvR]; omega)
            (fun e => absurd (hn.is_root e) hix) ?_
            (fun hl => by rw [hlv i hi1]; exact (hn.leaf hl).1)
            (fun hl => (hn.leaf hl).2.2)
            (fun c hc => hkid i c hi1 hix hc)
          intro p1 hp1
          obtain ⟨h1, h2, h3, h4⟩ := hn.parent p1 hp1
          exact ⟨by omega, hmemp i p1 hi1 hmv h1 h2, by rw [hisl p1 h1]; exact h3,
            by rw [hlv i hi1, hlv p1 h1]; exact h4⟩

/-! ### The upward propagation of a split -/

theorem UpChain.single (heap : List Node) (lvl : Nat → Nat) (x : Nat) (hx : x < heap.length) :
    UpChain heap lvl x [x] :=
  ⟨rfl, List.chain'_singleton x, fun a ha => by
    obtain rfl : a = x := by simpa using ha
    exact ⟨hx, le_refl _⟩⟩

/-- The log of a split of `x` followed by the log of the splits from its parent upwards. -/
theorem UpChain.cons {heap heap1 : List Node} {lvl lvl1 : Nat → Nat} {x p : Nat}
    {log : List Nat} (hx : x < heap.length) (hpar : (deref heap x).parent = some p)
    (hl : lvl x + 1 = lvl p) (hp : p < heap.length)
    (hc : UpChain heap1 lvl1 p log) (hlen : heap1.length = heap.length + 1)
    (hlv : ∀ q, q < heap.length → lvl1 q = lvl q) (hlvn : lvl1 heap.length = lvl x)
    (hframe : ∀ q, q < heap.length → lvl x ≤ lvl q →
      (deref heap1 q).parent = (deref heap q).parent) :
    UpChain heap lvl x (x :: log) := by
  obtain ⟨h1, h2, h3⟩ := hc
  have hmem : ∀ a ∈ log, a < heap.length ∧ lvl x + 1 ≤ lvl a := by
    intro a ha
    obtain ⟨ha1, ha2⟩ := h3 a ha
    rw [hlv p hp] at ha2
    by_cases e : a = heap.length
    · rw [e, hlvn] at ha2
      omega
    · have ha3 : a < heap.length := by omega
      rw [hlv a ha3] at ha2
      exact ⟨ha3, by omega⟩
  refine ⟨rfl, ?_, ?_⟩
  · rw [List.chain'_cons']
    refine ⟨fun y hy => ?_, ?_⟩
    · rw [h1] at hy
      obtain rfl : p = y := by simpa using hy
      exact hpar
    · rw [List.Chain'.iff_mem] at h2 ⊢
      refine h2.imp ?_
      rintro a b ⟨ha, hb, hab⟩
      refine ⟨ha, hb, ?_⟩
      rw [← hframe a (hmem a ha).1 (by have := (hmem a ha).2; omega)]
      exact hab
  · intro a ha
    rcases List.mem_cons.mp ha with rfl | ha
    · exact ⟨hx, le_refl _⟩
    · have := hmem a ha
      exact ⟨this.1, by omega⟩

theorem split_loop_traced_idle (split : BPlusTree → Nat → Except Fault (BPlusTree × List Nat))
    (fuel : Nat) (t : BPlusTree) (p : Nat)
    (h : ¬ ((deref t.heap p).keys.length : Int) > toSizeT (deref t.heap p).max_keys) :
    split_loop_traced split (fuel + 1) t p = .ok (t, []) := by
  rw [split_loop_traced, if_neg h]

/-- The loop that closes a split, started on the parent which may hold one key too many:
with a working `split_internal_node` it returns a tree of the right shape, and the log is
empty or starts at the parent and climbs from parent to parent. -/
theorem split_loop_traced_shape {m : Nat} (hm2 : m ≤ 2147483647) (fuel : Nat)
    (hsplit : ∀ (t : BPlusTree) (r : Nat) (lvl : Nat → Nat) (x : Nat),
      ShapeG m t r (some x) lvl → x < t.heap.length → (deref t.heap x).is_leaf = false →
      (deref t.heap x).keys.length = m + 1 → lvl r + 1 ≤ fuel + lvl x →
      ∃ t1 r1 lvl1 log, split_internal_node_traced fuel t x = .ok (t1, log)
        ∧ ShapeG m t1 r1 none lvl1 ∧ t.heap.length ≤ t1.heap.length
        ∧ UpChain t.heap lvl x log)
    {t : BPlusTree} {r : Nat} {lvl : Nat → Nat} {p : Nat} (h : ShapeG m t r (some p) lvl)
    (hp : p < t.heap.length) (hpint : (deref t.heap p).is_leaf = false)
    (hfuel : lvl r + 1 ≤ fuel + lvl p) :
    ∃ t1 r1 lvl1 log,
      split_loop_traced (split_internal_node_traced fuel) (fuel + 1) t p = .ok (t1, log)
        ∧ ShapeG m t1 r1 none lvl1 ∧ t.heap.length ≤ t1.heap.length
        ∧ (log = [] ∨ UpChain t.heap lvl p log) := by
  have hnp := h.nodes p hp
  have hmax : toSizeT (deref t.heap p).max_keys = (m : Int) := by
    rw [hnp.max_keys]
    exact toSizeT_eq _ (by omega) (by omega)
  by_cases hle : (deref t.heap p).keys.length ≤ m
  · refine ⟨t, r, lvl, [], split_loop_traced_idle _ _ _ _ ?_, h.settled hle, le_refl _,
      Or.inl rfl⟩
    rw [hmax]
    omega
  · have hsz : (deref t.heap p).keys.length = m + 1 := by
      rcases hnp.size with hs | ⟨_, hs⟩
      · exact absurd hs hle
      · exact hs
    obtain ⟨t1, r1, lvl1, log, e1, hs1, hlen1, hc1⟩ := hsplit t r lvl p h hp hpint hsz hfuel
    have hlr := hnp.level
    obtain ⟨f, rfl⟩ : ∃ f, fuel = f + 1 := ⟨fuel - 1, by omega⟩
    refine ⟨t1, r1, lvl1, log, ?_, hs1, hlen1, Or.inr hc1⟩
    rw [split_loop_traced, if_pos (by rw [hmax, hsz]; push_cast; omega), e1]
    dsimp only
    cases hpp : (deref t1.heap p).parent with
    | none => rfl
    | some pp =>
      dsimp only
      have hpp1 := ((hs1.nodes p (by omega)).parent pp hpp).1
      have hnpp := hs1.nodes pp hpp1
      rw [split_loop_traced_idle _ _ _ _ (by
        rw [hnpp.max_keys, toSizeT_eq _ (by omega) (by omega)]
        rcases hnpp.size with hs | ⟨hs, _⟩
        · omega
        · cases hs)]
      simp

/-- Method `split_internal_node` on the node of a tree that holds one key too many ends, given
fuel for the levels above the node; the tree it returns has the shape of a B+ tree again, and
the splits it performs climb from the node from parent to parent. -/
theorem split_internal_node_traced_shape {m : Nat} (hm : 3 ≤ m) (hm2 : m ≤ 2147483647) :
    ∀ (fuel : Nat) (t : BPlusTree) (r : Nat) (lvl : Nat → Nat) (x : Nat),
      ShapeG m t r (some x) lvl → x < t.heap.length → (deref t.heap x).is_leaf = false →
      (deref t.heap x).keys.length = m + 1 → lvl r + 1 ≤ fuel + lvl x →
      ∃ t1 r1 lvl1 log, split_internal_node_traced fuel t x = .ok (t1, log)
        ∧ ShapeG m t1 r1 none lvl1 ∧ t.heap.length ≤ t1.heap.length
        ∧ UpChain t.heap lvl x log := by
  intro fuel
  induction fuel with
  | zero =>
    intro t r lvl x h hx _ _ hfuel
    have := (h.nodes x hx).level
    omega
  | succ fuel ih =>
    intro t r lvl x h hx hleaf hsz hfuel
    cases hpar : (deref t.heap x).parent with
    | none =>
      obtain ⟨t1, r1, lvl1, e, hs, hlen⟩ := split_internal_root_shape hm fuel x h hx hleaf hsz hpar
      exact ⟨t1, r1, lvl1, [x], e, hs, hlen, UpChain.single _ _ _ hx⟩
    | some p =>
      obtain ⟨t1, e, hlen, hs, hp, hpx, hlvlp, hpint, hframe⟩ :=
        split_internal_nonroot_shape hm fuel x p h hx hleaf hsz hpar
      have hlv : ∀ q, q < t.heap.length → setAt lvl t.heap.length (lvl x) q = lvl q :=
        fun q hq => setAt_ne _ _ _ _ (by omega)
      have hp1 : p < t1.heap.length := by omega
      have hpint1 : (deref t1.heap p).is_leaf = false := by
        have hx1 : (deref t1.heap x).parent = some p := by
          rw [hframe x hx (le_refl _)]
          exact hpar
        exact ((hs.nodes x (by omega)).parent p hx1).2.2.1
      obtain ⟨t2, r2, lvl2, log, e2, hs2, hlen2, hc2⟩ :=
        split_loop_traced_shape hm2 fuel ih hs hp1 hpint1
          (by rw [hlv r h.root_lt, hlv p hp]; omega)
      rw [e2] at e
      refine ⟨t2, r2, lvl2, x :: log, e, hs2, by omega, ?_⟩
      rcases hc2 with rfl | hc2
      · exact UpChain.single _ _ _ hx
      · exact UpChain.cons hx hpar hlvlp hp hc2 hlen hlv (setAt_same _ _ _) hframe

/-- Method `split_leaf_node` on the leaf of a tree that holds one key too many ends; the tree
it returns has the shape of a B+ tree again, and the splits it performs climb from the leaf
from parent to parent. -/
theorem split_leaf_node_traced_shape {m : Nat} (hm : 3 ≤ m) (hm2 : m ≤ 2147483647)
    {t : BPlusTree} {r : Nat} {lvl : Nat → Nat} (l : Nat) (h : ShapeG m t r (some l) lvl)
    (hl : l < t.heap.length) (hleaf : (deref t.heap l).is_leaf = true)
    (hsz : (deref t.heap l).keys.length = m + 1) :
    ∃ t1 r1 lvl1 log, split_leaf_node_traced t l = .ok (t1, log)
      ∧ ShapeG m t1 r1 none lvl1 ∧ t.heap.length ≤ t1.heap.length
      ∧ UpChain t.heap lvl l log := by
  cases hpar : (deref t.heap l).parent with
  | none =>
    obtain ⟨t1, r1, lvl1, e, hs, hlen⟩ := split_leaf_root_shape hm l h hl hleaf hsz hpar
    exact ⟨t1, r1, lvl1, [l], e, hs, hlen, UpChain.single _ _ _ hl⟩
  | some p =>
    obtain ⟨t1, e, hlen, hs, hp, hpx, hlvlp, hpint, hframe⟩ :=
      split_leaf_nonroot_shape hm l p h hl hleaf hsz hpar
    have hlv : ∀ q, q < t.heap.length → setAt lvl t.heap.length (lvl l) q = lvl q :=
      fun q hq => setAt_ne _ _ _ _ (by omega)
    have hp1 : p < t1.heap.length := by omega
    have hpint1 : (deref t1.heap p).is_leaf = false := by
      have hx1 : (deref t1.heap l).parent = some p := by
        rw [hframe l hl (le_refl _)]
        exact hpar
      exact ((hs.nodes l (by omega)).parent p hx1).2.2.1
    have hheight := h.height
    obtain ⟨t2, r2, lvl2, log, e2, hs2, hlen2, hc2⟩ :=
      split_loop_traced_shape hm2 t1.heap.length
        (split_internal_node_traced_shape hm hm2 t1.heap.length) hs hp1 hpint1
        (by rw [hlv r h.root_lt, hlv p hp]; omega)
    rw [e2] at e
    refine ⟨t2, r2, lvl2, l :: log, e, hs2, by omega, ?_⟩
    rcases hc2 with rfl | hc2
    · exact UpChain.single _ _ _ hl
    · exact UpChain.cons hl hpar hlvlp hp hc2 hlen hlv (setAt_same _ _ _) hframe

/-! ### The shape of every tree built by inserts -/

theorem insert_traced_empty_eq {m : Nat} (hmax : m ≤ 2147483647) (hm : 3 ≤ m)
    (key value : Int) :
    insert_traced { order := m, root := none, heap := [] } key value
      = .ok ({ order := m, root := some 0
               heap := [{ LeafNode m with keys := [key], values := [value] }] }, []) := by
  have h1 : ¬ (((1 : Nat) : Int) > toSizeT (m : Int)) := by
    rw [toSizeT_eq _ (by omega) (by omega)]
    omega
  simp only [insert_traced, find_leaf_node, insert_into_leaf_node, upd, deref, List.nil_append,
    List.length_nil, List.getD_cons_zero, List.set_cons_zero, LeafNode, Node.new, insertAt,
    lower_bound, List.take_nil, List.drop_nil, List.length_singleton]
  rw [if_neg h1]

/-- A root leaf with one key has the shape of a tree. -/
theorem single_leaf_shape {m : Nat} (hm : 3 ≤ m) (key value : Int) :
    ShapeG m { order := m, root := some 0
               heap := [{ LeafNode m with keys := [key], values := [value] }] } 0 none
      (fun _ => 0) := by
  refine ⟨rfl, rfl, by simp, rfl, by simp, fun i hi => ?_⟩
  obtain rfl : i = 0 := by
    have : i < 1 := by simpa using hi
    omega
  constructor
  · rfl
  · rfl
  · rfl
  · exact Or.inl (by show 1 ≤ m; omega)
  · exact le_refl _
  · exact le_refl _
  · intro _; rfl
  · intro p hp; cases hp
  · intro _
    exact ⟨rfl, rfl, fun hc => absurd rfl hc⟩
  · intro hl; cases hl

/-- Method `insert` on a tree of the right shape, whatever the key: the call ends, the tree it
returns has the right shape, and the nodes it splits are nodes of the tree before the call,
each the parent of the one split before it. -/
theorem insert_traced_shape {m : Nat} (hm : 3 ≤ m) (hm2 : m ≤ 2147483647) {t : BPlusTree}
    (h : Shape m t) (key value : Int) :
    ∃ t1 log, insert_traced t key value = .ok (t1, log) ∧ Shape m t1
      ∧ log.Chain' (fun a b => (deref t.heap a).parent = some b)
      ∧ (∀ a ∈ log, a < t.heap.length)
      ∧ ∀ x, log.head? = some x → find_leaf_node t key = .ok (some x) := by
  rcases h with ⟨h1, h2, h3⟩ | ⟨r, lvl, h⟩
  · obtain ⟨o, rt, hp⟩ := t
    obtain rfl : rt = none := h1
    obtain rfl : hp = [] := h2
    obtain rfl : o = (m : Int) := h3
    exact ⟨_, [], insert_traced_empty_eq hm2 hm key value,
      Or.inr ⟨0, _, single_leaf_shape hm key value⟩, List.chain'_nil,
      (fun a ha => by cases ha), fun x hx => by cases hx⟩
  · obtain ⟨leaf, e, hlt, hleaf⟩ := find_leaf_node_shape h key
    have h2 := insert_into_leaf_node_shape h leaf key value hlt hleaf
    have hlen : (insert_into_leaf_node t leaf key value).heap.length = t.heap.length := by
      simp [insert_into_leaf_node, length_upd]
    have hd := deref_insert_into_leaf_node t leaf key value
    have hparent : ∀ q, (deref (insert_into_leaf_node t leaf key value).heap q).parent
        = (deref t.heap q).parent := by
      intro q
      rw [hd q hlt]
      split
      next hq => rw [hq]
      next => rfl
    have hlt2 : leaf < (insert_into_leaf_node t leaf key value).heap.length := by
      rw [hlen]
      exact hlt
    have hn := h2.nodes leaf hlt2
    have hmax : toSizeT (deref (insert_into_leaf_node t leaf key value).heap leaf).max_keys
        = (m : Int) := by
      rw [hn.max_keys]
      exact toSizeT_eq _ (by omega) (by omega)
    have hleaf2 : (deref (insert_into_leaf_node t leaf key value).heap leaf).is_leaf = true := by
      rw [hd leaf hlt, if_pos rfl]
      exact hleaf
    simp only [insert_traced, e]
    by_cases hle : (deref (insert_into_leaf_node t leaf key value).heap leaf).keys.length ≤ m
    · rw [if_neg (by rw [hmax]; omega)]
      exact ⟨_, [], rfl, Or.inr ⟨r, lvl, h2.settled hle⟩, List.chain'_nil,
        (fun a ha => by cases ha), fun x hx => by cases hx⟩
    · have hsz : (deref (insert_into_leaf_node t leaf key value).heap leaf).keys.length
          = m + 1 := by
        rcases hn.size with hs | ⟨_, hs⟩
        · exact absurd hs hle
        · exact hs
      rw [if_pos (by rw [hmax, hsz]; push_cast; omega)]
      obtain ⟨t1, r1, lvl1, log, e1, hs1, _, hc1, hc2, hc3⟩ :=
        split_leaf_node_traced_shape hm hm2 leaf h2 hlt2 hleaf2 hsz
      refine ⟨t1, log, e1, Or.inr ⟨r1, lvl1, hs1⟩, ?_, fun a ha => ?_, fun x hx => ?_⟩
      · refine hc2.imp ?_
        intro a b hab
        rw [← hparent a]
        exact hab
      · rw [← hlen]
        exact (hc3 a ha).1
      · rw [hc1] at hx
        obtain rfl : leaf = x := Option.some.inj hx
        rfl

theorem insert_shape {m : Nat} (hm : 3 ≤ m) (hm2 : m ≤ 2147483647) {t : BPlusTree}
    (h : Shape m t) (key value : Int) :
    ∃ t1, insert t key value = .ok t1 ∧ Shape m t1 := by
  obtain ⟨t1, log, e, hs, _⟩ := insert_traced_shape hm hm2 h key value
  refine ⟨t1, ?_, hs⟩
  rw [← insert_erase, e]
  rfl

/-- Every sequence of inserts into a tree of the right shape runs to completion and gives a
tree of the right shape, whatever the keys are. -/
theorem insert_all_shape {m : Nat} (hm : 3 ≤ m) (hm2 : m ≤ 2147483647) :
    ∀ (kvs : List (Int × Int)) (t : BPlusTree), Shape m t →
      ∃ t1, insert_all (.ok t) kvs = .ok t1 ∧ Shape m t1 := by
  intro kvs
  induction kvs with
  | nil => exact fun t h => ⟨t, rfl, h⟩
  | cons kv rest ih =>
    intro t h
    obtain ⟨k, v⟩ := kv
    obtain ⟨t1, e, hs⟩ := insert_shape hm hm2 h k v
    obtain ⟨t2, e2, hs2⟩ := ih t1 hs
    exact ⟨t2, by simp only [insert_all, e]; exact e2, hs2⟩

theorem build_shape {m : Nat} (hm : 3 ≤ m) (hm2 : m ≤ 2147483647) (kvs : List (Int × Int)) :
    ∃ t, insert_all (BPlusTree.new m) kvs = .ok t ∧ Shape m t :=
  insert_all_shape hm hm2 kvs _ (Or.inl ⟨rfl, rfl, rfl⟩)

/-! ### Calls of `remove` that change nothing, and the end of `insert` -/

theorem rebalance_loop_rest (del : BPlusTree → Nat → Int → Except Fault BPlusTree) (fuel : Nat)
    (t : BPlusTree) (node : Nat)
    (h : (deref t.heap node).parent = none ∨
      (0 ≤ (deref t.heap node).min_keys
        ∧ (deref t.heap node).min_keys ≤ (deref t.heap node).keys.length)) :
    rebalance_loop del (fuel + 1) t node = .ok t := by
  unfold rebalance_loop
  rcases hp : (deref t.heap node).parent with _ | p
  · rfl
  · rcases h with h | ⟨h0, hb⟩
    · rw [hp] at h; cases h
    · have := toSizeT_le _ h0
      have hn : ¬ ((deref t.heap node).keys.length : Int)
          < toSizeT (deref t.heap node).min_keys := by
        omega
      simp only [hn, if_false]

/-- A call of `remove` that reaches a leaf whose `num_keys` is zero, and that either has no
parent or holds `min_keys` keys, returns the tree as it was, unless the root is an internal
node without keys. -/
theorem remove_without_effect (t : BPlusTree) (key : Int) (r leaf : Nat)
    (hr : t.root = some r) (hf : find_leaf_node t key = .ok (some leaf))
    (hleaf : (deref t.heap leaf).is_leaf = true) (hnum : (deref t.heap leaf).num_keys = 0)
    (hstop : (deref t.heap leaf).parent = none ∨
      (0 ≤ (deref t.heap leaf).min_keys
        ∧ (deref t.heap leaf).min_keys ≤ (deref t.heap leaf).keys.length))
    (hroot : (deref t.heap r).keys ≠ [] ∨ (deref t.heap r).is_leaf = true) :
    remove t key = .ok t := by
  have hpos : 0 < (t.heap.length + 1) * (t.order.toNat + 2) :=
    Nat.mul_pos (by omega) (by omega)
  obtain ⟨f, hf1⟩ : ∃ f, (t.heap.length + 1) * (t.order.toNat + 2) = f + 1 :=
    ⟨(t.heap.length + 1) * (t.order.toNat + 2) - 1, by omega⟩
  have h1 : remove_from_leaf_node t leaf key = .ok t := by
    simp [remove_from_leaf_node, hnum, remove_scan]
  have h2 := rebalance_loop_rest (delete_entry f) f t leaf hstop
  have h3 : collapse_root t = .ok t := by
    simp only [collapse_root, hr]
    rw [if_neg]
    rintro ⟨a, b⟩
    rcases hroot with h | h
    · exact h a
    · rw [b] at h
      cases h
  rw [remove, hf]
  dsimp only
  rw [hf1, delete_entry]
  simp only [hleaf, if_true, h1, h2, h3]

theorem find_leaf_node_root_leaf (t : BPlusTree) (key : Int) (r : Nat) (hr : t.root = some r)
    (hlt : r < t.heap.length) (hleaf : (deref t.heap r).is_leaf = true) :
    find_leaf_node t key = .ok (some r) := by
  obtain ⟨f, hf⟩ : ∃ f, t.heap.length = f + 1 := ⟨t.heap.length - 1, by omega⟩
  simp [find_leaf_node, hr, hf, find_leaf_loop, hleaf]

/-- Claim C21: on every tree built by inserts into the empty tree (order from 3 on, any keys),
if the root is a leaf, or the leaf that `find_leaf_node(key)` reaches holds at least `min_keys`
keys and the root, when internal, holds at least one key, then `remove(key)` returns the tree
as it was, every node with its keys, values, children and links, whether or not the key is
stored; for an even order this is so for every key. -/
theorem remove_leaves_tree_unchanged (order : Int) (h3 : 3 ≤ order) (hmax : order ≤ 2147483647)
    (kvs : List (Int × Int)) (key : Int) :
    ∃ t, insert_all (BPlusTree.new order) kvs = .ok t
      ∧ (∀ r leaf, t.root = some r → find_leaf_node t key = .ok (some leaf) →
          ((deref t.heap r).is_leaf = true
            ∨ ((deref t.heap leaf).min_keys ≤ (deref t.heap leaf).keys.length
                ∧ ((deref t.heap r).is_leaf = false → 1 ≤ (deref t.heap r).keys.length))) →
          remove t key = .ok t)
      ∧ (order % 2 = 0 → remove t key = .ok t) := by
  obtain ⟨m, rfl, hm, hmax1⟩ := order_nat order h3 hmax
  obtain ⟨t, e, hs⟩ := build_shape hm hmax1 kvs
  refine ⟨t, e, ?_⟩
  rcases hs with ⟨h1, _, _⟩ | ⟨r, lvl, h⟩
  · refine ⟨fun r leaf hr => ?_, fun _ => ?_⟩
    · rw [h1] at hr
      cases hr
    · simp [remove, find_leaf_node, h1]
  · obtain ⟨leaf, hf, hlt, hleaf⟩ := find_leaf_node_shape h key
    have hn := h.nodes leaf hlt
    have hnr := h.nodes r h.root_lt
    have hroot : (deref t.heap r).keys ≠ [] ∨ (deref t.heap r).is_leaf = true := by
      refine Or.inl fun hc => ?_
      have := hnr.nonempty
      rw [hc] at this
      simp at this
    have hmin : (deref t.heap leaf).min_keys = ((m : Int) + 1).tdiv 2 := by
      rw [hn.min_keys, hleaf]
      rfl
    have hmin0 : 0 ≤ (deref t.heap leaf).min_keys := by
      rw [hmin]
      exact Int.tdiv_nonneg (by omega) (by omega)
    have hrootleaf : (deref t.heap r).is_leaf = true → (deref t.heap leaf).parent = none := by
      intro hl
      have := find_leaf_node_root_leaf t key r h.root h.root_lt hl
      rw [hf] at this
      obtain rfl : leaf = r := by simpa using this
      exact h.root_parent
    refine ⟨fun r1 leaf1 hr1 hf1 hc => ?_, fun heven => ?_⟩
    · obtain rfl : r = r1 := Option.some.inj (h.root.symm.trans hr1)
      obtain rfl : leaf = leaf1 := by
        rw [hf] at hf1
        simpa using hf1
      refine remove_without_effect t key r leaf h.root hf hleaf hn.num_keys ?_ hroot
      rcases hc with hl | ⟨hb, _⟩
      · exact Or.inl (hrootleaf hl)
      · exact Or.inr ⟨hmin0, hb⟩
    · refine remove_without_effect t key r leaf h.root hf hleaf hn.num_keys ?_ hroot
      cases hp : (deref t.heap leaf).parent with
      | none => exact Or.inl rfl
      | some p =>
        refine Or.inr ⟨hmin0, ?_⟩
        have hlow := (hn.leaf hleaf).2.2 (by rw [hp]; exact Option.some_ne_none _)
        rw [hmin, Int.tdiv_eq_ediv (by omega) (by omega)]
        omega

theorem remove_leaves_tree_unchanged_witness :
    (insert_all (BPlusTree.new 4) [(1, 10), (2, 20), (3, 30), (4, 40), (5, 50), (6, 60)]
        >>= fun t => search t 5) = .ok 50
      ∧ ∃ t, insert_all (BPlusTree.new 4)
            [(1, 10), (2, 20), (3, 30), (4, 40), (5, 50), (6, 60)] = .ok t
          ∧ (∀ r leaf, t.root = some r → find_leaf_node t 5 = .ok (some leaf) →
              ((deref t.heap r).is_leaf = true
                ∨ ((deref t.heap leaf).min_keys ≤ (deref t.heap leaf).keys.length
                    ∧ ((deref t.heap r).is_leaf = false → 1 ≤ (deref t.heap r).keys.length))) →
              remove t 5 = .ok t)
          ∧ ((4 : Int) % 2 = 0 → remove t 5 = .ok t) :=
  ⟨by decide, remove_leaves_tree_unchanged 4 (by decide) (by decide)
    [(1, 10), (2, 20), (3, 30), (4, 40), (5, 50), (6, 60)] 5⟩

/-- Claim C23: for every order from 3 on, every tree built by inserts into the empty tree,
whatever the keys, and every pair, `insert` runs to completion; the splits it performs are
finitely many, the list `log`, each on a node of the tree as it was before the call, the first
on the leaf that `find_leaf_node` reaches and each further one on the parent of the node split
before it, a strict ancestor. -/
theorem insert_runs_to_completion (order : Int) (h3 : 3 ≤ order) (hmax : order ≤ 2147483647)
    (kvs : List (Int × Int)) (key value : Int) :
    ∃ t t1 log, insert_all (BPlusTree.new order) kvs = .ok t
      ∧ insert t key value = .ok t1
      ∧ insert_traced t key value = .ok (t1, log)
      ∧ log.Chain' (fun a b => (deref t.heap a).parent = some b)
      ∧ (∀ a ∈ log, a < t.heap.length)
      ∧ ∀ x, log.head? = some x → find_leaf_node t key = .ok (some x) := by
  obtain ⟨m, rfl, hm, hmax1⟩ := order_nat order h3 hmax
  obtain ⟨t, e, hs⟩ := build_shape hm hmax1 kvs
  obtain ⟨t1, log, e1, _, hc, hlt, hhd⟩ := insert_traced_shape hm hmax1 hs key value
  refine ⟨t, t1, log, e, ?_, e1, hc, hlt, hhd⟩
  rw [← insert_erase, e1]
  rfl

theorem insert_runs_to_completion_witness :
    (insert_all (BPlusTree.new 3)
        [(1, 1), (2, 2), (3, 3), (4, 4), (5, 5), (6, 6), (7, 7), (8, 8), (9, 9), (10, 10),
          (11, 11), (12, 12)] >>= fun t => (insert_traced t 13 13).map Prod.snd)
        = .ok [14, 13, 7]
      ∧ ∃ t t1 log, insert_all (BPlusTree.new 3)
            [(1, 1), (2, 2), (3, 3), (4, 4), (5, 5), (6, 6), (7, 7), (8, 8), (9, 9), (10, 10),
              (11, 11), (12, 12)] = .ok t
          ∧ insert t 13 13 = .ok t1
          ∧ insert_traced t 13 13 = .ok (t1, log)
          ∧ log.Chain' (fun a b => (deref t.heap a).parent = some b)
          ∧ (∀ a ∈ log, a < t.heap.length)
          ∧ ∀ x, log.head? = some x → find_leaf_node t 13 = .ok (some x) :=
  ⟨by decide, insert_runs_to_completion 3 (by decide) (by decide)
    [(1, 1), (2, 2), (3, 3), (4, 4), (5, 5), (6, 6), (7, 7), (8, 8), (9, 9), (10, 10),
      (11, 11), (12, 12)] 13 13⟩

end BPT
